import Mathlib

/-! # easyjson: chunked buffer pool and streaming token writer

A shallow embedding of `buffer/pool.go`, `jwriter/writer.go`,
`jwriter/stream_writer.go` and `helpers.go`, followed by theorems about it.

Conventions of the embedding

* A Go `byte` is a `Fin 256`; a Go `string` or `[]byte` is a `List Byte`.
* A Go `int` that only ever holds sizes and capacities is a `Nat`; the flush
  threshold, which the caller chooses freely, is an `Int`.
* The process-wide `config` and `buffers` variables are the explicit `Pool`
  state threaded through every operation.
* A Go run-time panic is a `Fault`; every operation that can panic returns
  `Except Fault _`.
* The bytes of a chunk are a value of the chunk.  This is what the code does
  as long as every backing array has a single holder, the discipline of the
  pool; the section on explicit backing arrays drops that assumption.
* Loops are recursive functions on a fuel argument; the entry points pass a
  fuel computed from their input, and the theorems show that this fuel is
  never exhausted when the loop terminates in Go.
-/

namespace Easyjson

/-- A Go `byte`. -/
abbrev Byte := Fin 256

/-- Go's conversion `byte(x)` of an unsigned integer: truncation to 8 bits. -/
def byteOf (n : Nat) : Byte := ⟨n % 256, Nat.mod_lt n (by decide)⟩

/-- A Go `error` value, identified by its message. -/
abbrev Err := String

/-- The ways in which the modelled code can abort. -/
inductive Fault where
  /-- The explicit `panic(fmt.Sprintf("require space %d large than %d", s, config.PooledSize))`. -/
  | requireSpace (s pooled : Nat)
  /-- Dereference of a nil `*[]byte`. -/
  | nilDeref
  /-- Slice index out of range. -/
  | indexOutOfRange
  /-- A loop that did not finish within its fuel. -/
  | outOfFuel
  deriving DecidableEq, Repr

deriving instance DecidableEq for Except

/-! ## buffer/pool.go -/

namespace buffer

/-- A chunk: the slice a `*[]byte` points to.  `id` names the allocation the
pool handed out, `data` is the slice content (its length is `len`), `cap` is
the slice capacity. -/
structure Chunk where
  id : Nat
  data : List Byte
  cap : Nat
  deriving DecidableEq, Repr

/-- An idle chunk sitting in the pool: `putBuf` stores `(*buf)[:0]`, so only
the identity and the capacity survive. -/
structure Idle where
  id : Nat
  cap : Nat
  deriving DecidableEq, Repr

/-- The package-level state: `config.PooledSize` and the `buffers` pool.
`free` lists the idle chunks, the next `Get` being served from the head;
`nextId` numbers the allocations made by `New`; `released` logs the identity
of every chunk passed to `putBuf`, most recent first. -/
structure Pool where
  PooledSize : Nat
  free : List Idle
  nextId : Nat
  released : List Nat
  deriving DecidableEq, Repr

/-- The state after package initialisation: `config = PoolConfig{PooledSize: 1024}`
and an empty pool. -/
def defaultPool : Pool := { PooledSize := 1024, free := [], nextId := 0, released := [] }

/-- Source `Init`: `config = cfg; initBuffers()`, which installs a new, empty
pool. -/
def Init (cfg : Nat) (p : Pool) : Pool := { p with PooledSize := cfg, free := [] }

/-- Source `putBuf`: `b := (*buf)[:0]; buffers.Put(&b)`. -/
def putBuf (p : Pool) (c : Chunk) : Pool :=
  { p with free := { id := c.id, cap := c.cap } :: p.free, released := c.id :: p.released }

/-- Source `getBuf`: `buffers.Get()`, which hands out an idle chunk when there
is one and otherwise calls `New`, i.e. `make([]byte, 0, config.PooledSize)`. -/
def getBuf (p : Pool) : Chunk × Pool :=
  match p.free with
  | i :: rest => ({ id := i.id, data := [], cap := i.cap }, { p with free := rest })
  | [] => ({ id := p.nextId, data := [], cap := p.PooledSize }, { p with nextId := p.nextId + 1 })

/-- Releases a sequence of chunks in order (`for _, buf := range b.bufs { putBuf(buf) }`). -/
def putBufs (p : Pool) (cs : List Chunk) : Pool := cs.foldl putBuf p

/-- Go's built-in `append(c, d...)` on a chunk.  When the result does not fit
the capacity the run time allocates a larger array; the new capacity is
implementation-chosen and at least the new length, modelled here as the
larger of the new length and twice the old capacity. -/
def Chunk.append (c : Chunk) (d : List Byte) : Chunk :=
  if c.data.length + d.length ≤ c.cap then { c with data := c.data ++ d }
  else { c with data := c.data ++ d, cap := max (c.data.length + d.length) (2 * c.cap) }

/-- Source `Buffer`: `buf` is the current chunk (a possibly nil pointer),
`bufs` the chunks already filled. -/
structure Buffer where
  buf : Option Chunk
  bufs : List Chunk
  deriving DecidableEq, Repr

/-- The zero value of `Buffer`. -/
def Buffer.zero : Buffer := { buf := none, bufs := [] }

/-- The state a buffer operation acts on: the package state and the receiver. -/
abbrev BState := Pool × Buffer

/-- The logical content of a buffer: the finalized chunks in order, followed
by the active chunk when there is one. -/
def Buffer.content (b : Buffer) : List Byte :=
  (b.bufs.map Chunk.data).flatten ++ (match b.buf with | none => [] | some c => c.data)

/-- Source `EnsureSpace`. -/
def EnsureSpace (s : Nat) (st : BState) : Except Fault BState :=
  match st.2.buf with
  | none =>
    if s > st.1.PooledSize then .error (.requireSpace s st.1.PooledSize)
    else
      let r := getBuf st.1
      .ok (r.2, { buf := some r.1, bufs := [] })
  | some c =>
    if c.cap - c.data.length < s then
      let r := getBuf st.1
      .ok (r.2, { buf := some r.1, bufs := st.2.bufs ++ [c] })
    else .ok st

/-- The statement `t := append(*b.buf, d...); b.buf = &t`, which dereferences
`b.buf`. -/
def appendToBuf (d : List Byte) (st : BState) : Except Fault BState :=
  match st.2.buf with
  | none => .error .nilDeref
  | some c => .ok (st.1, { st.2 with buf := some (c.append d) })

/-- Source `AppendByte`. -/
def AppendByte (data : Byte) (st : BState) : Except Fault BState := do
  let st1 ← EnsureSpace 1 st
  appendToBuf [data] st1

/-- Source `appendBytesSlow`: one unit of fuel per evaluation of the loop
condition. -/
def appendBytesSlow : Nat → List Byte → BState → Except Fault BState
  | 0, _, _ => .error .outOfFuel
  | fuel + 1, data, st =>
    if data.length > 0 then do
      let st1 ← EnsureSpace 1 st
      match st1.2.buf with
      | none => .error .nilDeref
      | some c =>
        let sz := if c.cap - c.data.length > data.length then data.length
                  else c.cap - c.data.length
        let st2 ← appendToBuf (data.take sz) st1
        appendBytesSlow fuel (data.drop sz) st2
    else .ok st

/-- Fuel for the slow loops.  An iteration that copies nothing has just taken
a chunk of capacity 0 from the pool, so with `PooledSize ≥ 1` there are at
most as many of those as idle chunks, and every other iteration consumes
input. -/
def slowFuel (data : List Byte) (p : Pool) : Nat := data.length + p.free.length + 1

/-- Source `AppendBytes`. -/
def AppendBytes (data : List Byte) (st : BState) : Except Fault BState := do
  let st1 ← EnsureSpace 1 st
  match st1.2.buf with
  | none => .error .nilDeref
  | some c =>
    if data.length ≤ c.cap - c.data.length then appendToBuf data st1
    else appendBytesSlow (slowFuel data st1.1) data st1

/-- Source `appendStringSlow`. -/
def appendStringSlow : Nat → List Byte → BState → Except Fault BState
  | 0, _, _ => .error .outOfFuel
  | fuel + 1, data, st =>
    if data.length > 0 then do
      let st1 ← EnsureSpace 1 st
      match st1.2.buf with
      | none => .error .nilDeref
      | some c =>
        let sz := if c.cap - c.data.length > data.length then data.length
                  else c.cap - c.data.length
        let st2 ← appendToBuf (data.take sz) st1
        appendStringSlow fuel (data.drop sz) st2
    else .ok st

/-- Source `AppendString`. -/
def AppendString (data : List Byte) (st : BState) : Except Fault BState := do
  let st1 ← EnsureSpace 1 st
  match st1.2.buf with
  | none => .error .nilDeref
  | some c =>
    if data.length ≤ c.cap - c.data.length then appendToBuf data st1
    else appendStringSlow (slowFuel data st1.1) data st1

/-- Source `Size`: `len(*b.buf)` plus the lengths of the finalized chunks. -/
def Size (b : Buffer) : Except Fault Nat :=
  match b.buf with
  | none => .error .nilDeref
  | some c => .ok (b.bufs.foldl (fun size buf => size + buf.data.length) c.data.length)

/-- The reachable buffers: `buf` is nil only when `bufs` is empty (both are
nil initially and after a drain, and `EnsureSpace` sets both together). -/
def Buffer.WF (b : Buffer) : Prop := b.buf = none → b.bufs = []

instance (b : Buffer) : Decidable b.WF := inferInstanceAs (Decidable (b.buf = none → b.bufs = []))

/-- A buffer holding an active chunk, whose length is within its capacity as
for every Go slice. -/
def Ready (st : BState) : Prop :=
  ∃ c bs, st.2 = { buf := some c, bufs := bs } ∧ c.data.length ≤ c.cap

/-- The effect of a successful append of `d`: an active chunk exists, the
logical content grew by `d`, the configuration and the release log are
untouched. -/
def Appended (d : List Byte) (st st' : BState) : Prop :=
  Ready st' ∧
  st'.2.content = st.2.content ++ d ∧
  st'.1.PooledSize = st.1.PooledSize ∧
  st'.1.released = st.1.released

/-- An operation that, on every reachable buffer and with a pool serving
chunks of at least one byte, returns normally having appended `d`. -/
def Emits (f : BState → Except Fault BState) (d : List Byte) : Prop :=
  ∀ st : BState, st.2.WF → 1 ≤ st.1.PooledSize → ∃ st', f st = .ok st' ∧ Appended d st st'

/-- As `Emits`, for an operation that is only called with an active chunk in
place. -/
def EmitsR (f : BState → Except Fault BState) (d : List Byte) : Prop :=
  ∀ st : BState, Ready st → 1 ≤ st.1.PooledSize → ∃ st', f st = .ok st' ∧ Appended d st st'

/-- Decimal digits of `n`, most significant first, in front of `acc`
(one unit of fuel per digit). -/
def fmtDigits : Nat → Nat → List Byte → List Byte
  | 0, _, acc => acc
  | fuel + 1, n, acc =>
    let acc1 := byteOf (48 + n % 10) :: acc
    if n / 10 = 0 then acc1 else fmtDigits fuel (n / 10) acc1

/-- The text `strconv.AppendUint(dst, n, 10)` appends (Go standard library):
the decimal digits of `n` without leading zeros, `0` for zero. -/
def formatUint (n : Nat) : List Byte := fmtDigits (n + 1) n []

/-- The text `strconv.AppendInt(dst, n, 10)` appends (Go standard library):
a minus sign for a negative `n`, then the decimal digits of its magnitude. -/
def formatInt (n : Int) : List Byte :=
  if n < 0 then (45 : Byte) :: formatUint n.natAbs else formatUint n.toNat

/-- The common body of `AppendInt`, `AppendUint`, `AppendFloat32` and
`AppendFloat64`: the guard reads `cap(*b.buf)-len(*b.buf)` before any chunk
is ensured, then `text`, the output of the `strconv` formatter, is appended to
`*b.buf`. -/
def appendFormatted (text : List Byte) (dataSize : Nat) (st : BState) : Except Fault BState :=
  match st.2.buf with
  | none => .error .nilDeref
  | some c => do
    let st1 ← if dataSize > c.cap - c.data.length then EnsureSpace dataSize st else .ok st
    appendToBuf text st1

/-- Source `AppendInt`. -/
def AppendInt (n : Int) (dataSize : Nat) (st : BState) : Except Fault BState :=
  appendFormatted (formatInt n) dataSize st

/-- Source `AppendUint`. -/
def AppendUint (n : Nat) (dataSize : Nat) (st : BState) : Except Fault BState :=
  appendFormatted (formatUint n) dataSize st

/-- Source `AppendFloat32`; `text` is what
`strconv.AppendFloat(dst, float64(f), 'g', -1, 32)` appends. -/
def AppendFloat32 (text : List Byte) (dataSize : Nat) (st : BState) : Except Fault BState :=
  appendFormatted text dataSize st

/-- Source `AppendFloat64`; `text` is what
`strconv.AppendFloat(dst, f, 'g', -1, 64)` appends. -/
def AppendFloat64 (text : List Byte) (dataSize : Nat) (st : BState) : Except Fault BState :=
  appendFormatted text dataSize st

/-- How a sink answers one `Write` call: it takes at most `n` bytes (all of
them when `n` is `none`) and returns `err`. -/
structure WriteResp where
  n : Option Nat
  err : Option Err
  deriving DecidableEq, Repr

/-- An `io.Writer`: the bytes it has received so far and its answers to the
coming `Write` calls; once the script is used up every write takes all bytes
and succeeds. -/
structure Sink where
  received : List Byte
  script : List WriteResp
  deriving DecidableEq, Repr

/-- A sink whose writes all succeed and accept every byte offered. -/
def Sink.accepting (w : Sink) : Prop := ∀ r ∈ w.script, r.n = none ∧ r.err = none

instance (w : Sink) : Decidable w.accepting :=
  inferInstanceAs (Decidable (∀ r ∈ w.script, r.n = none ∧ r.err = none))

/-- One call `w.Write(p)`: the count and error returned, and the sink after it. -/
def Sink.Write (w : Sink) (p : List Byte) : (Nat × Option Err) × Sink :=
  match w.script with
  | [] => ((p.length, none), { w with received := w.received ++ p })
  | r :: rest =>
    let k := match r.n with
      | none => p.length
      | some n => min n p.length
    ((k, r.err), { received := w.received ++ p.take k, script := rest })

/-- The first loop of `DumpTo`, over `b.bufs`: `.error (n, err)` is the early
`return n, err`, `.ok written` the running total when the loop ends. -/
def dumpLoop : List Chunk → Nat → Sink → Except (Nat × Err) Nat × Sink
  | [], written, w => (.ok written, w)
  | buf :: rest, written, w =>
    let r := w.Write buf.data
    match r.1.2 with
    | some err => (.error (r.1.1, err), r.2)
    | none => dumpLoop rest (written + r.1.1) r.2

/-- Source `DumpTo`: the count and error returned, the sink and the state
after the call. -/
def DumpTo (w : Sink) (st : BState) : Except Fault ((Nat × Option Err) × Sink × BState) :=
  match dumpLoop st.2.bufs 0 w with
  | (.error (n, err), w1) => .ok ((n, some err), w1, st)
  | (.ok written, w1) =>
    match st.2.buf with
    | none => .error .nilDeref
    | some c =>
      let free := fun (written : Nat) (w2 : Sink) =>
        let p1 := putBufs st.1 st.2.bufs
        let p2 := putBuf p1 c
        ((written, (none : Option Err)), w2, ((p2, { buf := none, bufs := [] }) : BState))
      if c.cap > 0 then
        let r := w1.Write c.data
        match r.1.2 with
        | some err => .ok ((r.1.1, some err), r.2, st)
        | none => .ok (free (written + r.1.1) r.2)
      else .ok (free written w1)

/-- Go's built-in `copy(ret[written:], src)`: the array after the copy and
the number of bytes copied. -/
def copyAt (ret : List Byte) (written : Nat) (src : List Byte) : List Byte × Nat :=
  let n := min (ret.length - written) src.length
  (ret.take written ++ src.take n ++ ret.drop (written + n), n)

/-- The copy loop of `BuildBytes` over `b.bufs`, which also releases each
chunk. -/
def buildLoop : List Chunk → List Byte → Nat → Pool → List Byte × Nat × Pool
  | [], ret, written, p => (ret, written, p)
  | buf :: rest, ret, written, p =>
    let r := copyAt ret written buf.data
    buildLoop rest r.1 (written + r.2) (putBuf p buf)

/-- Source `BuildBytes`: the array returned and the state after the call.
The first branch returns without clearing `b.buf`. -/
def BuildBytes (st : BState) : Except Fault (List Byte × BState) :=
  if st.2.bufs.length = 0 then
    match st.2.buf with
    | none => .error .nilDeref
    | some c =>
      let cpy := (copyAt (List.replicate c.data.length 0) 0 c.data).1
      .ok (cpy, (putBuf st.1 c, st.2))
  else do
    let size ← Size st.2
    let r := buildLoop st.2.bufs (List.replicate size 0) 0 st.1
    match st.2.buf with
    | none => .error .nilDeref
    | some c =>
      let ret := (copyAt r.1 r.2.1 c.data).1
      .ok (ret, (putBuf r.2.2 c, { buf := none, bufs := [] }))

/-- Source `Close` (it always returns a nil error). -/
def Close (st : BState) : BState :=
  let p1 := putBufs st.1 st.2.bufs
  match st.2.buf with
  | none => (p1, { buf := none, bufs := [] })
  | some c => (putBuf p1 c, { buf := none, bufs := [] })

/-! ### Example states -/

/-- A sink that has received nothing and accepts everything. -/
def emptySink : Sink := { received := [], script := [] }

/-- An active chunk holding one byte. -/
def exampleChunk : Chunk := { id := 2, data := [5], cap := 4 }

/-- Two full finalized chunks. -/
def exampleFinalized : List Chunk :=
  [{ id := 0, data := [1, 2], cap := 2 }, { id := 1, data := [3, 4], cap := 2 }]

/-- An active chunk of the default capacity holding one byte. -/
def startedChunk : Chunk := { id := 0, data := [34], cap := 1024 }

/-- The state reached by `AppendByte('"')` on an empty buffer under the
default configuration. -/
def startedState : BState :=
  ({ PooledSize := 1024, free := [], nextId := 1, released := [] },
   { buf := some startedChunk, bufs := [] })

/-- A sink that accepts its first write in full and fails the second without
taking a byte. -/
def failingSink : Sink :=
  { received := [], script := [{ n := none, err := none }, { n := some 0, err := some "EIO" }] }

/-- A sink whose first write takes one byte and fails. -/
def brokenSink : Sink :=
  { received := [], script := [{ n := some 1, err := some "EPIPE" }] }

/-- The state reached by `AppendBytes` of three bytes on an empty buffer when
`PooledSize` is 2: a full finalized chunk and an active chunk of one byte. -/
def splitState : BState :=
  ({ PooledSize := 2, free := [], nextId := 2, released := [] },
   { buf := some { id := 1, data := [3], cap := 2 },
     bufs := [{ id := 0, data := [1, 2], cap := 2 }] })

/-! ### The buffer over explicit backing arrays

The definitions above treat the bytes of a chunk as a value, which is what
the code does as long as every backing array has a single holder.  The
definitions of this section are the same functions of `buffer/pool.go` with
the memory made explicit: a slice names its backing array, and two slices of
one array see each other's writes. -/

namespace arrays

/-- A Go `[]byte`: the backing array it points into (arrays are numbered in
allocation order), its length and its capacity.  Every slice of the package
starts at the first element of its array. -/
structure Slice where
  arr : Nat
  len : Nat
  cap : Nat
  deriving DecidableEq, Repr

/-- The package state and the memory: `config.PooledSize`, the slices idle in
`buffers`, the next `Get` being served from the head, and the backing arrays
allocated so far. -/
structure Mem where
  PooledSize : Nat
  free : List Slice
  store : List (List Byte)
  deriving DecidableEq, Repr

/-- The bytes of a slice: the first `len` elements of its array. -/
def Slice.bytes (s : Slice) (m : Mem) : List Byte := (m.store.getD s.arr []).take s.len

/-- Source `putBuf`: `b := (*buf)[:0]; buffers.Put(&b)`; the slice put in the
pool shares the array of `*buf`. -/
def putBuf (m : Mem) (buf : Slice) : Mem := { m with free := { buf with len := 0 } :: m.free }

/-- Source `getBuf`: an idle slice when there is one, otherwise
`make([]byte, 0, config.PooledSize)`, a slice of a new zeroed array. -/
def getBuf (m : Mem) : Slice × Mem :=
  match m.free with
  | s :: rest => (s, { m with free := rest })
  | [] => ({ arr := m.store.length, len := 0, cap := m.PooledSize },
           { m with store := m.store ++ [List.replicate m.PooledSize 0] })

/-- Releases a sequence of slices in order. -/
def putBufs (m : Mem) (ss : List Slice) : Mem := ss.foldl putBuf m

/-- Go's built-in `append(s, d...)`.  Within the capacity the bytes are
written into the backing array after the first `len` elements, and the result
shares the array; beyond it a larger array is allocated (its capacity is
modelled as the larger of the new length and twice the old capacity) and
receives the old bytes and `d`. -/
def Slice.append (s : Slice) (d : List Byte) (m : Mem) : Slice × Mem :=
  if s.len + d.length ≤ s.cap then
    let a := m.store.getD s.arr []
    let a1 := a.take s.len ++ d ++ a.drop (s.len + d.length)
    ({ s with len := s.len + d.length }, { m with store := m.store.set s.arr a1 })
  else
    let cap1 := max (s.len + d.length) (2 * s.cap)
    let a1 := s.bytes m ++ d ++ List.replicate (cap1 - (s.len + d.length)) 0
    ({ arr := m.store.length, len := s.len + d.length, cap := cap1 },
     { m with store := m.store ++ [a1] })

/-- Source `Buffer`. -/
structure Buffer where
  buf : Option Slice
  bufs : List Slice
  deriving DecidableEq, Repr

/-- The state a buffer operation acts on: package state, memory and receiver. -/
abbrev State := Mem × Buffer

/-- The logical content: the bytes of the finalized slices in order, then
those of the active slice. -/
def content (st : State) : List Byte :=
  (st.2.bufs.map (fun s => s.bytes st.1)).flatten ++
    (match st.2.buf with | none => [] | some c => c.bytes st.1)

/-- Source `EnsureSpace`. -/
def EnsureSpace (s : Nat) (st : State) : Except Fault State :=
  match st.2.buf with
  | none =>
    if s > st.1.PooledSize then .error (.requireSpace s st.1.PooledSize)
    else
      let r := getBuf st.1
      .ok (r.2, { buf := some r.1, bufs := [] })
  | some c =>
    if c.cap - c.len < s then
      let r := getBuf st.1
      .ok (r.2, { buf := some r.1, bufs := st.2.bufs ++ [c] })
    else .ok st

/-- The statement `t := append(*b.buf, d...); b.buf = &t`. -/
def appendToBuf (d : List Byte) (st : State) : Except Fault State :=
  match st.2.buf with
  | none => .error .nilDeref
  | some c =>
    let r := c.append d st.1
    .ok (r.2, { st.2 with buf := some r.1 })

/-- Source `AppendByte`. -/
def AppendByte (data : Byte) (st : State) : Except Fault State := do
  let st1 ← EnsureSpace 1 st
  appendToBuf [data] st1

/-- Source `appendBytesSlow` and `appendStringSlow`, which have the same
body: one unit of fuel per evaluation of the loop condition. -/
def appendSlow : Nat → List Byte → State → Except Fault State
  | 0, _, _ => .error .outOfFuel
  | fuel + 1, data, st =>
    if data.length > 0 then do
      let st1 ← EnsureSpace 1 st
      match st1.2.buf with
      | none => .error .nilDeref
      | some c =>
        let sz := if c.cap - c.len > data.length then data.length else c.cap - c.len
        let st2 ← appendToBuf (data.take sz) st1
        appendSlow fuel (data.drop sz) st2
    else .ok st

/-- Source `AppendBytes` and `AppendString`, which have the same body. -/
def AppendBytes (data : List Byte) (st : State) : Except Fault State := do
  let st1 ← EnsureSpace 1 st
  match st1.2.buf with
  | none => .error .nilDeref
  | some c =>
    if data.length ≤ c.cap - c.len then appendToBuf data st1
    else appendSlow (data.length + st1.1.free.length + 1) data st1

/-- Source `AppendString`: the body of `AppendBytes`, with `appendStringSlow`
for `appendBytesSlow`, which is the same loop. -/
def AppendString (data : List Byte) (st : State) : Except Fault State := do
  let st1 ← EnsureSpace 1 st
  match st1.2.buf with
  | none => .error .nilDeref
  | some c =>
    if data.length ≤ c.cap - c.len then appendToBuf data st1
    else appendSlow (data.length + st1.1.free.length + 1) data st1

/-- Source `Size`: `len(*b.buf)` plus the lengths of the finalized slices. -/
def Size (st : State) : Except Fault Nat :=
  match st.2.buf with
  | none => .error .nilDeref
  | some c => .ok (st.2.bufs.foldl (fun size buf => size + buf.len) c.len)

/-- Source `AppendInt` and `AppendUint`, `text` being the output of the
`strconv` formatter. -/
def appendFormatted (text : List Byte) (dataSize : Nat) (st : State) : Except Fault State :=
  match st.2.buf with
  | none => .error .nilDeref
  | some c => do
    let st1 ← if dataSize > c.cap - c.len then EnsureSpace dataSize st else .ok st
    appendToBuf text st1

/-- Source `AppendInt`. -/
def AppendInt (n : Int) (dataSize : Nat) (st : State) : Except Fault State :=
  appendFormatted (formatInt n) dataSize st

/-- Source `AppendUint`. -/
def AppendUint (n : Nat) (dataSize : Nat) (st : State) : Except Fault State :=
  appendFormatted (formatUint n) dataSize st

/-- Source `BuildBytes`, the array returned being given by its bytes (the
copy loop is the one of `BuildBytes` above): with no finalized slice the
active one is released and kept; otherwise every slice is released and the
buffer cleared. -/
def BuildBytes (st : State) : Except Fault (List Byte × State) :=
  if st.2.bufs.length = 0 then
    match st.2.buf with
    | none => .error .nilDeref
    | some c => .ok (c.bytes st.1, (putBuf st.1 c, st.2))
  else
    match st.2.buf with
    | none => .error .nilDeref
    | some c =>
      .ok (content st, (putBuf (putBufs st.1 st.2.bufs) c, { buf := none, bufs := [] }))

/-- The reachable buffers: `buf` is nil only when `bufs` is empty. -/
def WF (st : State) : Prop := st.2.buf = none → st.2.bufs = []

instance (st : State) : Decidable (WF st) :=
  inferInstanceAs (Decidable (st.2.buf = none → st.2.bufs = []))

/-- A slice that lies within an allocated array. -/
def Slice.Valid (s : Slice) (m : Mem) : Prop :=
  s.arr < m.store.length ∧ s.len ≤ s.cap ∧ s.cap ≤ (m.store.getD s.arr []).length

instance (s : Slice) (m : Mem) : Decidable (s.Valid m) :=
  inferInstanceAs (Decidable (_ ∧ _ ∧ _))

/-- Single ownership, the discipline of the pool: the slices held by the
buffer and the idle ones lie within allocated arrays, idle slices are empty,
and no array of a finalized slice, of the active slice or of an idle slice is
the array of another of them. -/
def Owned (st : State) : Prop :=
  (∀ f ∈ st.2.bufs, f.Valid st.1) ∧
  (∀ c ∈ st.2.buf, c.Valid st.1) ∧
  (∀ s ∈ st.1.free, s.Valid st.1 ∧ s.len = 0) ∧
  (∀ f ∈ st.2.bufs, ∀ c ∈ st.2.buf, f.arr ≠ c.arr) ∧
  (∀ f ∈ st.2.bufs, ∀ s ∈ st.1.free, f.arr ≠ s.arr) ∧
  (∀ c ∈ st.2.buf, ∀ s ∈ st.1.free, c.arr ≠ s.arr) ∧
  (st.1.free.map Slice.arr).Nodup

instance (st : State) : Decidable (Owned st) :=
  inferInstanceAs (Decidable (_ ∧ _ ∧ _ ∧ _ ∧ _ ∧ _ ∧ _))

/-- What an operation leaves of the finalized sequence: the previous sequence
is a prefix of the new one and each of its slices has the bytes it had. -/
def Frame (st st' : State) : Prop :=
  ∃ added, st'.2.bufs = st.2.bufs ++ added ∧ ∀ f ∈ st.2.bufs, f.bytes st'.1 = f.bytes st.1

/-- The effect an operation that appends `d` has when single ownership holds:
ownership is kept, the buffer is a reachable one, the finalized sequence is
framed, and the logical content, read through the memory, grew by `d`. -/
def Extends (d : List Byte) (st st' : State) : Prop :=
  Owned st' ∧ WF st' ∧ Frame st st' ∧ content st' = content st ++ d

/-- The package state after `Init(PoolConfig{PooledSize: 2})`, nothing being
allocated yet, and the zero `Buffer`. -/
def start : State := ({ PooledSize := 2, free := [], store := [] }, { buf := none, bufs := [] })

/-- The package state after `Init(PoolConfig{PooledSize: 1})`, nothing being
allocated yet, and the zero `Buffer`. -/
def startOfOne : State :=
  ({ PooledSize := 1, free := [], store := [] }, { buf := none, bufs := [] })

/-- The state reached from `start` by `AppendByte('a')`: one array, held by
the active slice. -/
def oneByteState : State :=
  ({ PooledSize := 2, free := [], store := [[97, 0]] },
   { buf := some { arr := 0, len := 1, cap := 2 }, bufs := [] })

/-- The state reached from `oneByteState` by `BuildBytes`: the array of the
active slice is also the array of an idle slice. -/
def releasedState : State :=
  ({ PooledSize := 2, free := [{ arr := 0, len := 0, cap := 2 }], store := [[97, 0]] },
   { buf := some { arr := 0, len := 1, cap := 2 }, bufs := [] })

end arrays

end buffer

/-! ## jwriter/writer.go and jwriter/stream_writer.go -/

namespace jwriter

open buffer

/-- Source constant `chars = "0123456789abcdef"`. -/
def chars : List Byte := [48, 49, 50, 51, 52, 53, 54, 55, 56, 57, 97, 98, 99, 100, 101, 102]

/-- Source `getTable`: a `[128]bool` that is `true` everywhere except at
`falseValues`. -/
def getTable (falseValues : List Nat) : List Bool :=
  falseValues.foldl (fun table v => table.set v false) (List.replicate 128 true)

/-- Source `htmlEscapeTable`. -/
def htmlEscapeTable : List Bool :=
  getTable [0, 1, 2, 3, 4, 5, 6, 7, 8, 9, 10, 11, 12, 13, 14, 15, 16, 17, 18, 19, 20, 21, 22,
    23, 24, 25, 26, 27, 28, 29, 30, 31, 34, 38, 60, 62, 92]

/-- Source `htmlNoEscapeTable`. -/
def htmlNoEscapeTable : List Bool :=
  getTable [0, 1, 2, 3, 4, 5, 6, 7, 8, 9, 10, 11, 12, 13, 14, 15, 16, 17, 18, 19, 20, 21, 22,
    23, 24, 25, 26, 27, 28, 29, 30, 31, 34, 92]

/-- Source constant `encode`, the base64 alphabet. -/
def encode : List Byte :=
  [65, 66, 67, 68, 69, 70, 71, 72, 73, 74, 75, 76, 77, 78, 79, 80, 81, 82, 83, 84, 85, 86, 87,
   88, 89, 90, 97, 98, 99, 100, 101, 102, 103, 104, 105, 106, 107, 108, 109, 110, 111, 112, 113,
   114, 115, 116, 117, 118, 119, 120, 121, 122, 48, 49, 50, 51, 52, 53, 54, 55, 56, 57, 43, 47]

/-- Source constant `padChar = '='`. -/
def padChar : Byte := 61

/-- An index expression `t[i]` on a byte table; out of range is a run-time
panic. -/
def index (t : List Byte) (i : Nat) : Except Fault Byte :=
  match t[i]? with
  | some x => .ok x
  | none => .error .indexOutOfRange

/-- The four `AppendByte(encode[...])` calls of the main loop of `base64`
for the 24-bit group `val`. -/
def base64Quad (val : Nat) (st : BState) : Except Fault BState := do
  let c0 ← index encode (val >>> 18 &&& 0x3F)
  let st ← AppendByte c0 st
  let c1 ← index encode (val >>> 12 &&& 0x3F)
  let st ← AppendByte c1 st
  let c2 ← index encode (val >>> 6 &&& 0x3F)
  let st ← AppendByte c2 st
  let c3 ← index encode (val &&& 0x3F)
  AppendByte c3 st

/-- The loop `for si < n` of `base64`; it returns the final `si`. -/
def base64Loop (input : List Byte) (n : Nat) : Nat → Nat → BState → Except Fault (Nat × BState)
  | 0, _, _ => .error .outOfFuel
  | fuel + 1, si, st =>
    if si < n then do
      let a ← index input (si + 0)
      let b ← index input (si + 1)
      let c ← index input (si + 2)
      let val := a.val <<< 16 ||| b.val <<< 8 ||| c.val
      let st1 ← base64Quad val st
      base64Loop input n fuel (si + 3) st1
    else .ok (si, st)

/-- Source `base64`.  The loop runs `len(in)/3` times. -/
def base64 (input : List Byte) (st : BState) : Except Fault BState :=
  if input.length = 0 then .ok st
  else do
    let st ← EnsureSpace (((input.length - 1) / 3 + 1) * 4) st
    let n := (input.length / 3) * 3
    let r ← base64Loop input n (input.length / 3 + 1) 0 st
    let si := r.1
    let st := r.2
    let remain := input.length - si
    if remain = 0 then .ok st
    else do
      let a ← index input (si + 0)
      let val0 := a.val <<< 16
      let val ← if remain = 2 then do
          let b ← index input (si + 1)
          pure (val0 ||| b.val <<< 8)
        else pure val0
      let c0 ← index encode (val >>> 18 &&& 0x3F)
      let st ← AppendByte c0 st
      let c1 ← index encode (val >>> 12 &&& 0x3F)
      let st ← AppendByte c1 st
      if remain = 2 then do
        let c2 ← index encode (val >>> 6 &&& 0x3F)
        let st ← AppendByte c2 st
        AppendByte padChar st
      else if remain = 1 then do
        let st ← AppendByte padChar st
        AppendByte padChar st
      else .ok st

/-- Source `tokenWriter`.  `targetIOWriter` is `none` for a nil `io.Writer`. -/
structure tokenWriter where
  flags : Nat
  buffer : Buffer
  targetIOWriter : Option Sink
  targetBufferSize : Int
  NoEscapeHTML : Bool
  deriving DecidableEq, Repr

/-- The state a writer method acts on: the package state and the receiver. -/
abbrev WState := Pool × tokenWriter

/-- Runs a buffer operation on `w.buffer`. -/
def onBuffer (f : BState → Except Fault BState) (st : WState) : Except Fault WState := do
  let r ← f (st.1, st.2.buffer)
  pure (r.1, { st.2 with buffer := r.2 })

/-- Source `NewStreamingTokenWriter`. -/
def NewStreamingTokenWriter (dest : Option Sink) (bufferSize : Int) (p : Pool) :
    Except Fault WState :=
  onBuffer (EnsureSpace 1)
    (p, { flags := 0, buffer := Buffer.zero, targetIOWriter := dest,
          targetBufferSize := bufferSize, NoEscapeHTML := false })

/-- Source `tokenWriter.Flush`: the count and error returned and the state
after the call. -/
def tokenWriter.Flush (st : WState) : Except Fault ((Nat × Option Err) × WState) :=
  match st.2.targetIOWriter with
  | none => .ok ((0, none), st)
  | some w => do
    let r ← DumpTo w (st.1, st.2.buffer)
    pure (r.1, (r.2.2.1, { st.2 with buffer := r.2.2.2, targetIOWriter := some r.2.1 }))

/-- Source `tokenWriter.MaybeFlush`; `||` evaluates `Size()` only when a sink
is configured. -/
def tokenWriter.MaybeFlush (st : WState) : Except Fault ((Nat × Option Err) × WState) :=
  match st.2.targetIOWriter with
  | none => .ok ((0, none), st)
  | some _ => do
    let size ← Size st.2.buffer
    if (size : Int) < st.2.targetBufferSize then .ok ((0, none), st)
    else tokenWriter.Flush st

/-- Source `tokenWriter.Close`. -/
def tokenWriter.Close (st : WState) : WState :=
  let r := buffer.Close (st.1, st.2.buffer)
  (r.1, { st.2 with buffer := r.2 })

/-- Source `RawByte` (the `error` it returns is always nil, as for every
append method below whose result type is a state). -/
def tokenWriter.RawByte (c : Byte) : WState → Except Fault WState := onBuffer (AppendByte c)

/-- Source `RawBytes`. -/
def tokenWriter.RawBytes (data : List Byte) : WState → Except Fault WState := onBuffer (AppendBytes data)

/-- Source `RawString`. -/
def tokenWriter.RawString (s : List Byte) : WState → Except Fault WState := onBuffer (AppendString s)

/-- Source `Base64Bytes`; `none` is the nil slice. -/
def tokenWriter.Base64Bytes (data : Option (List Byte)) : WState → Except Fault WState :=
  match data with
  | none => onBuffer (AppendString [110, 117, 108, 108])
  | some d => onBuffer (fun st => do
      let st ← AppendByte 34 st
      let st ← base64 d st
      AppendByte 34 st)

/-- Source `Uint8`. -/
def tokenWriter.Uint8 (n : Nat) : WState → Except Fault WState := onBuffer (AppendUint n 3)
/-- Source `Uint16`. -/
def tokenWriter.Uint16 (n : Nat) : WState → Except Fault WState := onBuffer (AppendUint n 5)
/-- Source `Uint32`. -/
def tokenWriter.Uint32 (n : Nat) : WState → Except Fault WState := onBuffer (AppendUint n 10)
/-- Source `Uint`. -/
def tokenWriter.Uint (n : Nat) : WState → Except Fault WState := onBuffer (AppendUint n 20)
/-- Source `Uint64`. -/
def tokenWriter.Uint64 (n : Nat) : WState → Except Fault WState := onBuffer (AppendUint n 20)
/-- Source `Int8`. -/
def tokenWriter.Int8 (n : ℤ) : WState → Except Fault WState := onBuffer (AppendInt n 4)
/-- Source `Int16`. -/
def tokenWriter.Int16 (n : ℤ) : WState → Except Fault WState := onBuffer (AppendInt n 6)
/-- Source `Int32`. -/
def tokenWriter.Int32 (n : ℤ) : WState → Except Fault WState := onBuffer (AppendInt n 11)
/-- Source `Int`. -/
def tokenWriter.Int (n : ℤ) : WState → Except Fault WState := onBuffer (AppendInt n 21)
/-- Source `Int64`. -/
def tokenWriter.Int64 (n : ℤ) : WState → Except Fault WState := onBuffer (AppendInt n 21)

/-- The shape shared by the quoted numeric methods: `AppendByte('"')`, the
number, `AppendByte('"')`. -/
def quoted (f : BState → Except Fault BState) : WState → Except Fault WState :=
  onBuffer (fun st => do
    let st ← AppendByte 34 st
    let st ← f st
    AppendByte 34 st)

/-- Source `Uint8Str`. -/
def tokenWriter.Uint8Str (n : Nat) : WState → Except Fault WState := quoted (AppendUint n 3)
/-- Source `Uint16Str`. -/
def tokenWriter.Uint16Str (n : Nat) : WState → Except Fault WState := quoted (AppendUint n 5)
/-- Source `Uint32Str`. -/
def tokenWriter.Uint32Str (n : Nat) : WState → Except Fault WState := quoted (AppendUint n 10)
/-- Source `UintStr`. -/
def tokenWriter.UintStr (n : Nat) : WState → Except Fault WState := quoted (AppendUint n 20)
/-- Source `Uint64Str`. -/
def tokenWriter.Uint64Str (n : Nat) : WState → Except Fault WState := quoted (AppendUint n 20)
/-- Source `UintptrStr`. -/
def tokenWriter.UintptrStr (n : Nat) : WState → Except Fault WState := quoted (AppendUint n 20)
/-- Source `Int8Str`. -/
def tokenWriter.Int8Str (n : ℤ) : WState → Except Fault WState := quoted (AppendInt n 2)
/-- Source `Int16Str`. -/
def tokenWriter.Int16Str (n : ℤ) : WState → Except Fault WState := quoted (AppendInt n 6)
/-- Source `Int32Str`. -/
def tokenWriter.Int32Str (n : ℤ) : WState → Except Fault WState := quoted (AppendInt n 11)
/-- Source `IntStr`. -/
def tokenWriter.IntStr (n : ℤ) : WState → Except Fault WState := quoted (AppendInt n 21)
/-- Source `Int64Str`. -/
def tokenWriter.Int64Str (n : ℤ) : WState → Except Fault WState := quoted (AppendInt n 21)

/-- Source `Float32`; `text` is the output of `strconv.AppendFloat`. -/
def tokenWriter.Float32 (text : List Byte) : WState → Except Fault WState := onBuffer (AppendFloat32 text 20)
/-- Source `Float32Str`. -/
def tokenWriter.Float32Str (text : List Byte) : WState → Except Fault WState := quoted (AppendFloat32 text 20)
/-- Source `Float64`; `text` is the output of `strconv.AppendFloat`. -/
def tokenWriter.Float64 (text : List Byte) : WState → Except Fault WState := onBuffer (AppendFloat64 text 20)
/-- Source `Float64Str`. -/
def tokenWriter.Float64Str (text : List Byte) : WState → Except Fault WState := quoted (AppendFloat64 text 20)

/-- Source `Bool`. -/
def tokenWriter.Bool (v : Bool) : WState → Except Fault WState :=
  onBuffer (fun st => do
    let st ← EnsureSpace 5 st
    if v then AppendString [116, 114, 117, 101] st
    else AppendString [102, 97, 108, 115, 101] st)

/-- Go standard library constant `utf8.RuneSelf`. -/
def RuneSelf : Nat := 0x80

/-- Go standard library constant `utf8.RuneError`, U+FFFD. -/
def RuneError : Nat := 0xFFFD

/-- The tables `first` and `acceptRanges` of Go's `unicode/utf8`: for a lead
byte of a multi-byte sequence, the sequence length and the range accepted for
the second byte; `none` for a byte that cannot start a sequence
(0x80..0xC1 and 0xF5..0xFF). -/
def utf8Lead (s0 : Nat) : Option (Nat × Nat × Nat) :=
  if 0xC2 ≤ s0 ∧ s0 ≤ 0xDF then some (2, 0x80, 0xBF)
  else if s0 = 0xE0 then some (3, 0xA0, 0xBF)
  else if 0xE1 ≤ s0 ∧ s0 ≤ 0xEC then some (3, 0x80, 0xBF)
  else if s0 = 0xED then some (3, 0x80, 0x9F)
  else if 0xEE ≤ s0 ∧ s0 ≤ 0xEF then some (3, 0x80, 0xBF)
  else if s0 = 0xF0 then some (4, 0x90, 0xBF)
  else if 0xF1 ≤ s0 ∧ s0 ≤ 0xF3 then some (4, 0x80, 0xBF)
  else if s0 = 0xF4 then some (4, 0x80, 0x8F)
  else none

/-- Go standard library `utf8.DecodeRuneInString` (the repository calls it,
its code is Go's): the first rune of `s` and its width in bytes;
`(RuneError, 0)` for the empty string and `(RuneError, 1)` for an invalid
encoding.  The masks `s0&mask2`, `s1&maskx`, ... are written as remainders. -/
def DecodeRuneInString (s : List Byte) : Nat × Nat :=
  match s with
  | [] => (RuneError, 0)
  | s0 :: t =>
    if s0.val < RuneSelf then (s0.val, 1)
    else
      match utf8Lead s0.val with
      | none => (RuneError, 1)
      | some (sz, lo, hi) =>
        if t.length + 1 < sz then (RuneError, 1)
        else
          match t with
          | [] => (RuneError, 1)
          | s1 :: t1 =>
            if s1.val < lo ∨ hi < s1.val then (RuneError, 1)
            else if sz ≤ 2 then (s0.val % 32 * 64 + s1.val % 64, 2)
            else
              match t1 with
              | [] => (RuneError, 1)
              | s2 :: t2 =>
                if s2.val < 0x80 ∨ 0xBF < s2.val then (RuneError, 1)
                else if sz ≤ 3 then (s0.val % 16 * 4096 + s1.val % 64 * 64 + s2.val % 64, 3)
                else
                  match t2 with
                  | [] => (RuneError, 1)
                  | s3 :: _ =>
                    if s3.val < 0x80 ∨ 0xBF < s3.val then (RuneError, 1)
                    else (s0.val % 8 * 262144 + s1.val % 64 * 4096 + s2.val % 64 * 64
                            + s3.val % 64, 4)

/-- A slice expression `s[p:i]`; out of range is a run-time panic. -/
def slice (s : List Byte) (p i : Nat) : Except Fault (List Byte) :=
  if p ≤ i ∧ i ≤ s.length then .ok ((s.take i).drop p) else .error .indexOutOfRange

/-- The `switch c` of `String` for an ASCII byte the table marks as unsafe. -/
def escapeSwitch (c : Byte) (st : BState) : Except Fault BState :=
  if c = 9 then AppendString [92, 116] st
  else if c = 13 then AppendString [92, 114] st
  else if c = 10 then AppendString [92, 110] st
  else if c = 92 then AppendString [92, 92] st
  else if c = 34 then AppendString [92, 34] st
  else do
    let st ← AppendString [92, 117, 48, 48] st
    let hi ← index chars (c.val >>> 4)
    let st ← AppendByte hi st
    let lo ← index chars (c.val &&& 0xf)
    AppendByte lo st

/-- The scanning loop of `String`; it returns the final `p`.  One unit of
fuel per evaluation of the loop condition. -/
def stringLoop (escapeTable : List Bool) (s : List Byte) :
    Nat → Nat → Nat → BState → Except Fault (Nat × BState)
  | 0, _, _, _ => .error .outOfFuel
  | fuel + 1, p, i, st =>
    if h : i < s.length then
      let c := s[i]
      if c.val < RuneSelf then
        match escapeTable[c.val]? with
        | none => .error .indexOutOfRange
        | some true => stringLoop escapeTable s fuel p (i + 1) st
        | some false => do
          let run ← slice s p i
          let st ← AppendString run st
          let st ← escapeSwitch c st
          stringLoop escapeTable s fuel (i + 1) (i + 1) st
      else
        let r := DecodeRuneInString (s.drop i)
        let runeValue := r.1
        let runeWidth := r.2
        if runeValue = RuneError ∧ runeWidth = 1 then do
          let run ← slice s p i
          let st ← AppendString run st
          let st ← AppendString [92, 117, 102, 102, 102, 100] st
          stringLoop escapeTable s fuel (i + 1) (i + 1) st
        else if runeValue = 0x2028 ∨ runeValue = 0x2029 then do
          let run ← slice s p i
          let st ← AppendString run st
          let st ← AppendString [92, 117, 50, 48, 50] st
          let lo ← index chars (runeValue &&& 0xf)
          let st ← AppendByte lo st
          stringLoop escapeTable s fuel (i + runeWidth) (i + runeWidth) st
        else stringLoop escapeTable s fuel p (i + runeWidth) st
    else .ok (p, st)

/-- The body of `String` on the writer's buffer.  Every iteration of the loop
advances `i`, so `len(s) + 1` evaluations of the loop condition suffice. -/
def stringOnBuffer (noEscapeHTML : Bool) (s : List Byte) (st : BState) : Except Fault BState := do
  let st ← AppendByte 34 st
  let escapeTable := if noEscapeHTML then htmlNoEscapeTable else htmlEscapeTable
  let r ← stringLoop escapeTable s (s.length + 1) 0 0 st
  let run ← slice s r.1 s.length
  let st ← AppendString run r.2
  AppendByte 34 st

/-- Source `String`. -/
def tokenWriter.String (s : List Byte) (st : WState) : Except Fault WState :=
  onBuffer (stringOnBuffer st.2.NoEscapeHTML s) st

/-- Source `RawTextWithErr`: the error returned and the state after the call. -/
def tokenWriter.RawTextWithErr (data : List Byte) (err : Option Err) (st : WState) :
    Except Fault (Option Err × WState) :=
  match err with
  | some e => .ok (some e, st)
  | none => do
    let st ← tokenWriter.String data st
    pure (none, st)

/-- Source `RawBytesWithErr`: the error returned and the state after the call. -/
def tokenWriter.RawBytesWithErr (data : List Byte) (err : Option Err) (st : WState) :
    Except Fault (Option Err × WState) :=
  match err with
  | some e => .ok (some e, st)
  | none => do
    let st ← tokenWriter.RawBytes data st
    pure (none, st)

/-- The escape table `String` selects. -/
def escapeTableOf (noEscapeHTML : Bool) : List Bool :=
  if noEscapeHTML then htmlNoEscapeTable else htmlEscapeTable

/-- The text the `switch c` of `String` writes for an unsafe ASCII byte. -/
def escapeText (c : Byte) : List Byte :=
  if c = 9 then [92, 116]
  else if c = 13 then [92, 114]
  else if c = 10 then [92, 110]
  else if c = 92 then [92, 92]
  else if c = 34 then [92, 34]
  else [92, 117, 48, 48, chars.getD (c.val >>> 4) 0, chars.getD (c.val &&& 0xf) 0]

/-- What the scan of `String` writes for the input that remains, as a
function of that input alone (the pending run included).  `skip` counts the
bytes of a multi-byte sequence already dealt with. -/
def escapedFrom (noEscapeHTML : Bool) : Nat → List Byte → List Byte
  | _, [] => []
  | skip + 1, _ :: t => escapedFrom noEscapeHTML skip t
  | 0, c :: t =>
    if c.val < RuneSelf then
      if (escapeTableOf noEscapeHTML).getD c.val false then c :: escapedFrom noEscapeHTML 0 t
      else escapeText c ++ escapedFrom noEscapeHTML 0 t
    else
      let r := DecodeRuneInString (c :: t)
      if r.1 = RuneError ∧ r.2 = 1 then
        [92, 117, 102, 102, 102, 100] ++ escapedFrom noEscapeHTML 0 t
      else if r.1 = 0x2028 ∨ r.1 = 0x2029 then
        [92, 117, 50, 48, 50, chars.getD (r.1 &&& 0xf) 0] ++ escapedFrom noEscapeHTML (r.2 - 1) t
      else (c :: t).take r.2 ++ escapedFrom noEscapeHTML (r.2 - 1) t

/-- The text `String(s)` appends: the escaped input between two double
quotes. -/
def stringText (noEscapeHTML : Bool) (s : List Byte) : List Byte :=
  [34] ++ (escapedFrom noEscapeHTML 0 s ++ [34])

/-- Source `BufferWriter`: the embedded `tokenWriter`, whose
`targetIOWriter` is the `bytes.Buffer` that `buf` points to, and
`currentByte`, a slice that may be nil (`none`).  The bytes the
`bytes.Buffer` holds are the `received` of that sink; `bufAllocated` tells
whether its internal slice is non-nil: the zero `bytes.Buffer` has a nil
slice, `Write` of no byte leaves a nil slice nil, `Write` of at least one
byte allocates, and `Reset` (`buf = buf[:0]`) keeps a non-nil slice
non-nil. -/
structure BufferWriter where
  tw : tokenWriter
  bufAllocated : Bool
  currentByte : Option (List Byte)
  deriving DecidableEq, Repr

/-- Source `NewBufferWriter`. -/
def NewBufferWriter (p : Pool) : Except Fault (Pool × BufferWriter) := do
  let r ← onBuffer (EnsureSpace 1024)
    (p, { flags := 0, buffer := Buffer.zero,
          targetIOWriter := some { received := [], script := [] },
          targetBufferSize := 1024, NoEscapeHTML := false })
  pure (r.1, { tw := r.2, bufAllocated := false, currentByte := none })

/-- Source `BufferWriter.Flush`: on success `currentByte = b.buf.Bytes()`
and `b.buf.Reset()`.  `Bytes()` is `buf[off:]`, nil when the internal slice
is nil, that is when the `bytes.Buffer` has not received a byte since it was
created. -/
def BufferWriter.Flush (st : Pool × BufferWriter) :
    Except Fault ((Nat × Option Err) × Pool × BufferWriter) := do
  let r ← tokenWriter.Flush (st.1, st.2.tw)
  match r.1.2 with
  | some _ => pure (r.1, r.2.1, { st.2 with tw := r.2.2 })
  | none =>
    match r.2.2.targetIOWriter with
    | none => .error .nilDeref
    | some w =>
      let allocated := st.2.bufAllocated || !w.received.isEmpty
      pure (r.1, r.2.1,
        { tw := { r.2.2 with targetIOWriter := some { w with received := [] } },
          bufAllocated := allocated,
          currentByte := if allocated then some w.received else none })

/-- Source `BufferWriter.Size`. -/
def BufferWriter.Size (b : BufferWriter) : Nat :=
  match b.currentByte with
  | none => 0
  | some bytes => bytes.length

/-- Source `BufferWriter.BuildBytes`. -/
def BufferWriter.BuildBytes (b : BufferWriter) : Option (List Byte) := b.currentByte

/-- The flush call that ends a round of a streaming session. -/
inductive FlushCall where
  | MaybeFlush
  | Flush
  deriving DecidableEq, Repr

/-- One round of a streaming session: `RawBytes(data)` followed by a flush
call. -/
structure Round where
  data : List Byte
  flush : FlushCall
  deriving DecidableEq, Repr

/-- Runs one round and returns what its flush call returned. -/
def runRound (r : Round) (st : WState) : Except Fault ((Nat × Option Err) × WState) := do
  let st ← tokenWriter.RawBytes r.data st
  match r.flush with
  | .MaybeFlush => tokenWriter.MaybeFlush st
  | .Flush => tokenWriter.Flush st

/-- Runs the rounds of a session in order and collects what the flush calls
returned. -/
def runSession : List Round → WState → Except Fault (List (Nat × Option Err) × WState)
  | [], st => .ok ([], st)
  | r :: rs, st => do
    let x ← runRound r st
    let y ← runSession rs x.2
    pure (x.1 :: y.1, y.2)

/-- The bytes a writer holds in its buffer. -/
def buffered (st : WState) : List Byte := st.2.buffer.content

/-- The bytes the writer's sink has received. -/
def delivered (st : WState) : List Byte :=
  match st.2.targetIOWriter with
  | none => []
  | some w => w.received

/-- An open writer over an accepting sink: its buffer is either drained or
holds an active chunk. -/
def Streaming (st : WState) : Prop :=
  (∃ w, st.2.targetIOWriter = some w ∧ w.accepting) ∧
  (st.2.buffer = { buf := none, bufs := [] } ∨ Ready (st.1, st.2.buffer)) ∧
  1 ≤ st.1.PooledSize

/-- The effect of a successful append of `d` on a writer: its buffer grew by
`d` and nothing else changed. -/
def WAppended (d : List Byte) (st st' : WState) : Prop :=
  Appended d (st.1, st.2.buffer) (st'.1, st'.2.buffer) ∧
  st'.2.flags = st.2.flags ∧ st'.2.targetIOWriter = st.2.targetIOWriter ∧
  st'.2.targetBufferSize = st.2.targetBufferSize ∧ st'.2.NoEscapeHTML = st.2.NoEscapeHTML

/-- An example writer: three bytes buffered, an empty accepting sink and a
flush threshold of two bytes. -/
def exampleWriter : tokenWriter :=
  { flags := 0, buffer := { buf := some { id := 0, data := [1, 2, 3], cap := 1024 }, bufs := [] },
    targetIOWriter := some emptySink, targetBufferSize := 2, NoEscapeHTML := false }

/-- An example session prefix: one byte, then `MaybeFlush`. -/
def exampleRounds : List Round := [{ data := [1], flush := .MaybeFlush }]

/-- An example writer whose active chunk of capacity 1024 holds 1021 bytes. -/
def nearlyFullWriter : tokenWriter :=
  { flags := 0,
    buffer := { buf := some { id := 0, data := List.replicate 1021 48, cap := 1024 }, bufs := [] },
    targetIOWriter := none, targetBufferSize := 0, NoEscapeHTML := false }

end jwriter

/-! ## helpers.go -/

namespace easyjson

open buffer jwriter

/-- One call a `MarshalEasyJSON` body makes on the `jwriter.Writer` it
receives, restricted to the append operations (and `Flags`, which reads
only). -/
inductive Call where
  | Flags
  | RawByte (c : Byte)
  | RawBytes (data : List Byte)
  | RawBytesWithErr (data : List Byte) (err : Option Err)
  | RawTextWithErr (data : List Byte) (err : Option Err)
  | RawString (s : List Byte)
  | Base64Bytes (data : Option (List Byte))
  | Uint8 (n : Nat) | Uint16 (n : Nat) | Uint32 (n : Nat) | Uint (n : Nat) | Uint64 (n : Nat)
  | Int8 (n : ℤ) | Int16 (n : ℤ) | Int32 (n : ℤ) | Int (n : ℤ) | Int64 (n : ℤ)
  | Uint8Str (n : Nat) | Uint16Str (n : Nat) | Uint32Str (n : Nat) | UintStr (n : Nat)
  | Uint64Str (n : Nat) | UintptrStr (n : Nat)
  | Int8Str (n : ℤ) | Int16Str (n : ℤ) | Int32Str (n : ℤ) | IntStr (n : ℤ) | Int64Str (n : ℤ)
  | Float32 (text : List Byte) | Float32Str (text : List Byte)
  | Float64 (text : List Byte) | Float64Str (text : List Byte)
  | Bool (v : Bool)
  | String (s : List Byte)
  deriving DecidableEq, Repr

/-- Dispatch of one call to the method of the embedded `tokenWriter`. -/
def Call.run (c : Call) (st : WState) : Except Fault WState :=
  match c with
  | .Flags => .ok st
  | .RawByte c => tokenWriter.RawByte c st
  | .RawBytes d => tokenWriter.RawBytes d st
  | .RawBytesWithErr d e => (tokenWriter.RawBytesWithErr d e st).map Prod.snd
  | .RawTextWithErr d e => (tokenWriter.RawTextWithErr d e st).map Prod.snd
  | .RawString s => tokenWriter.RawString s st
  | .Base64Bytes d => tokenWriter.Base64Bytes d st
  | .Uint8 n => tokenWriter.Uint8 n st
  | .Uint16 n => tokenWriter.Uint16 n st
  | .Uint32 n => tokenWriter.Uint32 n st
  | .Uint n => tokenWriter.Uint n st
  | .Uint64 n => tokenWriter.Uint64 n st
  | .Int8 n => tokenWriter.Int8 n st
  | .Int16 n => tokenWriter.Int16 n st
  | .Int32 n => tokenWriter.Int32 n st
  | .Int n => tokenWriter.Int n st
  | .Int64 n => tokenWriter.Int64 n st
  | .Uint8Str n => tokenWriter.Uint8Str n st
  | .Uint16Str n => tokenWriter.Uint16Str n st
  | .Uint32Str n => tokenWriter.Uint32Str n st
  | .UintStr n => tokenWriter.UintStr n st
  | .Uint64Str n => tokenWriter.Uint64Str n st
  | .UintptrStr n => tokenWriter.UintptrStr n st
  | .Int8Str n => tokenWriter.Int8Str n st
  | .Int16Str n => tokenWriter.Int16Str n st
  | .Int32Str n => tokenWriter.Int32Str n st
  | .IntStr n => tokenWriter.IntStr n st
  | .Int64Str n => tokenWriter.Int64Str n st
  | .Float32 t => tokenWriter.Float32 t st
  | .Float32Str t => tokenWriter.Float32Str t st
  | .Float64 t => tokenWriter.Float64 t st
  | .Float64Str t => tokenWriter.Float64Str t st
  | .Bool v => tokenWriter.Bool v st
  | .String s => tokenWriter.String s st

/-- A value implementing `Marshaler` whose `MarshalEasyJSON` only appends:
the calls it makes on the writer, in order, and the error it returns. -/
structure Marshaler where
  calls : List Call
  ret : Option Err
  deriving DecidableEq, Repr

/-- Runs the calls of a `MarshalEasyJSON` body in order. -/
def runCalls : List Call → WState → Except Fault WState
  | [], st => .ok st
  | c :: cs, st => do
    let st ← c.run st
    runCalls cs st

/-- What a non-nil interface value holds, by the way Go stores the dynamic
value in the data word of the interface:
* `pointer p`: the dynamic type is a pointer type and the data word is the
  pointer itself, 0 for a nil pointer;
* `direct word`: the dynamic type is another pointer-shaped type (a map, a
  channel, a func, or a struct or array with one element of a pointer-shaped
  type), stored in the data word itself, which is 0 for the zero value of the
  type (a nil map, a struct whose only field is a nil pointer);
* `indirect addr`: any other type; the data word is the address of a copy of
  the value, which is never 0, given here as `addr + 1`. -/
inductive Held where
  | pointer (p : Nat)
  | direct (word : Nat)
  | indirect (addr : Nat)
  deriving DecidableEq, Repr

/-- The data word of an interface holding `h`. -/
def Held.dataWord (h : Held) : Nat :=
  match h with
  | .pointer p => p
  | .direct word => word
  | .indirect addr => addr + 1

/-- An interface value of type `Marshaler`: the nil interface, or a non-nil
interface, which carries the method table of its dynamic type, so that `m`
is the `MarshalEasyJSON` a call through the interface runs (on a nil
receiver when `held` is `pointer 0`), and what it holds. -/
inductive Iface where
  | absent
  | present (m : Marshaler) (held : Held)
  deriving DecidableEq, Repr

/-- The two words of the `interface{}` that `isNilInterface` receives: the
type word, 0 for the nil interface (the type pointer of a non-nil interface
is not 0; its value is not modelled and is given as 1), and the data word. -/
def Iface.words (i : Iface) : List Nat :=
  match i with
  | .absent => [0, 0]
  | .present _ held => [1, held.dataWord]

/-- The method a call `v.MarshalEasyJSON(w)` dispatches to; a nil interface
has none and the call panics. -/
def Iface.method (i : Iface) : Option Marshaler :=
  match i with
  | .absent => none
  | .present m _ => some m

/-- Source `isNilInterface`: `(*[2]uintptr)(unsafe.Pointer(&i))[1] == 0`, the
test that the second word of the interface, the data word, is zero. -/
def isNilInterface (i : Iface) : Bool := i.words.getD 1 0 == 0

/-- Modelled from the spec: the package variable `nullBytes`, declared in a
file of the package that is not part of the sources at hand; the literal
`null`. -/
def nullBytes : List Byte := [110, 117, 108, 108]

/-- Source `Marshal`: the pair `([]byte, error)` returned, a nil slice being
`none`, and the package state after the call. -/
def Marshal (v : Iface) (p : Pool) : Except Fault ((Option (List Byte) × Option Err) × Pool) :=
  if isNilInterface v then .ok ((some nullBytes, none), p)
  else do
    let r ← NewBufferWriter p
    match v.method with
    | none => .error .nilDeref
    | some m =>
      let st ← runCalls m.calls (r.1, r.2.tw)
      match m.ret with
      | some err => pure ((none, some err), st.1)
      | none =>
        let f ← BufferWriter.Flush (st.1, { r.2 with tw := st.2 })
        match f.1.2 with
        | some err => pure ((none, some err), f.2.1)
        | none => pure ((f.2.2.BuildBytes, none), f.2.1)

/-- Source `MarshalToWriter`: the pair `(written, err)` returned, the sink
and the package state after the call. -/
def MarshalToWriter (v : Iface) (w : Sink) (p : Pool) :
    Except Fault ((Nat × Option Err) × Sink × Pool) :=
  if isNilInterface v then
    let r := w.Write nullBytes
    .ok (r.1, r.2, p)
  else do
    let r ← NewBufferWriter p
    match v.method with
    | none => .error .nilDeref
    | some m =>
      let st ← runCalls m.calls (r.1, r.2.tw)
      match m.ret with
      | some err => pure ((0, some err), w, st.1)
      | none =>
        let f ← BufferWriter.Flush (st.1, { r.2 with tw := st.2 })
        match f.1.2 with
        | some err => pure ((0, some err), w, f.2.1)
        | none =>
          let x := w.Write (f.2.2.BuildBytes.getD [])
          pure (x.1, x.2, f.2.1)

/-! ## unknown_fields.go -/

/-- Source `UnknownFieldsProxy`.  The Go map `unknownFields` is given by its
entries in the order in which the `range` of the call at hand visits them (Go
leaves that order unspecified). -/
structure UnknownFieldsProxy where
  unknownFields : List (List Byte × List Byte)
  deriving DecidableEq, Repr

/-- Source `UnknownFieldsProxy.MarshalUnknowns` on a `tokenWriter`: the error
returned and the writer after the call.  The body of the `for ... range` ends
with `return out.RawBytes(val)`, so the call returns in the first iteration;
without an entry the loop is skipped and nil is returned.  The writer methods
return a nil error. -/
def UnknownFieldsProxy.MarshalUnknowns (s : UnknownFieldsProxy) (first : Bool) (st : WState) :
    Except Fault (Option Err × WState) :=
  match s.unknownFields with
  | [] => .ok (none, st)
  | (key, val) :: _ => do
    let st ← if first then .ok st else tokenWriter.RawByte 44 st
    let st ← tokenWriter.String key st
    let st ← tokenWriter.RawByte 58 st
    let st ← tokenWriter.RawBytes val st
    pure (none, st)

/-- A proxy that captured the two fields `"a": 1` and `"b": 2`. -/
def exampleProxy : UnknownFieldsProxy := { unknownFields := [([97], [49]), ([98], [50])] }

end easyjson

/-! ## Reference definitions

Definitions that follow the specification and the standards it names rather
than the code, and that use no definition of the code where the code is what
they are compared with; the theorems compare the code with them. -/

namespace Spec

/-- RFC 4648, Table 1: the character of a 6-bit value. -/
def alphabet (i : Nat) : Byte :=
  if i < 26 then byteOf (65 + i)
  else if i < 52 then byteOf (97 + (i - 26))
  else if i < 62 then byteOf (48 + (i - 52))
  else if i = 62 then 43
  else 47

/-- RFC 4648, Table 1 read backwards: the 6-bit value of a character of the
alphabet. -/
def value (c : Byte) : Option Nat :=
  if 65 ≤ c.val ∧ c.val ≤ 90 then some (c.val - 65)
  else if 97 ≤ c.val ∧ c.val ≤ 122 then some (c.val - 97 + 26)
  else if 48 ≤ c.val ∧ c.val ≤ 57 then some (c.val - 48 + 52)
  else if c.val = 43 then some 62
  else if c.val = 47 then some 63
  else none

/-- RFC 4648 section 4: each group of three bytes is a 24-bit number written
as four 6-bit values; a final group of two bytes gives three characters and
one `=`, a final single byte two characters and `==`. -/
def base64Encode : List Byte → List Byte
  | a :: b :: c :: rest =>
    let v := a.val * 65536 + b.val * 256 + c.val
    alphabet (v / 262144) :: alphabet (v / 4096 % 64) :: alphabet (v / 64 % 64) ::
      alphabet (v % 64) :: base64Encode rest
  | [a, b] =>
    let v := a.val * 65536 + b.val * 256
    [alphabet (v / 262144), alphabet (v / 4096 % 64), alphabet (v / 64 % 64), 61]
  | [a] =>
    let v := a.val * 65536
    [alphabet (v / 262144), alphabet (v / 4096 % 64), 61, 61]
  | [] => []

/-- A standard base64 decoder: the text is read four characters at a time;
padding is accepted in the last group only; any other character outside the
alphabet, or a length that is not a multiple of four, is rejected. -/
def base64Decode : List Byte → Option (List Byte)
  | [] => some []
  | c0 :: c1 :: c2 :: c3 :: rest =>
    if c3 = 61 ∧ rest = [] then
      if c2 = 61 then
        match value c0, value c1 with
        | some v0, some v1 => some [byteOf ((v0 * 64 + v1) / 16)]
        | _, _ => none
      else
        match value c0, value c1, value c2 with
        | some v0, some v1, some v2 =>
          let w := v0 * 4096 + v1 * 64 + v2
          some [byteOf (w / 1024), byteOf (w / 4)]
        | _, _, _ => none
    else
      match value c0, value c1, value c2, value c3, base64Decode rest with
      | some v0, some v1, some v2, some v3, some tl =>
        let w := v0 * 262144 + v1 * 4096 + v2 * 64 + v3
        some (byteOf (w / 65536) :: byteOf (w / 256) :: byteOf w :: tl)
      | _, _, _, _, _ => none
  | _ => none

/-- The UTF-8 encoding of a code point (RFC 3629); a surrogate or a value
beyond U+10FFFF is encoded as U+FFFD, as Go's `utf8.EncodeRune` does. -/
def encodeRune (r : Nat) : List Byte :=
  if r < 0x80 then [byteOf r]
  else if r < 0x800 then [byteOf (0xC0 + r / 64), byteOf (0x80 + r % 64)]
  else if (0xD800 ≤ r ∧ r < 0xE000) ∨ 0x10FFFF < r then [0xEF, 0xBF, 0xBD]
  else if r < 0x10000 then
    [byteOf (0xE0 + r / 4096), byteOf (0x80 + r / 64 % 64), byteOf (0x80 + r % 64)]
  else
    [byteOf (0xF0 + r / 262144), byteOf (0x80 + r / 4096 % 64), byteOf (0x80 + r / 64 % 64),
     byteOf (0x80 + r % 64)]

/-- A Unicode scalar value: a code point up to U+10FFFF that is not a
surrogate (RFC 3629, section 3). -/
def isScalar (r : Nat) : Prop := r ≤ 0x10FFFF ∧ ¬ (0xD800 ≤ r ∧ r < 0xE000)

instance (r : Nat) : Decidable (isScalar r) :=
  inferInstanceAs (Decidable (r ≤ 0x10FFFF ∧ ¬ (0xD800 ≤ r ∧ r < 0xE000)))

/-- The number whose bits the first `n` bytes of `s` carry when they are read
as a sequence of `n` bytes (RFC 3629, section 3: `0xxxxxxx`,
`110xxxxx 10xxxxxx`, `1110xxxx 10xxxxxx 10xxxxxx`,
`11110xxx 10xxxxxx 10xxxxxx 10xxxxxx`). -/
def payload (n : Nat) (s : List Byte) : Nat :=
  match n, s with
  | 1, b0 :: _ => b0.val
  | 2, b0 :: b1 :: _ => b0.val % 32 * 64 + b1.val % 64
  | 3, b0 :: b1 :: b2 :: _ => b0.val % 16 * 4096 + b1.val % 64 * 64 + b2.val % 64
  | 4, b0 :: b1 :: b2 :: b3 :: _ =>
    b0.val % 8 * 262144 + b1.val % 64 * 4096 + b2.val % 64 * 64 + b3.val % 64
  | _, _ => 0

/-- The first `n` bytes of `s` are a valid UTF-8 sequence when they are the
encoding of a scalar value (RFC 3629: a code point has one encoding, the
shortest, and surrogates and values beyond U+10FFFF have none); then the
scalar value and `n`. -/
def sequenceOfLength (n : Nat) (s : List Byte) : Option (Nat × Nat) :=
  if n ≤ s.length ∧ isScalar (payload n s) ∧ encodeRune (payload n s) = s.take n then
    some (payload n s, n)
  else none

/-- The valid UTF-8 sequence the input starts with: its scalar value and its
length, from 1 to 4; `none` when the input starts with no valid sequence. -/
def firstSequence (s : List Byte) : Option (Nat × Nat) :=
  match sequenceOfLength 1 s with
  | some x => some x
  | none =>
    match sequenceOfLength 2 s with
    | some x => some x
    | none =>
      match sequenceOfLength 3 s with
      | some x => some x
      | none => sequenceOfLength 4 s

/-- The input with every byte that is not part of a valid UTF-8 sequence
replaced by the encoding of U+FFFD: the input is read from the left, a valid
sequence is kept, a byte at which no valid sequence starts is replaced.
`skip` counts the bytes of a kept sequence still to pass over. -/
def toValidFrom : Nat → List Byte → List Byte
  | _, [] => []
  | skip + 1, _ :: t => toValidFrom skip t
  | 0, c :: t =>
    match firstSequence (c :: t) with
    | none => [0xEF, 0xBF, 0xBD] ++ toValidFrom 0 t
    | some x => (c :: t).take x.2 ++ toValidFrom (x.2 - 1) t

/-- The input with every byte that is not part of a valid UTF-8 sequence
replaced by U+FFFD. -/
def toValidUTF8 (s : List Byte) : List Byte := toValidFrom 0 s

/-- Whether the input, read from the left, consists of valid UTF-8 sequences
only. -/
def validFrom : Nat → List Byte → Bool
  | _, [] => true
  | skip + 1, _ :: t => validFrom skip t
  | 0, c :: t =>
    match firstSequence (c :: t) with
    | none => false
    | some x => validFrom (x.2 - 1) t

/-- The input is valid UTF-8. -/
def ValidUTF8 (s : List Byte) : Prop := validFrom 0 s = true

instance (s : List Byte) : Decidable (ValidUTF8 s) :=
  inferInstanceAs (Decidable (validFrom 0 s = true))

/-- The value of a hexadecimal digit, in either case. -/
def hexVal (c : Byte) : Option Nat :=
  if 48 ≤ c.val ∧ c.val ≤ 57 then some (c.val - 48)
  else if 97 ≤ c.val ∧ c.val ≤ 102 then some (c.val - 97 + 10)
  else if 65 ≤ c.val ∧ c.val ≤ 70 then some (c.val - 65 + 10)
  else none

/-- The code unit written by the four hexadecimal digits of a `\u` escape. -/
def hex4 (a b c d : Byte) : Option Nat :=
  match hexVal a, hexVal b, hexVal c, hexVal d with
  | some x, some y, some z, some w => some (x * 4096 + y * 256 + z * 16 + w)
  | _, _, _, _ => none

/-- RFC 8259 section 7: the character of a two-character escape. -/
def simpleEscape (e : Byte) : Option Byte :=
  if e = 34 then some 34
  else if e = 92 then some 92
  else if e = 47 then some 47
  else if e = 98 then some 8
  else if e = 102 then some 12
  else if e = 110 then some 10
  else if e = 114 then some 13
  else if e = 116 then some 9
  else none

/-- After a `\u` escape giving the high surrogate `hi`: when the text goes
on with a `\u` escape giving a low surrogate, the code point of the pair and
the text after it. -/
def surrogatePair (hi : Nat) (t : List Byte) : Option (Nat × List Byte) :=
  match t with
  | 92 :: 117 :: a :: b :: c :: d :: t' =>
    match hex4 a b c d with
    | some lo =>
      if hi < 0xDC00 ∧ 0xDC00 ≤ lo ∧ lo < 0xE000 then
        some (0x10000 + (hi - 0xD800) * 1024 + (lo - 0xDC00), t')
      else none
    | none => none
  | _ => none

/-- The body of a JSON string literal, after the opening quote, read by a
standard parser (RFC 8259 section 7, with the treatment of invalid input of
Go's `encoding/json`): a raw byte from 0x20 on other than quote and backslash
stands for itself, invalid UTF-8 is replaced by U+FFFD, a two-character escape
stands for its character, a `\u` escape for the UTF-8 encoding of its code
point (a surrogate pair for one code point, a lone surrogate for U+FFFD); the
closing quote must end the text.  One unit of fuel per token. -/
def unquoteBody : Nat → List Byte → Option (List Byte)
  | 0, _ => none
  | _ + 1, [] => none
  | fuel + 1, c :: t =>
    if c = 34 then (if t = [] then some [] else none)
    else if c = 92 then
      match t with
      | [] => none
      | e :: t1 =>
        if e = 117 then
          match t1 with
          | h1 :: h2 :: h3 :: h4 :: t2 =>
            match hex4 h1 h2 h3 h4 with
            | none => none
            | some cp =>
              if 0xD800 ≤ cp ∧ cp < 0xE000 then
                match surrogatePair cp t2 with
                | some pair => (unquoteBody fuel pair.2).map (fun l => encodeRune pair.1 ++ l)
                | none => (unquoteBody fuel t2).map (fun l => encodeRune 0xFFFD ++ l)
              else (unquoteBody fuel t2).map (fun l => encodeRune cp ++ l)
          | _ => none
        else
          match simpleEscape e with
          | some b => (unquoteBody fuel t1).map (fun l => b :: l)
          | none => none
    else if c.val < 0x20 then none
    else if c.val < 0x80 then (unquoteBody fuel t).map (fun l => c :: l)
    else
      match firstSequence (c :: t) with
      | none => (unquoteBody fuel t).map (fun l => [0xEF, 0xBF, 0xBD] ++ l)
      | some x => (unquoteBody fuel ((c :: t).drop x.2)).map (fun l => (c :: t).take x.2 ++ l)

/-- A JSON string literal read by a standard parser: the bytes it stands
for, or `none` when the text is not a string literal. -/
def jsonUnquote (text : List Byte) : Option (List Byte) :=
  match text with
  | 34 :: t => unquoteBody (t.length + 1) t
  | _ => none

/-- The lowercase hexadecimal digit of a value below 16. -/
def lowerHex (n : Nat) : Byte := if n < 10 then byteOf (48 + n) else byteOf (87 + n)

/-- What the specification says `String` writes between the quotes for the
one-byte string `b`: a two-character escape for tab, newline, carriage
return, backslash and double quote; `\u00XX` with lowercase hexadecimal
digits for every other byte below 0x20, and for `&`, `<`, `>` when HTML
escaping is on; `\ufffd` for a byte from 0x80 on; the byte itself otherwise. -/
def oneByteText (noEscapeHTML : Bool) (b : Byte) : List Byte :=
  if b = 9 then [92, 116]
  else if b = 10 then [92, 110]
  else if b = 13 then [92, 114]
  else if b = 92 then [92, 92]
  else if b = 34 then [92, 34]
  else if b.val < 0x20 ∨ (noEscapeHTML = false ∧ (b = 38 ∨ b = 60 ∨ b = 62)) then
    [92, 117, 48, 48, lowerHex (b.val / 16), lowerHex (b.val % 16)]
  else if 0x80 ≤ b.val then [92, 117, 102, 102, 102, 100]
  else [b]

/-- What the specification says `MarshalUnknowns` writes: one member per
captured field, each the escaped key, a colon and the raw captured value,
with a comma before every member but the first, and before the first one too
when `first` is false. -/
def membersText (noEscapeHTML : Bool) : Bool → List (List Byte × List Byte) → List Byte
  | _, [] => []
  | first, (key, val) :: rest =>
    (if first then [] else [44]) ++ (jwriter.stringText noEscapeHTML key ++ ([58] ++ val)) ++
      membersText noEscapeHTML false rest

end Spec

/-! ## What a marshaler's calls append -/

namespace easyjson

open jwriter buffer

/-- The bytes one call appends, read off the method it names: the data
itself for the raw calls, the decimal text for the integers, the pre-formatted
text for the floats, the literal for booleans, the quoted and escaped text
for strings, the quoted RFC 4648 encoding for byte slices; a call that is
passed a non-nil error appends nothing. -/
def callText (noEscapeHTML : Bool) : Call → List Byte
  | .Flags => []
  | .RawByte c => [c]
  | .RawBytes d => d
  | .RawBytesWithErr d e => if e = none then d else []
  | .RawTextWithErr d e => if e = none then stringText noEscapeHTML d else []
  | .RawString s => s
  | .Base64Bytes none => [110, 117, 108, 108]
  | .Base64Bytes (some d) => [34] ++ (Spec.base64Encode d ++ [34])
  | .Uint8 n => formatUint n
  | .Uint16 n => formatUint n
  | .Uint32 n => formatUint n
  | .Uint n => formatUint n
  | .Uint64 n => formatUint n
  | .Int8 n => formatInt n
  | .Int16 n => formatInt n
  | .Int32 n => formatInt n
  | .Int n => formatInt n
  | .Int64 n => formatInt n
  | .Uint8Str n => [34] ++ (formatUint n ++ [34])
  | .Uint16Str n => [34] ++ (formatUint n ++ [34])
  | .Uint32Str n => [34] ++ (formatUint n ++ [34])
  | .UintStr n => [34] ++ (formatUint n ++ [34])
  | .Uint64Str n => [34] ++ (formatUint n ++ [34])
  | .UintptrStr n => [34] ++ (formatUint n ++ [34])
  | .Int8Str n => [34] ++ (formatInt n ++ [34])
  | .Int16Str n => [34] ++ (formatInt n ++ [34])
  | .Int32Str n => [34] ++ (formatInt n ++ [34])
  | .IntStr n => [34] ++ (formatInt n ++ [34])
  | .Int64Str n => [34] ++ (formatInt n ++ [34])
  | .Float32 t => t
  | .Float32Str t => [34] ++ (t ++ [34])
  | .Float64 t => t
  | .Float64Str t => [34] ++ (t ++ [34])
  | .Bool v => if v then [116, 114, 117, 101] else [102, 97, 108, 115, 101]
  | .String s => stringText noEscapeHTML s

/-- The bytes a sequence of calls appends, in order. -/
def callsText (noEscapeHTML : Bool) (calls : List Call) : List Byte :=
  (calls.map (callText noEscapeHTML)).flatten

/-- An example marshaler: it writes `{"a":-12,"b":"/w=="}`. -/
def exampleMarshaler : Marshaler :=
  { calls := [.RawByte 123, .String [97], .RawByte 58, .Int8 (-12), .RawByte 44, .String [98],
      .RawByte 58, .Base64Bytes (some [255]), .RawByte 125],
    ret := none }

/-- An example marshaler of a struct without exported fields: it writes
`{}`. -/
def emptyObjectMarshaler : Marshaler := { calls := [.RawString [123, 125]], ret := none }

/-- An example marshaler that writes nothing and returns nil. -/
def silentMarshaler : Marshaler := { calls := [], ret := none }

/-- An example marshaler that fails after writing one byte. -/
def failingMarshaler : Marshaler := { calls := [.RawByte 123], ret := some "cycle" }

end easyjson

end Easyjson

/-! # Theorems -/

namespace Easyjson

namespace buffer

/-! ### Lemmas on the buffer -/

theorem chunk_append_data (c : Chunk) (d : List Byte) : (c.append d).data = c.data ++ d := by
  unfold Chunk.append; split <;> rfl

theorem chunk_append_id (c : Chunk) (d : List Byte) : (c.append d).id = c.id := by
  unfold Chunk.append; split <;> rfl

theorem chunk_append_cap_le (c : Chunk) (d : List Byte) : c.cap ≤ (c.append d).cap := by
  unfold Chunk.append; split
  · exact le_refl _
  · show c.cap ≤ max _ _
    omega

theorem chunk_append_cap_fit (c : Chunk) (d : List Byte) (h : c.data.length + d.length ≤ c.cap) :
    (c.append d).cap = c.cap := by
  unfold Chunk.append; rw [if_pos h]

theorem content_some (c : Chunk) (bs : List Chunk) :
    Buffer.content { buf := some c, bufs := bs } = (bs.map Chunk.data).flatten ++ c.data := rfl

theorem getBuf_data (p : Pool) : (getBuf p).1.data = [] := by
  unfold getBuf; split <;> rfl

theorem getBuf_pooled (p : Pool) : (getBuf p).2.PooledSize = p.PooledSize := by
  unfold getBuf; split <;> rfl

theorem getBuf_released (p : Pool) : (getBuf p).2.released = p.released := by
  unfold getBuf; split <;> rfl

/-- A chunk taken from the pool either shortens the idle list or is a new
one of capacity `PooledSize`. -/
theorem getBuf_measure (p : Pool) :
    ((getBuf p).2.free.length + 1 = p.free.length) ∨
    ((getBuf p).2.free.length = p.free.length ∧ (getBuf p).1.cap = p.PooledSize) := by
  unfold getBuf; split
  · left; simp_all
  · right; simp_all

theorem size_eq_content_length (c : Chunk) (bs : List Chunk) :
    Size { buf := some c, bufs := bs } = .ok (Buffer.content { buf := some c, bufs := bs }).length := by
  have key : ∀ (l : List Chunk) (n : Nat),
      l.foldl (fun size buf => size + buf.data.length) n = n + (l.map Chunk.data).flatten.length := by
    intro l
    induction l with
    | nil => intro n; simp
    | cons x xs ih => intro n; simp [ih]; omega
  simp only [Size, content_some, key, List.length_append]
  congr 1
  omega

/-- What `EnsureSpace` does when it does not abort. -/
theorem ensureSpace_spec (s : Nat) (st : BState) (hwf : st.2.WF)
    (h : st.2.buf = none → s ≤ st.1.PooledSize) :
    ∃ p c bs, EnsureSpace s st = .ok (p, { buf := some c, bufs := bs }) ∧
      Buffer.content { buf := some c, bufs := bs } = st.2.content ∧
      p.PooledSize = st.1.PooledSize ∧
      ((p = st.1 ∧ st.2 = { buf := some c, bufs := bs } ∧ s ≤ c.cap - c.data.length) ∨
       (c.data = [] ∧ (p.free.length + 1 = st.1.free.length ∨
          (p.free.length = st.1.free.length ∧ c.cap = p.PooledSize)))) := by
  obtain ⟨p0, b0⟩ := st
  obtain ⟨buf0, bufs0⟩ := b0
  cases buf0 with
  | none =>
    have hb : bufs0 = [] := hwf rfl
    subst hb
    have hs : ¬ s > p0.PooledSize := by
      have := h rfl
      simp only at this
      omega
    refine ⟨(getBuf p0).2, (getBuf p0).1, [], ?_, ?_, getBuf_pooled p0, Or.inr ⟨getBuf_data p0, ?_⟩⟩
    · simp only [EnsureSpace, hs, if_false]
    · simp [Buffer.content, getBuf_data]
    · rcases getBuf_measure p0 with h1 | ⟨h1, h2⟩
      · exact Or.inl h1
      · exact Or.inr ⟨h1, by rw [h2, getBuf_pooled]⟩
  | some c0 =>
    by_cases hc : c0.cap - c0.data.length < s
    · refine ⟨(getBuf p0).2, (getBuf p0).1, bufs0 ++ [c0], ?_, ?_, getBuf_pooled p0,
        Or.inr ⟨getBuf_data p0, ?_⟩⟩
      · simp only [EnsureSpace, hc, if_true]
      · simp [Buffer.content, getBuf_data]
      · rcases getBuf_measure p0 with h1 | ⟨h1, h2⟩
        · exact Or.inl h1
        · exact Or.inr ⟨h1, by rw [h2, getBuf_pooled]⟩
    · refine ⟨p0, c0, bufs0, ?_, rfl, rfl, Or.inl ⟨rfl, rfl, by omega⟩⟩
      simp only [EnsureSpace, hc, if_false]

theorem ready_append (p : Pool) (c : Chunk) (bs : List Chunk) (d : List Byte) :
    Ready (p, { buf := some (c.append d), bufs := bs }) := by
  refine ⟨_, _, rfl, ?_⟩
  unfold Chunk.append
  split
  · simpa using (by assumption)
  · simp only [List.length_append]
    exact le_max_left _ _

theorem ready_wf {st : BState} (h : Ready st) : st.2.WF := by
  obtain ⟨c, bs, hc, _⟩ := h
  intro hn
  rw [hc] at hn
  cases hn

theorem appended_wf {d : List Byte} {st st' : BState} (h : Appended d st st') : st'.2.WF :=
  ready_wf h.1

theorem appended_trans {d e : List Byte} {st st' st'' : BState}
    (h1 : Appended d st st') (h2 : Appended e st' st'') : Appended (d ++ e) st st'' := by
  obtain ⟨_, a2, a3, a4⟩ := h1
  obtain ⟨b1, b2, b3, b4⟩ := h2
  exact ⟨b1, by rw [b2, a2, List.append_assoc], by rw [b3, a3], by rw [b4, a4]⟩

theorem appended_refl {st : BState} (h : Ready st) : Appended [] st st :=
  ⟨h, by simp, rfl, rfl⟩

theorem ensureSpace_released (s : Nat) (st st' : BState) (h : EnsureSpace s st = .ok st') :
    st'.1.released = st.1.released := by
  unfold EnsureSpace at h
  split at h
  · split at h
    · cases h
    · cases h; exact getBuf_released _
  · split at h
    · cases h; exact getBuf_released _
    · cases h; rfl

theorem appendToBuf_some (d : List Byte) (p : Pool) (c : Chunk) (bs : List Chunk) :
    appendToBuf d (p, { buf := some c, bufs := bs }) =
      .ok (p, { buf := some (c.append d), bufs := bs }) := rfl

theorem content_append_chunk (c : Chunk) (bs : List Chunk) (d : List Byte) :
    Buffer.content { buf := some (c.append d), bufs := bs } =
      Buffer.content { buf := some c, bufs := bs } ++ d := by
  simp [Buffer.content, chunk_append_data]

/-- The slow loop, given enough fuel, finishes and appends exactly `data`. -/
theorem appendBytesSlow_spec : ∀ (fuel : Nat) (data : List Byte) (st : BState),
    st.2.WF → 1 ≤ st.1.PooledSize → data.length + st.1.free.length + 1 ≤ fuel →
    ∃ st', appendBytesSlow fuel data st = .ok st' ∧
      st'.2.content = st.2.content ++ data ∧ st'.2.WF ∧
      st'.1.PooledSize = st.1.PooledSize ∧ st'.1.released = st.1.released ∧
      (Ready st ∨ data ≠ [] → Ready st') := by
  intro fuel
  induction fuel with
  | zero => intro data st _ _ h; omega
  | succ fuel ih =>
    intro data st hwf hp hf
    by_cases hd : data.length > 0
    · obtain ⟨p, c, bs, he, hcont, hps, hcase⟩ :=
        ensureSpace_spec 1 st hwf (fun _ => hp)
      have hrel := ensureSpace_released 1 st _ he
      let sz := if c.cap - c.data.length > data.length then data.length
                else c.cap - c.data.length
      have hstep : appendBytesSlow (fuel + 1) data st =
          appendBytesSlow fuel (data.drop sz) (p, { buf := some (c.append (data.take sz)), bufs := bs }) := by
        simp only [appendBytesSlow, hd, if_true, he, bind, Except.bind, appendToBuf_some, sz]
      have hszle : sz ≤ data.length := by
        simp only [sz]; split <;> omega
      have hmeasure : (data.drop sz).length + p.free.length + 1 ≤ fuel := by
        rw [List.length_drop]
        rcases hcase with ⟨h1, _, h3⟩ | ⟨h1, h2⟩
        · have : 1 ≤ sz := by simp only [sz]; split <;> omega
          rw [h1]; omega
        · rcases h2 with h2 | ⟨h2, h3⟩
          · omega
          · have : 1 ≤ sz := by
              simp only [sz, h1, List.length_nil, Nat.sub_zero]
              split <;> omega
            omega
      have hwf' : Buffer.WF (p, ({ buf := some (c.append (data.take sz)), bufs := bs } : Buffer)).2 := by
        intro hn; cases hn
      obtain ⟨st', hr, hc', hw', hp', hrel', hsome'⟩ :=
        ih (data.drop sz) (p, { buf := some (c.append (data.take sz)), bufs := bs }) hwf'
          (by simpa [hps] using hp) hmeasure
      refine ⟨st', by rw [hstep, hr], ?_, hw', by rw [hp']; exact hps, by rw [hrel']; exact hrel, ?_⟩
      · rw [hc']
        show Buffer.content { buf := some (c.append (data.take sz)), bufs := bs } ++ _ = _
        rw [content_append_chunk, hcont, List.append_assoc, List.take_append_drop]
      · intro _
        exact hsome' (Or.inl (ready_append _ _ _ _))
    · have hnil : data = [] := by
        cases data with
        | nil => rfl
        | cons x xs => simp at hd
      subst hnil
      refine ⟨st, by simp [appendBytesSlow], by simp, hwf, rfl, rfl, ?_⟩
      intro h
      rcases h with h | h
      · exact h
      · exact absurd rfl h

theorem appendStringSlow_eq : ∀ (fuel : Nat) (data : List Byte) (st : BState),
    appendStringSlow fuel data st = appendBytesSlow fuel data st := by
  intro fuel
  induction fuel with
  | zero => intro data st; rfl
  | succ fuel ih =>
    intro data st
    simp only [appendStringSlow, appendBytesSlow, ih]

theorem AppendString_eq (data : List Byte) (st : BState) :
    AppendString data st = AppendBytes data st := by
  simp only [AppendString, AppendBytes, appendStringSlow_eq]

/-- `AppendBytes` on a reachable buffer, with a pool that can serve
`EnsureSpace(1)`, appends exactly `data`. -/
theorem AppendBytes_spec (data : List Byte) (st : BState) (hwf : st.2.WF)
    (hp : 1 ≤ st.1.PooledSize) :
    ∃ st', AppendBytes data st = .ok st' ∧ Appended data st st' := by
  obtain ⟨p, c, bs, he, hcont, hps, hcase⟩ := ensureSpace_spec 1 st hwf (fun _ => hp)
  have hrel := ensureSpace_released 1 st _ he
  have hcwf : c.data.length ≤ c.cap := by
    rcases hcase with ⟨_, _, h3⟩ | ⟨h1, _⟩
    · omega
    · simp [h1]
  by_cases hfit : data.length ≤ c.cap - c.data.length
  · refine ⟨(p, { buf := some (c.append data), bufs := bs }), ?_, ready_append _ _ _ _, ?_, hps, hrel⟩
    · simp only [AppendBytes, he, bind, Except.bind, hfit, if_true, appendToBuf_some]
    · show Buffer.content { buf := some (c.append data), bufs := bs } = _
      rw [content_append_chunk, hcont]
  · have hwf' : Buffer.WF (p, ({ buf := some c, bufs := bs } : Buffer)).2 := by
      intro hn; cases hn
    obtain ⟨st', hr, hc', _, hp', hrel', hsome'⟩ :=
      appendBytesSlow_spec (slowFuel data p) data (p, { buf := some c, bufs := bs }) hwf'
        (by simpa [hps] using hp) (le_refl _)
    refine ⟨st', ?_, hsome' (Or.inl ⟨c, bs, rfl, hcwf⟩), ?_, by rw [hp']; exact hps, by rw [hrel']; exact hrel⟩
    · simp only [AppendBytes, he, bind, Except.bind, hfit, if_false, hr]
    · rw [hc']
      show Buffer.content { buf := some c, bufs := bs } ++ _ = _
      rw [hcont]

theorem AppendString_spec (data : List Byte) (st : BState) (hwf : st.2.WF)
    (hp : 1 ≤ st.1.PooledSize) :
    ∃ st', AppendString data st = .ok st' ∧ Appended data st st' := by
  rw [AppendString_eq]; exact AppendBytes_spec data st hwf hp

theorem AppendByte_spec (x : Byte) (st : BState) (hwf : st.2.WF) (hp : 1 ≤ st.1.PooledSize) :
    ∃ st', AppendByte x st = .ok st' ∧ Appended [x] st st' := by
  obtain ⟨p, c, bs, he, hcont, hps, _⟩ := ensureSpace_spec 1 st hwf (fun _ => hp)
  have hrel := ensureSpace_released 1 st _ he
  refine ⟨(p, { buf := some (c.append [x]), bufs := bs }), ?_, ready_append _ _ _ _, ?_, hps, hrel⟩
  · simp only [AppendByte, he, bind, Except.bind, appendToBuf_some]
  · show Buffer.content { buf := some (c.append [x]), bufs := bs } = _
    rw [content_append_chunk, hcont]


theorem AppendBytes_emits (data : List Byte) : Emits (AppendBytes data) data :=
  fun st hwf hp => AppendBytes_spec data st hwf hp

theorem AppendString_emits (data : List Byte) : Emits (AppendString data) data :=
  fun st hwf hp => AppendString_spec data st hwf hp

theorem AppendByte_emits (x : Byte) : Emits (AppendByte x) [x] :=
  fun st hwf hp => AppendByte_spec x st hwf hp

theorem emits_toR {f : BState → Except Fault BState} {d : List Byte} (h : Emits f d) :
    EmitsR f d :=
  fun st hr hp => h st (ready_wf hr) hp

/-- Sequencing: `f` then `g` appends what `f` appends followed by what `g`
appends. -/
theorem emits_seq {f g : BState → Except Fault BState} {d e : List Byte}
    (hf : Emits f d) (hg : EmitsR g e) : Emits (fun st => f st >>= g) (d ++ e) := by
  intro st hwf hp
  obtain ⟨st1, h1, a1⟩ := hf st hwf hp
  obtain ⟨st2, h2, a2⟩ := hg st1 a1.1 (by rw [a1.2.2.1]; exact hp)
  exact ⟨st2, by simp only [h1, bind, Except.bind, h2], appended_trans a1 a2⟩

theorem emitsR_seq {f g : BState → Except Fault BState} {d e : List Byte}
    (hf : EmitsR f d) (hg : EmitsR g e) : EmitsR (fun st => f st >>= g) (d ++ e) := by
  intro st hr hp
  obtain ⟨st1, h1, a1⟩ := hf st hr hp
  obtain ⟨st2, h2, a2⟩ := hg st1 a1.1 (by rw [a1.2.2.1]; exact hp)
  exact ⟨st2, by simp only [h1, bind, Except.bind, h2], appended_trans a1 a2⟩

/-- With an active chunk in place `EnsureSpace` never aborts, whatever the
size asked for, and leaves the content alone. -/
theorem EnsureSpace_emitsR (s : Nat) : EmitsR (EnsureSpace s) [] := by
  intro st hr _
  obtain ⟨c, bs, hst, hc⟩ := hr
  obtain ⟨p, b⟩ := st
  simp only at hst
  subst hst
  by_cases h : c.cap - c.data.length < s
  · refine ⟨((getBuf p).2, { buf := some (getBuf p).1, bufs := bs ++ [c] }), ?_, ?_, ?_,
      getBuf_pooled p, getBuf_released p⟩
    · simp only [EnsureSpace, h, if_true]
    · exact ⟨_, _, rfl, by simp [getBuf_data]⟩
    · simp [Buffer.content, getBuf_data]
  · exact ⟨(p, { buf := some c, bufs := bs }), by simp only [EnsureSpace, h, if_false],
      appended_refl ⟨c, bs, rfl, hc⟩⟩

theorem appendToBuf_emitsR (d : List Byte) : EmitsR (appendToBuf d) d := by
  intro st hr _
  obtain ⟨c, bs, hst, _⟩ := hr
  obtain ⟨p, b⟩ := st
  simp only at hst
  subst hst
  exact ⟨_, appendToBuf_some d p c bs, ready_append _ _ _ _, content_append_chunk c bs d, rfl, rfl⟩

/-- The numeric appends, called with an active chunk in place, append the
formatted text, whatever the digit budget. -/
theorem appendFormatted_emitsR (text : List Byte) (dataSize : Nat) :
    EmitsR (appendFormatted text dataSize) text := by
  intro st hr hp
  obtain ⟨c, bs, hst, hc⟩ := hr
  obtain ⟨p, b⟩ := st
  simp only at hst
  subst hst
  by_cases h : dataSize > c.cap - c.data.length
  · obtain ⟨st1, h1, a1⟩ := EnsureSpace_emitsR dataSize (p, { buf := some c, bufs := bs })
      ⟨c, bs, rfl, hc⟩ hp
    obtain ⟨st2, h2, a2⟩ := appendToBuf_emitsR text st1 a1.1 (by rw [a1.2.2.1]; exact hp)
    refine ⟨st2, ?_, by simpa using appended_trans a1 a2⟩
    simp only [appendFormatted, h, if_true, h1, bind, Except.bind, h2]
  · obtain ⟨st2, h2, a2⟩ := appendToBuf_emitsR text (p, { buf := some c, bufs := bs })
      ⟨c, bs, rfl, hc⟩ hp
    refine ⟨st2, ?_, a2⟩
    simp only [appendFormatted, h, if_false, bind, Except.bind, h2]

theorem write_accepting (w : Sink) (hw : w.accepting) (d : List Byte) :
    (w.Write d).1 = (d.length, none) ∧ (w.Write d).2.received = w.received ++ d ∧
      (w.Write d).2.accepting := by
  obtain ⟨rc, sc⟩ := w
  cases sc with
  | nil => exact ⟨rfl, rfl, hw⟩
  | cons r rest =>
    have hr := hw r (List.mem_cons_self _ _)
    have hrest : Sink.accepting { received := rc ++ d, script := rest } :=
      fun x hx => hw x (List.mem_cons_of_mem _ hx)
    obtain ⟨rn, re⟩ := r
    simp only at hr
    obtain ⟨h1, h2⟩ := hr
    subst h1; subst h2
    refine ⟨by simp [Sink.Write], by simp [Sink.Write], ?_⟩
    simpa [Sink.Write] using hrest

theorem dumpLoop_accepting : ∀ (l : List Chunk) (written : Nat) (w : Sink), w.accepting →
    (dumpLoop l written w).1 = .ok (written + (l.map Chunk.data).flatten.length) ∧
    (dumpLoop l written w).2.received = w.received ++ (l.map Chunk.data).flatten ∧
    (dumpLoop l written w).2.accepting := by
  intro l
  induction l with
  | nil => intro written w hw; exact ⟨by simp [dumpLoop], by simp [dumpLoop], hw⟩
  | cons x xs ih =>
    intro written w hw
    obtain ⟨h1, h2, h3⟩ := write_accepting w hw x.data
    obtain ⟨i1, i2, i3⟩ := ih (written + x.data.length) (w.Write x.data).2 h3
    have hn : (w.Write x.data).1.2 = none := by rw [h1]
    have hk : (w.Write x.data).1.1 = x.data.length := by rw [h1]
    simp only [dumpLoop, hn, hk]
    refine ⟨?_, ?_, i3⟩
    · rw [i1]; simp [Nat.add_assoc]
    · rw [i2, h2]; simp

/-- `DumpTo` on a buffer with an active chunk and an accepting sink. -/
theorem DumpTo_accepting (w : Sink) (hw : w.accepting) (p : Pool) (c : Chunk) (bs : List Chunk)
    (hc : c.data.length ≤ c.cap) :
    ∃ w', DumpTo w (p, { buf := some c, bufs := bs }) =
        .ok (((Buffer.content { buf := some c, bufs := bs }).length, none), w',
             (putBuf (putBufs p bs) c, { buf := none, bufs := [] })) ∧
      w'.received = w.received ++ Buffer.content { buf := some c, bufs := bs } ∧
      w'.accepting := by
  obtain ⟨i1, i2, i3⟩ := dumpLoop_accepting bs 0 w hw
  rcases hd : dumpLoop bs 0 w with ⟨res, w1⟩
  rw [hd] at i1 i2 i3
  simp only at i1 i2 i3
  subst i1
  by_cases hcap : c.cap > 0
  · obtain ⟨h1, h2, h3⟩ := write_accepting w1 i3 c.data
    refine ⟨(w1.Write c.data).2, ?_, ?_, h3⟩
    · have hn : (w1.Write c.data).1.2 = none := by rw [h1]
      have hk : (w1.Write c.data).1.1 = c.data.length := by rw [h1]
      simp only [DumpTo, hd, hcap, if_true, hn, hk, content_some, List.length_append, Nat.zero_add]
    · rw [h2, i2, content_some, List.append_assoc]
  · have hlen : c.data = [] := by
      have : c.data.length = 0 := by omega
      exact List.length_eq_zero.mp this
    refine ⟨w1, ?_, ?_, i3⟩
    · simp only [DumpTo, hd, hcap, if_false, content_some, hlen, List.append_nil, Nat.zero_add]
    · rw [i2, content_some, hlen, List.append_nil]

theorem copyAt_fill (pre src : List Byte) (k : Nat) (h : src.length ≤ k) :
    copyAt (pre ++ List.replicate k 0) pre.length src =
      (pre ++ src ++ List.replicate (k - src.length) 0, src.length) := by
  have hmin : min (k) src.length = src.length := Nat.min_eq_right h
  simp only [copyAt, List.length_append, List.length_replicate, Nat.add_sub_cancel_left, hmin,
    List.take_left', List.take_length, Prod.mk.injEq, and_true]
  rw [List.append_assoc, List.append_assoc]
  congr 2
  rw [List.drop_append, List.drop_replicate]

theorem buildLoop_fill : ∀ (l : List Chunk) (pre : List Byte) (k : Nat) (p : Pool),
    (l.map Chunk.data).flatten.length ≤ k →
    buildLoop l (pre ++ List.replicate k 0) pre.length p =
      (pre ++ (l.map Chunk.data).flatten ++ List.replicate (k - (l.map Chunk.data).flatten.length) 0,
       pre.length + (l.map Chunk.data).flatten.length, putBufs p l) := by
  intro l
  induction l with
  | nil => intro pre k p _; simp [buildLoop, putBufs]
  | cons x xs ih =>
    intro pre k p hk
    simp only [List.map_cons, List.flatten_cons, List.length_append] at hk
    have hx : x.data.length ≤ k := by omega
    have hxs : (xs.map Chunk.data).flatten.length ≤ k - x.data.length := by omega
    have h1 := ih (pre ++ x.data) (k - x.data.length) (putBuf p x) hxs
    simp only [List.length_append] at h1
    simp only [buildLoop, copyAt_fill pre x.data k hx]
    rw [h1]
    simp only [List.map_cons, List.flatten_cons, List.length_append, putBufs, List.foldl_cons,
      List.append_assoc, Prod.mk.injEq, and_true]
    refine ⟨?_, by omega⟩
    congr 4
    omega

/-- `BuildBytes` on a buffer with an active chunk: the array returned is the
logical content; the state afterwards depends on the branch taken. -/
theorem BuildBytes_spec (p : Pool) (c : Chunk) (bs : List Chunk) :
    BuildBytes (p, { buf := some c, bufs := bs }) =
      .ok (Buffer.content { buf := some c, bufs := bs },
        if bs = [] then (putBuf p c, { buf := some c, bufs := [] })
        else (putBuf (putBufs p bs) c, { buf := none, bufs := [] })) := by
  cases bs with
  | nil =>
    have h := copyAt_fill [] c.data c.data.length (le_refl _)
    simp only [List.nil_append, List.length_nil, Nat.sub_self, List.replicate_zero,
      List.append_nil] at h
    simp [BuildBytes, h, Buffer.content]
  | cons b bs =>
    have hne : ¬ ((b :: bs).length = 0) := by simp
    have hsz := size_eq_content_length c (b :: bs)
    have hl := buildLoop_fill (b :: bs) [] (Buffer.content { buf := some c, bufs := b :: bs }).length p
      (by rw [content_some, List.length_append]; omega)
    simp only [List.nil_append, List.length_nil, Nat.zero_add] at hl
    have hk : (Buffer.content { buf := some c, bufs := b :: bs }).length -
        ((b :: bs).map Chunk.data).flatten.length = c.data.length := by
      rw [content_some, List.length_append]; omega
    rw [hk] at hl
    have hc := copyAt_fill (((b :: bs).map Chunk.data).flatten) c.data c.data.length (le_refl _)
    simp only [Nat.sub_self, List.replicate_zero, List.append_nil] at hc
    unfold BuildBytes
    simp only [hne, if_false, hsz, bind, Except.bind]
    rw [hl]
    simp only [hc]
    rw [content_some]
    simp

theorem putBuf_pooled (p : Pool) (c : Chunk) : (putBuf p c).PooledSize = p.PooledSize := rfl

theorem putBufs_pooled : ∀ (l : List Chunk) (p : Pool), (putBufs p l).PooledSize = p.PooledSize := by
  intro l
  induction l with
  | nil => intro p; rfl
  | cons x xs ih => intro p; simp only [putBufs, List.foldl_cons] at ih ⊢; rw [ih]; rfl

theorem content_drained : Buffer.content { buf := none, bufs := [] } = [] := rfl

theorem ok_bind {α β : Type} (a : α) (f : α → Except Fault β) : (Except.ok a >>= f) = f a := rfl

theorem error_bind {α β : Type} (e : Fault) (f : α → Except Fault β) :
    ((Except.error e : Except Fault α) >>= f) = Except.error e := rfl

/-- When `EnsureSpace` returns, its precondition held. -/
theorem ensureSpace_ok_pre (s : Nat) (st st' : BState) (h : EnsureSpace s st = .ok st') :
    st.2.buf = none → s ≤ st.1.PooledSize := by
  intro hn
  by_contra hlt
  have hgt : s > st.1.PooledSize := by omega
  simp only [EnsureSpace, hn, hgt, if_true] at h
  cases h

/-- The slow loop, whenever it returns, has appended exactly `data`; no
assumption on the pool. -/
theorem appendBytesSlow_partial : ∀ (fuel : Nat) (data : List Byte) (st st' : BState),
    st.2.WF → appendBytesSlow fuel data st = .ok st' →
      st'.2.content = st.2.content ++ data ∧ (Ready st ∨ data ≠ [] → Ready st') := by
  intro fuel
  induction fuel with
  | zero => intro data st st' _ h; simp only [appendBytesSlow] at h; cases h
  | succ fuel ih =>
    intro data st st' hwf h
    by_cases hd : data.length > 0
    · cases he0 : EnsureSpace 1 st with
      | error e =>
        simp only [appendBytesSlow, hd, if_true, he0, bind, Except.bind] at h
        cases h
      | ok st1 =>
        obtain ⟨p, c, bs, he, hcont, _, _⟩ :=
          ensureSpace_spec 1 st hwf (ensureSpace_ok_pre 1 st st1 he0)
        simp only [appendBytesSlow, hd, if_true, he, bind, Except.bind, appendToBuf_some] at h
        obtain ⟨h1, h2⟩ := ih _ _ st' (by intro hn; cases hn) h
        refine ⟨?_, fun _ => h2 (Or.inl (ready_append _ _ _ _))⟩
        rw [h1]
        show Buffer.content { buf := some (c.append _), bufs := bs } ++ _ = _
        rw [content_append_chunk, hcont, List.append_assoc, List.take_append_drop]
    · have hnil : data = [] := by
        cases data with
        | nil => rfl
        | cons x xs => simp at hd
      subst hnil
      simp only [appendBytesSlow, List.length_nil, gt_iff_lt, Nat.lt_irrefl, if_false,
        Except.ok.injEq] at h
      subst h
      refine ⟨by simp, fun hh => ?_⟩
      rcases hh with hh | hh
      · exact hh
      · exact absurd rfl hh

/-- `AppendBytes`, whenever it returns, has appended exactly `data`; no
assumption on the pool. -/
theorem AppendBytes_partial (data : List Byte) (st st' : BState) (hwf : st.2.WF)
    (h : AppendBytes data st = .ok st') :
    Ready st' ∧ st'.2.content = st.2.content ++ data := by
  cases he0 : EnsureSpace 1 st with
  | error e =>
    simp only [AppendBytes, he0, bind, Except.bind] at h
    cases h
  | ok st1 =>
    obtain ⟨p, c, bs, he, hcont, _, hcase⟩ :=
      ensureSpace_spec 1 st hwf (ensureSpace_ok_pre 1 st st1 he0)
    have hcwf : c.data.length ≤ c.cap := by
      rcases hcase with ⟨_, _, h3⟩ | ⟨h1, _⟩
      · omega
      · simp [h1]
    by_cases hfit : data.length ≤ c.cap - c.data.length
    · simp only [AppendBytes, he, bind, Except.bind, hfit, if_true, appendToBuf_some,
        Except.ok.injEq] at h
      subst h
      refine ⟨ready_append _ _ _ _, ?_⟩
      show Buffer.content { buf := some (c.append data), bufs := bs } = _
      rw [content_append_chunk, hcont]
    · simp only [AppendBytes, he, bind, Except.bind, hfit, if_false] at h
      obtain ⟨h1, h2⟩ := appendBytesSlow_partial _ data _ st' (by intro hn; cases hn) h
      refine ⟨h2 (Or.inl ⟨c, bs, rfl, hcwf⟩), ?_⟩
      rw [h1]
      show Buffer.content { buf := some c, bufs := bs } ++ _ = _
      rw [hcont]

/-- The digit loop writes at most `k` digits for a number below `10 ^ k`. -/
theorem fmtDigits_length : ∀ (fuel n k : Nat) (acc : List Byte), n < fuel → 1 ≤ k → n < 10 ^ k →
    (fmtDigits fuel n acc).length ≤ acc.length + k := by
  intro fuel
  induction fuel with
  | zero => intro n k acc h; omega
  | succ f ih =>
    intro n k acc hf hk hn
    by_cases h0 : n / 10 = 0
    · simp only [fmtDigits, h0, if_true, List.length_cons]; omega
    · obtain ⟨j, rfl⟩ : ∃ j, k = j + 1 := ⟨k - 1, by omega⟩
      have hj : 1 ≤ j := by
        by_contra hlt
        have : j = 0 := by omega
        subst this
        simp only [Nat.zero_add, Nat.pow_one] at hn
        omega
      have hn' : n / 10 < 10 ^ j := by
        rw [Nat.pow_succ] at hn
        omega
      have := ih (n / 10) j (byteOf (48 + n % 10) :: acc) (by omega) hj hn'
      simp only [fmtDigits, h0, if_false]
      simp only [List.length_cons] at this
      omega

theorem formatUint_length (n k : Nat) (hk : 1 ≤ k) (hn : n < 10 ^ k) :
    (formatUint n).length ≤ k := by
  have := fmtDigits_length (n + 1) n k [] (by omega) hk hn
  simpa [formatUint] using this

theorem formatInt_length (n : ℤ) (k : Nat) (hk : 1 ≤ k) (hn : n.natAbs < 10 ^ k) :
    (formatInt n).length ≤ k + 1 := by
  unfold formatInt
  split
  · simp only [List.length_cons]
    have := formatUint_length n.natAbs k hk hn
    omega
  · have h : n.toNat = n.natAbs := by omega
    rw [h]
    have := formatUint_length n.natAbs k hk hn
    omega

theorem putBufs_released : ∀ (l : List Chunk) (p : Pool),
    (putBufs p l).released = (l.map Chunk.id).reverse ++ p.released := by
  intro l
  induction l with
  | nil => intro p; rfl
  | cons x xs ih =>
    intro p
    have h : putBufs p (x :: xs) = putBufs (putBuf p x) xs := rfl
    rw [h, ih]
    simp [putBuf]

/-- The chunks passed to `putBufs` are idle in the pool afterwards, the last
one released at the head, and nothing else of the pool changes. -/
theorem putBufs_free : ∀ (l : List Chunk) (p : Pool),
    (putBufs p l).free = (l.map fun x => Idle.mk x.id x.cap).reverse ++ p.free ∧
    (putBufs p l).PooledSize = p.PooledSize ∧ (putBufs p l).nextId = p.nextId := by
  intro l
  induction l with
  | nil => intro p; exact ⟨rfl, rfl, rfl⟩
  | cons x xs ih =>
    intro p
    have h : putBufs p (x :: xs) = putBufs (putBuf p x) xs := rfl
    rw [h]
    obtain ⟨h1, h2, h3⟩ := ih (putBuf p x)
    rw [h1, h2, h3]
    simp [putBuf]

/-- `Close` releases the finalized chunks in order, then the active chunk,
and leaves the buffer empty. -/
theorem close_released (p : Pool) (b : Buffer) :
    (Close (p, b)).2 = { buf := none, bufs := [] } ∧
    (Close (p, b)).1.released =
      b.buf.toList.map Chunk.id ++ ((b.bufs.map Chunk.id).reverse ++ p.released) := by
  obtain ⟨buf, bufs⟩ := b
  cases buf with
  | none => exact ⟨rfl, by simp [Close, putBufs_released]⟩
  | some c => exact ⟨rfl, by simp [Close, putBufs_released, putBuf]⟩

/-- `Close` on a buffer that holds no chunk changes nothing. -/
theorem close_empty (p : Pool) : Close (p, { buf := none, bufs := [] }) = (p, { buf := none, bufs := [] }) :=
  rfl

theorem write_count (w : Sink) (d : List Byte) :
    (w.Write d).2.received.length = w.received.length + (w.Write d).1.1 := by
  obtain ⟨rc, sc⟩ := w
  cases sc with
  | nil => simp [Sink.Write]
  | cons r rest =>
    obtain ⟨rn, re⟩ := r
    cases rn with
    | none => simp [Sink.Write]
    | some k => simp [Sink.Write, List.length_take]

theorem write_ok_script (w : Sink) (d : List Byte) (h : (w.Write d).1.2 = none) :
    ∃ pre, w.script = pre ++ (w.Write d).2.script ∧ ∀ x ∈ pre, x.err = none := by
  obtain ⟨rc, sc⟩ := w
  cases sc with
  | nil => exact ⟨[], rfl, by simp⟩
  | cons r rest =>
    refine ⟨[r], rfl, ?_⟩
    intro x hx
    simp only [List.mem_singleton] at hx
    subst hx
    exact h

theorem write_err_script (w : Sink) (d : List Byte) (err : Err) (h : (w.Write d).1.2 = some err) :
    ∃ r, w.script = r :: (w.Write d).2.script ∧ r.err = some err := by
  obtain ⟨rc, sc⟩ := w
  cases sc with
  | nil => simp [Sink.Write] at h
  | cons r rest => exact ⟨r, rfl, h⟩

/-- The loop of `DumpTo` over the finalized chunks: when it ends, the running
total is the number of bytes the sink took; when it stops at a failing write,
the count it returns is that write's alone, and the error is the first one
the sink reported. -/
theorem dumpLoop_trace : ∀ (l : List Chunk) (written : Nat) (w : Sink),
    (∀ n w', dumpLoop l written w = (.ok n, w') →
      w'.received.length + written = w.received.length + n ∧
      ∃ pre, w.script = pre ++ w'.script ∧ ∀ x ∈ pre, x.err = none) ∧
    (∀ n err w', dumpLoop l written w = (.error (n, err), w') →
      w.received.length + n ≤ w'.received.length ∧
      ∃ pre r, w.script = pre ++ r :: w'.script ∧ (∀ x ∈ pre, x.err = none) ∧
        r.err = some err) := by
  intro l
  induction l with
  | nil =>
    intro written w
    constructor
    · intro n w' h
      simp only [dumpLoop, Prod.mk.injEq, Except.ok.injEq] at h
      obtain ⟨h1, h2⟩ := h
      subst h1 h2
      exact ⟨rfl, [], rfl, by simp⟩
    · intro n err w' h
      simp [dumpLoop] at h
  | cons x xs ih =>
    intro written w
    have hc := write_count w x.data
    cases he : (w.Write x.data).1.2 with
    | some e =>
      have hd : dumpLoop (x :: xs) written w = (.error ((w.Write x.data).1.1, e), (w.Write x.data).2) := by
        simp only [dumpLoop, he]
      obtain ⟨r, hr1, hr2⟩ := write_err_script w x.data e he
      constructor
      · intro n w' h
        rw [hd] at h
        simp at h
      · intro n err w' h
        rw [hd] at h
        simp only [Prod.mk.injEq, Except.error.injEq] at h
        obtain ⟨⟨h1, h2⟩, h3⟩ := h
        subst h1 h2 h3
        exact ⟨by omega, [], r, hr1, by simp, hr2⟩
    | none =>
      have hd : dumpLoop (x :: xs) written w =
          dumpLoop xs (written + (w.Write x.data).1.1) (w.Write x.data).2 := by
        simp only [dumpLoop, he]
      obtain ⟨pre, hp1, hp2⟩ := write_ok_script w x.data he
      obtain ⟨i1, i2⟩ := ih (written + (w.Write x.data).1.1) (w.Write x.data).2
      constructor
      · intro n w' h
        rw [hd] at h
        obtain ⟨a, pre2, b1, b2⟩ := i1 n w' h
        refine ⟨by omega, pre ++ pre2, ?_, ?_⟩
        · rw [hp1, b1, List.append_assoc]
        · intro y hy
          rcases List.mem_append.mp hy with hy | hy
          · exact hp2 y hy
          · exact b2 y hy
      · intro n err w' h
        rw [hd] at h
        obtain ⟨a, pre2, r, b1, b2, b3⟩ := i2 n err w' h
        refine ⟨by omega, pre ++ pre2, r, ?_, ?_, b3⟩
        · rw [hp1, b1, List.append_assoc]
        · intro y hy
          rcases List.mem_append.mp hy with hy | hy
          · exact hp2 y hy
          · exact b2 y hy

/-- What `DumpTo` returns, against what the sink received during the call. -/
theorem DumpTo_trace (w : Sink) (st : BState) (n : Nat) (e : Option Err) (w' : Sink)
    (st' : BState) (h : DumpTo w st = .ok ((n, e), w', st')) :
    (e = none → w'.received.length = w.received.length + n ∧
      ∃ pre, w.script = pre ++ w'.script ∧ ∀ x ∈ pre, x.err = none) ∧
    (∀ err, e = some err → w.received.length + n ≤ w'.received.length ∧ st' = st ∧
      ∃ pre r, w.script = pre ++ r :: w'.script ∧ (∀ x ∈ pre, x.err = none) ∧
        r.err = some err) := by
  obtain ⟨t1, t2⟩ := dumpLoop_trace st.2.bufs 0 w
  rcases hd : dumpLoop st.2.bufs 0 w with ⟨res, w1⟩
  cases res with
  | error ne =>
    obtain ⟨n1, err1⟩ := ne
    have hD : DumpTo w st = .ok ((n1, some err1), w1, st) := by simp only [DumpTo, hd]
    rw [hD] at h
    simp only [Except.ok.injEq, Prod.mk.injEq] at h
    obtain ⟨⟨h1, h2⟩, h3, h4⟩ := h
    subst h1 h2 h3 h4
    obtain ⟨a, b⟩ := t2 n1 err1 w1 hd
    constructor
    · intro hx; cases hx
    · intro err hx
      cases hx
      exact ⟨a, rfl, b⟩
  | ok written =>
    obtain ⟨a, pre, b1, b2⟩ := t1 written w1 hd
    cases hb : st.2.buf with
    | none =>
      have hD : DumpTo w st = .error .nilDeref := by simp only [DumpTo, hd, hb]
      rw [hD] at h
      cases h
    | some c =>
      by_cases hcap : c.cap > 0
      · have hc := write_count w1 c.data
        cases he : (w1.Write c.data).1.2 with
        | some e1 =>
          have hD : DumpTo w st = .ok (((w1.Write c.data).1.1, some e1), (w1.Write c.data).2, st) := by
            simp only [DumpTo, hd, hb, hcap, if_true, he]
          rw [hD] at h
          simp only [Except.ok.injEq, Prod.mk.injEq] at h
          obtain ⟨⟨h1, h2⟩, h3, h4⟩ := h
          subst h1 h2 h3 h4
          obtain ⟨r, hr1, hr2⟩ := write_err_script w1 c.data e1 he
          constructor
          · intro hx; cases hx
          · intro err hx
            cases hx
            exact ⟨by omega, rfl, pre, r, by rw [b1, hr1], b2, hr2⟩
        | none =>
          have hD : DumpTo w st = .ok ((written + (w1.Write c.data).1.1, none), (w1.Write c.data).2,
              (putBuf (putBufs st.1 st.2.bufs) c, { buf := none, bufs := [] })) := by
            simp only [DumpTo, hd, hb, hcap, if_true, he]
          rw [hD] at h
          simp only [Except.ok.injEq, Prod.mk.injEq] at h
          obtain ⟨⟨h1, h2⟩, h3, h4⟩ := h
          subst h1 h2 h3 h4
          obtain ⟨pre2, hp1, hp2⟩ := write_ok_script w1 c.data he
          constructor
          · intro _
            refine ⟨by omega, pre ++ pre2, by rw [b1, hp1, List.append_assoc], ?_⟩
            intro y hy
            rcases List.mem_append.mp hy with hy | hy
            · exact b2 y hy
            · exact hp2 y hy
          · intro err hx; cases hx
      · have hD : DumpTo w st = .ok ((written, none), w1,
            (putBuf (putBufs st.1 st.2.bufs) c, { buf := none, bufs := [] })) := by
          simp only [DumpTo, hd, hb, hcap, if_false]
        rw [hD] at h
        simp only [Except.ok.injEq, Prod.mk.injEq] at h
        obtain ⟨⟨h1, h2⟩, h3, h4⟩ := h
        subst h1 h2 h3 h4
        constructor
        · intro _
          exact ⟨by omega, pre, b1, b2⟩
        · intro err hx; cases hx

/-- A successful `DumpTo` had an active chunk, released the finalized chunks
and then the active one, and left the buffer without any chunk. -/
theorem DumpTo_success (w : Sink) (p : Pool) (b : Buffer) (n : Nat) (w' : Sink) (st' : BState)
    (h : DumpTo w (p, b) = .ok ((n, none), w', st')) :
    ∃ c, b.buf = some c ∧ st' = (putBuf (putBufs p b.bufs) c, { buf := none, bufs := [] }) := by
  rcases hd : dumpLoop b.bufs 0 w with ⟨res, w1⟩
  cases res with
  | error ne =>
    obtain ⟨n1, err1⟩ := ne
    have hD : DumpTo w (p, b) = .ok ((n1, some err1), w1, (p, b)) := by simp only [DumpTo, hd]
    rw [hD] at h
    simp at h
  | ok written =>
    cases hb : b.buf with
    | none =>
      have hD : DumpTo w (p, b) = .error .nilDeref := by simp only [DumpTo, hd, hb]
      rw [hD] at h
      cases h
    | some c =>
      refine ⟨c, rfl, ?_⟩
      by_cases hcap : c.cap > 0
      · cases he : (w1.Write c.data).1.2 with
        | some e1 =>
          have hD : DumpTo w (p, b) =
              .ok (((w1.Write c.data).1.1, some e1), (w1.Write c.data).2, (p, b)) := by
            simp only [DumpTo, hd, hb, hcap, if_true, he]
          rw [hD] at h
          simp at h
        | none =>
          have hD : DumpTo w (p, b) = .ok ((written + (w1.Write c.data).1.1, none),
              (w1.Write c.data).2, (putBuf (putBufs p b.bufs) c, { buf := none, bufs := [] })) := by
            simp only [DumpTo, hd, hb, hcap, if_true, he]
          rw [hD] at h
          simp only [Except.ok.injEq, Prod.mk.injEq] at h
          exact h.2.2.symm
      · have hD : DumpTo w (p, b) = .ok ((written, none), w1,
            (putBuf (putBufs p b.bufs) c, { buf := none, bufs := [] })) := by
          simp only [DumpTo, hd, hb, hcap, if_false]
        rw [hD] at h
        simp only [Except.ok.injEq, Prod.mk.injEq] at h
        exact h.2.2.symm

/-- `Close` after `Close` changes nothing. -/
theorem close_idem (st : BState) : Close (Close st) = Close st := by
  obtain ⟨p, b⟩ := st
  have hc : Close (p, b) = ((Close (p, b)).1, { buf := none, bufs := [] }) := by
    rw [← (close_released p b).1]
  rw [hc]
  exact close_empty _

/-- A chunk taken from a pool whose chunks all have capacity at least 1 is
empty and has capacity at least 1, and the pool keeps that property. -/
theorem getBuf_cap (p : Pool) (hp : 1 ≤ p.PooledSize) (hfree : ∀ i ∈ p.free, 1 ≤ i.cap) :
    (getBuf p).1.data = [] ∧ 1 ≤ (getBuf p).1.cap ∧ (getBuf p).2.PooledSize = p.PooledSize ∧
      ∀ i ∈ (getBuf p).2.free, 1 ≤ i.cap := by
  obtain ⟨ps, free, nid, rel⟩ := p
  cases free with
  | nil => exact ⟨rfl, hp, rfl, hfree⟩
  | cons i rest =>
    exact ⟨rfl, hfree i (List.mem_cons_self _ _), rfl,
      fun j hj => hfree j (List.mem_cons_of_mem _ hj)⟩

/-- `EnsureSpace(1)` on an empty buffer or one with an active chunk, with a
pool whose chunks have capacity at least 1: it returns with an active chunk
that has a free byte, and the chunk it finalizes, if any, is full. -/
theorem ensureSpace_one (st : BState) (hst : st.2 = { buf := none, bufs := [] } ∨ Ready st)
    (hp : 1 ≤ st.1.PooledSize) (hfree : ∀ i ∈ st.1.free, 1 ≤ i.cap) :
    ∃ p c added, EnsureSpace 1 st = .ok (p, { buf := some c, bufs := st.2.bufs ++ added }) ∧
      1 ≤ c.cap - c.data.length ∧
      Buffer.content { buf := some c, bufs := st.2.bufs ++ added } = st.2.content ∧
      p.PooledSize = st.1.PooledSize ∧ (∀ i ∈ p.free, 1 ≤ i.cap) ∧
      (∀ x ∈ added, x.data.length = x.cap) ∧ added.length ≤ 1 := by
  obtain ⟨p0, b0⟩ := st
  obtain ⟨g1, g2, g3, g4⟩ := getBuf_cap p0 hp hfree
  rcases hst with hz | ⟨c0, bs0, hb, hc⟩
  · simp only at hz
    subst hz
    have hs : ¬ 1 > p0.PooledSize := by
      simp only at hp
      omega
    refine ⟨(getBuf p0).2, (getBuf p0).1, [], ?_, ?_, ?_, g3, g4, by simp, by simp⟩
    · simp only [EnsureSpace, hs, if_false, List.append_nil]
    · rw [g1]; simpa using g2
    · simp [Buffer.content, g1]
  · simp only at hb
    subst hb
    by_cases hfull : c0.cap - c0.data.length < 1
    · refine ⟨(getBuf p0).2, (getBuf p0).1, [c0], ?_, ?_, ?_, g3, g4, ?_, by simp⟩
      · simp only [EnsureSpace, hfull, if_true]
      · rw [g1]; simpa using g2
      · simp [Buffer.content, g1]
      · intro x hx
        simp only [List.mem_singleton] at hx
        subst hx
        omega
    · refine ⟨p0, c0, [], ?_, by omega, by simp, rfl, hfree, by simp, by simp⟩
      simp only [EnsureSpace, hfull, if_false, List.append_nil]

/-- One iteration of the slow loop on a non-empty input copies at least one
byte: it continues with a strictly shorter input. -/
theorem appendBytesSlow_step (fuel : Nat) (data : List Byte) (st : BState)
    (hst : st.2 = { buf := none, bufs := [] } ∨ Ready st)
    (hp : 1 ≤ st.1.PooledSize) (hfree : ∀ i ∈ st.1.free, 1 ≤ i.cap) (hd : data ≠ []) :
    ∃ sz st2 added, 1 ≤ sz ∧ sz ≤ data.length ∧
      appendBytesSlow (fuel + 1) data st = appendBytesSlow fuel (data.drop sz) st2 ∧
      Ready st2 ∧ st2.1.PooledSize = st.1.PooledSize ∧ (∀ i ∈ st2.1.free, 1 ≤ i.cap) ∧
      st2.2.bufs = st.2.bufs ++ added ∧ (∀ x ∈ added, x.data.length = x.cap) ∧
      added.length ≤ 1 ∧ st2.2.content = st.2.content ++ data.take sz := by
  obtain ⟨p, c, added, he, hc1, hcont, hps, hfr, hfull, hlen⟩ := ensureSpace_one st hst hp hfree
  have hpos : data.length > 0 := by
    cases data with
    | nil => exact absurd rfl hd
    | cons x xs => simp
  let sz := if c.cap - c.data.length > data.length then data.length
            else c.cap - c.data.length
  have hsz1 : 1 ≤ sz := by simp only [sz]; split <;> omega
  have hsz2 : sz ≤ data.length := by simp only [sz]; split <;> omega
  have hsz3 : sz ≤ c.cap - c.data.length := by simp only [sz]; split <;> omega
  refine ⟨sz, (p, { buf := some (c.append (data.take sz)), bufs := st.2.bufs ++ added }), added,
    hsz1, hsz2, ?_, ready_append _ _ _ _, hps, hfr, rfl, hfull, hlen, ?_⟩
  · simp only [appendBytesSlow, hpos, if_true, he, bind, Except.bind, appendToBuf_some, sz]
  · show Buffer.content { buf := some (c.append (data.take sz)), bufs := st.2.bufs ++ added } = _
    rw [content_append_chunk, hcont]

/-- The slow loop with a pool whose chunks have capacity at least 1: with one
unit of fuel per evaluation of the loop condition, `len(data) + 1` units are
enough, the input is appended, and every chunk finalized on the way is full. -/
theorem appendBytesSlow_full : ∀ (fuel : Nat) (data : List Byte) (st : BState),
    (st.2 = { buf := none, bufs := [] } ∨ Ready st) → 1 ≤ st.1.PooledSize →
    (∀ i ∈ st.1.free, 1 ≤ i.cap) → data.length + 1 ≤ fuel →
    ∃ st' added, appendBytesSlow fuel data st = .ok st' ∧
      st'.2.bufs = st.2.bufs ++ added ∧ (∀ x ∈ added, x.data.length = x.cap) ∧
      added.length ≤ data.length ∧ st'.2.content = st.2.content ++ data := by
  intro fuel
  induction fuel with
  | zero => intro data st _ _ _ h; omega
  | succ fuel ih =>
    intro data st hst hp hfree hf
    by_cases hd : data = []
    · subst hd
      exact ⟨st, [], by simp [appendBytesSlow], by simp, by simp, by simp, by simp⟩
    · obtain ⟨sz, st2, add1, h1, h2, hstep, hr2, hps2, hfr2, hb2, hfull1, hl1, hc2⟩ :=
        appendBytesSlow_step fuel data st hst hp hfree hd
      obtain ⟨st', add2, hrun, hb', hfull2, hl2, hc'⟩ :=
        ih (data.drop sz) st2 (Or.inr hr2) (by rw [hps2]; exact hp) hfr2
          (by rw [List.length_drop]; omega)
      refine ⟨st', add1 ++ add2, by rw [hstep, hrun], by rw [hb', hb2, List.append_assoc], ?_,
        ?_, ?_⟩
      · intro x hx
        rcases List.mem_append.mp hx with hx | hx
        · exact hfull1 x hx
        · exact hfull2 x hx
      · rw [List.length_append]
        rw [List.length_drop] at hl2
        omega
      · rw [hc', hc2, List.append_assoc, List.take_append_drop]

/-! ### Lemmas on the buffer over explicit backing arrays -/

namespace arrays

theorem getD_set_other (l : List (List Byte)) (i j : Nat) (x : List Byte) (h : i ≠ j) :
    (l.set i x).getD j [] = l.getD j [] := by
  simp [List.getD, List.getElem?_set_ne h]

theorem getD_set_same (l : List (List Byte)) (i : Nat) (x : List Byte) (h : i < l.length) :
    (l.set i x).getD i [] = x := by
  simp [List.getD, List.getElem?_set_self, h]

theorem getD_append_old (l r : List (List Byte)) (j : Nat) (h : j < l.length) :
    (l ++ r).getD j [] = l.getD j [] := by
  simp [List.getD, List.getElem?_append_left h]

theorem getD_append_new (l : List (List Byte)) (x : List Byte) :
    (l ++ [x]).getD l.length [] = x := by
  simp [List.getD]

/-- A slice whose array is unchanged keeps its validity and its bytes. -/
theorem valid_keep (f : Slice) (m m' : Mem) (hv : f.Valid m)
    (hlen : m.store.length ≤ m'.store.length)
    (hk : m'.store.getD f.arr [] = m.store.getD f.arr []) :
    f.Valid m' ∧ f.bytes m' = f.bytes m := by
  obtain ⟨h1, h2, h3⟩ := hv
  exact ⟨⟨by omega, h2, by rw [hk]; exact h3⟩, by simp only [Slice.bytes, hk]⟩

/-- What `getBuf` does to the memory: the arrays allocated before are as they
were, and the slice handed out is the head of the idle list or a slice of a
new array. -/
theorem getBuf_mem (m : Mem) :
    m.store.length ≤ (getBuf m).2.store.length ∧
    (∀ a, a < m.store.length → (getBuf m).2.store.getD a [] = m.store.getD a []) ∧
    (getBuf m).2.PooledSize = m.PooledSize ∧
    ((∃ rest, m.free = (getBuf m).1 :: rest ∧ (getBuf m).2.free = rest ∧
        (getBuf m).2.store = m.store) ∨
     (m.free = [] ∧ (getBuf m).2.free = [] ∧ (getBuf m).1.arr = m.store.length ∧
        (getBuf m).1.len = 0 ∧ (getBuf m).1.Valid (getBuf m).2)) := by
  obtain ⟨ps, free, store⟩ := m
  cases free with
  | nil =>
    refine ⟨by simp [getBuf], ?_, rfl, Or.inr ⟨rfl, rfl, rfl, rfl, ?_⟩⟩
    · intro a ha
      exact getD_append_old _ _ _ ha
    · refine ⟨by simp [getBuf], Nat.zero_le _, ?_⟩
      show ps ≤ ((store ++ [List.replicate ps 0]).getD store.length []).length
      rw [getD_append_new]
      simp
  | cons s rest =>
    exact ⟨le_refl _, fun _ _ => rfl, rfl, Or.inl ⟨rest, rfl, rfl, rfl⟩⟩

/-- What `append` does to the memory: the result holds the old bytes followed
by `d`, it lies in the array of the slice or in a new array, and every other
array is as it was. -/
theorem append_mem (s : Slice) (d : List Byte) (m : Mem) (hv : s.Valid m) :
    (s.append d m).1.bytes (s.append d m).2 = s.bytes m ++ d ∧
    (s.append d m).1.Valid (s.append d m).2 ∧
    (s.append d m).2.PooledSize = m.PooledSize ∧ (s.append d m).2.free = m.free ∧
    m.store.length ≤ (s.append d m).2.store.length ∧
    ((s.append d m).1.arr = s.arr ∨ (s.append d m).1.arr = m.store.length) ∧
    (∀ a, a ≠ s.arr → a < m.store.length →
      (s.append d m).2.store.getD a [] = m.store.getD a []) := by
  obtain ⟨h1, h2, h3⟩ := hv
  by_cases hfit : s.len + d.length ≤ s.cap
  · have hlen : ((m.store.getD s.arr []).take s.len).length = s.len := by
      rw [List.length_take]; omega
    have e : s.append d m = (Slice.mk s.arr (s.len + d.length) s.cap,
        Mem.mk m.PooledSize m.free (m.store.set s.arr ((m.store.getD s.arr []).take s.len ++ d ++
          (m.store.getD s.arr []).drop (s.len + d.length)))) := by
      unfold Slice.append
      rw [if_pos hfit]
    rw [e]
    refine ⟨?_, ⟨?_, hfit, ?_⟩, rfl, rfl, ?_, Or.inl rfl, ?_⟩
    · show (((m.store.set s.arr _).getD s.arr []).take (s.len + d.length)) = _
      rw [getD_set_same _ _ _ h1, List.take_append_of_le_length (by
        rw [List.length_append, hlen])]
      rw [List.take_of_length_le (by rw [List.length_append, hlen])]
      simp only [Slice.bytes]
    · show s.arr < (m.store.set s.arr _).length
      rw [List.length_set]; exact h1
    · show s.cap ≤ ((m.store.set s.arr _).getD s.arr []).length
      rw [getD_set_same _ _ _ h1]
      simp only [List.length_append, hlen, List.length_drop]
      omega
    · show m.store.length ≤ (m.store.set s.arr _).length
      rw [List.length_set]
    · intro a ha _
      exact getD_set_other _ _ _ _ (Ne.symm ha)
  · have hb : (s.bytes m).length = s.len := by
      simp only [Slice.bytes, List.length_take]; omega
    have e : s.append d m =
        (Slice.mk m.store.length (s.len + d.length) (max (s.len + d.length) (2 * s.cap)),
         Mem.mk m.PooledSize m.free (m.store ++ [s.bytes m ++ d ++
          List.replicate (max (s.len + d.length) (2 * s.cap) - (s.len + d.length)) 0])) := by
      unfold Slice.append
      rw [if_neg hfit]
    rw [e]
    refine ⟨?_, ⟨?_, le_max_left _ _, ?_⟩, rfl, rfl, ?_, Or.inr rfl, ?_⟩
    · show (((m.store ++ [_]).getD m.store.length []).take (s.len + d.length)) = _
      rw [getD_append_new, List.take_append_of_le_length (by rw [List.length_append, hb])]
      rw [List.take_of_length_le (by rw [List.length_append, hb])]
    · show m.store.length < (m.store ++ [_]).length
      simp
    · show max _ _ ≤ ((m.store ++ [_]).getD m.store.length []).length
      rw [getD_append_new]
      simp only [List.length_append, hb, List.length_replicate]
      have := le_max_left (s.len + d.length) (2 * s.cap)
      omega
    · show m.store.length ≤ (m.store ++ [_]).length
      simp
    · intro a _ ha
      exact getD_append_old _ _ _ ha

theorem bytes_empty (s : Slice) (m : Mem) (h : s.len = 0) : s.bytes m = [] := by
  simp [Slice.bytes, h]

theorem content_eq (m : Mem) (buf : Option Slice) (bufs : List Slice) :
    content (m, { buf := buf, bufs := bufs }) =
      (bufs.map (fun s => s.bytes m)).flatten ++ (buf.toList.map (fun s => s.bytes m)).flatten := by
  cases buf <;> simp [content]

/-- Taking a slice from the pool, the slices held so far being all moved to
the finalized sequence: ownership is kept, the slice taken is empty, and
every slice that was valid keeps its bytes. -/
theorem owned_take (m : Mem) (buf : Option Slice) (bufs : List Slice)
    (ho : Owned (m, { buf := buf, bufs := bufs })) :
    Owned ((getBuf m).2, { buf := some (getBuf m).1, bufs := bufs ++ buf.toList }) ∧
    (getBuf m).1.len = 0 ∧
    (∀ f : Slice, f.Valid m → f.bytes (getBuf m).2 = f.bytes m) := by
  obtain ⟨o1, o2, o3, o4, o5, o6, o7⟩ := ho
  simp only at o1 o2 o3 o4 o5 o6 o7
  obtain ⟨hlen, hkeep, _, hcase⟩ := getBuf_mem m
  have keep : ∀ f : Slice, f.Valid m → f.Valid (getBuf m).2 ∧ f.bytes (getBuf m).2 = f.bytes m :=
    fun f hf => valid_keep f m _ hf hlen (hkeep _ hf.1)
  have held : ∀ f ∈ bufs ++ buf.toList, f ∈ bufs ∨ f ∈ buf := by
    intro f hf
    rcases List.mem_append.mp hf with h | h
    · exact Or.inl h
    · exact Or.inr (Option.mem_toList.mp h)
  have heldv : ∀ f ∈ bufs ++ buf.toList, f.Valid m := by
    intro f hf
    rcases held f hf with h | h
    · exact o1 f h
    · exact o2 f h
  refine ⟨?_, ?_, fun f hf => (keep f hf).2⟩
  · rcases hcase with ⟨rest, hf, hf', _⟩ | ⟨hf, hf', harr, _, hval⟩
    · have hin : (getBuf m).1 ∈ m.free := by rw [hf]; exact List.mem_cons_self _ _
      have hsub : ∀ s ∈ rest, s ∈ m.free := by
        intro s hs; rw [hf]; exact List.mem_cons_of_mem _ hs
      have hnd : ((getBuf m).1 :: rest).map Slice.arr |>.Nodup := by rw [← hf]; exact o7
      rw [List.map_cons, List.nodup_cons] at hnd
      refine ⟨fun f hfm => (keep f (heldv f hfm)).1, ?_, ?_, ?_, ?_, ?_, ?_⟩
      · intro c hc
        rw [Option.mem_def, Option.some.injEq] at hc
        subst hc
        exact (keep _ (o3 _ hin).1).1
      · intro s hs
        simp only at hs
        rw [hf'] at hs
        exact ⟨(keep s (o3 s (hsub s hs)).1).1, (o3 s (hsub s hs)).2⟩
      · intro f hfm c hc
        rw [Option.mem_def, Option.some.injEq] at hc
        subst hc
        rcases held f hfm with h | h
        · exact o5 f h _ hin
        · exact o6 f h _ hin
      · intro f hfm s hs
        simp only at hs
        rw [hf'] at hs
        rcases held f hfm with h | h
        · exact o5 f h s (hsub s hs)
        · exact o6 f h s (hsub s hs)
      · intro c hc s hs
        rw [Option.mem_def, Option.some.injEq] at hc
        subst hc
        simp only at hs
        rw [hf'] at hs
        intro he
        exact hnd.1 (by rw [he]; exact List.mem_map_of_mem _ hs)
      · simp only
        rw [hf']
        exact hnd.2
    · refine ⟨fun f hfm => (keep f (heldv f hfm)).1, ?_, ?_, ?_, ?_, ?_, ?_⟩
      · intro c hc
        rw [Option.mem_def, Option.some.injEq] at hc
        subst hc
        exact hval
      · intro s hs
        simp only at hs
        rw [hf'] at hs
        cases hs
      · intro f hfm c hc
        rw [Option.mem_def, Option.some.injEq] at hc
        subst hc
        have := (heldv f hfm).1
        omega
      · intro f _ s hs
        simp only at hs
        rw [hf'] at hs
        cases hs
      · intro c _ s hs
        simp only at hs
        rw [hf'] at hs
        cases hs
      · simp only
        rw [hf']
        exact List.nodup_nil
  · rcases hcase with ⟨rest, hf, _, _⟩ | ⟨_, _, _, h0, _⟩
    · exact (o3 _ (by rw [hf]; exact List.mem_cons_self _ _)).2
    · exact h0

/-- `EnsureSpace` under single ownership: ownership is kept, an active slice
is in place, the content is unchanged, every finalized slice keeps its bytes,
and the finalized sequence is as before or has received the previous active
slice with its bytes. -/
theorem arr_ensureSpace (s : Nat) (st st' : State) (ho : Owned st) (hw : WF st)
    (h : EnsureSpace s st = .ok st') :
    Owned st' ∧ (∃ c, st'.2.buf = some c) ∧ content st' = content st ∧
    (∀ f ∈ st.2.bufs, f.bytes st'.1 = f.bytes st.1) ∧
    (st'.2.bufs = st.2.bufs ∨
      ∃ c, st.2.buf = some c ∧ st'.2.bufs = st.2.bufs ++ [c] ∧ c.bytes st'.1 = c.bytes st.1) := by
  obtain ⟨m, b⟩ := st
  obtain ⟨buf, bufs⟩ := b
  obtain ⟨t1, t2, t3⟩ := owned_take m buf bufs ho
  have o1 := ho.1
  have o2 := ho.2.1
  simp only at o1 o2
  have hcont : content ((getBuf m).2, { buf := some (getBuf m).1, bufs := bufs ++ buf.toList }) =
      content (m, { buf := buf, bufs := bufs }) := by
    rw [content_eq, content_eq, List.map_append, List.flatten_append]
    simp only [Option.toList_some, List.map_cons, List.map_nil, List.flatten_cons,
      List.flatten_nil, bytes_empty _ _ t2, List.append_nil]
    congr 1
    · congr 1
      exact List.map_congr_left fun f hf => t3 f (o1 f hf)
    · congr 1
      exact List.map_congr_left fun f hf => t3 f (o2 f (Option.mem_toList.mp hf))
  cases hb : buf with
  | none =>
    subst hb
    have hbs : bufs = [] := hw rfl
    subst hbs
    by_cases hs : s > m.PooledSize
    · simp only [EnsureSpace, hs, if_true] at h
      cases h
    · simp only [EnsureSpace, hs, if_false, Except.ok.injEq] at h
      subst h
      exact ⟨by simpa using t1, ⟨_, rfl⟩, by simpa using hcont, by simp, Or.inl rfl⟩
  | some c =>
    subst hb
    by_cases hs : c.cap - c.len < s
    · simp only [EnsureSpace, hs, if_true, Except.ok.injEq] at h
      subst h
      exact ⟨by simpa using t1, ⟨_, rfl⟩, by simpa using hcont,
        fun f hf => t3 f (o1 f hf),
        Or.inr ⟨c, rfl, rfl, t3 c (o2 c rfl)⟩⟩
    · simp only [EnsureSpace, hs, if_false, Except.ok.injEq] at h
      subst h
      exact ⟨ho, ⟨_, rfl⟩, rfl, fun _ _ => rfl, Or.inl rfl⟩

/-- The statement `t := append(*b.buf, d...); b.buf = &t` under single
ownership: only the active slice changes, and the content grows by `d`. -/
theorem arr_appendToBuf (d : List Byte) (st st' : State) (ho : Owned st)
    (h : appendToBuf d st = .ok st') :
    Owned st' ∧ (∃ c, st'.2.buf = some c) ∧ st'.2.bufs = st.2.bufs ∧
    (∀ f ∈ st.2.bufs, f.bytes st'.1 = f.bytes st.1) ∧ content st' = content st ++ d := by
  obtain ⟨m, b⟩ := st
  obtain ⟨buf, bufs⟩ := b
  cases buf with
  | none => simp [appendToBuf] at h
  | some c =>
    obtain ⟨o1, o2, o3, o4, o5, o6, o7⟩ := ho
    simp only at o1 o2 o3 o4 o5 o6 o7
    have hc := o2 c rfl
    obtain ⟨a1, a2, a3, a4, a5, a6, a7⟩ := append_mem c d m hc
    simp only [appendToBuf, Except.ok.injEq] at h
    subst h
    have keepf : ∀ f ∈ bufs, f.Valid (c.append d m).2 ∧ f.bytes (c.append d m).2 = f.bytes m :=
      fun f hf => valid_keep f m _ (o1 f hf) a5 (a7 _ (o4 f hf c rfl) (o1 f hf).1)
    have fresh : ∀ x : Slice, x.Valid m → x.arr ≠ c.arr → x.arr ≠ (c.append d m).1.arr := by
      intro x hx hne
      rcases a6 with e | e
      · rw [e]; exact hne
      · rw [e]; have := hx.1; omega
    refine ⟨⟨fun f hf => (keepf f hf).1, ?_, ?_, ?_, ?_, ?_, ?_⟩, ⟨_, rfl⟩, rfl,
      fun f hf => (keepf f hf).2, ?_⟩
    · intro x hx
      rw [Option.mem_def, Option.some.injEq] at hx
      subst hx
      exact a2
    · intro s hs
      simp only at hs
      rw [a4] at hs
      exact ⟨(valid_keep s m _ (o3 s hs).1 a5
        (a7 _ (fun e => o6 c rfl s hs e.symm) (o3 s hs).1.1)).1, (o3 s hs).2⟩
    · intro f hf x hx
      rw [Option.mem_def, Option.some.injEq] at hx
      subst hx
      exact fresh f (o1 f hf) (o4 f hf c rfl)
    · intro f hf s hs
      simp only at hs
      rw [a4] at hs
      exact o5 f hf s hs
    · intro x hx s hs
      rw [Option.mem_def, Option.some.injEq] at hx
      subst hx
      simp only at hs
      rw [a4] at hs
      exact fun e => fresh s (o3 s hs).1 (fun e2 => o6 c rfl s hs e2.symm) e.symm
    · simp only
      rw [a4]
      exact o7
    · simp only [content, a1]
      rw [← List.append_assoc]
      congr 2
      exact congrArg List.flatten (List.map_congr_left fun f hf => (keepf f hf).2)

theorem owned_wf {st : State} (h : ∃ c, st.2.buf = some c) : WF st := by
  obtain ⟨c, hc⟩ := h
  intro hn
  rw [hc] at hn
  cases hn

theorem frame_refl (st : State) : Frame st st := ⟨[], by simp, fun _ _ => rfl⟩

theorem frame_trans {st st' st'' : State} (h1 : Frame st st') (h2 : Frame st' st'') :
    Frame st st'' := by
  obtain ⟨a1, e1, k1⟩ := h1
  obtain ⟨a2, e2, k2⟩ := h2
  refine ⟨a1 ++ a2, by rw [e2, e1, List.append_assoc], fun f hf => ?_⟩
  rw [k2 f (by rw [e1]; exact List.mem_append_left _ hf), k1 f hf]

theorem extends_trans {d e : List Byte} {st st' st'' : State} (h1 : Extends d st st')
    (h2 : Extends e st' st'') : Extends (d ++ e) st st'' :=
  ⟨h2.1, h2.2.1, frame_trans h1.2.2.1 h2.2.2.1, by rw [h2.2.2.2, h1.2.2.2, List.append_assoc]⟩

theorem arr_ensureSpace_extends (s : Nat) (st st' : State) (ho : Owned st) (hw : WF st)
    (h : EnsureSpace s st = .ok st') : Extends [] st st' := by
  obtain ⟨e1, e2, e3, e4, e5⟩ := arr_ensureSpace s st st' ho hw h
  refine ⟨e1, owned_wf e2, ?_, by rw [e3, List.append_nil]⟩
  rcases e5 with e | ⟨c, _, e, _⟩
  · exact ⟨[], by rw [e, List.append_nil], e4⟩
  · exact ⟨[c], e, e4⟩

theorem arr_appendToBuf_extends (d : List Byte) (st st' : State) (ho : Owned st)
    (h : appendToBuf d st = .ok st') : Extends d st st' := by
  obtain ⟨e1, e2, e3, e4, e5⟩ := arr_appendToBuf d st st' ho h
  exact ⟨e1, owned_wf e2, ⟨[], by rw [e3, List.append_nil], e4⟩, e5⟩

theorem bind_ok {α β : Type} (x : Except Fault α) (g : α → Except Fault β) (r : β)
    (h : (x >>= g) = .ok r) : ∃ a, x = .ok a ∧ g a = .ok r := by
  cases x with
  | error e => cases h
  | ok a => exact ⟨a, rfl, h⟩

theorem arr_AppendByte (x : Byte) (st st' : State) (ho : Owned st) (hw : WF st)
    (h : AppendByte x st = .ok st') : Extends [x] st st' := by
  obtain ⟨st1, h1, h2⟩ := bind_ok _ _ _ h
  have e1 := arr_ensureSpace_extends 1 st st1 ho hw h1
  have e2 := arr_appendToBuf_extends [x] st1 st' e1.1 h2
  exact extends_trans e1 e2

/-- The slow loop under single ownership, whenever it returns. -/
theorem arr_appendSlow : ∀ (fuel : Nat) (data : List Byte) (st st' : State),
    Owned st → WF st → appendSlow fuel data st = .ok st' → Extends data st st' := by
  intro fuel
  induction fuel with
  | zero => intro data st st' _ _ h; cases h
  | succ fuel ih =>
    intro data st st' ho hw h
    by_cases hd : data.length > 0
    · simp only [appendSlow, hd, if_true] at h
      obtain ⟨st1, h1, h2⟩ := bind_ok _ _ _ h
      have e1 := arr_ensureSpace_extends 1 st st1 ho hw h1
      cases hb : st1.2.buf with
      | none => simp only [hb] at h2; cases h2
      | some c =>
        simp only [hb] at h2
        obtain ⟨st2, h3, h4⟩ := bind_ok _ _ _ h2
        have e2 := arr_appendToBuf_extends _ st1 st2 e1.1 h3
        have e3 := ih _ st2 st' e2.1 e2.2.1 h4
        have e := extends_trans (extends_trans e1 e2) e3
        rw [List.nil_append, List.take_append_drop] at e
        exact e
    · have hnil : data = [] := by
        cases data with
        | nil => rfl
        | cons x xs => simp at hd
      subst hnil
      simp only [appendSlow, List.length_nil, gt_iff_lt, lt_self_iff_false, if_false,
        Except.ok.injEq] at h
      subst h
      exact ⟨ho, hw, frame_refl st, by simp⟩

theorem arr_AppendBytes (data : List Byte) (st st' : State) (ho : Owned st) (hw : WF st)
    (h : AppendBytes data st = .ok st') : Extends data st st' := by
  obtain ⟨st1, h1, h2⟩ := bind_ok _ _ _ h
  have e1 := arr_ensureSpace_extends 1 st st1 ho hw h1
  cases hb : st1.2.buf with
  | none => simp only [hb] at h2; cases h2
  | some c =>
    simp only [hb] at h2
    by_cases hfit : data.length ≤ c.cap - c.len
    · simp only [hfit, if_true] at h2
      exact extends_trans e1 (arr_appendToBuf_extends data st1 st' e1.1 h2)
    · simp only [hfit, if_false] at h2
      exact extends_trans e1 (arr_appendSlow _ data st1 st' e1.1 e1.2.1 h2)

theorem arr_appendFormatted (text : List Byte) (dataSize : Nat) (st st' : State) (ho : Owned st)
    (hw : WF st) (h : appendFormatted text dataSize st = .ok st') : Extends text st st' := by
  unfold appendFormatted at h
  cases hb : st.2.buf with
  | none => simp only [hb] at h; cases h
  | some c =>
    simp only [hb] at h
    by_cases hg : dataSize > c.cap - c.len
    · simp only [hg, if_true] at h
      obtain ⟨st1, h1, h2⟩ := bind_ok _ _ _ h
      have e1 := arr_ensureSpace_extends dataSize st st1 ho hw h1
      exact extends_trans e1 (arr_appendToBuf_extends text st1 st' e1.1 h2)
    · simp only [hg, if_false] at h
      have h2 : appendToBuf text st = .ok st' := h
      exact arr_appendToBuf_extends text st st' ho h2

/-- The bytes of a slice that lies within its array are as many as its
length. -/
theorem bytes_length (s : Slice) (m : Mem) (hv : s.Valid m) : (s.bytes m).length = s.len := by
  obtain ⟨_, h2, h3⟩ := hv
  unfold Slice.bytes
  rw [List.length_take]
  omega

/-- Under single ownership `Size` is the length of the content. -/
theorem size_content (st : State) (ho : Owned st) (c : Slice) (hb : st.2.buf = some c) :
    Size st = .ok (content st).length := by
  obtain ⟨m, b⟩ := st
  obtain ⟨buf, bufs⟩ := b
  simp only at hb
  subst hb
  obtain ⟨o1, o2, _⟩ := ho
  have hc : (c.bytes m).length = c.len := bytes_length c m (o2 c rfl)
  have key : ∀ (l : List Slice) (n : Nat), (∀ f ∈ l, f.Valid m) →
      l.foldl (fun size buf => size + buf.len) n =
        n + (l.map (fun s => s.bytes m)).flatten.length := by
    intro l
    induction l with
    | nil => intro n _; simp
    | cons x xs ih =>
      intro n hv
      have hx := bytes_length x m (hv x (List.mem_cons_self _ _))
      have ih2 := ih (n + x.len) (fun f hf => hv f (List.mem_cons_of_mem _ hf))
      simp only [List.foldl_cons, List.map_cons, List.flatten_cons, List.length_append, hx, ih2]
      omega
  simp only [Size, content, key bufs c.len o1, List.length_append, hc]
  congr 1
  omega

/-- `EnsureSpace(1)` returns as soon as `PooledSize ≥ 1`: the buffer then has
an active slice, and either that slice has room for a byte or an idle slice
has left the pool. -/
theorem arr_ensureSpace_total (st : State) (hp : 1 ≤ st.1.PooledSize) :
    ∃ st1 c1, EnsureSpace 1 st = .ok st1 ∧ st1.2.buf = some c1 ∧
      st1.1.PooledSize = st.1.PooledSize ∧ st1.1.free.length ≤ st.1.free.length ∧
      (1 ≤ c1.cap - c1.len ∨ st1.1.free.length < st.1.free.length) := by
  obtain ⟨m, b⟩ := st
  simp only at hp
  have hget : (getBuf m).2.PooledSize = m.PooledSize ∧
      (getBuf m).2.free.length ≤ m.free.length ∧
      (1 ≤ (getBuf m).1.cap - (getBuf m).1.len ∨ (getBuf m).2.free.length < m.free.length) := by
    unfold getBuf
    cases hf : m.free with
    | nil => exact ⟨rfl, by simp [hf], Or.inl (by simpa using hp)⟩
    | cons s rest => exact ⟨rfl, by simp, Or.inr (by simp)⟩
  cases hb : b.buf with
  | none =>
    have hn : ¬ 1 > m.PooledSize := by omega
    refine ⟨((getBuf m).2, { buf := some (getBuf m).1, bufs := [] }), (getBuf m).1, ?_, rfl,
      hget.1, hget.2.1, hget.2.2⟩
    simp only [EnsureSpace, hb, hn, if_false]
  | some c =>
    by_cases hroom : c.cap - c.len < 1
    · refine ⟨((getBuf m).2, { buf := some (getBuf m).1, bufs := b.bufs ++ [c] }), (getBuf m).1,
        ?_, rfl, hget.1, hget.2.1, hget.2.2⟩
      simp only [EnsureSpace, hb, hroom, if_true]
    · refine ⟨(m, b), c, ?_, hb, rfl, le_refl _, Or.inl (by omega)⟩
      simp only [EnsureSpace, hb, hroom, if_false]

/-- The append statement returns on a buffer with an active slice and
changes neither `PooledSize` nor the idle slices. -/
theorem arr_appendToBuf_total (d : List Byte) (st : State) (c : Slice) (hb : st.2.buf = some c) :
    ∃ st2 c2, appendToBuf d st = .ok st2 ∧ st2.2.buf = some c2 ∧
      st2.1.PooledSize = st.1.PooledSize ∧ st2.1.free = st.1.free := by
  have hm : (c.append d st.1).2.PooledSize = st.1.PooledSize ∧
      (c.append d st.1).2.free = st.1.free := by
    unfold Slice.append
    split <;> exact ⟨rfl, rfl⟩
  refine ⟨((c.append d st.1).2, { st.2 with buf := some (c.append d st.1).1 }),
    (c.append d st.1).1, ?_, rfl, hm.1, hm.2⟩
  simp only [appendToBuf, hb]

/-- The slow loop ends: with `PooledSize ≥ 1` every iteration copies at least
one byte or takes an idle slice out of the pool, so that
`len(data) + len(free) + 1` evaluations of the loop condition suffice. -/
theorem arr_appendSlow_total : ∀ (fuel : Nat) (data : List Byte) (st : State),
    1 ≤ st.1.PooledSize → data.length + st.1.free.length < fuel →
    ∃ st', appendSlow fuel data st = .ok st' ∧
      ((∃ c, st.2.buf = some c) → ∃ c, st'.2.buf = some c) := by
  intro fuel
  induction fuel with
  | zero => intro data st _ h; omega
  | succ fuel ih =>
    intro data st hp hf
    by_cases hd : data.length > 0
    · obtain ⟨st1, c1, h1, hb1, hp1, hl1, hr1⟩ := arr_ensureSpace_total st hp
      obtain ⟨st2, c2, h2, hb2, hp2, hl2⟩ := arr_appendToBuf_total
        (data.take (if c1.cap - c1.len > data.length then data.length else c1.cap - c1.len))
        st1 c1 hb1
      have hrec := ih
        (data.drop (if c1.cap - c1.len > data.length then data.length else c1.cap - c1.len))
        st2 (by rw [hp2, hp1]; exact hp) (by
          rw [hl2, List.length_drop]
          split_ifs with hc
          · omega
          · rcases hr1 with hr1 | hr1 <;> omega)
      obtain ⟨st', h3, h4⟩ := hrec
      refine ⟨st', ?_, fun _ => h4 ⟨c2, hb2⟩⟩
      simp only [appendSlow, hd, if_true, h1, bind, Except.bind, hb1, h2, h3]
    · exact ⟨st, by simp only [appendSlow, hd, if_false], fun h => h⟩

/-- `AppendBytes` returns as soon as `PooledSize ≥ 1`. -/
theorem arr_AppendBytes_total (data : List Byte) (st : State) (hp : 1 ≤ st.1.PooledSize) :
    ∃ st' c, AppendBytes data st = .ok st' ∧ st'.2.buf = some c := by
  obtain ⟨st1, c1, h1, hb1, hp1, _, _⟩ := arr_ensureSpace_total st hp
  by_cases hfit : data.length ≤ c1.cap - c1.len
  · obtain ⟨st2, c2, h2, hb2, _⟩ := arr_appendToBuf_total data st1 c1 hb1
    exact ⟨st2, c2,
      by simp only [AppendBytes, h1, bind, Except.bind, hb1, hfit, if_true, h2], hb2⟩
  · obtain ⟨st', h3, h4⟩ := arr_appendSlow_total (data.length + st1.1.free.length + 1) data st1
      (by rw [hp1]; exact hp) (by omega)
    obtain ⟨c, hc⟩ := h4 ⟨c1, hb1⟩
    exact ⟨st', c,
      by simp only [AppendBytes, h1, bind, Except.bind, hb1, hfit, if_false, h3], hc⟩

/-- Under single ownership and with `PooledSize ≥ 1`, `AppendBytes` returns,
the content grows by `data` and `Size` is then the length of the content. -/
theorem arr_AppendBytes_size (data : List Byte) (st : State) (ho : Owned st) (hw : WF st)
    (hp : 1 ≤ st.1.PooledSize) :
    ∃ st', AppendBytes data st = .ok st' ∧ Extends data st st' ∧
      Size st' = .ok ((content st).length + data.length) := by
  obtain ⟨st', c, h, hc⟩ := arr_AppendBytes_total data st hp
  have e := arr_AppendBytes data st st' ho hw h
  refine ⟨st', h, e, ?_⟩
  rw [size_content st' e.1 c hc, e.2.2.2, List.length_append]

theorem arr_AppendString_eq (data : List Byte) (st : State) :
    AppendString data st = AppendBytes data st := rfl

end arrays

end buffer

namespace jwriter

open buffer

/-! ### Lemmas on the writer -/

theorem onBuffer_ok (f : BState → Except Fault BState) (p : Pool) (tw : tokenWriter)
    (st' : BState) (h : f (p, tw.buffer) = .ok st') :
    onBuffer f (p, tw) = .ok (st'.1, { tw with buffer := st'.2 }) := by
  simp only [onBuffer, h, bind, Except.bind, pure, Except.pure]

theorem onBuffer_error (f : BState → Except Fault BState) (p : Pool) (tw : tokenWriter)
    (e : Fault) (h : f (p, tw.buffer) = .error e) :
    onBuffer f (p, tw) = .error e := by
  simp only [onBuffer, h, bind, Except.bind]

/-- `Flush` on a writer with an accepting sink and an active chunk drains
the whole buffer and reports its size. -/
theorem Flush_accepting (p : Pool) (tw : tokenWriter) (w : Sink) (c : Chunk) (bs : List Chunk)
    (hw : tw.targetIOWriter = some w) (hacc : w.accepting)
    (hb : tw.buffer = { buf := some c, bufs := bs }) (hc : c.data.length ≤ c.cap) :
    ∃ w', tokenWriter.Flush (p, tw) =
        .ok ((tw.buffer.content.length, none),
          (putBuf (putBufs p bs) c,
            { tw with buffer := { buf := none, bufs := [] }, targetIOWriter := some w' })) ∧
      w'.received = w.received ++ tw.buffer.content ∧ w'.accepting := by
  obtain ⟨w', h1, h2, h3⟩ := DumpTo_accepting w hacc p c bs hc
  refine ⟨w', ?_, by rw [hb]; exact h2, h3⟩
  simp only [tokenWriter.Flush, hw, hb, h1, bind, Except.bind, pure, Except.pure]

theorem MaybeFlush_below (p : Pool) (tw : tokenWriter) (c : Chunk) (bs : List Chunk)
    (hb : tw.buffer = { buf := some c, bufs := bs })
    (h : tw.targetIOWriter = none ∨ (tw.buffer.content.length : ℤ) < tw.targetBufferSize) :
    tokenWriter.MaybeFlush (p, tw) = .ok ((0, none), (p, tw)) := by
  cases hw : tw.targetIOWriter with
  | none => simp only [tokenWriter.MaybeFlush, hw]
  | some w =>
    have hlt : (tw.buffer.content.length : ℤ) < tw.targetBufferSize := by
      rcases h with h | h
      · rw [hw] at h; cases h
      · exact h
    have hs : Size tw.buffer = .ok tw.buffer.content.length := by
      rw [hb]; exact size_eq_content_length c bs
    simp only [tokenWriter.MaybeFlush, hw, hs, bind, Except.bind, hlt, if_true]

theorem MaybeFlush_reached (p : Pool) (tw : tokenWriter) (c : Chunk) (bs : List Chunk)
    (hb : tw.buffer = { buf := some c, bufs := bs })
    (hw : tw.targetIOWriter ≠ none)
    (h : tw.targetBufferSize ≤ (tw.buffer.content.length : ℤ)) :
    tokenWriter.MaybeFlush (p, tw) = tokenWriter.Flush (p, tw) := by
  cases hw' : tw.targetIOWriter with
  | none => exact absurd hw' hw
  | some w =>
    have hs : Size tw.buffer = .ok tw.buffer.content.length := by
      rw [hb]; exact size_eq_content_length c bs
    have hlt : ¬ (tw.buffer.content.length : ℤ) < tw.targetBufferSize := by omega
    simp only [tokenWriter.MaybeFlush, hw', hs, bind, Except.bind, hlt, if_false]

theorem streaming_wf {st : WState} (h : Streaming st) : st.2.buffer.WF := by
  rcases h.2.1 with h1 | h1
  · rw [h1]; intro _; rfl
  · exact ready_wf h1

/-- What one round of a session does on an open writer over an accepting
sink. -/
theorem runRound_streaming (r : Round) (st : WState) (h : Streaming st) :
    ∃ n st', runRound r st = .ok ((n, none), st') ∧ Streaming st' ∧
      st'.2.targetBufferSize = st.2.targetBufferSize ∧
      delivered st' ++ buffered st' = delivered st ++ buffered st ++ r.data ∧
      n + (buffered st').length = (buffered st).length + r.data.length ∧
      (r.flush = .Flush → buffered st' = []) ∧
      (r.flush = .MaybeFlush →
        st.2.targetBufferSize ≤ (((buffered st).length + r.data.length : Nat) : ℤ) →
        buffered st' = []) ∧
      (r.flush = .MaybeFlush →
        (((buffered st).length + r.data.length : Nat) : ℤ) < st.2.targetBufferSize → n = 0) := by
  obtain ⟨p, tw⟩ := st
  obtain ⟨⟨w, hw, hacc⟩, _, hp⟩ := id h
  simp only at hw hp
  obtain ⟨st1, h1, ⟨c, bs, hcb, hc⟩, a2, a3, _⟩ := AppendBytes_spec r.data (p, tw.buffer) (streaming_wf h) hp
  simp only at a2 a3
  have hraw : tokenWriter.RawBytes r.data (p, tw) = .ok (st1.1, { tw with buffer := st1.2 }) :=
    onBuffer_ok _ p tw st1 h1
  have hlen : (st1.2.content).length = (tw.buffer.content).length + r.data.length := by
    rw [a2, List.length_append]
  -- the state after a flush of the round
  have hflush : ∃ w', tokenWriter.Flush (st1.1, { tw with buffer := st1.2 }) =
        .ok ((st1.2.content.length, none),
          (putBuf (putBufs st1.1 bs) c,
            { tw with buffer := { buf := none, bufs := [] }, targetIOWriter := some w' })) ∧
      w'.received = w.received ++ st1.2.content ∧ w'.accepting :=
    Flush_accepting st1.1 { tw with buffer := st1.2 } w c bs hw hacc hcb hc
  obtain ⟨w', hf, hrecv, hacc'⟩ := hflush
  have hflushed : ∀ x, x = tokenWriter.Flush (st1.1, { tw with buffer := st1.2 }) →
      ∃ n st', x = .ok ((n, none), st') ∧ Streaming st' ∧
      st'.2.targetBufferSize = tw.targetBufferSize ∧
      delivered st' ++ buffered st' = delivered (p, tw) ++ buffered (p, tw) ++ r.data ∧
      n + (buffered st').length = (buffered (p, tw)).length + r.data.length ∧
      buffered st' = [] := by
    intro x hx
    refine ⟨_, _, by rw [hx, hf], ⟨⟨w', rfl, hacc'⟩, Or.inl rfl, ?_⟩, rfl, ?_, ?_, ?_⟩
    · show 1 ≤ (putBuf (putBufs st1.1 bs) c).PooledSize
      rw [putBuf_pooled, putBufs_pooled, a3]; exact hp
    · simp only [delivered, buffered, hw, hrecv, a2, content_drained, List.append_nil,
        List.append_assoc]
    · simp only [buffered, hlen, content_drained, List.length_nil, Nat.add_zero]
    · simp only [buffered, content_drained]
  cases hk : r.flush with
  | Flush =>
    obtain ⟨n, st', e1, e2, e3, e4, e5, e6⟩ := hflushed _ rfl
    refine ⟨n, st', ?_, e2, e3, e4, e5, fun _ => e6, fun hh => (by cases hh), fun hh => (by cases hh)⟩
    simp only [runRound, hraw, hk, bind, Except.bind, e1]
  | MaybeFlush =>
    by_cases hT : tw.targetBufferSize ≤ ((st1.2.content.length : Nat) : ℤ)
    · obtain ⟨n, st', e1, e2, e3, e4, e5, e6⟩ := hflushed _ rfl
      have hm := MaybeFlush_reached st1.1 { tw with buffer := st1.2 } c bs hcb
        (by simp [hw]) hT
      refine ⟨n, st', ?_, e2, e3, e4, e5, fun hh => (by cases hh), fun _ _ => e6, ?_⟩
      · simp only [runRound, hraw, hk, bind, Except.bind, hm, e1]
      · intro _ hlt
        simp only [buffered] at hlt
        rw [← hlen] at hlt
        omega
    · have hm := MaybeFlush_below st1.1 { tw with buffer := st1.2 } c bs hcb
        (Or.inr (by simpa using hT))
      refine ⟨0, (st1.1, { tw with buffer := st1.2 }), ?_, ⟨⟨w, hw, hacc⟩,
        Or.inr ⟨c, bs, hcb, hc⟩, by simpa [a3] using hp⟩, rfl, ?_, ?_,
        fun hh => (by cases hh), ?_, fun _ _ => rfl⟩
      · simp only [runRound, hraw, hk, bind, Except.bind, hm]
      · simp only [delivered, buffered, hw, a2, List.append_assoc]
      · simp only [buffered, hlen, Nat.zero_add]
      · intro _ hge
        simp only [buffered] at hge
        rw [← hlen] at hge
        exact absurd hge hT

/-- A whole session on an open writer over an accepting sink: nothing is lost
or reordered, and the counts returned add up to the bytes no longer
buffered. -/
theorem runSession_streaming : ∀ (rs : List Round) (st : WState), Streaming st →
    ∃ res st', runSession rs st = .ok (res, st') ∧ Streaming st' ∧
      (∀ x ∈ res, x.2 = none) ∧
      delivered st' ++ buffered st' = delivered st ++ buffered st ++ (rs.map Round.data).flatten ∧
      (res.map Prod.fst).sum + (buffered st').length =
        (buffered st).length + (rs.map Round.data).flatten.length ∧
      (∀ r, rs.getLast? = some r → r.flush = .Flush → buffered st' = []) := by
  intro rs
  induction rs with
  | nil =>
    intro st h
    exact ⟨[], st, rfl, h, by simp, by simp, by simp, by simp⟩
  | cons r rs ih =>
    intro st h
    obtain ⟨n, st1, h1, s1, _, d1, c1, f1, _, _⟩ := runRound_streaming r st h
    obtain ⟨res, st2, h2, s2, e2, d2, c2, f2⟩ := ih st1 s1
    refine ⟨(n, none) :: res, st2, ?_, s2, ?_, ?_, ?_, ?_⟩
    · simp only [runSession, h1, h2, bind, Except.bind, pure, Except.pure]
    · intro x hx
      rcases List.mem_cons.mp hx with hx | hx
      · rw [hx]
      · exact e2 x hx
    · rw [d2, d1]; simp [List.append_assoc]
    · simp only [List.map_cons, List.sum_cons, List.flatten_cons, List.length_append]
      omega
    · intro r' hr' hfl
      cases rs with
      | nil =>
        simp only [List.getLast?_singleton, Option.some.injEq] at hr'
        subst hr'
        have hb1 := f1 hfl
        simp only [runSession, Except.ok.injEq, Prod.mk.injEq] at h2
        rw [← h2.2]; exact hb1
      | cons r2 rs2 =>
        rw [List.getLast?_cons_cons] at hr'
        exact f2 r' hr' hfl

theorem NewStreamingTokenWriter_spec (w : Sink) (T : ℤ) (p : Pool) (hp : 1 ≤ p.PooledSize) :
    ∃ st0, NewStreamingTokenWriter (some w) T p = .ok st0 ∧
      st0.2.targetIOWriter = some w ∧ st0.2.targetBufferSize = T ∧
      st0.2.NoEscapeHTML = false ∧ buffered st0 = [] ∧
      Ready (st0.1, st0.2.buffer) ∧ st0.1.PooledSize = p.PooledSize := by
  obtain ⟨p1, c, bs, he, hcont, hps, hcase⟩ :=
    ensureSpace_spec 1 (p, Buffer.zero) (by intro _; rfl) (fun _ => hp)
  have hcwf : c.data.length ≤ c.cap := by
    rcases hcase with ⟨_, _, h3⟩ | ⟨h1, _⟩
    · omega
    · simp [h1]
  refine ⟨_, onBuffer_ok _ _ _ _ he, rfl, rfl, rfl, ?_, ⟨c, bs, rfl, hcwf⟩, hps⟩
  simp only [buffered]
  rw [hcont]; rfl

theorem NewBufferWriter_spec (p : Pool) (hp : 1024 ≤ p.PooledSize) :
    ∃ q bw, NewBufferWriter p = .ok (q, bw) ∧
      bw.tw.targetIOWriter = some { received := [], script := [] } ∧
      bw.tw.targetBufferSize = 1024 ∧ bw.tw.NoEscapeHTML = false ∧ buffered (q, bw.tw) = [] ∧
      Ready (q, bw.tw.buffer) ∧ q.PooledSize = p.PooledSize ∧
      (bw.currentByte = none ∧ bw.bufAllocated = false) := by
  obtain ⟨p1, c, bs, he, hcont, hps, hcase⟩ :=
    ensureSpace_spec 1024 (p, Buffer.zero) (by intro _; rfl) (fun _ => hp)
  have hcwf : c.data.length ≤ c.cap := by
    rcases hcase with ⟨_, _, h3⟩ | ⟨h1, _⟩
    · omega
    · simp [h1]
  have h1 := onBuffer_ok (EnsureSpace 1024) p
    { flags := 0, buffer := Buffer.zero,
      targetIOWriter := some { received := [], script := [] },
      targetBufferSize := 1024, NoEscapeHTML := false } _ he
  refine ⟨p1, ⟨⟨0, ⟨some c, bs⟩, some ⟨[], []⟩, 1024, false⟩, false, none⟩,
    ?_, rfl, rfl, rfl, ?_, ⟨c, bs, rfl, hcwf⟩, hps, rfl, rfl⟩
  · simp only [NewBufferWriter, h1, bind, Except.bind, pure, Except.pure]
  · simp only [buffered]
    rw [hcont]; rfl

/-- `Flush` on an open writer that holds an active chunk. -/
theorem Flush_streaming (st : WState) (h : Streaming st) (hr : Ready (st.1, st.2.buffer)) :
    ∃ st', tokenWriter.Flush st = .ok (((buffered st).length, none), st') ∧
      delivered st' = delivered st ++ buffered st ∧ buffered st' = [] ∧ Streaming st' := by
  obtain ⟨p, tw⟩ := st
  obtain ⟨⟨w, hw, hacc⟩, _, hp⟩ := h
  obtain ⟨c, bs, hcb, hc⟩ := hr
  simp only at hw hp hcb
  obtain ⟨w', hf, hrecv, hacc'⟩ := Flush_accepting p tw w c bs hw hacc hcb hc
  refine ⟨_, hf, ?_, rfl, ⟨w', rfl, hacc'⟩, Or.inl rfl, ?_⟩
  · simp only [delivered, buffered, hw, hrecv]
  · show 1 ≤ (putBuf (putBufs p bs) c).PooledSize
    rw [putBuf_pooled, putBufs_pooled]; exact hp

theorem NewBufferWriter_streaming (p : Pool) (hp : 1024 ≤ p.PooledSize) :
    ∃ q bw, NewBufferWriter p = .ok (q, bw) ∧ Streaming (q, bw.tw) ∧
      bw.tw.targetBufferSize = 1024 ∧ bw.tw.NoEscapeHTML = false ∧
      buffered (q, bw.tw) = [] ∧ delivered (q, bw.tw) = [] ∧
      (bw.currentByte = none ∧ bw.bufAllocated = false) := by
  obtain ⟨q, bw, h1, h2, h3, h4, h5, h6, h7, h8⟩ := NewBufferWriter_spec p hp
  refine ⟨q, bw, h1, ⟨⟨_, h2, by decide⟩, Or.inr h6, by simp only [h7]; omega⟩, h3, h4, h5, ?_, h8⟩
  simp only [delivered, h2]

/-! ### base64 -/

theorem pack2 (a b : Nat) (hb : b < 256) : a <<< 16 ||| b <<< 8 = a * 65536 + b * 256 := by
  rw [Nat.shiftLeft_eq, Nat.shiftLeft_eq]
  have h := Nat.mul_add_lt_is_or (i := 16) (b := b * 2 ^ 8) (by omega) a
  rw [Nat.mul_comm a, ← h]; omega

theorem pack3 (a b c : Nat) (hb : b < 256) (hc : c < 256) :
    a <<< 16 ||| b <<< 8 ||| c = a * 65536 + b * 256 + c := by
  rw [pack2 a b hb]
  have h := Nat.mul_add_lt_is_or (i := 8) (b := c) (by omega) (a * 256 + b)
  have e : a * 65536 + b * 256 = 2 ^ 8 * (a * 256 + b) := by omega
  rw [e, ← h]

theorem sextet (v k : Nat) : v >>> k &&& 0x3F = v / 2 ^ k % 64 := by
  rw [Nat.shiftRight_eq_div_pow]
  exact Nat.and_pow_two_sub_one_eq_mod _ 6

theorem sextet0 (v : Nat) : v &&& 0x3F = v % 64 := Nat.and_pow_two_sub_one_eq_mod _ 6

/-- The table `encode` is the alphabet of RFC 4648. -/
theorem index_encode (i : Nat) (h : i < 64) : index encode i = .ok (Spec.alphabet i) := by
  have key : ∀ j : Fin 64, index encode j.val = .ok (Spec.alphabet j.val) := by decide
  exact key ⟨i, h⟩

theorem index_input (input : List Byte) (i : Nat) (h : i < input.length) :
    index input i = .ok input[i] := by
  simp only [index, List.getElem?_eq_getElem h]

theorem base64Quad_emitsR (v : Nat) :
    EmitsR (base64Quad v)
      [Spec.alphabet (v / 2 ^ 18 % 64), Spec.alphabet (v / 2 ^ 12 % 64),
       Spec.alphabet (v / 2 ^ 6 % 64), Spec.alphabet (v % 64)] := by
  intro st hr hp
  have A0 := emits_toR (AppendByte_emits (Spec.alphabet (v / 2 ^ 18 % 64)))
  have A1 := emits_toR (AppendByte_emits (Spec.alphabet (v / 2 ^ 12 % 64)))
  have A2 := emits_toR (AppendByte_emits (Spec.alphabet (v / 2 ^ 6 % 64)))
  have A3 := emits_toR (AppendByte_emits (Spec.alphabet (v % 64)))
  obtain ⟨st', h, a⟩ := (emitsR_seq A0 (emitsR_seq A1 (emitsR_seq A2 A3))) st hr hp
  refine ⟨st', ?_, a⟩
  simp only [base64Quad, sextet, sextet0, Nat.shiftRight_eq_div_pow,
    index_encode _ (Nat.mod_lt _ (by decide : 0 < 64)), ok_bind]
  exact h

theorem base64Encode_triple (a b c : Byte) (rest : List Byte) :
    Spec.base64Encode (a :: b :: c :: rest) =
      [Spec.alphabet ((a.val * 65536 + b.val * 256 + c.val) / 2 ^ 18 % 64),
       Spec.alphabet ((a.val * 65536 + b.val * 256 + c.val) / 2 ^ 12 % 64),
       Spec.alphabet ((a.val * 65536 + b.val * 256 + c.val) / 2 ^ 6 % 64),
       Spec.alphabet ((a.val * 65536 + b.val * 256 + c.val) % 64)] ++ Spec.base64Encode rest := by
  have ha := a.isLt
  have hb := b.isLt
  have hc := c.isLt
  have e : (a.val * 65536 + b.val * 256 + c.val) / 2 ^ 18 % 64 =
      (a.val * 65536 + b.val * 256 + c.val) / 262144 := by omega
  simp only [Spec.base64Encode, e, List.cons_append, List.nil_append]
  rfl

theorem drop_take_three (input : List Byte) (si k : Nat) (h : si + 3 * (k + 1) ≤ input.length) :
    ∃ (h0 : si < input.length) (h1 : si + 1 < input.length) (h2 : si + 2 < input.length),
      (input.drop si).take (3 * (k + 1)) =
        input[si] :: input[si + 1] :: input[si + 2] :: (input.drop (si + 3)).take (3 * k) := by
  have h0 : si < input.length := by omega
  have h1 : si + 1 < input.length := by omega
  have h2 : si + 2 < input.length := by omega
  refine ⟨h0, h1, h2, ?_⟩
  rw [List.drop_eq_getElem_cons h0, List.drop_eq_getElem_cons h1, List.drop_eq_getElem_cons h2]
  have e : 3 * (k + 1) = 3 * k + 1 + 1 + 1 := by omega
  rw [e, List.take_succ_cons, List.take_succ_cons, List.take_succ_cons]

/-- The main loop of `base64` writes the RFC 4648 encoding of the full
three-byte groups it walks over. -/
theorem base64Loop_spec (input : List Byte) (n : Nat) (hn : n ≤ input.length) :
    ∀ (k fuel si : Nat) (st : BState), si + 3 * k = n → k + 1 ≤ fuel → Ready st →
      1 ≤ st.1.PooledSize →
      ∃ st', base64Loop input n fuel si st = .ok (n, st') ∧
        Appended (Spec.base64Encode ((input.drop si).take (3 * k))) st st' := by
  intro k
  induction k with
  | zero =>
    intro fuel si st hsi hf hr _
    obtain ⟨f, rfl⟩ : ∃ f, fuel = f + 1 := ⟨fuel - 1, by omega⟩
    have hlt : ¬ si < n := by omega
    have hsn : si = n := by omega
    refine ⟨st, by rw [hsn]; unfold base64Loop; rw [if_neg (Nat.lt_irrefl n)], ?_⟩
    simpa [Spec.base64Encode] using appended_refl hr
  | succ k ih =>
    intro fuel si st hsi hf hr hp
    obtain ⟨f, rfl⟩ : ∃ f, fuel = f + 1 := ⟨fuel - 1, by omega⟩
    have hlt : si < n := by omega
    obtain ⟨h0, h1, h2, hdrop⟩ := drop_take_three input si k (by omega)
    obtain ⟨st1, q1, a1⟩ := base64Quad_emitsR
      (input[si].val * 65536 + input[si + 1].val * 256 + input[si + 2].val) st hr hp
    obtain ⟨st2, q2, a2⟩ := ih f (si + 3) st1 (by omega) (by omega) a1.1
      (by rw [a1.2.2.1]; exact hp)
    refine ⟨st2, ?_, ?_⟩
    · simp only [base64Loop, hlt, if_true, Nat.add_zero, index_input input si h0,
        index_input input (si + 1) h1, index_input input (si + 2) h2, ok_bind,
        pack3 _ _ _ (input[si + 1]).isLt (input[si + 2]).isLt, q1, q2]
    · rw [hdrop, base64Encode_triple]
      exact appended_trans a1 a2

theorem base64Encode_split : ∀ (k : Nat) (input : List Byte), 3 * k ≤ input.length →
    Spec.base64Encode input =
      Spec.base64Encode (input.take (3 * k)) ++ Spec.base64Encode (input.drop (3 * k)) := by
  intro k
  induction k with
  | zero => intro input _; simp [Spec.base64Encode]
  | succ k ih =>
    intro input h
    match input, h with
    | a :: b :: c :: rest, h =>
      have e : 3 * (k + 1) = 3 * k + 1 + 1 + 1 := by omega
      have hr : 3 * k ≤ rest.length := by simp only [List.length_cons] at h; omega
      rw [e, List.take_succ_cons, List.take_succ_cons, List.take_succ_cons,
        List.drop_succ_cons, List.drop_succ_cons, List.drop_succ_cons,
        base64Encode_triple, base64Encode_triple, ih rest hr, List.append_assoc]
    | [], h => simp at h
    | [_], h => simp at h; omega
    | [_, _], h => simp at h; omega

theorem base64Encode_one (a : Byte) :
    Spec.base64Encode [a] =
      [Spec.alphabet (a.val <<< 16 / 2 ^ 18 % 64), Spec.alphabet (a.val <<< 16 / 2 ^ 12 % 64),
       61, 61] := by
  have ha := a.isLt
  have e1 : a.val <<< 16 / 2 ^ 18 % 64 = a.val * 65536 / 262144 := by
    rw [Nat.shiftLeft_eq]; omega
  have e2 : a.val <<< 16 / 2 ^ 12 % 64 = a.val * 65536 / 4096 % 64 := by
    rw [Nat.shiftLeft_eq]; norm_num
  simp only [Spec.base64Encode, e1, e2]

theorem base64Encode_two (a b : Byte) :
    Spec.base64Encode [a, b] =
      [Spec.alphabet ((a.val <<< 16 ||| b.val <<< 8) / 2 ^ 18 % 64),
       Spec.alphabet ((a.val <<< 16 ||| b.val <<< 8) / 2 ^ 12 % 64),
       Spec.alphabet ((a.val <<< 16 ||| b.val <<< 8) / 2 ^ 6 % 64), 61] := by
  have ha := a.isLt
  have hb := b.isLt
  rw [pack2 _ _ hb]
  have e1 : (a.val * 65536 + b.val * 256) / 2 ^ 18 % 64 =
      (a.val * 65536 + b.val * 256) / 262144 := by omega
  simp only [Spec.base64Encode, e1]
  rfl

/-- `base64`, called with an active chunk in place, writes the RFC 4648
encoding of its input. -/
theorem base64_emitsR (input : List Byte) : EmitsR (base64 input) (Spec.base64Encode input) := by
  intro st hr hp
  by_cases h0 : input.length = 0
  · have : input = [] := List.length_eq_zero.mp h0
    subst this
    exact ⟨st, rfl, by simpa [Spec.base64Encode] using appended_refl hr⟩
  obtain ⟨st1, q1, a1⟩ := EnsureSpace_emitsR (((input.length - 1) / 3 + 1) * 4) st hr hp
  have hp1 : 1 ≤ st1.1.PooledSize := by rw [a1.2.2.1]; exact hp
  obtain ⟨st2, q2, a2⟩ := base64Loop_spec input (input.length / 3 * 3) (by omega)
    (input.length / 3) (input.length / 3 + 1) 0 st1 (by omega) (le_refl _) a1.1 hp1
  have hp2 : 1 ≤ st2.1.PooledSize := by rw [a2.2.2.1]; exact hp1
  have hsplit := base64Encode_split (input.length / 3) input (by omega)
  simp only [List.drop_zero] at a2
  have a12 := appended_trans a1 a2
  simp only [List.nil_append] at a12
  have hrem : input.length - input.length / 3 * 3 = 0 ∨
      input.length - input.length / 3 * 3 = 1 ∨ input.length - input.length / 3 * 3 = 2 := by
    omega
  have hmul : input.length / 3 * 3 = 3 * (input.length / 3) := by omega
  rcases hrem with hrem | hrem | hrem
  · refine ⟨st2, ?_, ?_⟩
    · simp only [base64, h0, if_false, q1, ok_bind, q2, hrem, if_true]
    · have hd : input.drop (3 * (input.length / 3)) = [] := by
        apply List.drop_eq_nil_of_le; omega
      rw [hsplit, hd]
      simpa [Spec.base64Encode] using a12
  · have hi : input.length / 3 * 3 < input.length := by omega
    have hd : input.drop (3 * (input.length / 3)) = [input[input.length / 3 * 3]] := by
      rw [← hmul, List.drop_eq_getElem_cons hi, List.drop_eq_nil_of_le (by omega)]
    have B := emitsR_seq
      (emits_toR (AppendByte_emits
        (Spec.alphabet ((input[input.length / 3 * 3]).val <<< 16 / 2 ^ 18 % 64))))
      (emitsR_seq (emits_toR (AppendByte_emits
        (Spec.alphabet ((input[input.length / 3 * 3]).val <<< 16 / 2 ^ 12 % 64))))
        (emitsR_seq (emits_toR (AppendByte_emits padChar)) (emits_toR (AppendByte_emits padChar))))
    obtain ⟨st3, q3, a3⟩ := B st2 a2.1 hp2
    refine ⟨st3, ?_, ?_⟩
    · simp only [base64, h0, if_false, q1, ok_bind, q2, hrem, Nat.add_zero,
        index_input input _ hi, sextet, sextet0, Nat.shiftRight_eq_div_pow,
        index_encode _ (Nat.mod_lt _ (by decide : 0 < 64)), pure, Except.pure]
      simpa using q3
    · rw [hsplit, hd, base64Encode_one]
      exact appended_trans a12 a3
  · have hi : input.length / 3 * 3 < input.length := by omega
    have hi1 : input.length / 3 * 3 + 1 < input.length := by omega
    have hd : input.drop (3 * (input.length / 3)) =
        [input[input.length / 3 * 3], input[input.length / 3 * 3 + 1]] := by
      rw [← hmul, List.drop_eq_getElem_cons hi, List.drop_eq_getElem_cons hi1,
        List.drop_eq_nil_of_le (by omega)]
    have B := emitsR_seq
      (emits_toR (AppendByte_emits
        (Spec.alphabet (((input[input.length / 3 * 3]).val <<< 16 |||
          (input[input.length / 3 * 3 + 1]).val <<< 8) / 2 ^ 18 % 64))))
      (emitsR_seq (emits_toR (AppendByte_emits
        (Spec.alphabet (((input[input.length / 3 * 3]).val <<< 16 |||
          (input[input.length / 3 * 3 + 1]).val <<< 8) / 2 ^ 12 % 64))))
        (emitsR_seq (emits_toR (AppendByte_emits
          (Spec.alphabet (((input[input.length / 3 * 3]).val <<< 16 |||
            (input[input.length / 3 * 3 + 1]).val <<< 8) / 2 ^ 6 % 64))))
          (emits_toR (AppendByte_emits padChar))))
    obtain ⟨st3, q3, a3⟩ := B st2 a2.1 hp2
    refine ⟨st3, ?_, ?_⟩
    · simp only [base64, h0, if_false, q1, ok_bind, q2, hrem, Nat.add_zero,
        index_input input _ hi, index_input input _ hi1, sextet, sextet0,
        Nat.shiftRight_eq_div_pow,
        index_encode _ (Nat.mod_lt _ (by decide : 0 < 64)), pure, Except.pure]
      simpa using q3
    · rw [hsplit, hd, base64Encode_two]
      exact appended_trans a12 a3

theorem base64Encode_length (input : List Byte) :
    (Spec.base64Encode input).length = 4 * ((input.length + 2) / 3) := by
  induction input using Spec.base64Encode.induct with
  | case1 a b c rest ih =>
    simp only [Spec.base64Encode, List.length_cons, ih]
    omega
  | case2 a b => simp [Spec.base64Encode]
  | case3 a => simp [Spec.base64Encode]
  | case4 => simp [Spec.base64Encode]

theorem value_alphabet (i : Nat) (h : i < 64) : Spec.value (Spec.alphabet i) = some i := by
  have key : ∀ j : Fin 64, Spec.value (Spec.alphabet j.val) = some j.val := by decide
  exact key ⟨i, h⟩

theorem alphabet_ne_pad (i : Nat) (h : i < 64) : Spec.alphabet i ≠ 61 := by
  have key : ∀ j : Fin 64, Spec.alphabet j.val ≠ 61 := by decide
  exact key ⟨i, h⟩

theorem byteOf_eq (n : Nat) (a : Byte) (h : n % 256 = a.val) : byteOf n = a :=
  Fin.ext h

/-- A standard decoder reads the RFC 4648 encoding of `input` back as
`input`. -/
theorem base64Decode_encode (input : List Byte) :
    Spec.base64Decode (Spec.base64Encode input) = some input := by
  induction input using Spec.base64Encode.induct with
  | case1 a b c rest ih =>
    have ha := a.isLt
    have hb := b.isLt
    have hc := c.isLt
    have h3 : Spec.alphabet ((a.val * 65536 + b.val * 256 + c.val) % 64) ≠ 61 :=
      alphabet_ne_pad _ (by omega)
    simp only [Spec.base64Encode, Spec.base64Decode, h3, false_and, if_false, ih,
      value_alphabet ((a.val * 65536 + b.val * 256 + c.val) / 262144) (by omega),
      value_alphabet ((a.val * 65536 + b.val * 256 + c.val) / 4096 % 64) (by omega),
      value_alphabet ((a.val * 65536 + b.val * 256 + c.val) / 64 % 64) (by omega),
      value_alphabet ((a.val * 65536 + b.val * 256 + c.val) % 64) (by omega)]
    rw [byteOf_eq _ a (by omega), byteOf_eq _ b (by omega), byteOf_eq _ c (by omega)]
  | case2 a b =>
    have ha := a.isLt
    have hb := b.isLt
    have h2 : Spec.alphabet ((a.val * 65536 + b.val * 256) / 64 % 64) ≠ 61 :=
      alphabet_ne_pad _ (by omega)
    simp only [Spec.base64Encode, Spec.base64Decode, and_self, if_true, h2, if_false,
      value_alphabet ((a.val * 65536 + b.val * 256) / 262144) (by omega),
      value_alphabet ((a.val * 65536 + b.val * 256) / 4096 % 64) (by omega),
      value_alphabet ((a.val * 65536 + b.val * 256) / 64 % 64) (by omega)]
    rw [byteOf_eq _ a (by omega), byteOf_eq _ b (by omega)]
  | case3 a =>
    have ha := a.isLt
    simp only [Spec.base64Encode, Spec.base64Decode, and_self, if_true,
      value_alphabet (a.val * 65536 / 262144) (by omega),
      value_alphabet (a.val * 65536 / 4096 % 64) (by omega)]
    rw [byteOf_eq _ a (by omega)]
  | case4 => rfl

/-- A buffer operation that appends `d`, run on the buffer of a writer. -/
theorem onBuffer_emits {f : BState → Except Fault BState} {d : List Byte} (hf : Emits f d)
    (st : WState) (hwf : st.2.buffer.WF) (hp : 1 ≤ st.1.PooledSize) :
    ∃ st', onBuffer f st = .ok st' ∧ WAppended d st st' := by
  obtain ⟨p, tw⟩ := st
  obtain ⟨st1, h1, a1⟩ := hf (p, tw.buffer) hwf hp
  exact ⟨_, onBuffer_ok f p tw st1 h1, a1, rfl, rfl, rfl, rfl⟩

theorem wappended_buffered {d : List Byte} {st st' : WState} (h : WAppended d st st') :
    buffered st' = buffered st ++ d := h.1.2.1

theorem Base64Bytes_emits (input : List Byte) :
    Emits (fun st => do
        let st ← AppendByte 34 st
        let st ← base64 input st
        AppendByte 34 st) ([34] ++ (Spec.base64Encode input ++ [34])) :=
  emits_seq (AppendByte_emits 34)
    (emitsR_seq (base64_emitsR input) (emits_toR (AppendByte_emits 34)))

/-! ### String -/

theorem escapedFrom_skip (ne : Bool) : ∀ (l : List Byte) (k : Nat),
    escapedFrom ne k l = escapedFrom ne 0 (l.drop k) := by
  intro l
  induction l with
  | nil => intro k; cases k <;> simp [escapedFrom]
  | cons c t ih =>
    intro k
    cases k with
    | zero => rfl
    | succ k => simp only [escapedFrom, List.drop_succ_cons]; exact ih k

set_option maxRecDepth 8192 in
theorem table_lookup (ne : Bool) (i : Nat) (h : i < RuneSelf) :
    (escapeTableOf ne)[i]? = some ((escapeTableOf ne).getD i false) := by
  have hl : (escapeTableOf ne).length = 128 := by cases ne <;> decide
  have hi : i < (escapeTableOf ne).length := by rw [hl]; exact h
  rw [List.getElem?_eq_getElem hi, List.getD_eq_getElem _ _ hi]

theorem index_chars (i : Nat) (h : i < 16) : index chars i = .ok (chars.getD i 0) := by
  have key : ∀ j : Fin 16, index chars j.val = .ok (chars.getD j.val 0) := by decide
  exact key ⟨i, h⟩

theorem escapeSwitch_emits (c : Byte) : Emits (escapeSwitch c) (escapeText c) := by
  have h4 : c.val >>> 4 < 16 := by
    have := c.isLt
    rw [Nat.shiftRight_eq_div_pow]; omega
  have hf : c.val &&& 0xf < 16 := by
    have e : c.val &&& 0xf = c.val % 16 := Nat.and_pow_two_sub_one_eq_mod _ 4
    rw [e]; omega
  unfold escapeSwitch escapeText
  split
  · exact AppendString_emits _
  split
  · exact AppendString_emits _
  split
  · exact AppendString_emits _
  split
  · exact AppendString_emits _
  split
  · exact AppendString_emits _
  · have B := emits_seq (AppendString_emits [92, 117, 48, 48])
      (emitsR_seq (emits_toR (AppendByte_emits (chars.getD (c.val >>> 4) 0)))
        (emits_toR (AppendByte_emits (chars.getD (c.val &&& 0xf) 0))))
    intro st hwf hp
    obtain ⟨st', q, a⟩ := B st hwf hp
    refine ⟨st', ?_, by simpa using a⟩
    cases hq : AppendString [92, 117, 48, 48] st with
    | error e => simp only [hq, error_bind] at q; cases q
    | ok st1 =>
      simp only [hq, ok_bind, index_chars _ h4, index_chars _ hf] at q ⊢
      exact q

theorem utf8Lead_cases (x sz lo hi : Nat) (h : utf8Lead x = some (sz, lo, hi)) :
    (sz = 2 ∨ sz = 3 ∨ sz = 4) ∧ 0x80 ≤ lo ∧ hi ≤ 0xBF ∧ 0xC2 ≤ x ∧ x ≤ 0xF4 := by
  unfold utf8Lead at h
  repeat' split at h
  all_goals first
    | (simp only [Option.some.injEq, Prod.mk.injEq] at h
       obtain ⟨h1, h2, h3⟩ := h
       subst h1; subst h2; subst h3
       omega)
    | cases h

theorem decode_inv (s0 : Byte) (t : List Byte) (h : ¬ s0.val < RuneSelf) :
    DecodeRuneInString (s0 :: t) = (RuneError, 1) ∨
    (∃ lo hi s1 t1, utf8Lead s0.val = some (2, lo, hi) ∧ t = s1 :: t1 ∧
      lo ≤ s1.val ∧ s1.val ≤ hi ∧
      DecodeRuneInString (s0 :: t) = (s0.val % 32 * 64 + s1.val % 64, 2)) ∨
    (∃ lo hi s1 s2 t2, utf8Lead s0.val = some (3, lo, hi) ∧ t = s1 :: s2 :: t2 ∧
      lo ≤ s1.val ∧ s1.val ≤ hi ∧ 0x80 ≤ s2.val ∧ s2.val ≤ 0xBF ∧
      DecodeRuneInString (s0 :: t) = (s0.val % 16 * 4096 + s1.val % 64 * 64 + s2.val % 64, 3)) ∨
    (∃ lo hi s1 s2 s3 t3, utf8Lead s0.val = some (4, lo, hi) ∧ t = s1 :: s2 :: s3 :: t3 ∧
      lo ≤ s1.val ∧ s1.val ≤ hi ∧ 0x80 ≤ s2.val ∧ s2.val ≤ 0xBF ∧ 0x80 ≤ s3.val ∧ s3.val ≤ 0xBF ∧
      DecodeRuneInString (s0 :: t) =
        (s0.val % 8 * 262144 + s1.val % 64 * 4096 + s2.val % 64 * 64 + s3.val % 64, 4)) := by
  cases hl : utf8Lead s0.val with
  | none => left; simp only [DecodeRuneInString, h, if_false, hl]
  | some x =>
    obtain ⟨sz, lo, hi⟩ := x
    obtain ⟨hsz, _, _, _, _⟩ := utf8Lead_cases _ _ _ _ hl
    by_cases hlen : t.length + 1 < sz
    · left; simp only [DecodeRuneInString, h, if_false, hl, hlen, if_true]
    cases t with
    | nil => left; simp only [DecodeRuneInString, h, if_false, hl, hlen]
    | cons s1 t1 =>
      by_cases h1 : s1.val < lo ∨ hi < s1.val
      · left; simp only [DecodeRuneInString, h, if_false, hl, hlen, h1, if_true]
      by_cases hs2 : sz ≤ 2
      · have : sz = 2 := by omega
        subst this
        right; left
        refine ⟨lo, hi, s1, t1, rfl, rfl, by omega, by omega, ?_⟩
        simp only [DecodeRuneInString, h, if_false, hl, hlen, h1, hs2, if_true]
      cases t1 with
      | nil => left; simp only [DecodeRuneInString, h, if_false, hl, hlen, h1, hs2]
      | cons s2 t2 =>
        by_cases h2 : s2.val < 0x80 ∨ 0xBF < s2.val
        · left; simp only [DecodeRuneInString, h, if_false, hl, hlen, h1, hs2, h2, if_true]
        by_cases hs3 : sz ≤ 3
        · have : sz = 3 := by omega
          subst this
          right; right; left
          refine ⟨lo, hi, s1, s2, t2, rfl, rfl, by omega, by omega, by omega, by omega, ?_⟩
          simp only [DecodeRuneInString, h, if_false, hl, hlen, h1, hs2, h2, hs3, if_true]
        have : sz = 4 := by omega
        subst this
        cases t2 with
        | nil => left; simp only [DecodeRuneInString, h, if_false, hl, hlen, h1, hs2, h2, hs3]
        | cons s3 t3 =>
          by_cases h3 : s3.val < 0x80 ∨ 0xBF < s3.val
          · left
            simp only [DecodeRuneInString, h, if_false, hl, hlen, h1, hs2, h2, hs3, h3, if_true]
          right; right; right
          refine ⟨lo, hi, s1, s2, s3, t3, rfl, rfl, by omega, by omega, by omega, by omega,
            by omega, by omega, ?_⟩
          simp only [DecodeRuneInString, h, if_false, hl, hlen, h1, hs2, h2, hs3, h3]

theorem decode_ascii (s0 : Byte) (t : List Byte) (h : s0.val < RuneSelf) :
    DecodeRuneInString (s0 :: t) = (s0.val, 1) := by
  simp only [DecodeRuneInString, h, if_true]

/-- The width `DecodeRuneInString` reports is at least one byte and never
more than the input has. -/
theorem decode_width (s0 : Byte) (t : List Byte) :
    1 ≤ (DecodeRuneInString (s0 :: t)).2 ∧
      (DecodeRuneInString (s0 :: t)).2 ≤ (s0 :: t).length := by
  by_cases h : s0.val < RuneSelf
  · rw [decode_ascii s0 t h]; simp
  · rcases decode_inv s0 t h with h1 | ⟨_, _, _, _, _, ht, _, _, h1⟩ |
      ⟨_, _, _, _, _, _, ht, _, _, _, _, h1⟩ | ⟨_, _, _, _, _, _, _, ht, _, _, _, _, _, _, h1⟩
    · rw [h1]; simp
    · rw [h1, ht]; simp
    · rw [h1, ht]; simp
    · rw [h1, ht]; simp

theorem stringLoop_done (tbl : List Bool) (s : List Byte) (f p i : Nat) (st : BState)
    (hi : ¬ i < s.length) : stringLoop tbl s (f + 1) p i st = .ok (p, st) := by
  rw [stringLoop]; simp only [dif_neg hi]

theorem stringLoop_safe (tbl : List Bool) (s : List Byte) (f p i : Nat) (st : BState)
    (hi : i < s.length) (hc : (s[i]).val < RuneSelf) (ht : tbl[(s[i]).val]? = some true) :
    stringLoop tbl s (f + 1) p i st = stringLoop tbl s f p (i + 1) st := by
  rw [stringLoop]; simp only [dif_pos hi, hc, if_true, ht]

theorem stringLoop_escape (tbl : List Bool) (s : List Byte) (f p i : Nat) (st : BState)
    (hi : i < s.length) (hc : (s[i]).val < RuneSelf) (ht : tbl[(s[i]).val]? = some false) :
    stringLoop tbl s (f + 1) p i st =
      (slice s p i >>= fun run => AppendString run st >>= fun st1 =>
        escapeSwitch s[i] st1 >>= fun st2 => stringLoop tbl s f (i + 1) (i + 1) st2) := by
  rw [stringLoop]; simp only [dif_pos hi, hc, if_true, ht]

theorem stringLoop_invalid (tbl : List Bool) (s : List Byte) (f p i : Nat) (st : BState)
    (hi : i < s.length) (hc : ¬ (s[i]).val < RuneSelf)
    (hr : (DecodeRuneInString (s.drop i)).1 = RuneError ∧ (DecodeRuneInString (s.drop i)).2 = 1) :
    stringLoop tbl s (f + 1) p i st =
      (slice s p i >>= fun run => AppendString run st >>= fun st1 =>
        AppendString [92, 117, 102, 102, 102, 100] st1 >>= fun st2 =>
          stringLoop tbl s f (i + 1) (i + 1) st2) := by
  rw [stringLoop]; simp only [dif_pos hi, hc, if_false, hr, and_self, if_true]

theorem stringLoop_separator (tbl : List Bool) (s : List Byte) (f p i : Nat) (st : BState)
    (hi : i < s.length) (hc : ¬ (s[i]).val < RuneSelf)
    (hr : ¬ ((DecodeRuneInString (s.drop i)).1 = RuneError ∧
      (DecodeRuneInString (s.drop i)).2 = 1))
    (hs : (DecodeRuneInString (s.drop i)).1 = 0x2028 ∨ (DecodeRuneInString (s.drop i)).1 = 0x2029) :
    stringLoop tbl s (f + 1) p i st =
      (slice s p i >>= fun run => AppendString run st >>= fun st1 =>
        AppendString [92, 117, 50, 48, 50] st1 >>= fun st2 =>
          index chars ((DecodeRuneInString (s.drop i)).1 &&& 0xf) >>= fun lo =>
            AppendByte lo st2 >>= fun st3 =>
              stringLoop tbl s f (i + (DecodeRuneInString (s.drop i)).2)
                (i + (DecodeRuneInString (s.drop i)).2) st3) := by
  rw [stringLoop]; simp only [dif_pos hi, hc, if_false, hr, hs, if_true]

theorem stringLoop_multibyte (tbl : List Bool) (s : List Byte) (f p i : Nat) (st : BState)
    (hi : i < s.length) (hc : ¬ (s[i]).val < RuneSelf)
    (hr : ¬ ((DecodeRuneInString (s.drop i)).1 = RuneError ∧
      (DecodeRuneInString (s.drop i)).2 = 1))
    (hs : ¬ ((DecodeRuneInString (s.drop i)).1 = 0x2028 ∨
      (DecodeRuneInString (s.drop i)).1 = 0x2029)) :
    stringLoop tbl s (f + 1) p i st =
      stringLoop tbl s f p (i + (DecodeRuneInString (s.drop i)).2) st := by
  rw [stringLoop]; simp only [dif_pos hi, hc, if_false, hr, hs]

theorem slice_ok (s : List Byte) (p i : Nat) (hp : p ≤ i) (hi : i ≤ s.length) :
    slice s p i = .ok ((s.take i).drop p) := by
  simp only [slice, hp, hi, and_self, if_true]

theorem take_succ_drop (s : List Byte) (p i : Nat) (hp : p ≤ i) (hi : i < s.length) :
    (s.take (i + 1)).drop p = (s.take i).drop p ++ [s[i]] := by
  rw [List.take_succ, List.getElem?_eq_getElem hi, Option.toList_some,
    List.drop_append_of_le_length (by rw [List.length_take]; omega)]

theorem take_add_drop (s : List Byte) (p i w : Nat) (hp : p ≤ i) (hi : i ≤ s.length) :
    (s.take (i + w)).drop p = (s.take i).drop p ++ (s.drop i).take w := by
  rw [List.take_add, List.drop_append_of_le_length (by rw [List.length_take]; omega)]

theorem take_drop_self (s : List Byte) (i : Nat) : (s.take i).drop i = [] := by
  apply List.drop_eq_nil_of_le
  rw [List.length_take]; omega

theorem drop_cons_pred (c : Byte) (t : List Byte) (w : Nat) (hw : 1 ≤ w) :
    t.drop (w - 1) = (c :: t).drop w := by
  obtain ⟨k, rfl⟩ : ∃ k, w = k + 1 := ⟨w - 1, by omega⟩
  simp

theorem esc_safe (ne : Bool) (c : Byte) (t : List Byte) (hc : c.val < RuneSelf)
    (ht : (escapeTableOf ne).getD c.val false = true) :
    escapedFrom ne 0 (c :: t) = c :: escapedFrom ne 0 t := by
  simp only [escapedFrom, hc, if_true, ht]

theorem esc_escaped (ne : Bool) (c : Byte) (t : List Byte) (hc : c.val < RuneSelf)
    (ht : (escapeTableOf ne).getD c.val false = false) :
    escapedFrom ne 0 (c :: t) = escapeText c ++ escapedFrom ne 0 t := by
  simp only [escapedFrom, hc, if_true, ht, Bool.false_eq_true, if_false]

theorem esc_invalid (ne : Bool) (c : Byte) (t : List Byte) (hc : ¬ c.val < RuneSelf)
    (hr : (DecodeRuneInString (c :: t)).1 = RuneError ∧ (DecodeRuneInString (c :: t)).2 = 1) :
    escapedFrom ne 0 (c :: t) = [92, 117, 102, 102, 102, 100] ++ escapedFrom ne 0 t := by
  simp only [escapedFrom, hc, if_false, hr, and_self, if_true]

theorem esc_separator (ne : Bool) (c : Byte) (t : List Byte) (hc : ¬ c.val < RuneSelf)
    (hr : ¬ ((DecodeRuneInString (c :: t)).1 = RuneError ∧ (DecodeRuneInString (c :: t)).2 = 1))
    (hs : (DecodeRuneInString (c :: t)).1 = 0x2028 ∨ (DecodeRuneInString (c :: t)).1 = 0x2029) :
    escapedFrom ne 0 (c :: t) =
      [92, 117, 50, 48, 50, chars.getD ((DecodeRuneInString (c :: t)).1 &&& 0xf) 0] ++
        escapedFrom ne 0 ((c :: t).drop (DecodeRuneInString (c :: t)).2) := by
  rw [← drop_cons_pred c t _ (decode_width c t).1, ← escapedFrom_skip]
  simp only [escapedFrom, hc, if_false, hr, hs, if_true]

theorem esc_multibyte (ne : Bool) (c : Byte) (t : List Byte) (hc : ¬ c.val < RuneSelf)
    (hr : ¬ ((DecodeRuneInString (c :: t)).1 = RuneError ∧ (DecodeRuneInString (c :: t)).2 = 1))
    (hs : ¬ ((DecodeRuneInString (c :: t)).1 = 0x2028 ∨
      (DecodeRuneInString (c :: t)).1 = 0x2029)) :
    escapedFrom ne 0 (c :: t) =
      (c :: t).take (DecodeRuneInString (c :: t)).2 ++
        escapedFrom ne 0 ((c :: t).drop (DecodeRuneInString (c :: t)).2) := by
  rw [← drop_cons_pred c t _ (decode_width c t).1, ← escapedFrom_skip]
  simp only [escapedFrom, hc, if_false, hr, hs]

/-- The scanning loop of `String`: what it has appended when it stops,
followed by the run still pending, is the pending run at the start followed
by the escaped rest of the input. -/
theorem stringLoop_spec (ne : Bool) (s : List Byte) :
    ∀ (fuel p i : Nat) (st : BState), p ≤ i → i ≤ s.length → s.length - i + 1 ≤ fuel →
      Ready st → 1 ≤ st.1.PooledSize →
      ∃ p' st' out, stringLoop (escapeTableOf ne) s fuel p i st = .ok (p', st') ∧
        p' ≤ s.length ∧ Appended out st st' ∧
        out ++ s.drop p' = (s.take i).drop p ++ escapedFrom ne 0 (s.drop i) := by
  intro fuel
  induction fuel with
  | zero => intro p i st _ _ hf; omega
  | succ f ih =>
    intro p i st hpi hil hf hr hp
    by_cases hi : i < s.length
    swap
    · have hie : i = s.length := by omega
      refine ⟨p, st, [], stringLoop_done _ s f p i st hi, by omega, appended_refl hr, ?_⟩
      rw [hie, List.take_length, List.drop_length]
      simp [escapedFrom]
    have hdrop : s.drop i = s[i] :: s.drop (i + 1) := List.drop_eq_getElem_cons hi
    have hw := decode_width s[i] (s.drop (i + 1))
    rw [← hdrop] at hw
    -- emitting the pending run, an escape `e`, and restarting the run at `j`
    have restart : ∀ (e : List Byte) (j : Nat) (g : BState → Except Fault BState),
        Emits g e → i < j → j ≤ s.length →
        escapedFrom ne 0 (s.drop i) = e ++ escapedFrom ne 0 (s.drop j) →
        ∃ p' st' out, (slice s p i >>= fun run => AppendString run st >>= fun st1 =>
            g st1 >>= fun st2 => stringLoop (escapeTableOf ne) s f j j st2) = .ok (p', st') ∧
          p' ≤ s.length ∧ Appended out st st' ∧
          out ++ s.drop p' = (s.take i).drop p ++ escapedFrom ne 0 (s.drop i) := by
      intro e j g hg hij hjl hesc
      obtain ⟨st1, q1, a1⟩ := AppendString_emits ((s.take i).drop p) st (ready_wf hr) hp
      have hp1 : 1 ≤ st1.1.PooledSize := by rw [a1.2.2.1]; exact hp
      obtain ⟨st2, q2, a2⟩ := hg st1 (appended_wf a1) hp1
      have hp2 : 1 ≤ st2.1.PooledSize := by rw [a2.2.2.1]; exact hp1
      obtain ⟨p', st', out, q3, hp', a3, ho⟩ := ih j j st2 (le_refl _) hjl (by omega) a2.1 hp2
      refine ⟨p', st', (s.take i).drop p ++ e ++ out, ?_, hp', ?_, ?_⟩
      · simp only [slice_ok s p i hpi hil, ok_bind, q1, q2, q3]
      · exact appended_trans (appended_trans a1 a2) a3
      · rw [List.append_assoc, List.append_assoc, ho, take_drop_self, List.nil_append, hesc]
    by_cases hc : (s[i]).val < RuneSelf
    · have hl := table_lookup ne (s[i]).val hc
      cases hb : (escapeTableOf ne).getD (s[i]).val false with
      | true =>
        rw [hb] at hl
        obtain ⟨p', st', out, q, hp', a, ho⟩ := ih p (i + 1) st (by omega) (by omega) (by omega) hr hp
        refine ⟨p', st', out, ?_, hp', a, ?_⟩
        · rw [stringLoop_safe _ s f p i st hi hc hl]; exact q
        · rw [ho, take_succ_drop s p i hpi hi, hdrop, esc_safe ne _ _ hc hb]
          simp
      | false =>
        rw [hb] at hl
        rw [stringLoop_escape _ s f p i st hi hc hl]
        apply restart (escapeText s[i]) (i + 1) _ (escapeSwitch_emits s[i]) (by omega) (by omega)
        rw [hdrop, esc_escaped ne _ _ hc hb]
    · by_cases hbad : (DecodeRuneInString (s.drop i)).1 = RuneError ∧
          (DecodeRuneInString (s.drop i)).2 = 1
      · rw [stringLoop_invalid _ s f p i st hi hc hbad]
        apply restart [92, 117, 102, 102, 102, 100] (i + 1) _ (AppendString_emits _)
          (by omega) (by omega)
        rw [hdrop] at hbad ⊢
        rw [esc_invalid ne _ _ hc hbad]
      · have hwl : i + (DecodeRuneInString (s.drop i)).2 ≤ s.length := by
          have := hw.2
          rw [List.length_drop] at this
          omega
        have hdd : (s.drop i).drop (DecodeRuneInString (s.drop i)).2 =
            s.drop (i + (DecodeRuneInString (s.drop i)).2) := by
          rw [List.drop_drop, Nat.add_comm]
        by_cases hsep : (DecodeRuneInString (s.drop i)).1 = 0x2028 ∨
            (DecodeRuneInString (s.drop i)).1 = 0x2029
        · rw [stringLoop_separator _ s f p i st hi hc hbad hsep]
          have hidx : (DecodeRuneInString (s.drop i)).1 &&& 0xf < 16 := by
            have e : (DecodeRuneInString (s.drop i)).1 &&& 0xf =
                (DecodeRuneInString (s.drop i)).1 % 16 := Nat.and_pow_two_sub_one_eq_mod _ 4
            rw [e]; omega
          have hg : Emits (fun st1 => AppendString [92, 117, 50, 48, 50] st1 >>= fun st2 =>
              index chars ((DecodeRuneInString (s.drop i)).1 &&& 0xf) >>= fun lo =>
                AppendByte lo st2)
              ([92, 117, 50, 48, 50] ++
                [chars.getD ((DecodeRuneInString (s.drop i)).1 &&& 0xf) 0]) := by
            have B := emits_seq (AppendString_emits [92, 117, 50, 48, 50])
              (emits_toR (AppendByte_emits
                (chars.getD ((DecodeRuneInString (s.drop i)).1 &&& 0xf) 0)))
            simpa only [index_chars _ hidx, ok_bind] using B
          have R := restart _ (i + (DecodeRuneInString (s.drop i)).2) _ hg
            (by have := hw.1; omega) hwl
            (by
              rw [← hdd]
              rw [hdrop] at hbad hsep ⊢
              rw [esc_separator ne _ _ hc hbad hsep]
              rfl)
          obtain ⟨p', st', out, q, hp', a, ho⟩ := R
          refine ⟨p', st', out, ?_, hp', a, ho⟩
          rw [← q]
          cases slice s p i with
          | error e => rfl
          | ok run =>
            simp only [ok_bind]
            cases AppendString run st with
            | error e => rfl
            | ok st1 =>
              simp only [ok_bind]
              cases AppendString [92, 117, 50, 48, 50] st1 with
              | error e => rfl
              | ok st2 =>
                simp only [ok_bind, index_chars _ hidx]
        · obtain ⟨p', st', out, q, hp', a, ho⟩ := ih p (i + (DecodeRuneInString (s.drop i)).2) st
            (by omega) hwl (by have := hw.1; omega) hr hp
          refine ⟨p', st', out, ?_, hp', a, ?_⟩
          · rw [stringLoop_multibyte _ s f p i st hi hc hbad hsep]; exact q
          · rw [ho, take_add_drop s p i _ hpi hil, ← hdd, List.append_assoc]
            congr 1
            rw [hdrop] at hbad hsep ⊢
            rw [esc_multibyte ne _ _ hc hbad hsep]

/-- `String(s)` appends `stringText`: a quote, the escaped input, a quote. -/
theorem stringOnBuffer_emits (ne : Bool) (s : List Byte) :
    Emits (stringOnBuffer ne s) (stringText ne s) := by
  intro st hwf hp
  obtain ⟨st1, q1, a1⟩ := AppendByte_emits 34 st hwf hp
  have hp1 : 1 ≤ st1.1.PooledSize := by rw [a1.2.2.1]; exact hp
  obtain ⟨p', st2, out, q2, hp', a2, ho⟩ :=
    stringLoop_spec ne s (s.length + 1) 0 0 st1 (le_refl _) (Nat.zero_le _) (by omega) a1.1 hp1
  have hp2 : 1 ≤ st2.1.PooledSize := by rw [a2.2.2.1]; exact hp1
  obtain ⟨st3, q3, a3⟩ := AppendString_emits (s.drop p') st2 (appended_wf a2) hp2
  have hp3 : 1 ≤ st3.1.PooledSize := by rw [a3.2.2.1]; exact hp2
  obtain ⟨st4, q4, a4⟩ := AppendByte_emits 34 st3 (appended_wf a3) hp3
  have hs : slice s p' s.length = .ok (s.drop p') := by
    rw [slice_ok s p' s.length hp' (le_refl _), List.take_length]
  refine ⟨st4, ?_, ?_⟩
  · have ht : (if ne = true then htmlNoEscapeTable else htmlEscapeTable) = escapeTableOf ne := rfl
    simp only [stringOnBuffer, q1, ok_bind, ht, q2, hs, q3, q4]
  · have h := appended_trans (appended_trans (appended_trans a1 a2) a3) a4
    simp only [List.take_zero, List.drop_zero, List.nil_append] at ho
    rw [List.append_assoc, List.append_assoc, ← List.append_assoc out, ho] at h
    exact h

theorem String_spec (s : List Byte) (st : WState) (hwf : st.2.buffer.WF)
    (hp : 1 ≤ st.1.PooledSize) :
    ∃ st', tokenWriter.String s st = .ok st' ∧ WAppended (stringText st.2.NoEscapeHTML s) st st' :=
  onBuffer_emits (stringOnBuffer_emits st.2.NoEscapeHTML s) st hwf hp

/-- A buffer operation that appends `d` when a chunk is active, run on the
buffer of a writer that has one. -/
theorem onBuffer_emitsR {f : BState → Except Fault BState} {d : List Byte} (hf : EmitsR f d)
    (st : WState) (hr : Ready (st.1, st.2.buffer)) (hp : 1 ≤ st.1.PooledSize) :
    ∃ st', onBuffer f st = .ok st' ∧ WAppended d st st' := by
  obtain ⟨p, tw⟩ := st
  obtain ⟨st1, h1, a1⟩ := hf (p, tw.buffer) hr hp
  exact ⟨_, onBuffer_ok f p tw st1 h1, a1, rfl, rfl, rfl, rfl⟩

theorem quoted_emits {f : BState → Except Fault BState} {d : List Byte} (hf : EmitsR f d) :
    Emits (fun st => do
        let st ← AppendByte 34 st
        let st ← f st
        AppendByte 34 st) ([34] ++ (d ++ [34])) :=
  emits_seq (AppendByte_emits 34) (emitsR_seq hf (emits_toR (AppendByte_emits 34)))

theorem Bool_emits (v : Bool) :
    EmitsR (fun st => do
        let st ← EnsureSpace 5 st
        if v then AppendString [116, 114, 117, 101] st
        else AppendString [102, 97, 108, 115, 101] st)
      (if v then [116, 114, 117, 101] else [102, 97, 108, 115, 101]) := by
  cases v with
  | true =>
    have h := emitsR_seq (EnsureSpace_emitsR 5) (emits_toR (AppendString_emits [116, 114, 117, 101]))
    simpa using h
  | false =>
    have h := emitsR_seq (EnsureSpace_emitsR 5)
      (emits_toR (AppendString_emits [102, 97, 108, 115, 101]))
    simpa using h

theorem wappended_trans {d e : List Byte} {st st' st'' : WState}
    (h1 : WAppended d st st') (h2 : WAppended e st' st'') : WAppended (d ++ e) st st'' := by
  obtain ⟨a1, a2, a3, a4, a5⟩ := h1
  obtain ⟨b1, b2, b3, b4, b5⟩ := h2
  exact ⟨appended_trans a1 b1, by rw [b2, a2], by rw [b3, a3], by rw [b4, a4], by rw [b5, a5]⟩

end jwriter

namespace easyjson

open buffer jwriter

/-- Every append call, on a writer that holds an active chunk, returns
normally and appends its text. -/
theorem call_run_spec (c : Call) (st : WState) (hr : Ready (st.1, st.2.buffer))
    (hp : 1 ≤ st.1.PooledSize) :
    ∃ st', c.run st = .ok st' ∧ WAppended (callText st.2.NoEscapeHTML c) st st' := by
  have hwf := ready_wf hr
  cases c with
  | Flags => exact ⟨st, rfl, appended_refl hr, rfl, rfl, rfl, rfl⟩
  | RawByte x => exact onBuffer_emits (AppendByte_emits x) st hwf hp
  | RawBytes d => exact onBuffer_emits (AppendBytes_emits d) st hwf hp
  | RawBytesWithErr d e =>
    cases e with
    | some e => exact ⟨st, rfl, appended_refl hr, rfl, rfl, rfl, rfl⟩
    | none =>
      obtain ⟨st', h, a⟩ := onBuffer_emits (AppendBytes_emits d) st hwf hp
      refine ⟨st', ?_, a⟩
      simp only [Call.run, tokenWriter.RawBytesWithErr, tokenWriter.RawBytes, h, ok_bind, pure,
        Except.pure, Except.map]
  | RawTextWithErr d e =>
    cases e with
    | some e => exact ⟨st, rfl, appended_refl hr, rfl, rfl, rfl, rfl⟩
    | none =>
      obtain ⟨st', h, a⟩ := String_spec d st hwf hp
      refine ⟨st', ?_, a⟩
      simp only [Call.run, tokenWriter.RawTextWithErr, h, ok_bind, pure, Except.pure, Except.map]
  | RawString s => exact onBuffer_emits (AppendString_emits s) st hwf hp
  | Base64Bytes d =>
    cases d with
    | none => exact onBuffer_emits (AppendString_emits [110, 117, 108, 108]) st hwf hp
    | some d => exact onBuffer_emits (Base64Bytes_emits d) st hwf hp
  | Uint8 n => exact onBuffer_emitsR (appendFormatted_emitsR (formatUint n) 3) st hr hp
  | Uint16 n => exact onBuffer_emitsR (appendFormatted_emitsR (formatUint n) 5) st hr hp
  | Uint32 n => exact onBuffer_emitsR (appendFormatted_emitsR (formatUint n) 10) st hr hp
  | Uint n => exact onBuffer_emitsR (appendFormatted_emitsR (formatUint n) 20) st hr hp
  | Uint64 n => exact onBuffer_emitsR (appendFormatted_emitsR (formatUint n) 20) st hr hp
  | Int8 n => exact onBuffer_emitsR (appendFormatted_emitsR (formatInt n) 4) st hr hp
  | Int16 n => exact onBuffer_emitsR (appendFormatted_emitsR (formatInt n) 6) st hr hp
  | Int32 n => exact onBuffer_emitsR (appendFormatted_emitsR (formatInt n) 11) st hr hp
  | Int n => exact onBuffer_emitsR (appendFormatted_emitsR (formatInt n) 21) st hr hp
  | Int64 n => exact onBuffer_emitsR (appendFormatted_emitsR (formatInt n) 21) st hr hp
  | Uint8Str n =>
    exact onBuffer_emits (quoted_emits (appendFormatted_emitsR (formatUint n) 3)) st hwf hp
  | Uint16Str n =>
    exact onBuffer_emits (quoted_emits (appendFormatted_emitsR (formatUint n) 5)) st hwf hp
  | Uint32Str n =>
    exact onBuffer_emits (quoted_emits (appendFormatted_emitsR (formatUint n) 10)) st hwf hp
  | UintStr n =>
    exact onBuffer_emits (quoted_emits (appendFormatted_emitsR (formatUint n) 20)) st hwf hp
  | Uint64Str n =>
    exact onBuffer_emits (quoted_emits (appendFormatted_emitsR (formatUint n) 20)) st hwf hp
  | UintptrStr n =>
    exact onBuffer_emits (quoted_emits (appendFormatted_emitsR (formatUint n) 20)) st hwf hp
  | Int8Str n =>
    exact onBuffer_emits (quoted_emits (appendFormatted_emitsR (formatInt n) 2)) st hwf hp
  | Int16Str n =>
    exact onBuffer_emits (quoted_emits (appendFormatted_emitsR (formatInt n) 6)) st hwf hp
  | Int32Str n =>
    exact onBuffer_emits (quoted_emits (appendFormatted_emitsR (formatInt n) 11)) st hwf hp
  | IntStr n =>
    exact onBuffer_emits (quoted_emits (appendFormatted_emitsR (formatInt n) 21)) st hwf hp
  | Int64Str n =>
    exact onBuffer_emits (quoted_emits (appendFormatted_emitsR (formatInt n) 21)) st hwf hp
  | Float32 t => exact onBuffer_emitsR (appendFormatted_emitsR t 20) st hr hp
  | Float32Str t => exact onBuffer_emits (quoted_emits (appendFormatted_emitsR t 20)) st hwf hp
  | Float64 t => exact onBuffer_emitsR (appendFormatted_emitsR t 20) st hr hp
  | Float64Str t => exact onBuffer_emits (quoted_emits (appendFormatted_emitsR t 20)) st hwf hp
  | Bool v => exact onBuffer_emitsR (Bool_emits v) st hr hp
  | String s => exact String_spec s st hwf hp

/-- A sequence of append calls appends the texts of the calls in order. -/
theorem runCalls_spec : ∀ (calls : List Call) (st : WState), Ready (st.1, st.2.buffer) →
    1 ≤ st.1.PooledSize →
    ∃ st', runCalls calls st = .ok st' ∧ WAppended (callsText st.2.NoEscapeHTML calls) st st' := by
  intro calls
  induction calls with
  | nil =>
    intro st hr _
    exact ⟨st, rfl, appended_refl hr, rfl, rfl, rfl, rfl⟩
  | cons c cs ih =>
    intro st hr hp
    obtain ⟨st1, h1, a1⟩ := call_run_spec c st hr hp
    obtain ⟨st2, h2, a2⟩ := ih st1 a1.1.1 (by rw [a1.1.2.2.1]; exact hp)
    refine ⟨st2, by simp only [runCalls, h1, ok_bind, h2], ?_⟩
    have := wappended_trans a1 a2
    rw [a1.2.2.2.2] at this
    simpa [callsText] using this

/-- An unsigned value of `w` bits has at most `k` decimal digits when
`2 ^ w ≤ 10 ^ k`. -/
theorem uint_fits (w k : Nat) (hk : 1 ≤ k) (hw : 2 ^ w ≤ 10 ^ k) (n : Fin (2 ^ w)) :
    (formatUint n.val).length ≤ k :=
  formatUint_length n.val k hk (Nat.lt_of_lt_of_le n.isLt hw)

/-- A signed value of `w + 1` bits, written `n - 2 ^ w` for `n` below
`2 ^ (w + 1)`, has at most `k` digits and a sign when `2 ^ w < 10 ^ k`. -/
theorem int_fits (w k : Nat) (hk : 1 ≤ k) (hw : 2 ^ w < 10 ^ k) (n : Fin (2 ^ (w + 1))) :
    (formatInt ((n.val : ℤ) - 2 ^ w)).length ≤ k + 1 := by
  apply formatInt_length _ k hk
  have h1 : n.val < 2 ^ w * 2 := by
    have h := n.isLt
    calc n.val < 2 ^ (w + 1) := h
      _ = 2 ^ w * 2 := by rw [Nat.pow_succ]
  have h2 : (2 : ℤ) ^ w = ((2 ^ w : Nat) : ℤ) := by push_cast; rfl
  rw [h2]
  omega

set_option maxRecDepth 100000 in
/-- On a chunk of capacity 1024 that holds 1021 bytes, `Int8Str(-128)` asks
for 2 free bytes, finds 3, and appends the 4 characters and the two quotes to
that same chunk. -/
theorem Int8Str_overfill :
    ∃ st' c, tokenWriter.Int8Str (-128) (defaultPool, nearlyFullWriter) = .ok st' ∧
      st'.2.buffer = { buf := some c, bufs := [] } ∧ c.id = 0 ∧ c.data.length = 1027 := by
  refine ⟨_, _, rfl, rfl, rfl, ?_⟩
  decide

/-- `MarshalUnknowns` writes the member of the first entry visited and
returns. -/
theorem MarshalUnknowns_spec (s : UnknownFieldsProxy) (first : Bool) (st : WState)
    (hwf : st.2.buffer.WF) (hp : 1 ≤ st.1.PooledSize) :
    ∃ st', s.MarshalUnknowns first st = .ok (none, st') ∧
      buffered st' = buffered st ++
        Spec.membersText st.2.NoEscapeHTML first (s.unknownFields.take 1) ∧
      st'.2.NoEscapeHTML = st.2.NoEscapeHTML ∧ st'.2.buffer.WF ∧
      st'.1.PooledSize = st.1.PooledSize := by
  obtain ⟨fields⟩ := s
  cases fields with
  | nil => exact ⟨st, rfl, by simp [Spec.membersText], rfl, hwf, rfl⟩
  | cons kv rest =>
    obtain ⟨key, val⟩ := kv
    have tail : ∀ st0 : WState, st0.2.buffer.WF → 1 ≤ st0.1.PooledSize →
        ∃ st3, (do
          let st ← tokenWriter.String key st0
          let st ← tokenWriter.RawByte 58 st
          let st ← tokenWriter.RawBytes val st
          pure ((none : Option Err), st)) = Except.ok (none, st3) ∧
          WAppended (stringText st0.2.NoEscapeHTML key ++ ([58] ++ val)) st0 st3 := by
      intro st0 hwf0 hp0
      obtain ⟨st1, q1, a1⟩ := String_spec key st0 hwf0 hp0
      have hp1 : 1 ≤ st1.1.PooledSize := by rw [a1.1.2.2.1]; exact hp0
      obtain ⟨st2, q2, a2⟩ := onBuffer_emits (AppendByte_emits 58) st1 (appended_wf a1.1) hp1
      have hp2 : 1 ≤ st2.1.PooledSize := by rw [a2.1.2.2.1]; exact hp1
      obtain ⟨st3, q3, a3⟩ := onBuffer_emits (AppendBytes_emits val) st2 (appended_wf a2.1) hp2
      have q2' : tokenWriter.RawByte 58 st1 = .ok st2 := q2
      have q3' : tokenWriter.RawBytes val st2 = .ok st3 := q3
      refine ⟨st3, ?_, ?_⟩
      · simp only [q1, ok_bind, q2', q3']
        rfl
      · have h := wappended_trans (wappended_trans a1 a2) a3
        rw [List.append_assoc] at h
        exact h
    cases first with
    | true =>
      obtain ⟨st3, q, a⟩ := tail st hwf hp
      refine ⟨st3, ?_, ?_, a.2.2.2.2, appended_wf a.1, a.1.2.2.1⟩
      · simp only [UnknownFieldsProxy.MarshalUnknowns, if_true, ok_bind]
        exact q
      · rw [wappended_buffered a]
        simp [Spec.membersText]
    | false =>
      obtain ⟨st0, q0, a0⟩ := onBuffer_emits (AppendByte_emits 44) st hwf hp
      have q0' : tokenWriter.RawByte 44 st = .ok st0 := q0
      have hp0 : 1 ≤ st0.1.PooledSize := by rw [a0.1.2.2.1]; exact hp
      obtain ⟨st3, q, a⟩ := tail st0 (appended_wf a0.1) hp0
      refine ⟨st3, ?_, ?_, by rw [a.2.2.2.2, a0.2.2.2.2], appended_wf a.1,
        by rw [a.1.2.2.1, a0.1.2.2.1]⟩
      · simp only [UnknownFieldsProxy.MarshalUnknowns, Bool.false_eq_true, if_false, q0', ok_bind]
        exact q
      · rw [wappended_buffered a, wappended_buffered a0, a0.2.2.2.2]
        simp [Spec.membersText]

/-- The text of all members is the text of the first member alone only when
there is at most one entry. -/
theorem membersText_take_one (ne : Bool) (first : Bool) (fields : List (List Byte × List Byte)) :
    Spec.membersText ne first (fields.take 1) = Spec.membersText ne first fields ↔
      fields.length ≤ 1 := by
  cases fields with
  | nil => simp
  | cons kv rest =>
    obtain ⟨key, val⟩ := kv
    cases rest with
    | nil => simp
    | cons kv2 rest2 =>
      obtain ⟨k2, v2⟩ := kv2
      simp [Spec.membersText]

/-- `NewStreamingTokenWriter` returns as soon as `PooledSize ≥ 1`. -/
theorem NewStreamingTokenWriter_ok (dest : Option Sink) (T : ℤ) (p : Pool)
    (hp : 1 ≤ p.PooledSize) : ∃ st, NewStreamingTokenWriter dest T p = .ok st := by
  obtain ⟨p1, c, bs, he, _⟩ :=
    ensureSpace_spec 1 (p, Buffer.zero) (by intro _; rfl) (fun _ => hp)
  exact ⟨_, onBuffer_ok _ _ _ _ he⟩

/-- `NewBufferWriter` aborts when `PooledSize` is below the 1024 bytes it
asks for. -/
theorem NewBufferWriter_small (p : Pool) (hp : p.PooledSize < 1024) :
    NewBufferWriter p = .error (.requireSpace 1024 p.PooledSize) := by
  have hgt : 1024 > p.PooledSize := hp
  simp only [NewBufferWriter, onBuffer, EnsureSpace, Buffer.zero, hgt, if_true, error_bind]

/-- The test of `isNilInterface` on a non-nil interface is the test of its
data word. -/
theorem isNilInterface_present (m : Marshaler) (h : Held) :
    isNilInterface (.present m h) = (h.dataWord == 0) := rfl

/-- An interface passes for nil exactly when its data word is zero: the
nil interface, or a non-nil interface holding 0 in its data word. -/
theorem isNilInterface_iff (v : Iface) :
    isNilInterface v = true ↔ v = .absent ∨ ∃ m h, v = .present m h ∧ h.dataWord = 0 := by
  cases v with
  | absent => exact ⟨fun _ => Or.inl rfl, fun _ => rfl⟩
  | present m h =>
    rw [isNilInterface_present]
    constructor
    · intro hz
      exact Or.inr ⟨m, h, rfl, by simpa using hz⟩
    · rintro (hx | ⟨m0, h0, hx, hz⟩)
      · cases hx
      · cases hx
        simpa using hz

/-- What the `bytes.Buffer` of a new buffer writer gives after one flush: a
nil slice when it received nothing. -/
theorem bytes_of_received (l : List Byte) :
    (if (false || !l.isEmpty) = true then some l else none) =
      if l = [] then none else some l := by
  cases l <;> rfl

/-- With `PooledSize ≥ 1024`, `Marshal` and `MarshalToWriter` of an interface
whose data word is not zero and whose `MarshalEasyJSON` only appends: the
bytes appended are returned (a nil slice when there are none) or written to
the sink in one call, and an error of `MarshalEasyJSON` is returned as it
is. -/
theorem Marshal_present (m : Marshaler) (h : Held) (p : Pool) (hh : h.dataWord ≠ 0)
    (hp : 1024 ≤ p.PooledSize) :
    (m.ret = none → ∃ p',
      Marshal (.present m h) p =
        .ok ((if callsText false m.calls = [] then none else some (callsText false m.calls),
          none), p') ∧
      ∀ w : Sink, MarshalToWriter (.present m h) w p =
        .ok ((w.Write (callsText false m.calls)).1, (w.Write (callsText false m.calls)).2, p')) ∧
    (∀ e, m.ret = some e → ∃ p',
      Marshal (.present m h) p = .ok ((none, some e), p') ∧
      ∀ w : Sink, MarshalToWriter (.present m h) w p = .ok ((0, some e), w, p')) := by
  have hnil : isNilInterface (.present m h) = false := by
    rw [isNilInterface_present]
    simpa using hh
  obtain ⟨q, bw, h1, hsink, _, hne, hbuf, hr, hps, hcur, halloc⟩ := NewBufferWriter_spec p hp
  have hq : 1 ≤ q.PooledSize := by rw [hps]; omega
  obtain ⟨st', hrun, ha, _, hsink', _, _⟩ := runCalls_spec m.calls (q, bw.tw) hr hq
  simp only [hne] at ha
  constructor
  · intro hret
    obtain ⟨c, bs, hcb, hc⟩ := ha.1
    simp only at hcb
    have hw : st'.2.targetIOWriter = some { received := [], script := [] } := by
      rw [hsink', hsink]
    obtain ⟨w', hf, hrecv, _⟩ := Flush_accepting st'.1 st'.2 { received := [], script := [] }
      c bs hw (by decide) hcb hc
    have hcontent : st'.2.buffer.content = callsText false m.calls := by
      have h2 := ha.2.1
      simp only [buffered] at hbuf
      simp only at h2
      rw [h2, hbuf, List.nil_append]
    rw [hcontent, List.nil_append] at hrecv
    refine ⟨putBuf (putBufs st'.1 bs) c, ?_, fun w => ?_⟩
    · simp only [Marshal, hnil, Iface.method, Bool.false_eq_true, if_false, h1, ok_bind,
        hrun, hret, BufferWriter.Flush, hf, pure, Except.pure,
        BufferWriter.BuildBytes, hrecv, halloc, bytes_of_received]
    · simp only [MarshalToWriter, hnil, Iface.method, Bool.false_eq_true, if_false, h1, ok_bind,
        hrun, hret, BufferWriter.Flush, hf, pure, Except.pure,
        BufferWriter.BuildBytes, hrecv, halloc, bytes_of_received]
      cases callsText false m.calls <;> rfl
  · intro e hret
    refine ⟨st'.1, ?_, fun w => ?_⟩
    · simp only [Marshal, hnil, Iface.method, Bool.false_eq_true, if_false, h1,
        ok_bind, hrun, hret, pure, Except.pure]
    · simp only [MarshalToWriter, hnil, Iface.method, Bool.false_eq_true, if_false, h1,
        ok_bind, hrun, hret, pure, Except.pure]

/-- With `PooledSize ≥ 1024`, `Marshal` and `MarshalToWriter` of an interface
that does not pass for nil and whose `MarshalEasyJSON` only appends return
normally. -/
theorem Marshal_returns (v : Iface) (w : Sink) (p : Pool) (hv : isNilInterface v = false)
    (hp : 1024 ≤ p.PooledSize) :
    (∃ r, Marshal v p = .ok r) ∧ (∃ r, MarshalToWriter v w p = .ok r) := by
  cases v with
  | absent => cases hv
  | present m h =>
    have hh : h.dataWord ≠ 0 := by
      rw [isNilInterface_present] at hv
      simpa using hv
    obtain ⟨s1, s2⟩ := Marshal_present m h p hh hp
    cases hret : m.ret with
    | none =>
      obtain ⟨p', a1, a2⟩ := s1 hret
      exact ⟨⟨_, a1⟩, ⟨_, a2 w⟩⟩
    | some e =>
      obtain ⟨p', a1, a2⟩ := s2 e hret
      exact ⟨⟨_, a1⟩, ⟨_, a2 w⟩⟩

/-- With `PooledSize` below 1024, `Marshal` and `MarshalToWriter` of an
interface that does not pass for nil abort in `NewBufferWriter`. -/
theorem Marshal_small (v : Iface) (w : Sink) (p : Pool) (hv : isNilInterface v = false)
    (hp : p.PooledSize < 1024) :
    Marshal v p = .error (.requireSpace 1024 p.PooledSize) ∧
    MarshalToWriter v w p = .error (.requireSpace 1024 p.PooledSize) := by
  have hn := NewBufferWriter_small p hp
  constructor
  · simp only [Marshal, hv, Bool.false_eq_true, if_false, hn, error_bind]
  · simp only [MarshalToWriter, hv, Bool.false_eq_true, if_false, hn, error_bind]

/-- An interface whose data word is zero: `Marshal` returns `nullBytes` and
`MarshalToWriter` makes the single call `w.Write(nullBytes)`; no buffer
writer is created, no method is called, and the pool is untouched. -/
theorem Marshal_nil (v : Iface) (w : Sink) (p : Pool) (hv : isNilInterface v = true) :
    Marshal v p = .ok ((some nullBytes, none), p) ∧
    MarshalToWriter v w p = .ok ((w.Write nullBytes).1, (w.Write nullBytes).2, p) := by
  constructor
  · simp only [Marshal, hv, if_true]
  · simp only [MarshalToWriter, hv, if_true]

end easyjson

namespace jwriter

open buffer

/-! ### The UTF-8 decoder and the escaped text -/

theorem decode_two (s0 s1 : Byte) (t1 : List Byte) (lo hi : Nat) (h : ¬ s0.val < RuneSelf)
    (hl : utf8Lead s0.val = some (2, lo, hi)) (h1 : lo ≤ s1.val) (h2 : s1.val ≤ hi) :
    DecodeRuneInString (s0 :: s1 :: t1) = (s0.val % 32 * 64 + s1.val % 64, 2) := by
  have hlen : ¬ (s1 :: t1).length + 1 < 2 := by simp
  have hr : ¬ (s1.val < lo ∨ hi < s1.val) := by omega
  simp only [DecodeRuneInString, h, if_false, hl, hlen, hr, le_refl, if_true]

theorem decode_three (s0 s1 s2 : Byte) (t2 : List Byte) (lo hi : Nat) (h : ¬ s0.val < RuneSelf)
    (hl : utf8Lead s0.val = some (3, lo, hi)) (h1 : lo ≤ s1.val) (h2 : s1.val ≤ hi)
    (h3 : 0x80 ≤ s2.val) (h4 : s2.val ≤ 0xBF) :
    DecodeRuneInString (s0 :: s1 :: s2 :: t2) =
      (s0.val % 16 * 4096 + s1.val % 64 * 64 + s2.val % 64, 3) := by
  have hlen : ¬ (s1 :: s2 :: t2).length + 1 < 3 := by simp
  have hr : ¬ (s1.val < lo ∨ hi < s1.val) := by omega
  have hr2 : ¬ (s2.val < 0x80 ∨ 0xBF < s2.val) := by omega
  have h32 : ¬ (3 ≤ 2) := by omega
  simp only [DecodeRuneInString, h, if_false, hl, hlen, hr, h32, hr2, le_refl, if_true]

theorem decode_four (s0 s1 s2 s3 : Byte) (t3 : List Byte) (lo hi : Nat) (h : ¬ s0.val < RuneSelf)
    (hl : utf8Lead s0.val = some (4, lo, hi)) (h1 : lo ≤ s1.val) (h2 : s1.val ≤ hi)
    (h3 : 0x80 ≤ s2.val) (h4 : s2.val ≤ 0xBF) (h5 : 0x80 ≤ s3.val) (h6 : s3.val ≤ 0xBF) :
    DecodeRuneInString (s0 :: s1 :: s2 :: s3 :: t3) =
      (s0.val % 8 * 262144 + s1.val % 64 * 4096 + s2.val % 64 * 64 + s3.val % 64, 4) := by
  have hlen : ¬ (s1 :: s2 :: s3 :: t3).length + 1 < 4 := by simp
  have hr : ¬ (s1.val < lo ∨ hi < s1.val) := by omega
  have hr2 : ¬ (s2.val < 0x80 ∨ 0xBF < s2.val) := by omega
  have hr3 : ¬ (s3.val < 0x80 ∨ 0xBF < s3.val) := by omega
  have h42 : ¬ (4 ≤ 2) := by omega
  have h43 : ¬ (4 ≤ 3) := by omega
  simp only [DecodeRuneInString, h, if_false, hl, hlen, hr, h42, h43, hr2, hr3]

/-- The decoder looks at no byte beyond the sequence it accepts: the result
on `l` is its result on the first `width` bytes followed by anything. -/
theorem decode_prefix (s0 : Byte) (t : List Byte) (m : List Byte)
    (hv : ¬ ((DecodeRuneInString (s0 :: t)).1 = RuneError ∧ (DecodeRuneInString (s0 :: t)).2 = 1)) :
    DecodeRuneInString ((s0 :: t).take (DecodeRuneInString (s0 :: t)).2 ++ m) =
      DecodeRuneInString (s0 :: t) := by
  by_cases h : s0.val < RuneSelf
  · rw [decode_ascii s0 t h]
    simp only [List.take_succ_cons, List.take_zero, List.cons_append, List.nil_append]
    exact decode_ascii s0 m h
  · rcases decode_inv s0 t h with h1 | ⟨lo, hi, s1, t1, hl, ht, a1, a2, h1⟩ |
      ⟨lo, hi, s1, s2, t2, hl, ht, a1, a2, a3, a4, h1⟩ |
      ⟨lo, hi, s1, s2, s3, t3, hl, ht, a1, a2, a3, a4, a5, a6, h1⟩
    · rw [h1] at hv; exact absurd ⟨rfl, rfl⟩ hv
    · rw [h1]; subst ht
      simp only [List.take_succ_cons, List.take_zero, List.cons_append, List.nil_append]
      exact decode_two s0 s1 m lo hi h hl a1 a2
    · rw [h1]; subst ht
      simp only [List.take_succ_cons, List.take_zero, List.cons_append, List.nil_append]
      exact decode_three s0 s1 s2 m lo hi h hl a1 a2 a3 a4
    · rw [h1]; subst ht
      simp only [List.take_succ_cons, List.take_zero, List.cons_append, List.nil_append]
      exact decode_four s0 s1 s2 s3 m lo hi h hl a1 a2 a3 a4 a5 a6

/-- Every byte of a multi-byte sequence the decoder accepts is at least
0x80. -/
theorem decode_bytes_high (s0 : Byte) (t : List Byte) (h : ¬ s0.val < RuneSelf) :
    ∀ b ∈ (s0 :: t).take (DecodeRuneInString (s0 :: t)).2, 0x80 ≤ b.val := by
  have h0 : 0x80 ≤ s0.val := by simp only [RuneSelf] at h; omega
  rcases decode_inv s0 t h with h1 | ⟨lo, hi, s1, t1, hl, ht, a1, a2, h1⟩ |
    ⟨lo, hi, s1, s2, t2, hl, ht, a1, a2, a3, a4, h1⟩ |
    ⟨lo, hi, s1, s2, s3, t3, hl, ht, a1, a2, a3, a4, a5, a6, h1⟩
  · rw [h1]; intro b hb
    simp only [List.take_succ_cons, List.take_zero, List.mem_singleton] at hb
    rw [hb]; exact h0
  · obtain ⟨_, hlo, _, _, _⟩ := utf8Lead_cases _ _ _ _ hl
    rw [h1]; subst ht; intro b hb
    simp only [List.take_succ_cons, List.take_zero, List.mem_cons, List.mem_singleton,
      List.not_mem_nil, or_false] at hb
    rcases hb with hb | hb <;> rw [hb] <;> omega
  · obtain ⟨_, hlo, _, _, _⟩ := utf8Lead_cases _ _ _ _ hl
    rw [h1]; subst ht; intro b hb
    simp only [List.take_succ_cons, List.take_zero, List.mem_cons, List.mem_singleton,
      List.not_mem_nil, or_false] at hb
    rcases hb with hb | hb | hb <;> rw [hb] <;> omega
  · obtain ⟨_, hlo, _, _, _⟩ := utf8Lead_cases _ _ _ _ hl
    rw [h1]; subst ht; intro b hb
    simp only [List.take_succ_cons, List.take_zero, List.mem_cons, List.mem_singleton,
      List.not_mem_nil, or_false] at hb
    rcases hb with hb | hb | hb | hb <;> rw [hb] <;> omega

/-- An ASCII byte ends whatever precedes it: the decoder gives the same
result whether or not the input goes on with an ASCII byte. -/
theorem decode_append_ascii (s0 : Byte) (t : List Byte) (c : Byte) (post : List Byte)
    (hc : c.val < RuneSelf) :
    DecodeRuneInString (s0 :: (t ++ c :: post)) = DecodeRuneInString (s0 :: t) := by
  have hc' : c.val < 0x80 := hc
  by_cases h : s0.val < RuneSelf
  · rw [decode_ascii _ _ h, decode_ascii _ _ h]
  · rcases decode_inv s0 t h with h1 | ⟨lo, hi, s1, t1, hl, ht, a1, a2, h1⟩ |
      ⟨lo, hi, s1, s2, t2, hl, ht, a1, a2, a3, a4, h1⟩ |
      ⟨lo, hi, s1, s2, s3, t3, hl, ht, a1, a2, a3, a4, a5, a6, h1⟩
    · rw [h1]
      rcases decode_inv s0 (t ++ c :: post) h with g1 | ⟨lo, hi, s1, t1, hl, ht, a1, a2, g1⟩ |
        ⟨lo, hi, s1, s2, t2, hl, ht, a1, a2, a3, a4, g1⟩ |
        ⟨lo, hi, s1, s2, s3, t3, hl, ht, a1, a2, a3, a4, a5, a6, g1⟩
      · exact g1
      · exfalso
        obtain ⟨_, hlo, _, _, _⟩ := utf8Lead_cases _ _ _ _ hl
        cases t with
        | nil =>
          simp only [List.nil_append, List.cons.injEq] at ht
          rw [ht.1] at hc'; omega
        | cons x t' =>
          simp only [List.cons_append, List.cons.injEq] at ht
          have := decode_two s0 x t' lo hi h hl (by rw [ht.1]; exact a1) (by rw [ht.1]; exact a2)
          rw [this] at h1
          simp only [Prod.mk.injEq] at h1
          omega
      · exfalso
        obtain ⟨_, hlo, _, _, _⟩ := utf8Lead_cases _ _ _ _ hl
        cases t with
        | nil =>
          simp only [List.nil_append, List.cons.injEq] at ht
          rw [ht.1] at hc'; omega
        | cons x t' =>
          cases t' with
          | nil =>
            simp only [List.cons_append, List.nil_append, List.cons.injEq] at ht
            rw [ht.2.1] at hc'; omega
          | cons y t'' =>
            simp only [List.cons_append, List.cons.injEq] at ht
            have := decode_three s0 x y t'' lo hi h hl (by rw [ht.1]; exact a1)
              (by rw [ht.1]; exact a2) (by rw [ht.2.1]; exact a3) (by rw [ht.2.1]; exact a4)
            rw [this] at h1
            simp only [Prod.mk.injEq] at h1
            omega
      · exfalso
        obtain ⟨_, hlo, _, _, _⟩ := utf8Lead_cases _ _ _ _ hl
        cases t with
        | nil =>
          simp only [List.nil_append, List.cons.injEq] at ht
          rw [ht.1] at hc'; omega
        | cons x t' =>
          cases t' with
          | nil =>
            simp only [List.cons_append, List.nil_append, List.cons.injEq] at ht
            rw [ht.2.1] at hc'; omega
          | cons y t'' =>
            cases t'' with
            | nil =>
              simp only [List.cons_append, List.nil_append, List.cons.injEq] at ht
              rw [ht.2.2.1] at hc'; omega
            | cons z t''' =>
              simp only [List.cons_append, List.cons.injEq] at ht
              have := decode_four s0 x y z t''' lo hi h hl (by rw [ht.1]; exact a1)
                (by rw [ht.1]; exact a2) (by rw [ht.2.1]; exact a3) (by rw [ht.2.1]; exact a4)
                (by rw [ht.2.2.1]; exact a5) (by rw [ht.2.2.1]; exact a6)
              rw [this] at h1
              simp only [Prod.mk.injEq] at h1
              omega
    · rw [h1]; subst ht
      exact decode_two s0 s1 _ lo hi h hl a1 a2
    · rw [h1]; subst ht
      exact decode_three s0 s1 s2 _ lo hi h hl a1 a2 a3 a4
    · rw [h1]; subst ht
      exact decode_four s0 s1 s2 s3 _ lo hi h hl a1 a2 a3 a4 a5 a6

/-- An ASCII byte is always reached at a scan position: the escaped text of
an input is the escaped text of what precedes the byte followed by the
escaped text from the byte on. -/
theorem esc_append_ascii (ne : Bool) (c : Byte) (post : List Byte) (hc : c.val < RuneSelf) :
    ∀ (n : Nat) (pre : List Byte), pre.length = n →
      escapedFrom ne 0 (pre ++ c :: post) =
        escapedFrom ne 0 pre ++ escapedFrom ne 0 (c :: post) := by
  intro n
  induction n using Nat.strong_induction_on with
  | _ n ih =>
    intro pre hn
    cases pre with
    | nil => simp [escapedFrom]
    | cons x l =>
      simp only [List.length_cons] at hn
      have ihl := ih l.length (by omega) l rfl
      rw [List.cons_append]
      by_cases hx : x.val < RuneSelf
      · cases hb : (escapeTableOf ne).getD x.val false with
        | true => rw [esc_safe ne x _ hx hb, esc_safe ne x _ hx hb, ihl]; rfl
        | false =>
          rw [esc_escaped ne x _ hx hb, esc_escaped ne x _ hx hb, ihl, List.append_assoc]
      · have hd := decode_append_ascii x l c post hc
        have hw := decode_width x l
        have hdrop : (x :: (l ++ c :: post)).drop (DecodeRuneInString (x :: l)).2 =
            (x :: l).drop (DecodeRuneInString (x :: l)).2 ++ c :: post := by
          rw [← List.cons_append, List.drop_append_of_le_length hw.2]
        have htake : (x :: (l ++ c :: post)).take (DecodeRuneInString (x :: l)).2 =
            (x :: l).take (DecodeRuneInString (x :: l)).2 := by
          rw [← List.cons_append, List.take_append_of_le_length hw.2]
        have ihd := ih ((x :: l).drop (DecodeRuneInString (x :: l)).2).length
          (by rw [List.length_drop, List.length_cons]; omega)
          ((x :: l).drop (DecodeRuneInString (x :: l)).2) rfl
        by_cases hbad : (DecodeRuneInString (x :: l)).1 = RuneError ∧
            (DecodeRuneInString (x :: l)).2 = 1
        · rw [esc_invalid ne x _ hx (by rw [hd]; exact hbad), esc_invalid ne x _ hx hbad, ihl,
            List.append_assoc]
        · by_cases hsep : (DecodeRuneInString (x :: l)).1 = 0x2028 ∨
              (DecodeRuneInString (x :: l)).1 = 0x2029
          · rw [esc_separator ne x _ hx (by rw [hd]; exact hbad) (by rw [hd]; exact hsep),
              esc_separator ne x _ hx hbad hsep, hd, hdrop, ihd, List.append_assoc]
          · rw [esc_multibyte ne x _ hx (by rw [hd]; exact hbad) (by rw [hd]; exact hsep),
              esc_multibyte ne x _ hx hbad hsep, hd, hdrop, htake, ihd, List.append_assoc]

/-- A byte that the table marks unsafe and that no escape sequence contains
never appears in the escaped text. -/
theorem esc_avoids (ne : Bool) (x : Byte) (hx : x.val < 0x80)
    (hsafe : (escapeTableOf ne).getD x.val false = false)
    (hesc : ∀ c : Byte, x ∉ escapeText c)
    (h1 : x ∉ ([92, 117, 102, 102, 102, 100] : List Byte))
    (h2 : x ∉ ([92, 117, 50, 48, 50, 56, 57] : List Byte)) :
    ∀ (n : Nat) (s : List Byte), s.length = n → x ∉ escapedFrom ne 0 s := by
  intro n
  induction n using Nat.strong_induction_on with
  | _ n ih =>
    intro s hn
    cases s with
    | nil => simp [escapedFrom]
    | cons c t =>
      simp only [List.length_cons] at hn
      have iht := ih t.length (by omega) t rfl
      have hw := decode_width c t
      have ihd := ih ((c :: t).drop (DecodeRuneInString (c :: t)).2).length
        (by rw [List.length_drop, List.length_cons]; omega)
        ((c :: t).drop (DecodeRuneInString (c :: t)).2) rfl
      by_cases hc : c.val < RuneSelf
      · cases hb : (escapeTableOf ne).getD c.val false with
        | true =>
          rw [esc_safe ne c t hc hb]
          intro hm
          rcases List.mem_cons.mp hm with hm | hm
          · rw [hm] at hsafe; rw [hsafe] at hb; cases hb
          · exact iht hm
        | false =>
          rw [esc_escaped ne c t hc hb]
          intro hm
          rcases List.mem_append.mp hm with hm | hm
          · exact hesc c hm
          · exact iht hm
      · by_cases hbad : (DecodeRuneInString (c :: t)).1 = RuneError ∧
            (DecodeRuneInString (c :: t)).2 = 1
        · rw [esc_invalid ne c t hc hbad]
          intro hm
          rcases List.mem_append.mp hm with hm | hm
          · exact h1 hm
          · exact iht hm
        · by_cases hsep : (DecodeRuneInString (c :: t)).1 = 0x2028 ∨
              (DecodeRuneInString (c :: t)).1 = 0x2029
          · rw [esc_separator ne c t hc hbad hsep]
            intro hm
            rcases List.mem_append.mp hm with hm | hm
            · apply h2
              rcases hsep with hsep | hsep <;> rw [hsep] at hm <;>
                simp only [List.mem_cons, List.mem_singleton, List.not_mem_nil, or_false] at hm ⊢ <;>
                rcases hm with hm | hm | hm | hm | hm | hm <;> simp [hm] <;> decide
            · exact ihd hm
          · rw [esc_multibyte ne c t hc hbad hsep]
            intro hm
            rcases List.mem_append.mp hm with hm | hm
            · have := decode_bytes_high c t hc x hm
              omega
            · exact ihd hm

set_option maxRecDepth 8192 in
theorem html_bytes (x : Byte) (h : x = 38 ∨ x = 60 ∨ x = 62) :
    x.val < RuneSelf ∧ (escapeTableOf false).getD x.val false = false ∧
      (escapeTableOf true).getD x.val false = true ∧
      (∀ c : Byte, x ∉ escapeText c) ∧ x ∉ ([92, 117, 102, 102, 102, 100] : List Byte) ∧
      x ∉ ([92, 117, 50, 48, 50, 56, 57] : List Byte) ∧ x ≠ 34 := by
  rcases h with h | h | h <;> subst h <;> decide

/-- In HTML mode the quoted text never contains a raw `&`, `<` or `>`. -/
theorem stringText_avoids_html (x : Byte) (h : x = 38 ∨ x = 60 ∨ x = 62) (s : List Byte) :
    x ∉ stringText false s := by
  obtain ⟨h0, h1, _, h3, h4, h5, h6⟩ := html_bytes x h
  have he := esc_avoids false x h0 h1 h3 h4 h5 s.length s rfl
  simp only [stringText, List.mem_append, List.mem_singleton, not_or]
  exact ⟨h6, he, h6⟩

/-- How one occurrence of an ASCII byte is written, whatever surrounds it. -/
theorem esc_occurrence (ne : Bool) (c : Byte) (hc : c.val < RuneSelf) (pre post : List Byte) :
    escapedFrom ne 0 (pre ++ c :: post) =
      escapedFrom ne 0 pre ++
        ((if (escapeTableOf ne).getD c.val false then [c] else escapeText c) ++
          escapedFrom ne 0 post) := by
  rw [esc_append_ascii ne c post hc pre.length pre rfl]
  cases hb : (escapeTableOf ne).getD c.val false with
  | true => rw [esc_safe ne c post hc hb]; rfl
  | false => rw [esc_escaped ne c post hc hb]; rfl

theorem utf8Lead_rows (x sz lo hi : Nat) (h : utf8Lead x = some (sz, lo, hi)) :
    (sz = 2 ∧ 0xC2 ≤ x ∧ x ≤ 0xDF ∧ lo = 0x80 ∧ hi = 0xBF) ∨
    (sz = 3 ∧ x = 0xE0 ∧ lo = 0xA0 ∧ hi = 0xBF) ∨
    (sz = 3 ∧ 0xE1 ≤ x ∧ x ≤ 0xEF ∧ x ≠ 0xED ∧ lo = 0x80 ∧ hi = 0xBF) ∨
    (sz = 3 ∧ x = 0xED ∧ lo = 0x80 ∧ hi = 0x9F) ∨
    (sz = 4 ∧ x = 0xF0 ∧ lo = 0x90 ∧ hi = 0xBF) ∨
    (sz = 4 ∧ 0xF1 ≤ x ∧ x ≤ 0xF3 ∧ lo = 0x80 ∧ hi = 0xBF) ∨
    (sz = 4 ∧ x = 0xF4 ∧ lo = 0x80 ∧ hi = 0x8F) := by
  unfold utf8Lead at h
  repeat' split at h
  all_goals first
    | (simp only [Option.some.injEq, Prod.mk.injEq] at h
       obtain ⟨h1, h2, h3⟩ := h
       subst h1; subst h2; subst h3
       omega)
    | cases h

theorem byteOf_val (b : Byte) (n : Nat) (h : n = b.val) : byteOf n = b := by
  apply Fin.ext
  show n % 256 = b.val
  have := b.isLt
  omega

/-- Encoding the rune the decoder reads from a valid sequence gives the
sequence back. -/
theorem encode_decode (s0 : Byte) (t : List Byte) (h : ¬ s0.val < RuneSelf)
    (hv : ¬ ((DecodeRuneInString (s0 :: t)).1 = RuneError ∧ (DecodeRuneInString (s0 :: t)).2 = 1)) :
    Spec.encodeRune (DecodeRuneInString (s0 :: t)).1 =
      (s0 :: t).take (DecodeRuneInString (s0 :: t)).2 := by
  have b0 := s0.isLt
  rcases decode_inv s0 t h with h1 | ⟨lo, hi, s1, t1, hl, ht, a1, a2, h1⟩ |
    ⟨lo, hi, s1, s2, t2, hl, ht, a1, a2, a3, a4, h1⟩ |
    ⟨lo, hi, s1, s2, s3, t3, hl, ht, a1, a2, a3, a4, a5, a6, h1⟩
  · rw [h1] at hv; exact absurd ⟨rfl, rfl⟩ hv
  · have b1 := s1.isLt
    rw [h1]; subst ht
    have hrow := utf8Lead_rows _ _ _ _ hl
    have c1 : ¬ (s0.val % 32 * 64 + s1.val % 64 < 0x80) := by omega
    have c2 : s0.val % 32 * 64 + s1.val % 64 < 0x800 := by omega
    simp only [Spec.encodeRune, c1, c2, if_false, if_true, List.take_succ_cons, List.take_zero]
    rw [byteOf_val s0 _ (by omega), byteOf_val s1 _ (by omega)]
  · have b1 := s1.isLt
    have b2 := s2.isLt
    rw [h1]; subst ht
    have hrow := utf8Lead_rows _ _ _ _ hl
    have c1 : ¬ (s0.val % 16 * 4096 + s1.val % 64 * 64 + s2.val % 64 < 0x80) := by omega
    have c2 : ¬ (s0.val % 16 * 4096 + s1.val % 64 * 64 + s2.val % 64 < 0x800) := by omega
    have c3 : ¬ ((0xD800 ≤ s0.val % 16 * 4096 + s1.val % 64 * 64 + s2.val % 64 ∧
        s0.val % 16 * 4096 + s1.val % 64 * 64 + s2.val % 64 < 0xE000) ∨
        0x10FFFF < s0.val % 16 * 4096 + s1.val % 64 * 64 + s2.val % 64) := by omega
    have c4 : s0.val % 16 * 4096 + s1.val % 64 * 64 + s2.val % 64 < 0x10000 := by omega
    simp only [Spec.encodeRune, c1, c2, c3, c4, if_false, if_true, List.take_succ_cons,
      List.take_zero]
    rw [byteOf_val s0 _ (by omega), byteOf_val s1 _ (by omega), byteOf_val s2 _ (by omega)]
  · have b1 := s1.isLt
    have b2 := s2.isLt
    have b3 := s3.isLt
    rw [h1]; subst ht
    have hrow := utf8Lead_rows _ _ _ _ hl
    have c1 : ¬ (s0.val % 8 * 262144 + s1.val % 64 * 4096 + s2.val % 64 * 64 + s3.val % 64
        < 0x80) := by omega
    have c2 : ¬ (s0.val % 8 * 262144 + s1.val % 64 * 4096 + s2.val % 64 * 64 + s3.val % 64
        < 0x800) := by omega
    have c3 : ¬ ((0xD800 ≤ s0.val % 8 * 262144 + s1.val % 64 * 4096 + s2.val % 64 * 64
          + s3.val % 64 ∧
        s0.val % 8 * 262144 + s1.val % 64 * 4096 + s2.val % 64 * 64 + s3.val % 64 < 0xE000) ∨
        0x10FFFF < s0.val % 8 * 262144 + s1.val % 64 * 4096 + s2.val % 64 * 64 + s3.val % 64) := by
      omega
    have c4 : ¬ (s0.val % 8 * 262144 + s1.val % 64 * 4096 + s2.val % 64 * 64 + s3.val % 64
        < 0x10000) := by omega
    simp only [Spec.encodeRune, c1, c2, c3, c4, if_false, List.take_succ_cons, List.take_zero]
    rw [byteOf_val s0 _ (by omega), byteOf_val s1 _ (by omega), byteOf_val s2 _ (by omega),
      byteOf_val s3 _ (by omega)]

/-! ### The decoder of the code against RFC 3629 -/

theorem byteOf_small (n : Nat) (h : n < 256) : (byteOf n).val = n := by
  show n % 256 = n
  omega

theorem utf8Lead_two (x : Nat) (h1 : 0xC2 ≤ x) (h2 : x ≤ 0xDF) :
    utf8Lead x = some (2, 0x80, 0xBF) := by
  unfold utf8Lead
  split_ifs <;> first | rfl | omega

theorem utf8Lead_three (x : Nat) (h1 : 0xE0 ≤ x) (h2 : x ≤ 0xEF) :
    utf8Lead x = some (3, if x = 0xE0 then 0xA0 else 0x80, if x = 0xED then 0x9F else 0xBF) := by
  unfold utf8Lead
  split_ifs <;> first | rfl | omega

theorem utf8Lead_four (x : Nat) (h1 : 0xF0 ≤ x) (h2 : x ≤ 0xF4) :
    utf8Lead x = some (4, if x = 0xF0 then 0x90 else 0x80, if x = 0xF4 then 0x8F else 0xBF) := by
  unfold utf8Lead
  split_ifs <;> first | rfl | omega

/-- The decoder reads the encoding of every scalar value back as that value,
with the length of the encoding, whatever follows it. -/
theorem decode_encode (r : Nat) (rest : List Byte) (hs : Spec.isScalar r) :
    DecodeRuneInString (Spec.encodeRune r ++ rest) = (r, (Spec.encodeRune r).length) := by
  obtain ⟨hmax, hsur⟩ := hs
  by_cases c1 : r < 0x80
  · have hb : (byteOf r).val = r := byteOf_small r (by omega)
    simp only [Spec.encodeRune, c1, if_true, List.singleton_append, List.length_singleton]
    rw [decode_ascii _ _ (by rw [hb]; exact c1), hb]
  by_cases c2 : r < 0x800
  · have hb0 : (byteOf (0xC0 + r / 64)).val = 0xC0 + r / 64 := byteOf_small _ (by omega)
    have hb1 : (byteOf (0x80 + r % 64)).val = 0x80 + r % 64 := byteOf_small _ (by omega)
    simp only [Spec.encodeRune, c1, c2, if_false, if_true, List.cons_append, List.nil_append,
      List.length_cons, List.length_nil]
    rw [decode_two _ _ rest 0x80 0xBF (by rw [hb0]; show ¬ _ < 0x80; omega)
      (by rw [hb0]; exact utf8Lead_two _ (by omega) (by omega)) (by rw [hb1]; omega)
      (by rw [hb1]; omega), hb0, hb1]
    congr 1
    omega
  have c3 : ¬ ((0xD800 ≤ r ∧ r < 0xE000) ∨ 0x10FFFF < r) := by omega
  by_cases c4 : r < 0x10000
  · have hb0 : (byteOf (0xE0 + r / 4096)).val = 0xE0 + r / 4096 := byteOf_small _ (by omega)
    have hb1 : (byteOf (0x80 + r / 64 % 64)).val = 0x80 + r / 64 % 64 :=
      byteOf_small _ (by omega)
    have hb2 : (byteOf (0x80 + r % 64)).val = 0x80 + r % 64 := byteOf_small _ (by omega)
    simp only [Spec.encodeRune, c1, c2, c3, c4, if_false, if_true, List.cons_append,
      List.nil_append, List.length_cons, List.length_nil]
    rw [decode_three _ _ _ rest _ _ (by rw [hb0]; show ¬ _ < 0x80; omega)
      (by rw [hb0]; exact utf8Lead_three _ (by omega) (by omega))
      (by rw [hb1]; split_ifs <;> omega) (by rw [hb1]; split_ifs <;> omega)
      (by rw [hb2]; omega) (by rw [hb2]; omega), hb0, hb1, hb2]
    congr 1
    omega
  · have hb0 : (byteOf (0xF0 + r / 262144)).val = 0xF0 + r / 262144 :=
      byteOf_small _ (by omega)
    have hb1 : (byteOf (0x80 + r / 4096 % 64)).val = 0x80 + r / 4096 % 64 :=
      byteOf_small _ (by omega)
    have hb2 : (byteOf (0x80 + r / 64 % 64)).val = 0x80 + r / 64 % 64 :=
      byteOf_small _ (by omega)
    have hb3 : (byteOf (0x80 + r % 64)).val = 0x80 + r % 64 := byteOf_small _ (by omega)
    simp only [Spec.encodeRune, c1, c2, c3, c4, if_false, List.cons_append,
      List.nil_append, List.length_cons, List.length_nil]
    rw [decode_four _ _ _ _ rest _ _ (by rw [hb0]; show ¬ _ < 0x80; omega)
      (by rw [hb0]; exact utf8Lead_four _ (by omega) (by omega))
      (by rw [hb1]; split_ifs <;> omega) (by rw [hb1]; split_ifs <;> omega)
      (by rw [hb2]; omega) (by rw [hb2]; omega) (by rw [hb3]; omega) (by rw [hb3]; omega),
      hb0, hb1, hb2, hb3]
    congr 1
    omega

/-- A sequence the reference accepts is what the decoder reads. -/
theorem decode_of_sequence (n : Nat) (s : List Byte) (x : Nat × Nat)
    (h : Spec.sequenceOfLength n s = some x) : DecodeRuneInString s = x ∧ x.2 = n := by
  unfold Spec.sequenceOfLength at h
  split at h
  · rename_i hc
    obtain ⟨h1, h2, h3⟩ := hc
    simp only [Option.some.injEq] at h
    subst h
    have hd := decode_encode (Spec.payload n s) (s.drop n) h2
    rw [h3, List.take_append_drop, List.length_take, Nat.min_eq_left h1] at hd
    exact ⟨hd, rfl⟩
  · cases h

/-- What the decoder reads from a valid sequence is a sequence the reference
accepts. -/
theorem sequence_of_decode (c : Byte) (t : List Byte)
    (hv : ¬ ((DecodeRuneInString (c :: t)).1 = RuneError ∧ (DecodeRuneInString (c :: t)).2 = 1)) :
    Spec.sequenceOfLength (DecodeRuneInString (c :: t)).2 (c :: t) =
      some (DecodeRuneInString (c :: t)) ∧
    1 ≤ (DecodeRuneInString (c :: t)).2 ∧ (DecodeRuneInString (c :: t)).2 ≤ 4 := by
  have hw := decode_width c t
  have key : Spec.payload (DecodeRuneInString (c :: t)).2 (c :: t) = (DecodeRuneInString (c :: t)).1 ∧
      Spec.isScalar (DecodeRuneInString (c :: t)).1 ∧
      Spec.encodeRune (DecodeRuneInString (c :: t)).1 =
        (c :: t).take (DecodeRuneInString (c :: t)).2 ∧
      (DecodeRuneInString (c :: t)).2 ≤ 4 := by
    have b0 := c.isLt
    by_cases hc : c.val < RuneSelf
    · have hd := decode_ascii c t hc
      have hc' : c.val < 0x80 := hc
      rw [hd]
      refine ⟨rfl, ⟨by omega, by omega⟩, ?_, by simp only; omega⟩
      simp only [Spec.encodeRune, hc', if_true, List.take_succ_cons, List.take_zero]
      rw [byteOf_val c _ rfl]
    · have henc := encode_decode c t hc hv
      rcases decode_inv c t hc with h1 | ⟨lo, hi, s1, t1, hl, ht, a1, a2, h1⟩ |
        ⟨lo, hi, s1, s2, t2, hl, ht, a1, a2, a3, a4, h1⟩ |
        ⟨lo, hi, s1, s2, s3, t3, hl, ht, a1, a2, a3, a4, a5, a6, h1⟩
      · rw [h1] at hv; exact absurd ⟨rfl, rfl⟩ hv
      · have hrow := utf8Lead_rows _ _ _ _ hl
        have b1 := s1.isLt
        subst ht
        rw [h1] at henc ⊢
        exact ⟨rfl, ⟨by simp only; omega, by simp only; omega⟩, henc, by simp only; omega⟩
      · have hrow := utf8Lead_rows _ _ _ _ hl
        have b1 := s1.isLt
        have b2 := s2.isLt
        subst ht
        rw [h1] at henc ⊢
        exact ⟨rfl, ⟨by simp only; omega, by simp only; omega⟩, henc, by simp only; omega⟩
      · have hrow := utf8Lead_rows _ _ _ _ hl
        have b1 := s1.isLt
        have b2 := s2.isLt
        have b3 := s3.isLt
        subst ht
        rw [h1] at henc ⊢
        exact ⟨rfl, ⟨by simp only; omega, by simp only; omega⟩, henc, by simp only; omega⟩
  obtain ⟨k1, k2, k3, k4⟩ := key
  refine ⟨?_, hw.1, k4⟩
  unfold Spec.sequenceOfLength
  rw [k1, if_pos ⟨hw.2, k2, k3⟩]

/-- The reference and the decoder of the code agree on every non-empty
input: the decoder reports an error of width 1 exactly where the input starts
with no valid sequence, and otherwise reads the scalar value and the length
of the sequence the input starts with. -/
theorem firstSequence_decode (c : Byte) (t : List Byte) :
    Spec.firstSequence (c :: t) =
      if (DecodeRuneInString (c :: t)).1 = RuneError ∧ (DecodeRuneInString (c :: t)).2 = 1
      then none else some (DecodeRuneInString (c :: t)) := by
  have only : ∀ n x, Spec.sequenceOfLength n (c :: t) = some x →
      x = DecodeRuneInString (c :: t) ∧ (DecodeRuneInString (c :: t)).2 = n := by
    intro n x h
    obtain ⟨h1, h2⟩ := decode_of_sequence n (c :: t) x h
    exact ⟨h1.symm, by rw [h1]; exact h2⟩
  by_cases hbad : (DecodeRuneInString (c :: t)).1 = RuneError ∧
      (DecodeRuneInString (c :: t)).2 = 1
  · rw [if_pos hbad]
    have none_of : ∀ n, Spec.sequenceOfLength n (c :: t) = none := by
      intro n
      cases h : Spec.sequenceOfLength n (c :: t) with
      | none => rfl
      | some x =>
        exfalso
        obtain ⟨_, h2⟩ := only n x h
        have h3 := h
        unfold Spec.sequenceOfLength at h3
        split at h3
        · simp only [Option.some.injEq] at h3
          have hx := (only n x h).1
          rw [← h3] at hx
          have hn : n = 1 := by rw [← h2]; exact hbad.2
          subst hn
          have hp : Spec.payload 1 (c :: t) = c.val := rfl
          have h1 : (DecodeRuneInString (c :: t)).1 = c.val := by rw [← hx, hp]
          have := c.isLt
          rw [hbad.1] at h1
          simp only [RuneError] at h1
          omega
        · cases h3
    simp only [Spec.firstSequence, none_of]
  · rw [if_neg hbad]
    obtain ⟨hs, h1, h4⟩ := sequence_of_decode c t hbad
    have each : ∀ n, Spec.sequenceOfLength n (c :: t) = none ∨
        Spec.sequenceOfLength n (c :: t) = some (DecodeRuneInString (c :: t)) := by
      intro n
      cases h : Spec.sequenceOfLength n (c :: t) with
      | none => exact Or.inl rfl
      | some x => exact Or.inr (by rw [(only n x h).1])
    have hn : (DecodeRuneInString (c :: t)).2 = 1 ∨ (DecodeRuneInString (c :: t)).2 = 2 ∨
        (DecodeRuneInString (c :: t)).2 = 3 ∨ (DecodeRuneInString (c :: t)).2 = 4 := by omega
    unfold Spec.firstSequence
    rcases each 1 with e1 | e1 <;> rcases each 2 with e2 | e2 <;>
      rcases each 3 with e3 | e3 <;> rcases each 4 with e4 | e4 <;>
      simp only [e1, e2, e3, e4]
    exfalso
    rcases hn with hn | hn | hn | hn <;> rw [hn] at hs
    · rw [e1] at hs; cases hs
    · rw [e2] at hs; cases hs
    · rw [e3] at hs; cases hs
    · rw [e4] at hs; cases hs

/-- The reference accepts the encoding of every scalar value, whatever
follows it. -/
theorem firstSequence_encode (r : Nat) (rest : List Byte) (hs : Spec.isScalar r) :
    Spec.firstSequence (Spec.encodeRune r ++ rest) = some (r, (Spec.encodeRune r).length) := by
  have hd := decode_encode r rest hs
  have hne : ∃ c t, Spec.encodeRune r ++ rest = c :: t := by
    unfold Spec.encodeRune
    split_ifs <;> exact ⟨_, _, rfl⟩
  obtain ⟨c, t, hct⟩ := hne
  have hlen : 1 ≤ (Spec.encodeRune r).length := by
    unfold Spec.encodeRune
    split_ifs <;> simp
  rw [hct] at hd ⊢
  rw [firstSequence_decode, hd, if_neg]
  intro hx
  simp only at hx
  obtain ⟨hx1, hx2⟩ := hx
  -- a sequence of length 1 encodes a value below 0x80
  have : r < 0x80 := by
    by_contra hr
    unfold Spec.encodeRune at hx2
    split_ifs at hx2 <;> simp at hx2
  simp only [RuneError] at hx1
  omega

theorem toValidFrom_skip : ∀ (l : List Byte) (k : Nat),
    Spec.toValidFrom k l = Spec.toValidFrom 0 (l.drop k) := by
  intro l
  induction l with
  | nil => intro k; cases k <;> simp [Spec.toValidFrom]
  | cons c t ih =>
    intro k
    cases k with
    | zero => rfl
    | succ k => simp only [Spec.toValidFrom, List.drop_succ_cons]; exact ih k

theorem toValid_invalid (c : Byte) (t : List Byte)
    (hr : (DecodeRuneInString (c :: t)).1 = RuneError ∧ (DecodeRuneInString (c :: t)).2 = 1) :
    Spec.toValidFrom 0 (c :: t) = [0xEF, 0xBF, 0xBD] ++ Spec.toValidFrom 0 t := by
  have h := firstSequence_decode c t
  rw [if_pos hr] at h
  simp only [Spec.toValidFrom, h]

theorem toValid_valid (c : Byte) (t : List Byte)
    (hr : ¬ ((DecodeRuneInString (c :: t)).1 = RuneError ∧ (DecodeRuneInString (c :: t)).2 = 1)) :
    Spec.toValidFrom 0 (c :: t) =
      (c :: t).take (DecodeRuneInString (c :: t)).2 ++
        Spec.toValidFrom 0 ((c :: t).drop (DecodeRuneInString (c :: t)).2) := by
  have h := firstSequence_decode c t
  rw [if_neg hr] at h
  rw [← drop_cons_pred c t _ (decode_width c t).1, ← toValidFrom_skip]
  simp only [Spec.toValidFrom, h]

theorem toValid_ascii (c : Byte) (t : List Byte) (hc : c.val < RuneSelf) :
    Spec.toValidFrom 0 (c :: t) = c :: Spec.toValidFrom 0 t := by
  have hd := decode_ascii c t hc
  have hv : ¬ ((DecodeRuneInString (c :: t)).1 = RuneError ∧
      (DecodeRuneInString (c :: t)).2 = 1) := by
    rw [hd]; simp only [RuneSelf, RuneError] at hc ⊢; omega
  rw [toValid_valid c t hv, hd]
  rfl

theorem unquote_raw_ascii (c : Byte) (t : List Byte) (f : Nat) (h1 : c ≠ 34) (h2 : c ≠ 92)
    (h3 : 0x20 ≤ c.val) (h4 : c.val < 0x80) :
    Spec.unquoteBody (f + 1) (c :: t) = (Spec.unquoteBody f t).map (fun l => c :: l) := by
  have h3' : ¬ c.val < 0x20 := by omega
  simp only [Spec.unquoteBody, h1, h2, h3', h4, if_false, if_true]

set_option maxRecDepth 8192 in
theorem hex4_chars (c : Byte) :
    Spec.hex4 48 48 (chars.getD (c.val >>> 4) 0) (chars.getD (c.val &&& 0xf) 0) = some c.val := by
  revert c; decide

theorem encodeRune_ascii (c : Byte) (hc : c.val < RuneSelf) : Spec.encodeRune c.val = [c] := by
  have h : c.val < 0x80 := hc
  simp only [Spec.encodeRune, h, if_true]
  rw [byteOf_val c _ rfl]

theorem unquote_uescape (h1 h2 h3 h4 : Byte) (cp : Nat) (hh : Spec.hex4 h1 h2 h3 h4 = some cp)
    (hs : ¬ (0xD800 ≤ cp ∧ cp < 0xE000)) (rest : List Byte) (f : Nat) :
    Spec.unquoteBody (f + 1) (92 :: 117 :: h1 :: h2 :: h3 :: h4 :: rest) =
      (Spec.unquoteBody f rest).map (fun l => Spec.encodeRune cp ++ l) := by
  have e1 : ¬ ((92 : Byte) = 34) := by decide
  simp only [Spec.unquoteBody, e1, if_false, if_true, hh, hs]

theorem unquote_escapeText (c : Byte) (hc : c.val < RuneSelf) (rest : List Byte) (f : Nat) :
    Spec.unquoteBody (f + 1) (escapeText c ++ rest) =
      (Spec.unquoteBody f rest).map (fun l => c :: l) := by
  unfold escapeText
  split
  · next h => subst h; rfl
  split
  · next h => subst h; rfl
  split
  · next h => subst h; rfl
  split
  · next h => subst h; rfl
  split
  · next h => subst h; rfl
  · have hs : ¬ (0xD800 ≤ c.val ∧ c.val < 0xE000) := by
      have : c.val < 0x80 := hc
      omega
    have h := unquote_uescape 48 48 _ _ c.val (hex4_chars c) hs rest f
    rw [encodeRune_ascii c hc] at h
    exact h

theorem unquote_ufffd (rest : List Byte) (f : Nat) :
    Spec.unquoteBody (f + 1) ([92, 117, 102, 102, 102, 100] ++ rest) =
      (Spec.unquoteBody f rest).map (fun l => [0xEF, 0xBF, 0xBD] ++ l) := rfl

theorem unquote_2028 (rest : List Byte) (f : Nat) :
    Spec.unquoteBody (f + 1) ([92, 117, 50, 48, 50, 56] ++ rest) =
      (Spec.unquoteBody f rest).map (fun l => Spec.encodeRune 0x2028 ++ l) := rfl

theorem unquote_2029 (rest : List Byte) (f : Nat) :
    Spec.unquoteBody (f + 1) ([92, 117, 50, 48, 50, 57] ++ rest) =
      (Spec.unquoteBody f rest).map (fun l => Spec.encodeRune 0x2029 ++ l) := rfl

theorem unquote_sequence (c : Byte) (t m : List Byte) (f : Nat) (hc : ¬ c.val < RuneSelf)
    (hv : ¬ ((DecodeRuneInString (c :: t)).1 = RuneError ∧ (DecodeRuneInString (c :: t)).2 = 1)) :
    Spec.unquoteBody (f + 1) ((c :: t).take (DecodeRuneInString (c :: t)).2 ++ m) =
      (Spec.unquoteBody f m).map (fun l => (c :: t).take (DecodeRuneInString (c :: t)).2 ++ l) := by
  have hw := decode_width c t
  have hpre := decode_prefix c t m hv
  have hlen : ((c :: t).take (DecodeRuneInString (c :: t)).2).length =
      (DecodeRuneInString (c :: t)).2 := by
    rw [List.length_take]; omega
  obtain ⟨k, hk⟩ : ∃ k, (DecodeRuneInString (c :: t)).2 = k + 1 :=
    ⟨(DecodeRuneInString (c :: t)).2 - 1, by omega⟩
  have hcons : (c :: t).take (DecodeRuneInString (c :: t)).2 ++ m = c :: (t.take k ++ m) := by
    rw [hk, List.take_succ_cons, List.cons_append]
  have h80 : ¬ c.val < 0x80 := hc
  have h34 : c ≠ 34 := by intro h; rw [h] at h80; exact h80 (by decide)
  have h92 : c ≠ 92 := by intro h; rw [h] at h80; exact h80 (by decide)
  have h20 : ¬ c.val < 0x20 := by omega
  have hpre' : DecodeRuneInString (c :: (t.take k ++ m)) = DecodeRuneInString (c :: t) := by
    rw [← hcons]; exact hpre
  have htake : (c :: (t.take k ++ m)).take (DecodeRuneInString (c :: t)).2 =
      (c :: t).take (DecodeRuneInString (c :: t)).2 := by
    rw [← hcons, List.take_append_of_le_length (by omega), List.take_take, Nat.min_self]
  have hdrop : (c :: (t.take k ++ m)).drop (DecodeRuneInString (c :: t)).2 = m := by
    rw [← hcons, List.drop_append_of_le_length (by omega), List.drop_eq_nil_of_le (by omega),
      List.nil_append]
  have hfs : Spec.firstSequence (c :: (t.take k ++ m)) = some (DecodeRuneInString (c :: t)) := by
    rw [firstSequence_decode, hpre', if_neg hv]
  rw [hcons]
  simp only [Spec.unquoteBody, h34, h92, h20, h80, if_false, hfs, htake, hdrop]

set_option maxRecDepth 8192 in
theorem safe_is_raw (ne : Bool) (c : Byte) (hc : c.val < RuneSelf)
    (hb : (escapeTableOf ne).getD c.val false = true) : c ≠ 34 ∧ c ≠ 92 ∧ 0x20 ≤ c.val := by
  have key : ∀ (ne : Bool) (c : Byte), c.val < RuneSelf →
      (escapeTableOf ne).getD c.val false = true → c ≠ 34 ∧ c ≠ 92 ∧ 0x20 ≤ c.val := by decide
  exact key ne c hc hb

set_option maxRecDepth 8192 in
theorem escapeText_length_pos (c : Byte) : 1 ≤ (escapeText c).length := by
  revert c; decide

theorem option_map_some {α β : Type} (f : α → β) (o : Option α) (a : α) (h : o = some a) :
    o.map f = some (f a) := by rw [h]; rfl

/-- A standard parser reads the escaped text, closed by a quote, as the
input with its invalid bytes replaced by U+FFFD. -/
theorem unquote_escaped (ne : Bool) : ∀ (n : Nat) (s : List Byte), s.length = n →
    ∀ fuel : Nat, (escapedFrom ne 0 s).length + 1 ≤ fuel →
      Spec.unquoteBody fuel (escapedFrom ne 0 s ++ [34]) = some (Spec.toValidFrom 0 s) := by
  intro n
  induction n using Nat.strong_induction_on with
  | _ n ih =>
    intro s hn fuel hf
    obtain ⟨f, rfl⟩ : ∃ f, fuel = f + 1 := ⟨fuel - 1, by omega⟩
    cases s with
    | nil => rfl
    | cons c t =>
      simp only [List.length_cons] at hn
      have hw := decode_width c t
      have iht := ih t.length (by omega) t rfl
      have ihd := ih ((c :: t).drop (DecodeRuneInString (c :: t)).2).length
        (by rw [List.length_drop, List.length_cons]; omega)
        ((c :: t).drop (DecodeRuneInString (c :: t)).2) rfl
      by_cases hc : c.val < RuneSelf
      · cases hb : (escapeTableOf ne).getD c.val false with
        | true =>
          obtain ⟨r1, r2, r3⟩ := safe_is_raw ne c hc hb
          rw [esc_safe ne c t hc hb] at hf ⊢
          simp only [List.length_cons] at hf
          rw [List.cons_append, unquote_raw_ascii c _ f r1 r2 r3 hc, toValid_ascii c t hc]
          exact option_map_some _ _ _ (iht f (by omega))
        | false =>
          rw [esc_escaped ne c t hc hb] at hf ⊢
          simp only [List.length_append] at hf
          have hpos := escapeText_length_pos c
          rw [List.append_assoc, unquote_escapeText c hc _ f, toValid_ascii c t hc]
          exact option_map_some _ _ _ (iht f (by omega))
      · by_cases hbad : (DecodeRuneInString (c :: t)).1 = RuneError ∧
            (DecodeRuneInString (c :: t)).2 = 1
        · rw [esc_invalid ne c t hc hbad] at hf ⊢
          simp only [List.length_append, List.length_cons, List.length_nil] at hf
          rw [List.append_assoc, unquote_ufffd _ f, toValid_invalid c t hbad]
          exact option_map_some _ _ _ (iht f (by omega))
        · have henc := encode_decode c t hc hbad
          by_cases hsep : (DecodeRuneInString (c :: t)).1 = 0x2028 ∨
              (DecodeRuneInString (c :: t)).1 = 0x2029
          · rw [esc_separator ne c t hc hbad hsep] at hf ⊢
            simp only [List.length_append, List.length_cons, List.length_nil] at hf
            rw [List.append_assoc, toValid_valid c t hbad, ← henc]
            rcases hsep with hsep | hsep
            · rw [hsep]
              exact (unquote_2028 _ f).trans (option_map_some _ _ _ (ihd f (by omega)))
            · rw [hsep]
              exact (unquote_2029 _ f).trans (option_map_some _ _ _ (ihd f (by omega)))
          · rw [esc_multibyte ne c t hc hbad hsep] at hf ⊢
            simp only [List.length_append, List.length_take] at hf
            have hmin : 1 ≤ min (DecodeRuneInString (c :: t)).2 (c :: t).length := by
              rw [Nat.min_eq_left hw.2]; exact hw.1
            rw [List.append_assoc, unquote_sequence c t _ f hc hbad, toValid_valid c t hbad]
            exact option_map_some _ _ _ (ihd f (by omega))

/-- Valid UTF-8 is left as it is. -/
theorem toValid_of_valid : ∀ (n : Nat) (s : List Byte), s.length = n →
    Spec.validFrom 0 s = true → Spec.toValidFrom 0 s = s := by
  intro n
  induction n using Nat.strong_induction_on with
  | _ n ih =>
    intro s hn hv
    cases s with
    | nil => rfl
    | cons c t =>
      simp only [List.length_cons] at hn
      have hw := decode_width c t
      by_cases hbad : (DecodeRuneInString (c :: t)).1 = RuneError ∧
          (DecodeRuneInString (c :: t)).2 = 1
      · have hfs := firstSequence_decode c t
        rw [if_pos hbad] at hfs
        simp only [Spec.validFrom, hfs] at hv
        cases hv
      · have hskip : ∀ (l : List Byte) (k : Nat),
            Spec.validFrom k l = Spec.validFrom 0 (l.drop k) := by
          intro l
          induction l with
          | nil => intro k; cases k <;> simp [Spec.validFrom]
          | cons x xs ihx =>
            intro k
            cases k with
            | zero => rfl
            | succ k => simp only [Spec.validFrom, List.drop_succ_cons]; exact ihx k
        have hfs := firstSequence_decode c t
        rw [if_neg hbad] at hfs
        simp only [Spec.validFrom, hfs] at hv
        rw [hskip, drop_cons_pred c t _ hw.1] at hv
        have ihd := ih ((c :: t).drop (DecodeRuneInString (c :: t)).2).length
          (by rw [List.length_drop, List.length_cons]; omega)
          ((c :: t).drop (DecodeRuneInString (c :: t)).2) rfl hv
        rw [toValid_valid c t hbad, ihd, List.take_append_drop]

/-- Parsing the text `String(s)` writes gives `s` with its invalid bytes
replaced by U+FFFD. -/
theorem jsonUnquote_stringText (ne : Bool) (s : List Byte) :
    Spec.jsonUnquote (stringText ne s) = some (Spec.toValidUTF8 s) := by
  have h := unquote_escaped ne s.length s rfl ((escapedFrom ne 0 s ++ [34]).length + 1)
    (by rw [List.length_append]; omega)
  exact h

/-! ### Checks of the reference definitions on known vectors -/

/-- RFC 4648 section 10: `f`, `fo`, `foo`, `foob` are `Zg==`, `Zm8=`, `Zm9v`,
`Zm9vYg==`. -/
theorem base64Encode_vectors :
    Spec.base64Encode [102] = [90, 103, 61, 61] ∧
    Spec.base64Encode [102, 111] = [90, 109, 56, 61] ∧
    Spec.base64Encode [102, 111, 111] = [90, 109, 57, 118] ∧
    Spec.base64Encode [102, 111, 111, 98] = [90, 109, 57, 118, 89, 103, 61, 61] := by
  decide

/-- The parser reads the literal `"\ud83d\ude00\/\u00e9"` as U+1F600, `/`
and U+00E9 in UTF-8, and rejects a raw control byte. -/
theorem jsonUnquote_vectors :
    Spec.jsonUnquote [34, 92, 117, 100, 56, 51, 100, 92, 117, 100, 101, 48, 48, 92, 47,
        92, 117, 48, 48, 101, 57, 34] = some [0xF0, 0x9F, 0x98, 0x80, 47, 0xC3, 0xA9] ∧
    Spec.jsonUnquote [34, 10, 34] = none := by
  decide

/-- A byte that is not a continuation byte ends whatever precedes it: the
decoder gives the same result whether or not the input goes on with it. -/
theorem decode_append_boundary (s0 : Byte) (t : List Byte) (c : Byte) (post : List Byte)
    (hc : c.val < 0x80 ∨ 0xBF < c.val) :
    DecodeRuneInString (s0 :: (t ++ c :: post)) = DecodeRuneInString (s0 :: t) := by
  by_cases h : s0.val < RuneSelf
  · rw [decode_ascii _ _ h, decode_ascii _ _ h]
  · rcases decode_inv s0 t h with h1 | ⟨lo, hi, s1, t1, hl, ht, a1, a2, h1⟩ |
      ⟨lo, hi, s1, s2, t2, hl, ht, a1, a2, a3, a4, h1⟩ |
      ⟨lo, hi, s1, s2, s3, t3, hl, ht, a1, a2, a3, a4, a5, a6, h1⟩
    · rw [h1]
      rcases decode_inv s0 (t ++ c :: post) h with g1 | ⟨lo, hi, s1, t1, hl, ht, a1, a2, g1⟩ |
        ⟨lo, hi, s1, s2, t2, hl, ht, a1, a2, a3, a4, g1⟩ |
        ⟨lo, hi, s1, s2, s3, t3, hl, ht, a1, a2, a3, a4, a5, a6, g1⟩
      · exact g1
      · exfalso
        obtain ⟨_, hlo, hhi, _, _⟩ := utf8Lead_cases _ _ _ _ hl
        cases t with
        | nil =>
          simp only [List.nil_append, List.cons.injEq] at ht
          rw [ht.1] at hc; omega
        | cons x t' =>
          simp only [List.cons_append, List.cons.injEq] at ht
          have := decode_two s0 x t' lo hi h hl (by rw [ht.1]; exact a1) (by rw [ht.1]; exact a2)
          rw [this] at h1
          simp only [Prod.mk.injEq] at h1
          omega
      · exfalso
        obtain ⟨_, hlo, hhi, _, _⟩ := utf8Lead_cases _ _ _ _ hl
        cases t with
        | nil =>
          simp only [List.nil_append, List.cons.injEq] at ht
          rw [ht.1] at hc; omega
        | cons x t' =>
          cases t' with
          | nil =>
            simp only [List.cons_append, List.nil_append, List.cons.injEq] at ht
            rw [ht.2.1] at hc; omega
          | cons y t'' =>
            simp only [List.cons_append, List.cons.injEq] at ht
            have := decode_three s0 x y t'' lo hi h hl (by rw [ht.1]; exact a1)
              (by rw [ht.1]; exact a2) (by rw [ht.2.1]; exact a3) (by rw [ht.2.1]; exact a4)
            rw [this] at h1
            simp only [Prod.mk.injEq] at h1
            omega
      · exfalso
        obtain ⟨_, hlo, hhi, _, _⟩ := utf8Lead_cases _ _ _ _ hl
        cases t with
        | nil =>
          simp only [List.nil_append, List.cons.injEq] at ht
          rw [ht.1] at hc; omega
        | cons x t' =>
          cases t' with
          | nil =>
            simp only [List.cons_append, List.nil_append, List.cons.injEq] at ht
            rw [ht.2.1] at hc; omega
          | cons y t'' =>
            cases t'' with
            | nil =>
              simp only [List.cons_append, List.nil_append, List.cons.injEq] at ht
              rw [ht.2.2.1] at hc; omega
            | cons z t''' =>
              simp only [List.cons_append, List.cons.injEq] at ht
              have := decode_four s0 x y z t''' lo hi h hl (by rw [ht.1]; exact a1)
                (by rw [ht.1]; exact a2) (by rw [ht.2.1]; exact a3) (by rw [ht.2.1]; exact a4)
                (by rw [ht.2.2.1]; exact a5) (by rw [ht.2.2.1]; exact a6)
              rw [this] at h1
              simp only [Prod.mk.injEq] at h1
              omega
    · rw [h1]; subst ht
      exact decode_two s0 s1 _ lo hi h hl a1 a2
    · rw [h1]; subst ht
      exact decode_three s0 s1 s2 _ lo hi h hl a1 a2 a3 a4
    · rw [h1]; subst ht
      exact decode_four s0 s1 s2 s3 _ lo hi h hl a1 a2 a3 a4 a5 a6

/-- A byte that is not a continuation byte is always reached at a scan
position: the escaped text of an input is the escaped text of what precedes
the byte followed by the escaped text from the byte on. -/
theorem esc_append_boundary (ne : Bool) (c : Byte) (post : List Byte)
    (hc : c.val < 0x80 ∨ 0xBF < c.val) :
    ∀ (n : Nat) (pre : List Byte), pre.length = n →
      escapedFrom ne 0 (pre ++ c :: post) =
        escapedFrom ne 0 pre ++ escapedFrom ne 0 (c :: post) := by
  intro n
  induction n using Nat.strong_induction_on with
  | _ n ih =>
    intro pre hn
    cases pre with
    | nil => simp [escapedFrom]
    | cons x l =>
      simp only [List.length_cons] at hn
      have ihl := ih l.length (by omega) l rfl
      rw [List.cons_append]
      by_cases hx : x.val < RuneSelf
      · cases hb : (escapeTableOf ne).getD x.val false with
        | true => rw [esc_safe ne x _ hx hb, esc_safe ne x _ hx hb, ihl]; rfl
        | false =>
          rw [esc_escaped ne x _ hx hb, esc_escaped ne x _ hx hb, ihl, List.append_assoc]
      · have hd := decode_append_boundary x l c post hc
        have hw := decode_width x l
        have hdrop : (x :: (l ++ c :: post)).drop (DecodeRuneInString (x :: l)).2 =
            (x :: l).drop (DecodeRuneInString (x :: l)).2 ++ c :: post := by
          rw [← List.cons_append, List.drop_append_of_le_length hw.2]
        have htake : (x :: (l ++ c :: post)).take (DecodeRuneInString (x :: l)).2 =
            (x :: l).take (DecodeRuneInString (x :: l)).2 := by
          rw [← List.cons_append, List.take_append_of_le_length hw.2]
        have ihd := ih ((x :: l).drop (DecodeRuneInString (x :: l)).2).length
          (by rw [List.length_drop, List.length_cons]; omega)
          ((x :: l).drop (DecodeRuneInString (x :: l)).2) rfl
        by_cases hbad : (DecodeRuneInString (x :: l)).1 = RuneError ∧
            (DecodeRuneInString (x :: l)).2 = 1
        · rw [esc_invalid ne x _ hx (by rw [hd]; exact hbad), esc_invalid ne x _ hx hbad, ihl,
            List.append_assoc]
        · by_cases hsep : (DecodeRuneInString (x :: l)).1 = 0x2028 ∨
              (DecodeRuneInString (x :: l)).1 = 0x2029
          · rw [esc_separator ne x _ hx (by rw [hd]; exact hbad) (by rw [hd]; exact hsep),
              esc_separator ne x _ hx hbad hsep, hd, hdrop, ihd, List.append_assoc]
          · rw [esc_multibyte ne x _ hx (by rw [hd]; exact hbad) (by rw [hd]; exact hsep),
              esc_multibyte ne x _ hx hbad hsep, hd, hdrop, htake, ihd, List.append_assoc]

/-- A valid multi-byte sequence starts with a byte from 0xC2 on. -/
theorem decode_lead_high (c : Byte) (t : List Byte) (hc : ¬ c.val < RuneSelf)
    (hv : ¬ ((DecodeRuneInString (c :: t)).1 = RuneError ∧ (DecodeRuneInString (c :: t)).2 = 1)) :
    0xC2 ≤ c.val ∧ 2 ≤ (DecodeRuneInString (c :: t)).2 := by
  rcases decode_inv c t hc with h1 | ⟨lo, hi, s1, t1, hl, ht, a1, a2, h1⟩ |
    ⟨lo, hi, s1, s2, t2, hl, ht, a1, a2, a3, a4, h1⟩ |
    ⟨lo, hi, s1, s2, s3, t3, hl, ht, a1, a2, a3, a4, a5, a6, h1⟩
  · exact absurd (by rw [h1]; exact ⟨rfl, rfl⟩) hv
  · exact ⟨(utf8Lead_cases _ _ _ _ hl).2.2.2.1, by rw [h1]⟩
  · exact ⟨(utf8Lead_cases _ _ _ _ hl).2.2.2.1, by rw [h1]; show 2 ≤ 3; omega⟩
  · exact ⟨(utf8Lead_cases _ _ _ _ hl).2.2.2.1, by rw [h1]; show 2 ≤ 4; omega⟩

/-- Every occurrence of a complete multi-byte sequence `seq` is decoded as
such, whatever precedes and follows it. -/
theorem esc_sequence (ne : Bool) (seq pre post : List Byte) (r : Nat)
    (hd : DecodeRuneInString seq = (r, seq.length)) (hlen : 2 ≤ seq.length) :
    ∃ c t, seq = c :: t ∧ ¬ c.val < RuneSelf ∧
      DecodeRuneInString (c :: (t ++ post)) = (r, seq.length) ∧
      escapedFrom ne 0 (pre ++ seq ++ post) =
        escapedFrom ne 0 pre ++ escapedFrom ne 0 (c :: (t ++ post)) := by
  cases seq with
  | nil => simp at hlen
  | cons c t =>
    have hc : ¬ c.val < RuneSelf := by
      intro h
      rw [decode_ascii c t h] at hd
      simp only [Prod.mk.injEq] at hd
      omega
    have hv : ¬ ((DecodeRuneInString (c :: t)).1 = RuneError ∧
        (DecodeRuneInString (c :: t)).2 = 1) := by
      rw [hd]
      intro hx
      simp only at hx
      omega
    have hhigh := (decode_lead_high c t hc hv).1
    have hp := decode_prefix c t post hv
    rw [hd] at hp
    simp only [List.take_length, List.cons_append] at hp
    refine ⟨c, t, rfl, hc, hp, ?_⟩
    rw [List.append_assoc, List.cons_append]
    exact esc_append_boundary ne c (t ++ post) (Or.inr (by omega)) pre.length pre rfl

/-- A byte from 0x80 on that cannot start a sequence is a decoding failure of
width 1. -/
theorem decode_stray (c : Byte) (t : List Byte) (hc : 0x80 ≤ c.val)
    (hl : utf8Lead c.val = none) : DecodeRuneInString (c :: t) = (RuneError, 1) := by
  have h : ¬ c.val < RuneSelf := by
    show ¬ c.val < 0x80
    omega
  simp only [DecodeRuneInString, h, if_false, hl]

/-- A string made of bytes that cannot start a sequence is written as one
`\ufffd` per byte. -/
theorem esc_all_stray (ne : Bool) : ∀ s : List Byte,
    (∀ b ∈ s, 0x80 ≤ b.val ∧ utf8Lead b.val = none) →
    escapedFrom ne 0 s = (List.replicate s.length [92, 117, 102, 102, 102, 100]).flatten := by
  intro s
  induction s with
  | nil => intro _; rfl
  | cons c t ih =>
    intro h
    obtain ⟨h1, h2⟩ := h c (List.mem_cons_self _ _)
    have hd := decode_stray c t h1 h2
    have hc : ¬ c.val < RuneSelf := by
      show ¬ c.val < 0x80
      omega
    rw [esc_invalid ne c t hc (by rw [hd]; exact ⟨rfl, rfl⟩),
      ih (fun b hb => h b (List.mem_cons_of_mem _ hb))]
    simp [List.replicate_succ]

/-- Every occurrence of a complete multi-byte sequence other than U+2028 and
U+2029 is copied as it is. -/
theorem esc_passthrough (ne : Bool) (seq pre post : List Byte) (r : Nat)
    (hd : DecodeRuneInString seq = (r, seq.length)) (hlen : 2 ≤ seq.length)
    (hsep : r ≠ 0x2028 ∧ r ≠ 0x2029) :
    escapedFrom ne 0 (pre ++ seq ++ post) =
      escapedFrom ne 0 pre ++ (seq ++ escapedFrom ne 0 post) := by
  obtain ⟨c, t, hs, hc, hdec, he⟩ := esc_sequence ne seq pre post r hd hlen
  rw [he]
  have hbad : ¬ ((DecodeRuneInString (c :: (t ++ post))).1 = RuneError ∧
      (DecodeRuneInString (c :: (t ++ post))).2 = 1) := by
    rw [hdec]
    intro hx
    simp only at hx
    omega
  have hns : ¬ ((DecodeRuneInString (c :: (t ++ post))).1 = 0x2028 ∨
      (DecodeRuneInString (c :: (t ++ post))).1 = 0x2029) := by
    rw [hdec]
    intro hx
    simp only at hx
    omega
  rw [esc_multibyte ne c (t ++ post) hc hbad hns, hdec]
  simp only
  have hl : c :: (t ++ post) = seq ++ post := by rw [hs]; rfl
  rw [hl, List.take_left' rfl, List.drop_left' rfl]

/-- Every occurrence of the encoding of U+2028 or U+2029 is written as the
six-character escape. -/
theorem esc_separator_occurrence (ne : Bool) (x : Byte) (hx : x = 0xA8 ∨ x = 0xA9)
    (pre post : List Byte) :
    escapedFrom ne 0 (pre ++ [0xE2, 0x80, x] ++ post) =
      escapedFrom ne 0 pre ++
        ([92, 117, 50, 48, 50, if x = 0xA8 then 56 else 57] ++ escapedFrom ne 0 post) := by
  have hd : DecodeRuneInString [0xE2, 0x80, x] =
      (if x = 0xA8 then 0x2028 else 0x2029, ([0xE2, 0x80, x] : List Byte).length) := by
    rcases hx with hx | hx <;> subst hx <;> decide
  obtain ⟨c, t, hs, hc, hdec, he⟩ := esc_sequence ne _ pre post _ hd (by simp)
  rw [he]
  have hbad : ¬ ((DecodeRuneInString (c :: (t ++ post))).1 = RuneError ∧
      (DecodeRuneInString (c :: (t ++ post))).2 = 1) := by
    rw [hdec]
    intro h
    simp at h
  have hsp : (DecodeRuneInString (c :: (t ++ post))).1 = 0x2028 ∨
      (DecodeRuneInString (c :: (t ++ post))).1 = 0x2029 := by
    rw [hdec]
    rcases hx with hx | hx <;> subst hx <;> simp
  rw [esc_separator ne c (t ++ post) hc hbad hsp, hdec]
  have hl : c :: (t ++ post) = [0xE2, 0x80, x] ++ post := by rw [hs]; rfl
  rw [hl, List.drop_left' rfl]
  rcases hx with hx | hx <;> subst hx <;> rfl

/-- A pattern that starts in neither part of a concatenation starts nowhere
in it. -/
theorem no_prefix_append (pat piece rest : List Byte)
    (hrest : ∀ k, ¬ pat <+: rest.drop k)
    (hpiece : ∀ k, k < piece.length → ¬ pat <+: piece.drop k ++ rest) :
    ∀ k, ¬ pat <+: (piece ++ rest).drop k := by
  intro k
  by_cases hk : k < piece.length
  · rw [List.drop_append_of_le_length (by omega)]
    exact hpiece k hk
  · rw [List.drop_append_eq_append_drop, List.drop_of_length_le (by omega), List.nil_append]
    exact hrest _

/-- A pattern does not start inside a piece that lacks its first byte. -/
theorem no_prefix_piece (a : Byte) (tl piece rest : List Byte) (h : ∀ b ∈ piece, b ≠ a) :
    ∀ k, k < piece.length → ¬ (a :: tl) <+: piece.drop k ++ rest := by
  intro k hk hp
  rw [List.drop_eq_getElem_cons hk, List.cons_append, List.cons_prefix_cons] at hp
  exact h _ (List.getElem_mem _) hp.1.symm

/-- A pattern does not start inside a piece `c :: tl` when it does not start
at `c` and `tl` lacks its first byte. -/
theorem no_prefix_seq (a c : Byte) (ptl tl rest : List Byte) (h : ∀ b ∈ tl, b ≠ a)
    (h0 : ¬ (a :: ptl) <+: c :: tl ++ rest) :
    ∀ k, k < (c :: tl).length → ¬ (a :: ptl) <+: (c :: tl).drop k ++ rest := by
  intro k hk
  cases k with
  | zero => exact h0
  | succ j =>
    simp only [List.length_cons] at hk
    exact no_prefix_piece a ptl tl rest h j (by omega)

set_option maxRecDepth 8192 in
theorem escapeText_ascii : (∀ c : Byte, (0xE2 : Byte) ∉ escapeText c) ∧
    (0xE2 : Byte) ∉ ([92, 117, 102, 102, 102, 100] : List Byte) ∧
    (0xE2 : Byte) ∉ ([92, 117, 50, 48, 50, chars.getD (0x2028 &&& 0xf) 0] : List Byte) ∧
    (0xE2 : Byte) ∉ ([92, 117, 50, 48, 50, chars.getD (0x2029 &&& 0xf) 0] : List Byte) := by
  decide

/-- The raw encodings of U+2028 and U+2029 start nowhere in the escaped text
followed by the closing quote. -/
theorem esc_no_raw_separator (ne : Bool) (x : Byte) (hx : x = 0xA8 ∨ x = 0xA9) :
    ∀ (n : Nat) (s : List Byte), s.length = n →
      ∀ k, ¬ [0xE2, 0x80, x] <+: (escapedFrom ne 0 s ++ [34]).drop k := by
  intro n
  induction n using Nat.strong_induction_on with
  | _ n ih =>
    intro s hn
    cases s with
    | nil =>
      intro k hp
      have hl := hp.length_le
      simp only [escapedFrom, List.nil_append, List.length_drop, List.length_cons,
        List.length_nil] at hl
      omega
    | cons c t =>
      simp only [List.length_cons] at hn
      have iht := ih t.length (by omega) t rfl
      by_cases hc : c.val < RuneSelf
      · cases hb : (escapeTableOf ne).getD c.val false with
        | true =>
          rw [esc_safe ne c t hc hb]
          have := no_prefix_append [0xE2, 0x80, x] [c] (escapedFrom ne 0 t ++ [34]) iht
            (no_prefix_piece 0xE2 [0x80, x] [c] _ (by
              intro b hb
              simp only [List.mem_singleton] at hb
              subst hb
              intro hx
              rw [hx] at hc
              exact absurd hc (by decide)))
          simpa using this
        | false =>
          rw [esc_escaped ne c t hc hb, List.append_assoc]
          exact no_prefix_append [0xE2, 0x80, x] (escapeText c) (escapedFrom ne 0 t ++ [34]) iht
            (no_prefix_piece 0xE2 [0x80, x] (escapeText c) _
              (fun b hb hx => escapeText_ascii.1 c (hx ▸ hb)))
      · by_cases hbad : (DecodeRuneInString (c :: t)).1 = RuneError ∧
            (DecodeRuneInString (c :: t)).2 = 1
        · rw [esc_invalid ne c t hc hbad, List.append_assoc]
          exact no_prefix_append [0xE2, 0x80, x] _ (escapedFrom ne 0 t ++ [34]) iht
            (no_prefix_piece 0xE2 [0x80, x] _ _ (fun b hb hx => escapeText_ascii.2.1 (hx ▸ hb)))
        · have hw := decode_width c t
          have ihd := ih ((c :: t).drop (DecodeRuneInString (c :: t)).2).length
            (by rw [List.length_drop, List.length_cons]; omega)
            ((c :: t).drop (DecodeRuneInString (c :: t)).2) rfl
          by_cases hsep : (DecodeRuneInString (c :: t)).1 = 0x2028 ∨
              (DecodeRuneInString (c :: t)).1 = 0x2029
          · rw [esc_separator ne c t hc hbad hsep, List.append_assoc]
            refine no_prefix_append [0xE2, 0x80, x] _ _ ihd
              (no_prefix_piece 0xE2 [0x80, x] _ _ ?_)
            rcases hsep with h | h <;> rw [h]
            · exact fun b hb hx => escapeText_ascii.2.2.1 (hx ▸ hb)
            · exact fun b hb hx => escapeText_ascii.2.2.2 (hx ▸ hb)
          · rw [esc_multibyte ne c t hc hbad hsep, List.append_assoc]
            refine no_prefix_append [0xE2, 0x80, x] _ _ ihd ?_
            rcases decode_inv c t hc with h1 | ⟨lo, hi, s1, t1, hl, ht, a1, a2, h1⟩ |
              ⟨lo, hi, s1, s2, t2, hl, ht, a1, a2, a3, a4, h1⟩ |
              ⟨lo, hi, s1, s2, s3, t3, hl, ht, a1, a2, a3, a4, a5, a6, h1⟩
            · exact absurd (by rw [h1]; exact ⟨rfl, rfl⟩) hbad
            · obtain ⟨_, hlo, hhi, _, _⟩ := utf8Lead_cases _ _ _ _ hl
              have hrow := utf8Lead_rows _ _ _ _ hl
              subst ht
              rw [h1]
              have ht2 : (c :: s1 :: t1).take 2 = [c, s1] := rfl
              simp only [ht2]
              refine no_prefix_seq 0xE2 c [0x80, x] [s1] _ ?_ ?_
              · intro b hb
                simp only [List.mem_singleton] at hb
                subst hb
                intro hx
                rw [hx] at a2
                have : (0xE2 : Byte).val = 0xE2 := rfl
                omega
              · intro hp
                simp only [List.cons_append, List.cons_prefix_cons] at hp
                have hce : c.val = 0xE2 := by rw [← hp.1]; rfl
                omega
            · obtain ⟨_, hlo, hhi, _, _⟩ := utf8Lead_cases _ _ _ _ hl
              subst ht
              rw [h1] at hsep ⊢
              have ht3 : (c :: s1 :: s2 :: t2).take 3 = [c, s1, s2] := rfl
              simp only [ht3]
              refine no_prefix_seq 0xE2 c [0x80, x] [s1, s2] _ ?_ ?_
              · intro b hb
                simp only [List.mem_cons, List.mem_singleton, List.not_mem_nil, or_false] at hb
                have : (0xE2 : Byte).val = 0xE2 := rfl
                rcases hb with hb | hb <;> subst hb <;> intro hx
                · rw [hx] at a2; omega
                · rw [hx] at a4; omega
              · intro hp
                simp only [List.cons_append, List.cons_prefix_cons] at hp
                have hce : c.val = 0xE2 := by rw [← hp.1]; rfl
                have hs1 : s1.val = 0x80 := by rw [← hp.2.1]; rfl
                have hs2 : s2.val = x.val := by rw [← hp.2.2.1]
                simp only at hsep
                rcases hx with hx | hx
                · have hxv : x.val = 0xA8 := by rw [hx]; rfl
                  rw [hce, hs1, hs2, hxv] at hsep
                  exact hsep (Or.inl (by decide))
                · have hxv : x.val = 0xA9 := by rw [hx]; rfl
                  rw [hce, hs1, hs2, hxv] at hsep
                  exact hsep (Or.inr (by decide))
            · obtain ⟨_, hlo, hhi, _, _⟩ := utf8Lead_cases _ _ _ _ hl
              have hrow := utf8Lead_rows _ _ _ _ hl
              subst ht
              rw [h1]
              have ht4 : (c :: s1 :: s2 :: s3 :: t3).take 4 = [c, s1, s2, s3] := rfl
              simp only [ht4]
              refine no_prefix_seq 0xE2 c [0x80, x] [s1, s2, s3] _ ?_ ?_
              · intro b hb
                simp only [List.mem_cons, List.mem_singleton, List.not_mem_nil, or_false] at hb
                have : (0xE2 : Byte).val = 0xE2 := rfl
                rcases hb with hb | hb | hb <;> subst hb <;> intro hx
                · rw [hx] at a2; omega
                · rw [hx] at a4; omega
                · rw [hx] at a6; omega
              · intro hp
                simp only [List.cons_append, List.cons_prefix_cons] at hp
                have hce : c.val = 0xE2 := by rw [← hp.1]; rfl
                omega

/-- The text `String` writes never contains the raw encoding of U+2028 or
U+2029. -/
theorem stringText_no_raw_separator (ne : Bool) (x : Byte) (hx : x = 0xA8 ∨ x = 0xA9)
    (s : List Byte) : ¬ [0xE2, 0x80, x] <:+: stringText ne s := by
  intro hin
  obtain ⟨a, b, hab⟩ := hin
  have hpre : [0xE2, 0x80, x] <+: (stringText ne s).drop a.length := by
    rw [← hab, List.append_assoc, List.drop_left' rfl]
    exact List.prefix_append _ _
  have hq := esc_no_raw_separator ne x hx s.length s rfl
  cases hk : a.length with
  | zero =>
    rw [hk] at hpre
    simp only [stringText, List.drop_zero, List.singleton_append, List.cons_prefix_cons] at hpre
    exact absurd hpre.1 (by decide)
  | succ j =>
    rw [hk] at hpre
    simp only [stringText, List.singleton_append, List.drop_succ_cons] at hpre
    exact hq j hpre

/-- The bytes 0x80..0xC1 and 0xF5..0xFF start no sequence. -/
theorem utf8Lead_stray (x : Nat) (h : x ≤ 0xC1 ∨ 0xF5 ≤ x) : utf8Lead x = none := by
  unfold utf8Lead
  repeat' split
  all_goals first | rfl | omega

set_option maxRecDepth 8192 in
/-- The text of every one-byte string, in both modes, against the
specification's table. -/
theorem stringText_one_byte : ∀ (ne : Bool) (b : Byte),
    stringText ne [b] = [34] ++ (Spec.oneByteText ne b ++ [34]) := by
  decide

/-- The decoder of the code fails, with width 1, exactly where the input
starts with no valid sequence. -/
theorem firstSequence_none_iff (c : Byte) (t : List Byte) :
    Spec.firstSequence (c :: t) = none ↔ DecodeRuneInString (c :: t) = (RuneError, 1) := by
  rw [firstSequence_decode]
  constructor
  · intro h
    split at h
    · rename_i hb
      exact Prod.ext hb.1 hb.2
    · cases h
  · intro h
    rw [if_pos (by rw [h]; exact ⟨rfl, rfl⟩)]

theorem encodeRune_length_two (r : Nat) (h : 0x80 ≤ r) : 2 ≤ (Spec.encodeRune r).length := by
  have h1 : ¬ r < 0x80 := by omega
  unfold Spec.encodeRune
  rw [if_neg h1]
  split_ifs <;> simp

/-- The reference on known sequences: it accepts the encodings of U+00E9,
U+20AC and U+1F600 and of U+FFFD, and rejects a stray continuation byte, the
overlong forms C0 80 and E0 80 80, the surrogate ED A0 80, F4 90 80 80 (above
U+10FFFF), the lead bytes F5 and FF and a truncated sequence. -/
theorem firstSequence_vectors :
    Spec.firstSequence [0xC3, 0xA9, 0x41] = some (0xE9, 2) ∧
    Spec.firstSequence [0xE2, 0x82, 0xAC] = some (0x20AC, 3) ∧
    Spec.firstSequence [0xF0, 0x9F, 0x98, 0x80] = some (0x1F600, 4) ∧
    Spec.firstSequence [0xEF, 0xBF, 0xBD] = some (0xFFFD, 3) ∧
    Spec.firstSequence [0x41] = some (0x41, 1) ∧
    Spec.firstSequence [0x80] = none ∧
    Spec.firstSequence [0xC0, 0x80] = none ∧
    Spec.firstSequence [0xE0, 0x80, 0x80] = none ∧
    Spec.firstSequence [0xED, 0xA0, 0x80] = none ∧
    Spec.firstSequence [0xF4, 0x90, 0x80, 0x80] = none ∧
    Spec.firstSequence [0xF5, 0x80, 0x80, 0x80] = none ∧
    Spec.firstSequence [0xFF] = none ∧
    Spec.firstSequence [0xE2, 0x82] = none := by
  decide

end jwriter

/-! ## The claims -/

open buffer jwriter easyjson

/-- C1 (the code departs from the claim for a value that is not a null
pointer but is stored as zero in the data word of the interface, and for a
pool configured below 1024 bytes): `Marshal` calls `MarshalEasyJSON` only
when `isNilInterface` finds a data word other than zero.  For every such
interface whose `MarshalEasyJSON` only makes append calls on the writer it
receives, on a pool with `PooledSize ≥ 1024` as it is by default: if
`MarshalEasyJSON` returns nil, `Marshal` returns exactly the bytes those
calls append, in order, with a nil error, the slice being nil when they
append no byte; if it returns an error, `Marshal` returns a nil slice and
that same error.  A value of a pointer-shaped type other than a pointer (a
struct whose only field is a nil pointer, a nil map) is held as the data word
0: `Marshal` returns `null` for it and does not call its `MarshalEasyJSON`,
as for the marshaler that writes `{}`.  With `PooledSize < 1024` the
`EnsureSpace(1024)` of `NewBufferWriter` panics and `MarshalEasyJSON` is not
called either. -/
theorem C1_Marshal_returns_appended_bytes (m : Marshaler) (h : Held) (p : Pool) :
    (h.dataWord ≠ 0 → 1024 ≤ p.PooledSize →
      (m.ret = none → ∃ p', Marshal (.present m h) p =
        .ok ((if callsText false m.calls = [] then none else some (callsText false m.calls),
          none), p')) ∧
      (∀ e, m.ret = some e → ∃ p', Marshal (.present m h) p = .ok ((none, some e), p'))) ∧
    (isNilInterface (.present m (.direct 0)) = true ∧
      Marshal (.present m (.direct 0)) p = .ok ((some nullBytes, none), p)) ∧
    (emptyObjectMarshaler.ret = none ∧ callsText false emptyObjectMarshaler.calls = [123, 125] ∧
      Marshal (.present emptyObjectMarshaler (.direct 0)) defaultPool =
        .ok ((some [110, 117, 108, 108], none), defaultPool)) ∧
    (h.dataWord ≠ 0 → p.PooledSize < 1024 →
      NewBufferWriter p = .error (.requireSpace 1024 p.PooledSize) ∧
      Marshal (.present m h) p = .error (.requireSpace 1024 p.PooledSize)) := by
  refine ⟨fun hh hp => ?_, ⟨rfl, rfl⟩, ⟨rfl, rfl, rfl⟩, fun hh hp => ?_⟩
  · obtain ⟨s1, s2⟩ := Marshal_present m h p hh hp
    exact ⟨fun hret => (s1 hret).imp fun _ x => x.1, fun e hret => (s2 e hret).imp fun _ x => x.1⟩
  · have hnil : isNilInterface (.present m h) = false := by
      rw [isNilInterface_present]
      simpa using hh
    exact ⟨NewBufferWriter_small p hp, (Marshal_small _ emptySink p hnil hp).1⟩

/-- C1, witness: on the default pool, the marshaler that writes `{}`, held
behind a pointer to a copy of the value, gives `{}`; the marshaler that
writes nothing gives a nil slice; a marshaler that returns an error gives
that error. -/
theorem C1_Marshal_returns_appended_bytes_witness :
    Held.dataWord (.indirect 0) ≠ 0 ∧ 1024 ≤ defaultPool.PooledSize ∧
    (∃ p', Marshal (.present emptyObjectMarshaler (.indirect 0)) defaultPool =
      .ok ((some [123, 125], none), p')) ∧
    (∃ p', Marshal (.present silentMarshaler (.indirect 0)) defaultPool =
      .ok ((none, none), p')) ∧
    (∃ p', Marshal (.present failingMarshaler (.indirect 0)) defaultPool =
      .ok ((none, some "cycle"), p')) :=
  ⟨by decide, by decide,
    ((C1_Marshal_returns_appended_bytes emptyObjectMarshaler (.indirect 0) defaultPool).1
      (by decide) (by decide)).1 rfl,
    ((C1_Marshal_returns_appended_bytes silentMarshaler (.indirect 0) defaultPool).1
      (by decide) (by decide)).1 rfl,
    ((C1_Marshal_returns_appended_bytes failingMarshaler (.indirect 0) defaultPool).1
      (by decide) (by decide)).2 "cycle" rfl⟩

/-- C2: for every input string and both escaping modes, `String(s)` returns
normally and the text it appends, read as a JSON string literal by a standard
parser, is `s` with every byte that is not part of a valid UTF-8 sequence
replaced by U+FFFD; for valid UTF-8 that is `s` itself.  What a valid
sequence is, is that of RFC 3629 (`Spec.firstSequence`: the encoding of a
scalar value), stated without the decoder of the code.  The pool is assumed
to be configured with `PooledSize ≥ 1`. -/
theorem C2_String_parses_back (s : List Byte) (st : WState) (hwf : st.2.buffer.WF)
    (hp : 1 ≤ st.1.PooledSize) :
    (∃ st' text, tokenWriter.String s st = .ok st' ∧ buffered st' = buffered st ++ text ∧
      Spec.jsonUnquote text = some (Spec.toValidUTF8 s)) ∧
    (∀ noEscapeHTML : Bool,
      Spec.jsonUnquote (stringText noEscapeHTML s) = some (Spec.toValidUTF8 s)) ∧
    (Spec.ValidUTF8 s → Spec.toValidUTF8 s = s) := by
  refine ⟨?_, fun ne => jsonUnquote_stringText ne s, fun hv => toValid_of_valid s.length s rfl hv⟩
  obtain ⟨st', h1, a1⟩ := String_spec s st hwf hp
  exact ⟨st', _, h1, wappended_buffered a1, jsonUnquote_stringText _ s⟩

/-- C2, witness: a string with a quote, a control byte, a valid two-byte
sequence, U+2028 and a stray continuation byte, written on the example
writer. -/
theorem C2_String_parses_back_witness :
    exampleWriter.buffer.WF ∧ 1 ≤ defaultPool.PooledSize ∧
    ∃ st' text, tokenWriter.String [34, 1, 0xC3, 0xA9, 0xE2, 0x80, 0xA8, 0x80, 60]
        (defaultPool, exampleWriter) = .ok st' ∧
      buffered st' = buffered (defaultPool, exampleWriter) ++ text ∧
      Spec.jsonUnquote text =
        some (Spec.toValidUTF8 [34, 1, 0xC3, 0xA9, 0xE2, 0x80, 0xA8, 0x80, 60]) :=
  ⟨by decide, by decide,
    (C2_String_parses_back [34, 1, 0xC3, 0xA9, 0xE2, 0x80, 0xA8, 0x80, 60]
      (defaultPool, exampleWriter) (by decide) (by decide)).1⟩

/-- C3 (the code departs from the claim on a buffer whose active chunk
`BuildBytes` has released to the pool and kept): over explicit backing
arrays, on every reachable buffer under single ownership (no array of a
finalized, active or idle slice is the array of another one) and with
`PooledSize ≥ 1`, which `EnsureSpace(1)` needs on an empty buffer, for input
of any length `AppendBytes(data)` and `AppendString(data)` return, the
logical content afterwards is the content before followed by `data`, and
`Size()` afterwards is the length of the content before plus `len(data)`;
`Size()` before the call is the length of the content whenever the buffer has
an active chunk.  After `AppendByte('a')` and `BuildBytes` the buffer holds
`a` in an array that is also idle in the pool: `AppendBytes("bcd")` fills
the chunk, finalizes it, takes its own array back from the pool and writes
`cd` over `ab`, so the content is `cdcd` where the claim has `abcd`; `Size()`
is 4. -/
theorem C3_append_extends_content (data : List Byte) (st : arrays.State)
    (ho : arrays.Owned st) (hw : arrays.WF st) (hp : 1 ≤ st.1.PooledSize) :
    (∃ st', arrays.AppendBytes data st = .ok st' ∧ arrays.AppendString data st = .ok st' ∧
      arrays.content st' = arrays.content st ++ data ∧
      arrays.Size st' = .ok ((arrays.content st).length + data.length) ∧
      arrays.Owned st') ∧
    (∀ c, st.2.buf = some c → arrays.Size st = .ok (arrays.content st).length) ∧
    (arrays.AppendByte 97 arrays.start = .ok arrays.oneByteState ∧
      arrays.BuildBytes arrays.oneByteState = .ok ([97], arrays.releasedState) ∧
      ¬ arrays.Owned arrays.releasedState ∧ arrays.WF arrays.releasedState ∧
      1 ≤ arrays.releasedState.1.PooledSize ∧
      arrays.content arrays.releasedState = [97] ∧
      arrays.Size arrays.releasedState = .ok 1 ∧
      ∃ st', arrays.AppendBytes [98, 99, 100] arrays.releasedState = .ok st' ∧
        arrays.AppendString [98, 99, 100] arrays.releasedState = .ok st' ∧
        arrays.content st' = [99, 100, 99, 100] ∧ arrays.Size st' = .ok 4) := by
  refine ⟨?_, fun c hc => arrays.size_content st ho c hc,
    rfl, rfl, by decide, by decide, by decide, rfl, rfl, _, rfl, rfl, rfl, rfl⟩
  obtain ⟨st', h, e, hs⟩ := arrays.arr_AppendBytes_size data st ho hw hp
  exact ⟨st', h, by rw [arrays.arr_AppendString_eq]; exact h, e.2.2.2, hs, e.1⟩

/-- C3, witness: eleven bytes appended to the zero buffer with chunks of one
byte, which takes more than eight chunks. -/
theorem C3_append_extends_content_witness :
    arrays.Owned arrays.startOfOne ∧ arrays.WF arrays.startOfOne ∧
    1 ≤ arrays.startOfOne.1.PooledSize ∧
    ∃ st', arrays.AppendBytes [1, 2, 3, 4, 5, 6, 7, 8, 9, 10, 11] arrays.startOfOne = .ok st' ∧
      arrays.content st' = [1, 2, 3, 4, 5, 6, 7, 8, 9, 10, 11] ∧ arrays.Size st' = .ok 11 :=
  ⟨by decide, by decide, by decide,
    (C3_append_extends_content [1, 2, 3, 4, 5, 6, 7, 8, 9, 10, 11] arrays.startOfOne
      (by decide) (by decide) (by decide)).1.imp fun _ h => ⟨h.1, h.2.2.1, h.2.2.2.1⟩⟩

/-- C4 (the code departs from the claim): a writer that has been flushed
successfully has no active chunk, and on it `Flush`, `MaybeFlush` and the
bare numeric appends dereference the nil chunk pointer, while the appends
that start with `AppendByte`, `AppendString` or `EnsureSpace` (raw, quoted
numeric, bool, string, base64) first acquire a chunk and go through. -/
theorem C4_flushed_writer_nil_dereference :
    ∃ st1 st2, (NewStreamingTokenWriter (some emptySink) 1024 defaultPool
        >>= tokenWriter.RawByte 97) = .ok st1 ∧
      tokenWriter.Flush st1 = .ok ((1, none), st2) ∧
      st2.2.buffer = { buf := none, bufs := [] } ∧
      tokenWriter.Flush st2 = .error .nilDeref ∧
      tokenWriter.MaybeFlush st2 = .error .nilDeref ∧
      tokenWriter.Uint8 1 st2 = .error .nilDeref ∧
      tokenWriter.Int64 1 st2 = .error .nilDeref ∧
      tokenWriter.Float64 [49] st2 = .error .nilDeref ∧
      (∃ st3, tokenWriter.Uint64Str 1 st2 = .ok st3 ∧ buffered st3 = [34, 49, 34]) ∧
      (∃ st3, tokenWriter.RawByte 98 st2 = .ok st3 ∧ buffered st3 = [98]) ∧
      (∃ st3, tokenWriter.Bool true st2 = .ok st3 ∧ buffered st3 = [116, 114, 117, 101]) := by
  exact ⟨_, _, rfl, rfl, rfl, rfl, rfl, rfl, rfl, rfl, ⟨_, rfl, rfl⟩, ⟨_, rfl, rfl⟩, ⟨_, rfl, rfl⟩⟩

/-- C5: for every non-nil byte sequence of every length, on every reachable
writer, `Base64Bytes` returns normally and appends a double quote, the
RFC 4648 encoding of the input with `=` padding, and a double quote; the
encoding has `4 * ceil(n / 3)` characters, and a standard base64 decoder
reads it back as the input.  The pool is assumed to be configured with
`PooledSize ≥ 1`. -/
theorem C5_Base64Bytes_roundtrip (input : List Byte) (st : WState) (hwf : st.2.buffer.WF)
    (hp : 1 ≤ st.1.PooledSize) :
    (∃ st', tokenWriter.Base64Bytes (some input) st = .ok st' ∧
      buffered st' = buffered st ++ ([34] ++ (Spec.base64Encode input ++ [34]))) ∧
    (Spec.base64Encode input).length = 4 * ((input.length + 2) / 3) ∧
    Spec.base64Decode (Spec.base64Encode input) = some input := by
  refine ⟨?_, base64Encode_length input, base64Decode_encode input⟩
  obtain ⟨st', h1, a1⟩ := onBuffer_emits (Base64Bytes_emits input) st hwf hp
  exact ⟨st', h1, wappended_buffered a1⟩

/-- C5, witness: four bytes, one full group and a remainder of one, on the
example writer. -/
theorem C5_Base64Bytes_roundtrip_witness :
    exampleWriter.buffer.WF ∧ 1 ≤ defaultPool.PooledSize ∧
    (∃ st', tokenWriter.Base64Bytes (some [104, 105, 33, 255]) (defaultPool, exampleWriter)
        = .ok st' ∧
      buffered st' = buffered (defaultPool, exampleWriter) ++
        ([34] ++ (Spec.base64Encode [104, 105, 33, 255] ++ [34]))) ∧
    Spec.base64Decode (Spec.base64Encode [104, 105, 33, 255]) = some [104, 105, 33, 255] :=
  ⟨by decide, by decide,
    (C5_Base64Bytes_roundtrip [104, 105, 33, 255] (defaultPool, exampleWriter)
      (by decide) (by decide)).1,
    (C5_Base64Bytes_roundtrip [104, 105, 33, 255] (defaultPool, exampleWriter)
      (by decide) (by decide)).2.2⟩

/-- C6: `String(s)` appends `stringText`.  With HTML escaping on, for every
input the text written contains no raw `&`, `<` or `>`, and every occurrence
of one of them is written as `\u0026`, `\u003c`, `\u003e`; with
`NoEscapeHTML` set every occurrence is written as the byte itself.  The
string `<b>test</b>` gives `"\u003cb\u003etest\u003c/b\u003e"` with HTML
escaping on and `"<b>test</b>"` with it off.  The pool is assumed to be
configured with `PooledSize ≥ 1`. -/
theorem C6_html_escaping (s : List Byte) (st : WState) (hwf : st.2.buffer.WF)
    (hp : 1 ≤ st.1.PooledSize) :
    (∃ st', tokenWriter.String s st = .ok st' ∧
      buffered st' = buffered st ++ stringText st.2.NoEscapeHTML s) ∧
    ((38 : Byte) ∉ stringText false s ∧ (60 : Byte) ∉ stringText false s ∧
      (62 : Byte) ∉ stringText false s) ∧
    (∀ pre post : List Byte,
      escapedFrom false 0 (pre ++ 38 :: post) =
        escapedFrom false 0 pre ++ ([92, 117, 48, 48, 50, 54] ++ escapedFrom false 0 post) ∧
      escapedFrom false 0 (pre ++ 60 :: post) =
        escapedFrom false 0 pre ++ ([92, 117, 48, 48, 51, 99] ++ escapedFrom false 0 post) ∧
      escapedFrom false 0 (pre ++ 62 :: post) =
        escapedFrom false 0 pre ++ ([92, 117, 48, 48, 51, 101] ++ escapedFrom false 0 post)) ∧
    (∀ (pre post : List Byte) (c : Byte), c = 38 ∨ c = 60 ∨ c = 62 →
      escapedFrom true 0 (pre ++ c :: post) =
        escapedFrom true 0 pre ++ ([c] ++ escapedFrom true 0 post)) ∧
    stringText false [60, 98, 62, 116, 101, 115, 116, 60, 47, 98, 62] =
      [34, 92, 117, 48, 48, 51, 99, 98, 92, 117, 48, 48, 51, 101, 116, 101, 115, 116,
       92, 117, 48, 48, 51, 99, 47, 98, 92, 117, 48, 48, 51, 101, 34] ∧
    stringText true [60, 98, 62, 116, 101, 115, 116, 60, 47, 98, 62] =
      [34, 60, 98, 62, 116, 101, 115, 116, 60, 47, 98, 62, 34] := by
  refine ⟨?_, ⟨stringText_avoids_html 38 (by decide) s, stringText_avoids_html 60 (by decide) s,
    stringText_avoids_html 62 (by decide) s⟩, ?_, ?_, by decide, by decide⟩
  · obtain ⟨st', h1, a1⟩ := String_spec s st hwf hp
    exact ⟨st', h1, wappended_buffered a1⟩
  · intro pre post
    refine ⟨?_, ?_, ?_⟩
    · have h := esc_occurrence false 38 (by decide) pre post
      rw [(html_bytes 38 (by decide)).2.1] at h
      exact h
    · have h := esc_occurrence false 60 (by decide) pre post
      rw [(html_bytes 60 (by decide)).2.1] at h
      exact h
    · have h := esc_occurrence false 62 (by decide) pre post
      rw [(html_bytes 62 (by decide)).2.1] at h
      exact h
  · intro pre post c hc
    have h := esc_occurrence true c (html_bytes c hc).1 pre post
    rw [(html_bytes c hc).2.2.1] at h
    exact h

/-- C6, witness: the string `<b>test</b>` written on the example writer. -/
theorem C6_html_escaping_witness :
    exampleWriter.buffer.WF ∧ 1 ≤ defaultPool.PooledSize ∧
    ∃ st', tokenWriter.String [60, 98, 62, 116, 101, 115, 116, 60, 47, 98, 62]
        (defaultPool, exampleWriter) = .ok st' ∧
      buffered st' = buffered (defaultPool, exampleWriter) ++
        stringText exampleWriter.NoEscapeHTML [60, 98, 62, 116, 101, 115, 116, 60, 47, 98, 62] :=
  ⟨by decide, by decide,
    (C6_html_escaping [60, 98, 62, 116, 101, 115, 116, 60, 47, 98, 62]
      (defaultPool, exampleWriter) (by decide) (by decide)).1⟩

/-- C7: for every buffer holding an active chunk (a Go slice, so its length
is within its capacity) and every sink whose writes all succeed and accept
every byte, `DumpTo` returns the value `Size()` had before the call and a
nil error, and the sink has received the finalized chunks in order followed
by the active chunk, which is the logical content. -/
theorem C7_DumpTo_delivers_content (w : Sink) (hw : w.accepting) (p : Pool) (c : Chunk)
    (bs : List Chunk) (hc : c.data.length ≤ c.cap) :
    ∃ n w' st', Size { buf := some c, bufs := bs } = .ok n ∧
      DumpTo w (p, { buf := some c, bufs := bs }) = .ok ((n, none), w', st') ∧
      w'.received = w.received ++ ((bs.map Chunk.data).flatten ++ c.data) ∧
      (bs.map Chunk.data).flatten ++ c.data = Buffer.content { buf := some c, bufs := bs } := by
  obtain ⟨w', h1, h2, _⟩ := DumpTo_accepting w hw p c bs hc
  exact ⟨_, w', _, size_eq_content_length c bs, h1, h2, rfl⟩

/-- C7, witness: two finalized chunks and an active one, dumped to an empty
accepting sink. -/
theorem C7_DumpTo_delivers_content_witness :
    Sink.accepting emptySink ∧ exampleChunk.data.length ≤ exampleChunk.cap ∧
    ∃ n w' st', Size { buf := some exampleChunk, bufs := exampleFinalized } = .ok n ∧
      DumpTo emptySink (defaultPool, { buf := some exampleChunk, bufs := exampleFinalized })
        = .ok ((n, none), w', st') ∧
      w'.received = emptySink.received ++
        ((exampleFinalized.map Chunk.data).flatten ++ exampleChunk.data) :=
  ⟨by decide, by decide,
    (C7_DumpTo_delivers_content emptySink (by decide) defaultPool exampleChunk exampleFinalized
      (by decide)).imp fun _ h => h.imp fun _ h => h.imp fun _ h => ⟨h.1, h.2.1, h.2.2.1⟩⟩

/-- C8: for every buffer holding an active chunk, `BuildBytes` returns one
array equal to the finalized chunks in order followed by the active chunk,
and its length is the value `Size()` had before the call. -/
theorem C8_BuildBytes_returns_content (p : Pool) (c : Chunk) (bs : List Chunk) :
    ∃ st', BuildBytes (p, { buf := some c, bufs := bs }) =
        .ok ((bs.map Chunk.data).flatten ++ c.data, st') ∧
      Size { buf := some c, bufs := bs } = .ok ((bs.map Chunk.data).flatten ++ c.data).length :=
  ⟨_, BuildBytes_spec p c bs, size_eq_content_length c bs⟩

/-- C9: for every writer holding an active chunk and every threshold,
`MaybeFlush` is `Flush` exactly when a sink is configured and `Size()` has
reached the threshold, and otherwise returns `(0, nil)` and changes neither
the sink nor the buffer.  With the threshold 1024 of `NewBufferWriter`, 2004
raw bytes followed by `MaybeFlush` flush 2004 bytes; 1000 raw bytes followed
by `MaybeFlush` flush 0 bytes and a following `Flush` flushes 1000. -/
theorem C9_MaybeFlush_threshold (p : Pool) (tw : tokenWriter) (c : Chunk) (bs : List Chunk)
    (hb : tw.buffer = { buf := some c, bufs := bs }) :
    Size tw.buffer = .ok tw.buffer.content.length ∧
    (tw.targetIOWriter ≠ none ∧ tw.targetBufferSize ≤ (tw.buffer.content.length : ℤ) →
      tokenWriter.MaybeFlush (p, tw) = tokenWriter.Flush (p, tw)) ∧
    (¬ (tw.targetIOWriter ≠ none ∧ tw.targetBufferSize ≤ (tw.buffer.content.length : ℤ)) →
      tokenWriter.MaybeFlush (p, tw) = .ok ((0, none), (p, tw))) ∧
    (∀ (p0 : Pool) (data : List Byte), 1024 ≤ p0.PooledSize → data.length = 2004 →
      ∃ q bw st1 st2, NewBufferWriter p0 = .ok (q, bw) ∧
        tokenWriter.RawBytes data (q, bw.tw) = .ok st1 ∧
        tokenWriter.MaybeFlush st1 = .ok ((2004, none), st2) ∧ delivered st2 = data) ∧
    (∀ (p0 : Pool) (data : List Byte), 1024 ≤ p0.PooledSize → data.length = 1000 →
      ∃ q bw st1 st2, NewBufferWriter p0 = .ok (q, bw) ∧
        tokenWriter.RawBytes data (q, bw.tw) = .ok st1 ∧
        tokenWriter.MaybeFlush st1 = .ok ((0, none), st1) ∧
        tokenWriter.Flush st1 = .ok ((1000, none), st2) ∧ delivered st2 = data) := by
  have hs : Size tw.buffer = .ok tw.buffer.content.length := by
    rw [hb]; exact size_eq_content_length c bs
  -- the state after `NewBufferWriter` and `RawBytes(data)`
  have hraw : ∀ (p0 : Pool) (data : List Byte), 1024 ≤ p0.PooledSize →
      ∃ q bw st1, NewBufferWriter p0 = .ok (q, bw) ∧
        tokenWriter.RawBytes data (q, bw.tw) = .ok st1 ∧ Streaming st1 ∧
        Ready (st1.1, st1.2.buffer) ∧ buffered st1 = data ∧ delivered st1 = [] ∧
        st1.2.targetBufferSize = 1024 := by
    intro p0 data hp0
    obtain ⟨q, bw, h1, hst, h3, _, h5, h6, _⟩ := NewBufferWriter_streaming p0 hp0
    obtain ⟨⟨w, hw, hacc⟩, _, hp⟩ := id hst
    obtain ⟨st1, a1, ar, a2, a3, _⟩ := AppendBytes_spec data (q, bw.tw.buffer) (streaming_wf hst) hp
    refine ⟨q, bw, (st1.1, { bw.tw with buffer := st1.2 }), h1, onBuffer_ok _ q bw.tw st1 a1,
      ⟨⟨w, hw, hacc⟩, Or.inr ar, by simpa [a3] using hp⟩, ar, ?_, ?_, h3⟩
    · simp only [buffered] at h5 ⊢
      rw [a2, h5]; rfl
    · simpa only [delivered] using h6
  refine ⟨hs, ?_, ?_, ?_, ?_⟩
  · intro h
    exact MaybeFlush_reached p tw c bs hb h.1 h.2
  · intro h
    apply MaybeFlush_below p tw c bs hb
    by_cases hn : tw.targetIOWriter = none
    · exact Or.inl hn
    · right
      have : ¬ tw.targetBufferSize ≤ (tw.buffer.content.length : ℤ) := fun hh => h ⟨hn, hh⟩
      omega
  · intro p0 data hp0 hlen
    obtain ⟨q, bw, st1, h1, h2, hst, hr, hbuf, hdel, hT⟩ := hraw p0 data hp0
    obtain ⟨st2, hf, hd2, _, _⟩ := Flush_streaming st1 hst hr
    obtain ⟨c1, bs1, hcb, _⟩ := hr
    obtain ⟨⟨w, hw, _⟩, _, _⟩ := hst
    have hm := MaybeFlush_reached st1.1 st1.2 c1 bs1 hcb (by simp [hw])
      (by simp only [buffered] at hbuf; rw [hbuf, hT, hlen]; decide)
    refine ⟨q, bw, st1, st2, h1, h2, ?_, ?_⟩
    · rw [show st1 = (st1.1, st1.2) from rfl, hm, hf, hbuf, hlen]
    · rw [hd2, hdel, hbuf]; rfl
  · intro p0 data hp0 hlen
    obtain ⟨q, bw, st1, h1, h2, hst, hr, hbuf, hdel, hT⟩ := hraw p0 data hp0
    obtain ⟨st2, hf, hd2, _, _⟩ := Flush_streaming st1 hst hr
    obtain ⟨c1, bs1, hcb, _⟩ := hr
    have hm := MaybeFlush_below st1.1 st1.2 c1 bs1 hcb
      (Or.inr (by simp only [buffered] at hbuf; rw [hbuf, hT, hlen]; decide))
    refine ⟨q, bw, st1, st2, h1, h2, hm, ?_, ?_⟩
    · rw [hf, hbuf, hlen]
    · rw [hd2, hdel, hbuf]; rfl

/-- C9, witness: a writer with three buffered bytes and threshold two
flushes on `MaybeFlush`. -/
theorem C9_MaybeFlush_threshold_witness :
    exampleWriter.buffer = { buf := some { id := 0, data := [1, 2, 3], cap := 1024 }, bufs := [] } ∧
    tokenWriter.MaybeFlush (defaultPool, exampleWriter) =
      tokenWriter.Flush (defaultPool, exampleWriter) :=
  ⟨rfl, (C9_MaybeFlush_threshold defaultPool exampleWriter
    { id := 0, data := [1, 2, 3], cap := 1024 } [] rfl).2.1 ⟨by decide, by decide⟩⟩

/-- C10: on a writer created over a sink that accepts all bytes, for every
session made of rounds `RawBytes(data)` then `MaybeFlush` or `Flush` whose
last round ends with `Flush`, every call returns normally with a nil error,
the counts returned by the flush calls add up to the number of bytes
appended, and the sink has received exactly the appended bytes in order.
With the threshold 1024 of `NewBufferWriter`: after 4044 bytes `MaybeFlush`
returns 4044, after 2000 more `Flush` returns 2000.  The pool is assumed to
be configured with `PooledSize ≥ 1` (1024 for `NewBufferWriter`). -/
theorem C10_session_flushes_everything (p : Pool) (hp : 1 ≤ p.PooledSize) (w : Sink)
    (hw : w.accepting) (T : ℤ) (rounds : List Round) (last : List Byte) :
    (∃ st0 res st', NewStreamingTokenWriter (some w) T p = .ok st0 ∧
      runSession (rounds ++ [{ data := last, flush := .Flush }]) st0 = .ok (res, st') ∧
      (∀ x ∈ res, x.2 = none) ∧
      (res.map Prod.fst).sum = ((rounds.map Round.data).flatten ++ last).length ∧
      delivered st' = w.received ++ ((rounds.map Round.data).flatten ++ last)) ∧
    (∀ (p0 : Pool) (d1 d2 : List Byte), 1024 ≤ p0.PooledSize → d1.length = 4044 →
      d2.length = 2000 →
      ∃ q bw st', NewBufferWriter p0 = .ok (q, bw) ∧
        runSession [{ data := d1, flush := .MaybeFlush }, { data := d2, flush := .Flush }]
          (q, bw.tw) = .ok ([(4044, none), (2000, none)], st') ∧
        delivered st' = d1 ++ d2) := by
  constructor
  · obtain ⟨st0, h0, hsink, _, _, hbuf, hr, hps⟩ := NewStreamingTokenWriter_spec w T p hp
    have hst : Streaming st0 := ⟨⟨w, hsink, hw⟩, Or.inr hr, by rw [hps]; exact hp⟩
    obtain ⟨res, st', h1, _, h3, h4, h5, h6⟩ :=
      runSession_streaming (rounds ++ [{ data := last, flush := .Flush }]) st0 hst
    have hlast : buffered st' = [] := h6 { data := last, flush := .Flush } (by simp) rfl
    have hdel : delivered st0 = w.received := by simp only [delivered, hsink]
    refine ⟨st0, res, st', h0, h1, h3, ?_, ?_⟩
    · rw [hlast, hbuf] at h5
      simpa using h5
    · rw [hlast, hbuf, hdel] at h4
      simpa using h4
  · intro p0 d1 d2 hp0 hl1 hl2
    obtain ⟨q, bw, h1, hst, hT, _, hbuf, hdel, _⟩ := NewBufferWriter_streaming p0 hp0
    obtain ⟨n1, st1, r1, s1, t1, e1, c1, _, m1, _⟩ :=
      runRound_streaming { data := d1, flush := .MaybeFlush } (q, bw.tw) hst
    have hb1 : buffered st1 = [] := m1 rfl (by simp only [hbuf, hT, hl1]; decide)
    obtain ⟨n2, st2, r2, _, _, e2, c2, f2, _, _⟩ :=
      runRound_streaming { data := d2, flush := .Flush } st1 s1
    have hb2 : buffered st2 = [] := f2 rfl
    simp only [hbuf, hb1, List.length_nil, Nat.add_zero, Nat.zero_add, hl1] at c1
    simp only [hb1, hb2, List.length_nil, Nat.add_zero, Nat.zero_add, hl2] at c2
    subst c1; subst c2
    refine ⟨q, bw, st2, h1, ?_, ?_⟩
    · simp only [runSession, r1, r2, bind, Except.bind, pure, Except.pure]
    · simp only [hb1, hb2, hbuf, hdel, List.append_nil, List.nil_append] at e1 e2
      rw [e2, e1]

/-- C10, witness: two rounds on a writer with threshold 2 over an empty
sink. -/
theorem C10_session_flushes_everything_witness :
    1 ≤ defaultPool.PooledSize ∧ emptySink.accepting ∧
    ∃ st0 res st', NewStreamingTokenWriter (some emptySink) 2 defaultPool = .ok st0 ∧
      runSession (exampleRounds ++ [{ data := [2, 3], flush := .Flush }])
        st0 = .ok (res, st') ∧
      (∀ x ∈ res, x.2 = none) ∧
      (res.map Prod.fst).sum = ((exampleRounds.map Round.data).flatten ++ [2, 3]).length ∧
      delivered st' = emptySink.received ++ ((exampleRounds.map Round.data).flatten ++ [2, 3]) :=
  ⟨by decide, by decide,
    (C10_session_flushes_everything defaultPool (by decide) emptySink (by decide) 2
      exampleRounds [2, 3]).1⟩

/-- C11 (the code departs from the claim for `Int8Str`): every typed
integer append other than `Int8Str` passes a digit budget that the decimal
text of every value of its width fits (unsigned values of 8, 16, 32 and 64
bits, signed values written `n - 2 ^ (w - 1)`); `Int8Str` passes the budget 2
where its sibling `Int8` passes 4, and the text of -128 has 4 characters: on
an active chunk of capacity 1024 holding 1021 bytes, `Int8Str(-128)` reserves
nothing and the active chunk, grown by `append`, ends with 1027 bytes. -/
theorem C11_digit_budgets :
    (∀ n : Fin (2 ^ 8), tokenWriter.Uint8 n.val = onBuffer (AppendUint n.val 3) ∧
      tokenWriter.Uint8Str n.val = quoted (AppendUint n.val 3) ∧
      (formatUint n.val).length ≤ 3) ∧
    (∀ n : Fin (2 ^ 16), tokenWriter.Uint16 n.val = onBuffer (AppendUint n.val 5) ∧
      tokenWriter.Uint16Str n.val = quoted (AppendUint n.val 5) ∧
      (formatUint n.val).length ≤ 5) ∧
    (∀ n : Fin (2 ^ 32), tokenWriter.Uint32 n.val = onBuffer (AppendUint n.val 10) ∧
      tokenWriter.Uint32Str n.val = quoted (AppendUint n.val 10) ∧
      (formatUint n.val).length ≤ 10) ∧
    (∀ n : Fin (2 ^ 64), tokenWriter.Uint n.val = onBuffer (AppendUint n.val 20) ∧
      tokenWriter.Uint64 n.val = onBuffer (AppendUint n.val 20) ∧
      tokenWriter.UintStr n.val = quoted (AppendUint n.val 20) ∧
      tokenWriter.Uint64Str n.val = quoted (AppendUint n.val 20) ∧
      tokenWriter.UintptrStr n.val = quoted (AppendUint n.val 20) ∧
      (formatUint n.val).length ≤ 20) ∧
    (∀ n : Fin (2 ^ 8),
      tokenWriter.Int8 ((n.val : ℤ) - 2 ^ 7) = onBuffer (AppendInt ((n.val : ℤ) - 2 ^ 7) 4) ∧
      (formatInt ((n.val : ℤ) - 2 ^ 7)).length ≤ 4) ∧
    (∀ n : Fin (2 ^ 16),
      tokenWriter.Int16 ((n.val : ℤ) - 2 ^ 15) = onBuffer (AppendInt ((n.val : ℤ) - 2 ^ 15) 6) ∧
      tokenWriter.Int16Str ((n.val : ℤ) - 2 ^ 15) = quoted (AppendInt ((n.val : ℤ) - 2 ^ 15) 6) ∧
      (formatInt ((n.val : ℤ) - 2 ^ 15)).length ≤ 6) ∧
    (∀ n : Fin (2 ^ 32),
      tokenWriter.Int32 ((n.val : ℤ) - 2 ^ 31) = onBuffer (AppendInt ((n.val : ℤ) - 2 ^ 31) 11) ∧
      tokenWriter.Int32Str ((n.val : ℤ) - 2 ^ 31) = quoted (AppendInt ((n.val : ℤ) - 2 ^ 31) 11) ∧
      (formatInt ((n.val : ℤ) - 2 ^ 31)).length ≤ 11) ∧
    (∀ n : Fin (2 ^ 64),
      tokenWriter.Int ((n.val : ℤ) - 2 ^ 63) = onBuffer (AppendInt ((n.val : ℤ) - 2 ^ 63) 21) ∧
      tokenWriter.Int64 ((n.val : ℤ) - 2 ^ 63) = onBuffer (AppendInt ((n.val : ℤ) - 2 ^ 63) 21) ∧
      tokenWriter.IntStr ((n.val : ℤ) - 2 ^ 63) = quoted (AppendInt ((n.val : ℤ) - 2 ^ 63) 21) ∧
      tokenWriter.Int64Str ((n.val : ℤ) - 2 ^ 63) =
        quoted (AppendInt ((n.val : ℤ) - 2 ^ 63) 21) ∧
      (formatInt ((n.val : ℤ) - 2 ^ 63)).length ≤ 21) ∧
    (tokenWriter.Int8Str (-128) = quoted (AppendInt (-128) 2) ∧
      (formatInt (-128)).length = 4 ∧
      ∃ st' c, tokenWriter.Int8Str (-128) (defaultPool, nearlyFullWriter) = .ok st' ∧
        st'.2.buffer = { buf := some c, bufs := [] } ∧ c.id = 0 ∧ c.data.length = 1027) := by
  refine ⟨fun n => ⟨rfl, rfl, uint_fits 8 3 (by decide) (by norm_num) n⟩,
    fun n => ⟨rfl, rfl, uint_fits 16 5 (by decide) (by norm_num) n⟩,
    fun n => ⟨rfl, rfl, uint_fits 32 10 (by decide) (by norm_num) n⟩,
    fun n => ⟨rfl, rfl, rfl, rfl, rfl, uint_fits 64 20 (by decide) (by norm_num) n⟩,
    fun n => ⟨rfl, int_fits 7 3 (by decide) (by norm_num) n⟩,
    fun n => ⟨rfl, rfl, int_fits 15 5 (by decide) (by norm_num) n⟩,
    fun n => ⟨rfl, rfl, int_fits 31 10 (by decide) (by norm_num) n⟩,
    fun n => ⟨rfl, rfl, rfl, rfl, ?_⟩, rfl, by decide, ?_⟩
  · have h := int_fits 63 19 (by decide) (by norm_num) n
    omega
  · exact Int8Str_overfill

/-- C12 (the code departs from the claim): when the active chunk lacks `s`
free bytes and the pool holds no idle chunk, `EnsureSpace(s)` returns normally
with a new, empty active chunk of capacity `PooledSize`, whatever `s` is, so
the active chunk has `s` free bytes exactly when `s ≤ PooledSize`.  Only the
branch taken on a buffer without an active chunk compares `s` with
`PooledSize`, and panics when it is larger. -/
theorem C12_EnsureSpace_remaining_capacity (p : Pool) (c : Chunk) (bs : List Chunk) (s : Nat)
    (hc : c.cap - c.data.length < s) (hfree : p.free = []) :
    (∃ p' c', EnsureSpace s (p, { buf := some c, bufs := bs }) =
        .ok (p', { buf := some c', bufs := bs ++ [c] }) ∧
      c'.cap - c'.data.length = p.PooledSize ∧
      (s ≤ c'.cap - c'.data.length ↔ s ≤ p.PooledSize)) ∧
    (p.PooledSize < s →
      EnsureSpace s (p, { buf := none, bufs := [] }) = .error (.requireSpace s p.PooledSize)) := by
  constructor
  · refine ⟨(getBuf p).2, (getBuf p).1, ?_, ?_, ?_⟩
    · simp only [EnsureSpace, hc, if_true]
    · simp [getBuf, hfree]
    · simp [getBuf, hfree]
  · intro hs
    have hgt : s > p.PooledSize := hs
    simp only [EnsureSpace, hgt, if_true]

/-- C12, witness: under the default configuration, after `AppendByte('"')` on
an empty buffer, `EnsureSpace(2000)` returns with an active chunk that has
1024 free bytes. -/
theorem C12_EnsureSpace_remaining_capacity_witness :
    AppendByte 34 (defaultPool, Buffer.zero) = .ok startedState ∧
    startedChunk.cap - startedChunk.data.length < 2000 ∧ startedState.1.free = [] ∧
    ∃ p' c', EnsureSpace 2000 startedState =
        .ok (p', { buf := some c', bufs := [startedChunk] }) ∧
      c'.cap - c'.data.length = 1024 ∧ ¬ (2000 ≤ c'.cap - c'.data.length) :=
  ⟨by decide, by decide, rfl,
    (C12_EnsureSpace_remaining_capacity startedState.1 startedChunk [] 2000 (by decide) rfl).1.imp
      fun _ h => h.imp fun _ h => ⟨h.1, h.2.1, fun hx => absurd (h.2.2.mp hx) (by decide)⟩⟩

/-- C13 (the code departs from the claim for a buffer of one chunk): with no
finalized chunk, `BuildBytes` releases the active chunk but the buffer keeps
it, so a second `BuildBytes` returns the same bytes and releases the chunk
again, and a following `Close` releases it a second time.  With at least one
finalized chunk, `BuildBytes` releases every chunk once, in order, and leaves
the buffer without any chunk; a following `Close` then changes nothing, and a
second `BuildBytes` dereferences the nil chunk pointer. -/
theorem C13_BuildBytes_releases_once (p : Pool) (c b : Chunk) (bs : List Chunk) :
    (BuildBytes (p, { buf := some c, bufs := [] }) =
        .ok (c.data, (putBuf p c, { buf := some c, bufs := [] })) ∧
      BuildBytes (putBuf p c, { buf := some c, bufs := [] }) =
        .ok (c.data, (putBuf (putBuf p c) c, { buf := some c, bufs := [] })) ∧
      (Close (putBuf p c, { buf := some c, bufs := [] })).1.released =
        c.id :: c.id :: p.released) ∧
    (∃ p', BuildBytes (p, { buf := some c, bufs := b :: bs }) =
        .ok (Buffer.content { buf := some c, bufs := b :: bs },
          (p', { buf := none, bufs := [] })) ∧
      p'.released = c.id :: (((b :: bs).map Chunk.id).reverse ++ p.released) ∧
      Close (p', { buf := none, bufs := [] }) = (p', { buf := none, bufs := [] }) ∧
      BuildBytes (p', { buf := none, bufs := [] }) = .error .nilDeref) := by
  have h1 : ∀ q : Pool, BuildBytes (q, { buf := some c, bufs := [] }) =
      .ok (c.data, (putBuf q c, { buf := some c, bufs := [] })) := by
    intro q
    have h := BuildBytes_spec q c []
    simpa [Buffer.content] using h
  refine ⟨⟨h1 p, h1 (putBuf p c), rfl⟩, putBuf (putBufs p (b :: bs)) c, ?_, ?_, rfl, rfl⟩
  · have h := BuildBytes_spec p c (b :: bs)
    simpa using h
  · show c.id :: (putBufs p (b :: bs)).released = _
    rw [putBufs_released]

/-- C14 (the code departs from the claim on the error path): when `DumpTo`
returns a nil error its count is the number of bytes the sink took during the
call; when it returns an error, that error is the first one the sink reported,
and the count is the one returned by the failing write alone, which leaves out
the bytes of the earlier writes.  With `PooledSize` 2, after `AppendBytes` of
three bytes, a sink that takes the first chunk and fails on the second has
received 2 bytes while `DumpTo` returns 0. -/
theorem C14_DumpTo_count_and_error (w : Sink) (st : BState) (n : Nat) (e : Option Err)
    (w' : Sink) (st' : BState) (h : DumpTo w st = .ok ((n, e), w', st')) :
    (e = none → w'.received.length = w.received.length + n) ∧
    (∀ err, e = some err → w.received.length + n ≤ w'.received.length ∧
      ∃ pre r, w.script = pre ++ r :: w'.script ∧ (∀ x ∈ pre, x.err = none) ∧
        r.err = some err) ∧
    (AppendBytes [1, 2, 3] (Init 2 defaultPool, Buffer.zero) = .ok splitState ∧
      ∃ w0, DumpTo failingSink splitState = .ok ((0, some "EIO"), w0, splitState) ∧
        w0.received = [1, 2]) := by
  obtain ⟨t1, t2⟩ := DumpTo_trace w st n e w' st' h
  refine ⟨fun he => (t1 he).1, fun err he => ⟨(t2 err he).1, (t2 err he).2.2⟩, by decide,
    _, rfl, rfl⟩

/-- C14, witness: the failing run, where the sink has received two bytes and
the count returned is 0. -/
theorem C14_DumpTo_count_and_error_witness :
    ∃ w0, DumpTo failingSink splitState = .ok ((0, some "EIO"), w0, splitState) ∧
      w0.received.length = failingSink.received.length + 2 ∧
      failingSink.received.length + 0 ≤ w0.received.length :=
  ⟨_, rfl, rfl,
    ((C14_DumpTo_count_and_error failingSink splitState 0 (some "EIO") _ splitState rfl).2.1
      "EIO" rfl).1⟩

/-- C15: when `DumpTo` returns an error, the pool and the buffer are exactly
as before the call (no chunk has been released, the finalized chunks and the
active chunk are still held), and so are they after a `Flush` that fails;
`Close` afterwards releases the finalized chunks in order and then the active
chunk, each once, leaves the buffer without any chunk, and a second `Close`
releases nothing. -/
theorem C15_failed_dump_keeps_chunks (w : Sink) (p : Pool) (b : Buffer) (n : Nat) (err : Err)
    (w' : Sink) (st' : BState) (h : DumpTo w (p, b) = .ok ((n, some err), w', st')) :
    st' = (p, b) ∧
    (∀ tw : tokenWriter, tw.buffer = b → tw.targetIOWriter = some w →
      ∃ tw', tokenWriter.Flush (p, tw) = .ok ((n, some err), (p, tw')) ∧ tw'.buffer = b) ∧
    (Close st').2 = { buf := none, bufs := [] } ∧
    (Close st').1.released =
      b.buf.toList.map Chunk.id ++ ((b.bufs.map Chunk.id).reverse ++ p.released) ∧
    Close (Close st') = Close st' := by
  have hst : st' = (p, b) := ((DumpTo_trace w (p, b) n (some err) w' st' h).2 err rfl).2.1
  subst hst
  obtain ⟨c1, c2⟩ := close_released p b
  refine ⟨rfl, ?_, c1, c2, ?_⟩
  · intro tw hb hw
    subst hb
    refine ⟨{ tw with targetIOWriter := some w' }, ?_, rfl⟩
    simp only [tokenWriter.Flush, hw, h, ok_bind, pure, Except.pure]
  · have hc : Close (p, b) = ((Close (p, b)).1, { buf := none, bufs := [] }) := by
      rw [← c1]
    rw [hc]
    exact close_empty _

/-- C15, witness: a sink that fails on its first write; the two chunks held
are released by `Close`, the finalized one first. -/
theorem C15_failed_dump_keeps_chunks_witness :
    ∃ w0, DumpTo brokenSink splitState = .ok ((1, some "EPIPE"), w0, splitState) ∧
      (Close splitState).2 = { buf := none, bufs := [] } ∧
      (Close splitState).1.released = [1, 0] :=
  ⟨_, rfl,
    (C15_failed_dump_keeps_chunks brokenSink splitState.1 splitState.2 1 "EPIPE" _ splitState
      rfl).2.2.1,
    (C15_failed_dump_keeps_chunks brokenSink splitState.1 splitState.2 1 "EPIPE" _ splitState
      rfl).2.2.2.1⟩

/-- C16: `isNilInterface` reads the second word of the interface, the data
word, and compares it with zero.  That word is zero for the nil interface and
for a non-nil interface holding a nil pointer; for both, whatever the
`MarshalEasyJSON` of the boxed type would do, `Marshal` returns the four
bytes `null` and a nil error, and `MarshalToWriter` makes the single call
`w.Write` of those four bytes and returns its result; no buffer writer is
created and the pool is untouched.  A sink that accepts its writes has then
received exactly `null` and the count returned is 4.  An interface passes for
nil exactly when it is the nil interface or its data word is zero. -/
theorem C16_nil_interface_marshals_null (m : Marshaler) (w : Sink) (p : Pool) :
    nullBytes = [110, 117, 108, 108] ∧
    (Iface.absent.words.getD 1 0 = 0 ∧ (Iface.present m (.pointer 0)).words.getD 1 0 = 0) ∧
    (isNilInterface .absent = true ∧ isNilInterface (.present m (.pointer 0)) = true) ∧
    Marshal .absent p = .ok ((some nullBytes, none), p) ∧
    Marshal (.present m (.pointer 0)) p = .ok ((some nullBytes, none), p) ∧
    MarshalToWriter .absent w p = .ok ((w.Write nullBytes).1, (w.Write nullBytes).2, p) ∧
    MarshalToWriter (.present m (.pointer 0)) w p =
      .ok ((w.Write nullBytes).1, (w.Write nullBytes).2, p) ∧
    (w.accepting → (w.Write nullBytes).1 = (4, none) ∧
      (w.Write nullBytes).2.received = w.received ++ nullBytes) ∧
    (∀ v : Iface, isNilInterface v = true ↔
      v = .absent ∨ ∃ m0 h0, v = .present m0 h0 ∧ h0.dataWord = 0) := by
  refine ⟨rfl, ⟨rfl, rfl⟩, ⟨rfl, rfl⟩, (Marshal_nil .absent w p rfl).1,
    (Marshal_nil (.present m (.pointer 0)) w p rfl).1, (Marshal_nil .absent w p rfl).2,
    (Marshal_nil (.present m (.pointer 0)) w p rfl).2, ?_, isNilInterface_iff⟩
  intro hw
  obtain ⟨h1, h2, _⟩ := write_accepting w hw nullBytes
  exact ⟨h1, h2⟩

/-- C17: on every reachable writer, `Base64Bytes(nil)` appends the bare
literal `null`, `Base64Bytes` of the empty non-nil slice appends two double
quotes, and `Base64Bytes([0xFF])` appends `"/w=="`.  The pool is assumed to be
configured with `PooledSize ≥ 1`. -/
theorem C17_Base64Bytes_nil_and_empty (st : WState) (hwf : st.2.buffer.WF)
    (hp : 1 ≤ st.1.PooledSize) :
    (∃ st', tokenWriter.Base64Bytes none st = .ok st' ∧
      buffered st' = buffered st ++ [110, 117, 108, 108]) ∧
    (∃ st', tokenWriter.Base64Bytes (some []) st = .ok st' ∧
      buffered st' = buffered st ++ [34, 34]) ∧
    (∃ st', tokenWriter.Base64Bytes (some [255]) st = .ok st' ∧
      buffered st' = buffered st ++ [34, 47, 119, 61, 61, 34]) := by
  refine ⟨?_, ?_, ?_⟩
  · obtain ⟨st', h1, a1⟩ := onBuffer_emits (AppendString_emits [110, 117, 108, 108]) st hwf hp
    exact ⟨st', h1, wappended_buffered a1⟩
  · obtain ⟨st', h1, a1⟩ := onBuffer_emits (Base64Bytes_emits []) st hwf hp
    exact ⟨st', h1, wappended_buffered a1⟩
  · obtain ⟨st', h1, a1⟩ := onBuffer_emits (Base64Bytes_emits [255]) st hwf hp
    refine ⟨st', h1, ?_⟩
    rw [wappended_buffered a1]
    congr 1

/-- C17, witness: the three calls on the example writer, which holds the
bytes 1, 2, 3. -/
theorem C17_Base64Bytes_nil_and_empty_witness :
    Buffer.WF exampleWriter.buffer ∧ 1 ≤ defaultPool.PooledSize ∧
    (∃ st', tokenWriter.Base64Bytes none (defaultPool, exampleWriter) = .ok st' ∧
      buffered st' = [1, 2, 3, 110, 117, 108, 108]) ∧
    (∃ st', tokenWriter.Base64Bytes (some []) (defaultPool, exampleWriter) = .ok st' ∧
      buffered st' = [1, 2, 3, 34, 34]) ∧
    (∃ st', tokenWriter.Base64Bytes (some [255]) (defaultPool, exampleWriter) = .ok st' ∧
      buffered st' = [1, 2, 3, 34, 47, 119, 61, 61, 34]) :=
  ⟨by decide, by decide,
    (C17_Base64Bytes_nil_and_empty (defaultPool, exampleWriter) (by decide) (by decide)).1,
    (C17_Base64Bytes_nil_and_empty (defaultPool, exampleWriter) (by decide) (by decide)).2.1,
    (C17_Base64Bytes_nil_and_empty (defaultPool, exampleWriter) (by decide) (by decide)).2.2⟩

/-- C18: `String(s)` appends `stringText`.  Validity is that of RFC 3629
(`Spec.firstSequence`, `Spec.encodeRune`, `Spec.isScalar`), stated without the
decoder of the code.  In both modes, at a scan position where the input
starts with no valid UTF-8 sequence the scan writes one `\ufffd` and goes on
with the next byte, and these are exactly the positions where the decoder of
the code fails; a string of `k` bytes none of which can start a sequence
(0x80..0xC1, 0xF5..0xFF, the continuation bytes 0x80..0xBF among them) is
written as a quote, `k` copies of `\ufffd` and a quote; a truncated sequence
gives one `\ufffd` per byte; every occurrence of the encoding of a scalar
value from U+0080 up other than U+2028 and U+2029 is copied as it is, the
encoding EF BF BD of U+FFFD included.  The pool is assumed to be configured
with `PooledSize ≥ 1`. -/
theorem C18_invalid_bytes_replaced (s : List Byte) (st : WState) (hwf : st.2.buffer.WF)
    (hp : 1 ≤ st.1.PooledSize) :
    (∃ st', tokenWriter.String s st = .ok st' ∧
      buffered st' = buffered st ++ stringText st.2.NoEscapeHTML s) ∧
    (∀ (ne : Bool) (c : Byte) (t : List Byte), Spec.firstSequence (c :: t) = none →
      escapedFrom ne 0 (c :: t) = [92, 117, 102, 102, 102, 100] ++ escapedFrom ne 0 t) ∧
    (∀ (c : Byte) (t : List Byte),
      Spec.firstSequence (c :: t) = none ↔ DecodeRuneInString (c :: t) = (RuneError, 1)) ∧
    (∀ (ne : Bool) (l : List Byte), (∀ b ∈ l, 0x80 ≤ b.val ∧ (b.val ≤ 0xC1 ∨ 0xF5 ≤ b.val)) →
      stringText ne l =
        [34] ++ ((List.replicate l.length [92, 117, 102, 102, 102, 100]).flatten ++ [34])) ∧
    (∀ ne : Bool, stringText ne [0xE2, 0x80] =
      [34, 92, 117, 102, 102, 102, 100, 92, 117, 102, 102, 102, 100, 34]) ∧
    (∀ (ne : Bool) (pre post : List Byte) (r : Nat),
      Spec.isScalar r → 0x80 ≤ r → r ≠ 0x2028 ∧ r ≠ 0x2029 →
      escapedFrom ne 0 (pre ++ Spec.encodeRune r ++ post) =
        escapedFrom ne 0 pre ++ (Spec.encodeRune r ++ escapedFrom ne 0 post)) ∧
    (∀ (ne : Bool) (pre post : List Byte),
      escapedFrom ne 0 (pre ++ [0xEF, 0xBF, 0xBD] ++ post) =
        escapedFrom ne 0 pre ++ ([0xEF, 0xBF, 0xBD] ++ escapedFrom ne 0 post)) := by
  refine ⟨?_, ?_, firstSequence_none_iff, ?_, by decide, ?_, ?_⟩
  · obtain ⟨st', h1, a1⟩ := String_spec s st hwf hp
    exact ⟨st', h1, wappended_buffered a1⟩
  · intro ne c t hn
    have hd := (firstSequence_none_iff c t).1 hn
    have hc : ¬ c.val < RuneSelf := by
      intro h
      rw [decode_ascii c t h] at hd
      simp only [Prod.mk.injEq] at hd
      have h2 : c.val < 0x80 := h
      have h3 : c.val = 0xFFFD := hd.1
      omega
    exact esc_invalid ne c t hc (by rw [hd]; exact ⟨rfl, rfl⟩)
  · intro ne l hl
    have h := esc_all_stray ne l (fun b hb => ⟨(hl b hb).1, utf8Lead_stray _ (hl b hb).2⟩)
    simp only [stringText, h]
  · intro ne pre post r hs hr hsep
    have hd := decode_encode r [] hs
    rw [List.append_nil] at hd
    exact esc_passthrough ne (Spec.encodeRune r) pre post r hd (encodeRune_length_two r hr) hsep
  · intro ne pre post
    exact esc_passthrough ne [0xEF, 0xBF, 0xBD] pre post 0xFFFD (by decide) (by decide)
      (by decide)

/-- C18, witness: a stray continuation byte, the encoding of U+FFFD and
another stray byte, written on the example writer. -/
theorem C18_invalid_bytes_replaced_witness :
    exampleWriter.buffer.WF ∧ 1 ≤ defaultPool.PooledSize ∧
    ∃ st', tokenWriter.String [0x80, 0xEF, 0xBF, 0xBD, 0xFF] (defaultPool, exampleWriter)
        = .ok st' ∧
      buffered st' = [1, 2, 3, 34, 92, 117, 102, 102, 102, 100, 0xEF, 0xBF, 0xBD,
        92, 117, 102, 102, 102, 100, 34] :=
  ⟨by decide, by decide,
    (C18_invalid_bytes_replaced [0x80, 0xEF, 0xBF, 0xBD, 0xFF] (defaultPool, exampleWriter)
      (by decide) (by decide)).1.imp fun _ h => ⟨h.1, h.2.trans (by decide)⟩⟩

/-- C19: `String(s)` appends `stringText`.  In both modes every occurrence of
E2 80 A8, the encoding of U+2028, is written as the six characters `\u2028`
and every occurrence of E2 80 A9, the encoding of U+2029, as `\u2029`, and
the text written contains neither byte sequence.  The pool is assumed to be
configured with `PooledSize ≥ 1`. -/
theorem C19_separators_always_escaped (s : List Byte) (st : WState) (hwf : st.2.buffer.WF)
    (hp : 1 ≤ st.1.PooledSize) :
    (∃ st', tokenWriter.String s st = .ok st' ∧
      buffered st' = buffered st ++ stringText st.2.NoEscapeHTML s) ∧
    (Spec.encodeRune 0x2028 = [0xE2, 0x80, 0xA8] ∧ Spec.encodeRune 0x2029 = [0xE2, 0x80, 0xA9]) ∧
    (∀ (ne : Bool) (pre post : List Byte),
      escapedFrom ne 0 (pre ++ [0xE2, 0x80, 0xA8] ++ post) =
        escapedFrom ne 0 pre ++ ([92, 117, 50, 48, 50, 56] ++ escapedFrom ne 0 post) ∧
      escapedFrom ne 0 (pre ++ [0xE2, 0x80, 0xA9] ++ post) =
        escapedFrom ne 0 pre ++ ([92, 117, 50, 48, 50, 57] ++ escapedFrom ne 0 post)) ∧
    (∀ ne : Bool, ¬ [0xE2, 0x80, 0xA8] <:+: stringText ne s ∧
      ¬ [0xE2, 0x80, 0xA9] <:+: stringText ne s) := by
  refine ⟨?_, ⟨by decide, by decide⟩, ?_, ?_⟩
  · obtain ⟨st', h1, a1⟩ := String_spec s st hwf hp
    exact ⟨st', h1, wappended_buffered a1⟩
  · intro ne pre post
    exact ⟨esc_separator_occurrence ne 0xA8 (Or.inl rfl) pre post,
      esc_separator_occurrence ne 0xA9 (Or.inr rfl) pre post⟩
  · intro ne
    exact ⟨stringText_no_raw_separator ne 0xA8 (Or.inl rfl) s,
      stringText_no_raw_separator ne 0xA9 (Or.inr rfl) s⟩

/-- C19, witness: the string `a`, U+2028, `b`, U+2029 written on the example
writer. -/
theorem C19_separators_always_escaped_witness :
    exampleWriter.buffer.WF ∧ 1 ≤ defaultPool.PooledSize ∧
    ∃ st', tokenWriter.String [97, 0xE2, 0x80, 0xA8, 98, 0xE2, 0x80, 0xA9]
        (defaultPool, exampleWriter) = .ok st' ∧
      buffered st' = [1, 2, 3, 34, 97, 92, 117, 50, 48, 50, 56, 98, 92, 117, 50, 48, 50, 57, 34] :=
  ⟨by decide, by decide,
    (C19_separators_always_escaped [97, 0xE2, 0x80, 0xA8, 98, 0xE2, 0x80, 0xA9]
      (defaultPool, exampleWriter) (by decide) (by decide)).1.imp
      fun _ h => ⟨h.1, h.2.trans (by decide)⟩⟩

/-- C20: for each of the 256 byte values `b`, `String` applied to the
one-byte string `b` returns normally and appends a quote, the text the
specification's table gives for `b` in the writer's mode, and a quote: the
two-character escapes for tab, newline, carriage return, backslash and double
quote, `\u00XX` in lowercase hexadecimal for the other bytes below 0x20 (and
for `&`, `<`, `>` with HTML escaping on), `\ufffd` from 0x80 on, and the byte
itself otherwise, 0x7F included.  The pool is assumed to be configured with
`PooledSize ≥ 1`. -/
theorem C20_one_byte_strings (b : Byte) (st : WState) (hwf : st.2.buffer.WF)
    (hp : 1 ≤ st.1.PooledSize) :
    (∃ st', tokenWriter.String [b] st = .ok st' ∧
      buffered st' = buffered st ++ ([34] ++ (Spec.oneByteText st.2.NoEscapeHTML b ++ [34]))) ∧
    (∀ ne : Bool, stringText ne [b] = [34] ++ (Spec.oneByteText ne b ++ [34])) ∧
    (∀ ne : Bool, Spec.oneByteText ne 0x7F = [0x7F] ∧
      Spec.oneByteText ne 0x1F = [92, 117, 48, 48, 49, 102] ∧
      Spec.oneByteText ne 0x0A = [92, 110] ∧
      Spec.oneByteText ne 0x80 = [92, 117, 102, 102, 102, 100]) ∧
    (Spec.oneByteText false 60 = [92, 117, 48, 48, 51, 99] ∧ Spec.oneByteText true 60 = [60]) := by
  refine ⟨?_, fun ne => stringText_one_byte ne b, by decide, by decide⟩
  obtain ⟨st', h1, a1⟩ := String_spec [b] st hwf hp
  refine ⟨st', h1, ?_⟩
  rw [wappended_buffered a1, stringText_one_byte]

/-- C20, witness: the one-byte string `<` written on the example writer,
which escapes HTML. -/
theorem C20_one_byte_strings_witness :
    exampleWriter.buffer.WF ∧ 1 ≤ defaultPool.PooledSize ∧
    ∃ st', tokenWriter.String [60] (defaultPool, exampleWriter) = .ok st' ∧
      buffered st' = [1, 2, 3, 34, 92, 117, 48, 48, 51, 99, 34] :=
  ⟨by decide, by decide,
    (C20_one_byte_strings 60 (defaultPool, exampleWriter) (by decide) (by decide)).1.imp
      fun _ h => ⟨h.1, h.2.trans (by decide)⟩⟩

/-- C21 (the code departs from the claim when more than one field was
captured): on every reachable writer `MarshalUnknowns` returns nil after
writing the member of the first entry its `range` visits, and nothing for the
other entries; its output is the `k` members of the claim exactly when
`k ≤ 1`.  For the two captured fields `"a": 1` and `"b": 2` it writes
`"a":1` where the claim has `"a":1,"b":2`.  The pool is assumed to be
configured with `PooledSize ≥ 1`. -/
theorem C21_MarshalUnknowns_first_field_only (s : UnknownFieldsProxy) (first : Bool)
    (st : WState) (hwf : st.2.buffer.WF) (hp : 1 ≤ st.1.PooledSize) :
    (∃ st', s.MarshalUnknowns first st = .ok (none, st') ∧
      buffered st' = buffered st ++
        Spec.membersText st.2.NoEscapeHTML first (s.unknownFields.take 1)) ∧
    (∀ ne : Bool, Spec.membersText ne first (s.unknownFields.take 1) =
        Spec.membersText ne first s.unknownFields ↔ s.unknownFields.length ≤ 1) ∧
    (Spec.membersText false true (exampleProxy.unknownFields.take 1) = [34, 97, 34, 58, 49] ∧
      Spec.membersText false true exampleProxy.unknownFields =
        [34, 97, 34, 58, 49, 44, 34, 98, 34, 58, 50]) := by
  refine ⟨?_, fun ne => membersText_take_one ne first s.unknownFields, by decide, by decide⟩
  obtain ⟨st', h1, h2, _⟩ := MarshalUnknowns_spec s first st hwf hp
  exact ⟨st', h1, h2⟩

/-- C21, witness: the proxy with two captured fields on the example writer:
only the first member is written. -/
theorem C21_MarshalUnknowns_first_field_only_witness :
    exampleWriter.buffer.WF ∧ 1 ≤ defaultPool.PooledSize ∧
    ∃ st', exampleProxy.MarshalUnknowns true (defaultPool, exampleWriter) = .ok (none, st') ∧
      buffered st' = [1, 2, 3, 34, 97, 34, 58, 49] :=
  ⟨by decide, by decide,
    (C21_MarshalUnknowns_first_field_only exampleProxy true (defaultPool, exampleWriter)
      (by decide) (by decide)).1.imp fun _ h => ⟨h.1, h.2.trans (by decide)⟩⟩

/-- C22: `EnsureSpace(s)` aborts exactly when the buffer has no active chunk
and `s` exceeds `PooledSize`, with the fault that names both numbers.  In
every other case it returns: without an active chunk it takes one from the
pool and starts an empty finalized sequence; with an active chunk that has
fewer than `s` free bytes it appends that chunk to the finalized sequence and
takes a new one from the pool; otherwise it changes nothing.  The chunk taken
from the pool is empty.  Sizes are natural numbers. -/
theorem C22_EnsureSpace_aborts_iff (s : Nat) (st : BState) :
    ((∃ f, EnsureSpace s st = .error f) ↔ (st.2.buf = none ∧ st.1.PooledSize < s)) ∧
    (st.2.buf = none → st.1.PooledSize < s →
      EnsureSpace s st = .error (.requireSpace s st.1.PooledSize)) ∧
    (st.2.buf = none → s ≤ st.1.PooledSize →
      EnsureSpace s st = .ok ((getBuf st.1).2, { buf := some (getBuf st.1).1, bufs := [] })) ∧
    (∀ c, st.2.buf = some c → c.cap - c.data.length < s →
      EnsureSpace s st =
        .ok ((getBuf st.1).2, { buf := some (getBuf st.1).1, bufs := st.2.bufs ++ [c] })) ∧
    (∀ c, st.2.buf = some c → s ≤ c.cap - c.data.length → EnsureSpace s st = .ok st) ∧
    (getBuf st.1).1.data = [] ∧
    EnsureSpace 1025 (defaultPool, Buffer.zero) = .error (.requireSpace 1025 1024) ∧
    EnsureSpace 1025 startedState = .ok
      ({ PooledSize := 1024, free := [], nextId := 2, released := [] },
       { buf := some { id := 1, data := [], cap := 1024 }, bufs := [startedChunk] }) := by
  obtain ⟨p, b⟩ := st
  obtain ⟨buf, bufs⟩ := b
  have e1 : buf = none → p.PooledSize < s →
      EnsureSpace s (p, { buf := buf, bufs := bufs }) = .error (.requireSpace s p.PooledSize) := by
    intro hb hs
    subst hb
    have hgt : s > p.PooledSize := hs
    simp only [EnsureSpace, hgt, if_true]
  have e2 : buf = none → s ≤ p.PooledSize → EnsureSpace s (p, { buf := buf, bufs := bufs }) =
      .ok ((getBuf p).2, { buf := some (getBuf p).1, bufs := [] }) := by
    intro hb hs
    subst hb
    have hgt : ¬ s > p.PooledSize := by omega
    simp only [EnsureSpace, hgt, if_false]
  have e3 : ∀ c, buf = some c → c.cap - c.data.length < s →
      EnsureSpace s (p, { buf := buf, bufs := bufs }) =
        .ok ((getBuf p).2, { buf := some (getBuf p).1, bufs := bufs ++ [c] }) := by
    intro c hb hs
    subst hb
    simp only [EnsureSpace, hs, if_true]
  have e4 : ∀ c, buf = some c → s ≤ c.cap - c.data.length →
      EnsureSpace s (p, { buf := buf, bufs := bufs }) = .ok (p, { buf := buf, bufs := bufs }) := by
    intro c hb hs
    subst hb
    have hlt : ¬ c.cap - c.data.length < s := by omega
    simp only [EnsureSpace, hlt, if_false]
  refine ⟨⟨?_, fun h => ⟨_, e1 h.1 h.2⟩⟩, e1, e2, e3, e4, getBuf_data p, rfl, rfl⟩
  rintro ⟨f, hf⟩
  cases hb : buf with
  | none =>
    refine ⟨rfl, ?_⟩
    by_contra hs
    rw [e2 hb (Nat.le_of_not_lt hs)] at hf
    cases hf
  | some c =>
    exfalso
    by_cases hs : c.cap - c.data.length < s
    · rw [e3 c hb hs] at hf; cases hf
    · rw [e4 c hb (by omega)] at hf; cases hf

/-- C23: when `DumpTo` returns a nil error, the finalized chunks, in order,
and then the active chunk have each been passed to `putBuf` once and are
idle in the pool: its idle list is the active chunk, then the finalized
chunks, last first, each with its capacity, in front of what was idle
before, so that the next `getBuf` hands out the chunk that was active, empty;
`PooledSize` and the allocations are unchanged, and the buffer holds no
active and no finalized chunk.  `Close` then changes neither the pool nor the
buffer, and on any buffer a second `Close` in a row changes nothing. -/
theorem C23_DumpTo_releases_everything (w : Sink) (p : Pool) (b : Buffer) (n : Nat) (w' : Sink)
    (st' : BState) (h : DumpTo w (p, b) = .ok ((n, none), w', st')) :
    (∃ c, b.buf = some c ∧
      st'.1.released = c.id :: ((b.bufs.map Chunk.id).reverse ++ p.released) ∧
      st'.1.free =
        Idle.mk c.id c.cap :: ((b.bufs.map fun x => Idle.mk x.id x.cap).reverse ++ p.free) ∧
      (getBuf st'.1).1 = Chunk.mk c.id [] c.cap ∧
      (getBuf st'.1).2.free = (b.bufs.map fun x => Idle.mk x.id x.cap).reverse ++ p.free) ∧
    st'.1.PooledSize = p.PooledSize ∧ st'.1.nextId = p.nextId ∧
    st'.2 = { buf := none, bufs := [] } ∧
    Close st' = st' ∧
    (∀ st : BState, Close (Close st) = Close st) := by
  obtain ⟨c, hb, hst⟩ := DumpTo_success w p b n w' st' h
  subst hst
  obtain ⟨f1, f2, f3⟩ := putBufs_free b.bufs p
  have hfree : (putBuf (putBufs p b.bufs) c).free =
      Idle.mk c.id c.cap :: ((b.bufs.map fun x => Idle.mk x.id x.cap).reverse ++ p.free) := by
    show Idle.mk c.id c.cap :: (putBufs p b.bufs).free = _
    rw [f1]
  refine ⟨⟨c, hb, ?_, hfree, ?_, ?_⟩, f2, f3, rfl, rfl, close_idem⟩
  · show c.id :: (putBufs p b.bufs).released = _
    rw [putBufs_released]
  · show (getBuf (putBuf (putBufs p b.bufs) c)).1 = _
    unfold getBuf
    rw [hfree]
  · show (getBuf (putBuf (putBufs p b.bufs) c)).2.free = _
    unfold getBuf
    rw [hfree]

/-- C23, witness: the buffer of two chunks dumped to an accepting sink; the
finalized chunk 0 is released first, then the active chunk 1, and both are
idle in the pool afterwards. -/
theorem C23_DumpTo_releases_everything_witness :
    ∃ w0 st0, DumpTo emptySink splitState = .ok ((3, none), w0, st0) ∧
      st0.1.released = [1, 0] ∧ st0.1.free = [Idle.mk 1 2, Idle.mk 0 2] ∧
      st0.2 = { buf := none, bufs := [] } ∧ Close st0 = st0 :=
  ⟨_, _, rfl, rfl, rfl,
    (C23_DumpTo_releases_everything emptySink splitState.1 splitState.2 3 _ _ rfl).2.2.2.1,
    (C23_DumpTo_releases_everything emptySink splitState.1 splitState.2 3 _ _ rfl).2.2.2.2.1⟩

/-- C24 (the code departs from the claim once a chunk has been released while
the buffer still holds it): over explicit backing arrays, under single
ownership (no array of a finalized, active or idle slice is the array of
another one) and on a reachable buffer, `EnsureSpace` leaves every finalized
slice with its bytes and adds to the finalized sequence nothing or the
previous active slice with its bytes, and `AppendByte`, `AppendBytes`,
`AppendString` (the body of `AppendBytes`), `AppendInt` and `AppendUint`,
whenever they return, keep the previous finalized sequence as a prefix with
the bytes of each of its slices, keep single ownership, and extend the
content read through the memory by exactly the text appended.  After
`AppendByte('a')` and `BuildBytes`, which releases the active slice and keeps
it, ownership fails: `AppendByte('b')`, `AppendByte('c')` finalize the slice
holding `ab`, take its own array back from the pool and overwrite it, so
the finalized slice reads `cb`, and `AppendByte('d')` changes the finalized
slice again, to `cd`. -/
theorem C24_finalized_slices_frame (st : arrays.State) (ho : arrays.Owned st)
    (hw : arrays.WF st) :
    (∀ s st', arrays.EnsureSpace s st = .ok st' →
      arrays.Owned st' ∧ arrays.content st' = arrays.content st ∧
      (∀ f ∈ st.2.bufs, f.bytes st'.1 = f.bytes st.1) ∧
      (st'.2.bufs = st.2.bufs ∨
        ∃ c, st.2.buf = some c ∧ st'.2.bufs = st.2.bufs ++ [c] ∧
          c.bytes st'.1 = c.bytes st.1)) ∧
    (∀ x st', arrays.AppendByte x st = .ok st' → arrays.Extends [x] st st') ∧
    (∀ data st', arrays.AppendBytes data st = .ok st' → arrays.Extends data st st') ∧
    (∀ n k st', arrays.AppendInt n k st = .ok st' → arrays.Extends (formatInt n) st st') ∧
    (∀ n k st', arrays.AppendUint n k st = .ok st' → arrays.Extends (formatUint n) st st') ∧
    (arrays.AppendByte 97 arrays.start = .ok arrays.oneByteState ∧
      arrays.BuildBytes arrays.oneByteState = .ok ([97], arrays.releasedState) ∧
      ¬ arrays.Owned arrays.releasedState ∧
      ∃ s3 s4 s5 f, arrays.AppendByte 98 arrays.releasedState = .ok s3 ∧
        arrays.AppendByte 99 s3 = .ok s4 ∧ arrays.AppendByte 100 s4 = .ok s5 ∧
        s3.2.bufs = [] ∧ s3.2.buf = some f ∧ f.bytes s3.1 = [97, 98] ∧
        s4.2.bufs = [f] ∧ f.bytes s4.1 = [99, 98] ∧
        s5.2.bufs = [f] ∧ f.bytes s5.1 = [99, 100] ∧
        arrays.content s5 = [99, 100, 99, 100]) := by
  refine ⟨fun s st' h => ?_, fun x st' h => arrays.arr_AppendByte x st st' ho hw h,
    fun data st' h => arrays.arr_AppendBytes data st st' ho hw h,
    fun n k st' h => arrays.arr_appendFormatted _ k st st' ho hw h,
    fun n k st' h => arrays.arr_appendFormatted _ k st st' ho hw h,
    rfl, rfl, by decide, _, _, _, _, rfl, rfl, rfl, rfl, rfl, rfl, rfl, rfl, rfl, rfl, rfl⟩
  obtain ⟨e1, _, e3, e4, e5⟩ := arrays.arr_ensureSpace s st st' ho hw h
  exact ⟨e1, e3, e4, e5⟩

/-- C24, witness: with single ownership, `AppendBytes` of three bytes on a
buffer holding `a` in a chunk of two bytes fills and finalizes that chunk; the
finalized slice reads `ab` and the content is `abcd`. -/
theorem C24_finalized_slices_frame_witness :
    arrays.Owned arrays.oneByteState ∧ arrays.WF arrays.oneByteState ∧
    ∃ st', arrays.AppendBytes [98, 99, 100] arrays.oneByteState = .ok st' ∧
      arrays.Extends [98, 99, 100] arrays.oneByteState st' ∧
      st'.2.bufs.map (fun f => f.bytes st'.1) = [[97, 98]] ∧
      arrays.content st' = [97, 98, 99, 100] :=
  ⟨by decide, by decide, _, rfl,
    (C24_finalized_slices_frame arrays.oneByteState (by decide) (by decide)).2.2.1
      [98, 99, 100] _ rfl, rfl, rfl⟩

/-- C25 (the code departs from the claim for `NewBufferWriter`): with a
configuration `1 ≤ PooledSize < 1024` installed by `Init`,
`NewStreamingTokenWriter` returns, but `NewBufferWriter` asks for 1024 bytes on
its empty buffer and aborts in `EnsureSpace`, and so do `Marshal` and
`MarshalToWriter` of every value that does not pass for nil; from
`PooledSize = 1024` on all of them return. -/
theorem C25_entry_points_and_pool_size (cfg : Nat) (h1 : 1 ≤ cfg) (h2 : cfg < 1024) (p : Pool)
    (v : Iface) (hv : isNilInterface v = false) (w : Sink) (dest : Option Sink) (T : ℤ) :
    (∃ st, NewStreamingTokenWriter dest T (Init cfg p) = .ok st) ∧
    NewBufferWriter (Init cfg p) = .error (.requireSpace 1024 cfg) ∧
    Marshal v (Init cfg p) = .error (.requireSpace 1024 cfg) ∧
    MarshalToWriter v w (Init cfg p) = .error (.requireSpace 1024 cfg) ∧
    (∀ big : Nat, 1024 ≤ big →
      (∃ r, NewBufferWriter (Init big p) = .ok r) ∧
      (∃ r, Marshal v (Init big p) = .ok r) ∧
      (∃ r, MarshalToWriter v w (Init big p) = .ok r)) := by
  have hn := NewBufferWriter_small (Init cfg p) h2
  obtain ⟨s1, s2⟩ := Marshal_small v w (Init cfg p) hv h2
  refine ⟨NewStreamingTokenWriter_ok dest T (Init cfg p) h1, hn, s1, s2, ?_⟩
  intro big hb
  obtain ⟨q, bw, hq, _⟩ := NewBufferWriter_spec (Init big p) hb
  exact ⟨⟨_, hq⟩, Marshal_returns v w (Init big p) hv hb⟩

/-- C25, witness: `Init(PoolConfig{PooledSize: 512})`, then `Marshal` of the
example value. -/
theorem C25_entry_points_and_pool_size_witness :
    1 ≤ 512 ∧ 512 < 1024 ∧ isNilInterface (.present exampleMarshaler (.indirect 0)) = false ∧
    NewBufferWriter (Init 512 defaultPool) = .error (.requireSpace 1024 512) ∧
    Marshal (.present exampleMarshaler (.indirect 0)) (Init 512 defaultPool) =
      .error (.requireSpace 1024 512) :=
  ⟨by decide, by decide, rfl,
    (C25_entry_points_and_pool_size 512 (by decide) (by decide) defaultPool
      (.present exampleMarshaler (.indirect 0)) rfl emptySink none 0).2.1,
    (C25_entry_points_and_pool_size 512 (by decide) (by decide) defaultPool
      (.present exampleMarshaler (.indirect 0)) rfl emptySink none 0).2.2.1⟩

/-- C26: on an empty buffer or one with an active chunk, with `PooledSize ≥ 1`
and every idle chunk of the pool of capacity at least 1, each iteration of the
slow loop on a non-empty input copies at least one byte and goes on with the
rest; the loop therefore ends within `len(data)` iterations (`len(data) + 1`
evaluations of its condition), having appended `data`; the chunks it adds to
the finalized sequence are at most `len(data)` and each is full.
`appendStringSlow` is the same loop. -/
theorem C26_slow_loop_terminates (data : List Byte) (st : BState)
    (hst : st.2 = { buf := none, bufs := [] } ∨ Ready st) (hp : 1 ≤ st.1.PooledSize)
    (hfree : ∀ i ∈ st.1.free, 1 ≤ i.cap) :
    (data ≠ [] → ∀ fuel, ∃ sz st2, 1 ≤ sz ∧ sz ≤ data.length ∧
      appendBytesSlow (fuel + 1) data st = appendBytesSlow fuel (data.drop sz) st2) ∧
    (∃ st' added, appendBytesSlow (data.length + 1) data st = .ok st' ∧
      appendStringSlow (data.length + 1) data st = .ok st' ∧
      st'.2.bufs = st.2.bufs ++ added ∧ (∀ x ∈ added, x.data.length = x.cap) ∧
      added.length ≤ data.length ∧ st'.2.content = st.2.content ++ data) := by
  constructor
  · intro hd fuel
    obtain ⟨sz, st2, _, h1, h2, h3, _⟩ := appendBytesSlow_step fuel data st hst hp hfree hd
    exact ⟨sz, st2, h1, h2, h3⟩
  · obtain ⟨st', added, h1, h2, h3, h4, h5⟩ :=
      appendBytesSlow_full (data.length + 1) data st hst hp hfree (le_refl _)
    exact ⟨st', added, h1, by rw [appendStringSlow_eq]; exact h1, h2, h3, h4, h5⟩

/-- C26, witness: three bytes appended to an empty buffer with `PooledSize`
2: the loop ends within its fuel and the one chunk it finalizes is full. -/
theorem C26_slow_loop_terminates_witness :
    1 ≤ (Init 2 defaultPool).PooledSize ∧ (∀ i ∈ (Init 2 defaultPool).free, 1 ≤ i.cap) ∧
    ∃ st' added, appendBytesSlow 4 [1, 2, 3] (Init 2 defaultPool, Buffer.zero) = .ok st' ∧
      st' = splitState ∧ st'.2.bufs = added ∧ ∀ x ∈ added, x.data.length = x.cap :=
  ⟨by decide, by decide,
    (C26_slow_loop_terminates [1, 2, 3] (Init 2 defaultPool, Buffer.zero) (Or.inl rfl)
      (by decide) (by decide)).2.imp fun _ h => h.imp fun _ h =>
        ⟨h.1, Except.ok.inj (h.1.symm.trans (by decide)), h.2.2.1, h.2.2.2.1⟩⟩

end Easyjson
